import Mathlib

/-!
# format_detector: frame-difference analysis engine

A shallow embedding of the difference kernels (`loss_funcs_avx2.c`), the delta
engine (`format_detector.c`), the interlace detector (`interlace_detector.c`),
the telecine detector (`telecine_detector.c`), and `min_index`, `clamp` and the
processor capability probe (`pattern_detector_utils.c`), followed by the
properties proved about them.

Conventions of the embedding
* a byte buffer is seen from its base pointer as a map from `int` offsets to
  bytes; pointer arithmetic `p + k` is `ptr_add p k`;
* a C `int` accumulator is an `Int` reduced by `wrap32` after every addition
  (two's complement wrap-around), index and size arithmetic on values bounded
  by `MAX_WIDTH`/`MAX_HEIGHT` is exact;
* a SIMD register is the sequence of its bytes, least significant first;
* `float` and `double` share one carrier `F` whose operations are the
  parameter `FloatOps`, so the integer-level results hold for every
  floating-point semantics; `ieee` is the instance used where the outcome of
  comparisons and divisions matters: IEEE-754 special values (NaN, the
  infinities, division by zero) with exact arithmetic on finite values;
  `rounded rnd` is the instance in which every result is rounded by `rnd`, and
  `round53` is the rounding of `double` (53-bit significand, ties to even);
* loops are folds over the range of their counter; the two loops whose exit
  depends on the data they update (`do ... while` and the sliding loop of
  `detect_interlace`) are unrolled up to a bound that always suffices;
* timing, logging of run times and file handling are left out.
-/

namespace FormatDetector

/-! ## Machine integers and buffers -/

/-- One `unsigned char`. -/
abbrev uchar := Fin 256

/-- A byte buffer seen from a base pointer: offset to byte. -/
abbrev Buf := Int → uchar

/-- Pointer arithmetic `p + off`. -/
def ptr_add (p : Buf) (off : Int) : Buf := fun k => p (off + k)

/-- The pixel `p[k]` promoted to `int`. -/
def px (p : Buf) (k : Int) : Int := ((p k).val : Int)

/-- Reduction of a mathematical integer to a 32-bit two's complement `int`. -/
def wrap32 (x : Int) : Int := (x + 2147483648) % 4294967296 - 2147483648

/-- The sum `f 0 + f 1 + ... + f (n-1)`. -/
def sumTo : Nat → (Nat → Int) → Int
  | 0, _ => 0
  | n + 1, f => sumTo n f + f n

/-! ## AVX2 registers and intrinsics -/

/-- A 256-bit register as its 32 bytes, least significant first. -/
abbrev m256i := Nat → Nat

/-- A 128-bit register as its 16 bytes, least significant first. -/
abbrev m128i := Nat → Nat

/-- The 16-bit lane `k` of a register, unsigned. -/
def epi16 (v : m256i) (k : Nat) : Nat := v (2 * k) + 256 * v (2 * k + 1)

/-- The 32-bit lane `k` of a register, unsigned. -/
def epi32 (v : m256i) (k : Nat) : Nat :=
  v (4 * k) + 256 * v (4 * k + 1) + 65536 * v (4 * k + 2) + 16777216 * v (4 * k + 3)

/-- The 64-bit lane `k` of a register, unsigned. -/
def epi64 (v : m256i) (k : Nat) : Nat :=
  v (8 * k) + 256 * v (8 * k + 1) + 256 ^ 2 * v (8 * k + 2) + 256 ^ 3 * v (8 * k + 3)
    + 256 ^ 4 * v (8 * k + 4) + 256 ^ 5 * v (8 * k + 5) + 256 ^ 6 * v (8 * k + 6)
    + 256 ^ 7 * v (8 * k + 7)

/-- The `nbytes`-byte register whose `w`-byte lanes are `f 0, f 1, ...` (each reduced to `w` bytes). -/
def of_lanes (nbytes w : Nat) (f : Nat → Nat) : Nat → Nat :=
  fun b => if b < nbytes then (f (b / w) / 256 ^ (b % w)) % 256 else 0

/-- Signed reading of a 16-bit lane. -/
def toS16 (x : Nat) : Int := if x < 32768 then (x : Int) else (x : Int) - 65536

/-- Signed reading of a 32-bit lane. -/
def toS32 (x : Nat) : Int := if x < 2147483648 then (x : Int) else (x : Int) - 4294967296

/-- Two's complement encoding of a signed 64-bit value. -/
def ofS64 (x : Int) : Nat := (x % 18446744073709551616).toNat

def _mm256_setzero_si256 : m256i := fun _ => 0

/-- Lanes given in memory order: `e0` is the lowest 64-bit lane. -/
def _mm256_setr_epi64x (e0 e1 e2 e3 : Int) : m256i :=
  of_lanes 32 8 (fun k => ofS64 (if k = 0 then e0 else if k = 1 then e1 else if k = 2 then e2 else e3))

/-- Lanes given high first: `e0` is the lowest 64-bit lane. -/
def _mm_set_epi64x (e1 e0 : Int) : m128i :=
  of_lanes 16 8 (fun k => ofS64 (if k = 0 then e0 else e1))

/-- A 64-bit lane is loaded from memory when the top bit of its mask lane is set, and is zero otherwise. -/
def _mm256_maskload_epi64 (mem : Buf) (mask : m256i) : m256i :=
  fun b => if b < 32 ∧ 128 ≤ mask (8 * (b / 8) + 7) then (mem (b : Int)).val else 0

def _mm_maskload_epi64 (mem : Buf) (mask : m128i) : m128i :=
  fun b => if b < 16 ∧ 128 ≤ mask (8 * (b / 8) + 7) then (mem (b : Int)).val else 0

/-- Zero-extends the 16 bytes of `a` to sixteen 16-bit lanes. -/
def _mm256_cvtepu8_epi16 (a : m128i) : m256i := of_lanes 32 2 (fun k => a k)

/-- Interleaves the low 8 bytes of each 128-bit half of `a` and `b`. -/
def _mm256_unpacklo_epi8 (a b : m256i) : m256i :=
  fun i => if i < 32 then
    (if i % 2 = 0 then a (16 * (i / 16) + i % 16 / 2) else b (16 * (i / 16) + i % 16 / 2))
  else 0

/-- Interleaves the high 8 bytes of each 128-bit half of `a` and `b`. -/
def _mm256_unpackhi_epi8 (a b : m256i) : m256i :=
  fun i => if i < 32 then
    (if i % 2 = 0 then a (16 * (i / 16) + 8 + i % 16 / 2) else b (16 * (i / 16) + 8 + i % 16 / 2))
  else 0

def _mm256_sub_epi16 (a b : m256i) : m256i :=
  of_lanes 32 2 (fun k => (epi16 a k + 65536 - epi16 b k) % 65536)

/-- Signed 16-bit products, adjacent pairs added into 32-bit lanes. -/
def _mm256_madd_epi16 (a b : m256i) : m256i :=
  of_lanes 32 4 (fun k =>
    ((toS16 (epi16 a (2 * k)) * toS16 (epi16 b (2 * k))
      + toS16 (epi16 a (2 * k + 1)) * toS16 (epi16 b (2 * k + 1))) % 4294967296).toNat)

def _mm256_add_epi32 (a b : m256i) : m256i :=
  of_lanes 32 4 (fun k => (epi32 a k + epi32 b k) % 4294967296)

/-- Horizontal add within each 128-bit half: lanes 0,1 from `a`, lanes 2,3 from `b`. -/
def _mm256_hadd_epi32 (a b : m256i) : m256i :=
  of_lanes 32 4 (fun k =>
    let src := if k % 4 < 2 then a else b
    let idx := 4 * (k / 4) + 2 * (k % 2)
    (epi32 src idx + epi32 src (idx + 1)) % 4294967296)

/-- The store to `int result[8]`: element `k` is the signed 32-bit lane `k`. -/
def _mm256_storeu_si256 (v : m256i) : Nat → Int := fun k => toS32 (epi32 v k)

/-! ## loss_funcs_avx2.c -/

/-- Sum of squared differences of an nx8 window; `result[0]` is returned. -/
def ssd_nx8_u8_avx2_intrin (p q : Buf) (pitch n : Int) : Int :=
  let zeros := _mm256_setzero_si256
  let mask := _mm_set_epi64x 4 (-13)
  let ssd := (List.range n.toNat).foldl (fun ssd (i : Nat) =>
    let vp := _mm256_cvtepu8_epi16 (_mm_maskload_epi64 (ptr_add p (i * pitch)) mask)
    let vq := _mm256_cvtepu8_epi16 (_mm_maskload_epi64 (ptr_add q (i * pitch)) mask)
    let va := _mm256_sub_epi16 vp vq
    _mm256_add_epi32 ssd (_mm256_madd_epi16 va va)) _mm256_setzero_si256
  let ssd := _mm256_hadd_epi32 (_mm256_hadd_epi32 ssd zeros) zeros
  _mm256_storeu_si256 ssd 0

/-- Sum of squared differences of an nx16 window; `result[0]` is returned. -/
def ssd_nx16_u8_avx2_intrin (p q : Buf) (pitch n : Int) : Int :=
  let zeros := _mm256_setzero_si256
  let mask := _mm256_setr_epi64x (-13) (-12) 8 3
  let ssd := (List.range n.toNat).foldl (fun ssd (i : Nat) =>
    let a := _mm256_maskload_epi64 (ptr_add p (i * pitch)) mask
    let b := _mm256_maskload_epi64 (ptr_add q (i * pitch)) mask
    let vp := _mm256_unpacklo_epi8 a zeros
    let vq := _mm256_unpacklo_epi8 b zeros
    let va := _mm256_sub_epi16 vp vq
    let vp1 := _mm256_unpackhi_epi8 a zeros
    let vq1 := _mm256_unpackhi_epi8 b zeros
    let va1 := _mm256_sub_epi16 vp1 vq1
    _mm256_add_epi32 ssd
      (_mm256_add_epi32 (_mm256_madd_epi16 va va) (_mm256_madd_epi16 va1 va1)))
    _mm256_setzero_si256
  let ssd := _mm256_hadd_epi32 (_mm256_hadd_epi32 ssd zeros) zeros
  _mm256_storeu_si256 ssd 0

/-- The sum over `i < n` and `k < W` of `(p[i*pitch+k] - q[i*pitch+k])^2`. -/
def ssd_sum (W : Nat) (p q : Buf) (pitch : Int) (n : Nat) : Int :=
  sumTo n (fun i => sumTo W (fun k => (px p (i * pitch + k) - px q (i * pitch + k)) ^ 2))

/-- The squared difference `(p[off+t] - q[off+t])^2`. -/
def sqd (p q : Buf) (off : Int) (t : Nat) : Int := (px p (off + t) - px q (off + t)) ^ 2

/-- The register added to `ssd` by one iteration of `ssd_nx16_u8_avx2_intrin`. -/
def term16 (p q : Buf) (off : Int) : m256i :=
  let zeros := _mm256_setzero_si256
  let mask := _mm256_setr_epi64x (-13) (-12) 8 3
  let a := _mm256_maskload_epi64 (ptr_add p off) mask
  let b := _mm256_maskload_epi64 (ptr_add q off) mask
  let va := _mm256_sub_epi16 (_mm256_unpacklo_epi8 a zeros) (_mm256_unpacklo_epi8 b zeros)
  let va1 := _mm256_sub_epi16 (_mm256_unpackhi_epi8 a zeros) (_mm256_unpackhi_epi8 b zeros)
  _mm256_add_epi32 (_mm256_madd_epi16 va va) (_mm256_madd_epi16 va1 va1)

/-- The register added to `ssd` by one iteration of `ssd_nx8_u8_avx2_intrin`. -/
def term8 (p q : Buf) (off : Int) : m256i :=
  let mask := _mm_set_epi64x 4 (-13)
  let vp := _mm256_cvtepu8_epi16 (_mm_maskload_epi64 (ptr_add p off) mask)
  let vq := _mm256_cvtepu8_epi16 (_mm_maskload_epi64 (ptr_add q off) mask)
  let va := _mm256_sub_epi16 vp vq
  _mm256_madd_epi16 va va

/-- The absolute difference of two unsigned bytes. -/
def abs_diff_u8 (x y : Nat) : Nat := if x < y then y - x else x - y

/-- For each 64-bit lane, the sum of the absolute differences of its 8 unsigned bytes, stored in
the low 16 bits of the lane; the other bits of the lane are zero. -/
def _mm256_sad_epu8 (a b : m256i) : m256i :=
  of_lanes 32 8 (fun k =>
    abs_diff_u8 (a (8 * k)) (b (8 * k)) + abs_diff_u8 (a (8 * k + 1)) (b (8 * k + 1))
      + abs_diff_u8 (a (8 * k + 2)) (b (8 * k + 2)) + abs_diff_u8 (a (8 * k + 3)) (b (8 * k + 3))
      + abs_diff_u8 (a (8 * k + 4)) (b (8 * k + 4)) + abs_diff_u8 (a (8 * k + 5)) (b (8 * k + 5))
      + abs_diff_u8 (a (8 * k + 6)) (b (8 * k + 6)) + abs_diff_u8 (a (8 * k + 7)) (b (8 * k + 7)))

/-- Sum of absolute differences of an nx8 window; `result[0]` is returned. -/
def sad_nx8_u8_avx2_intrin (p q : Buf) (pitch n : Int) : Int :=
  let mask := _mm256_setr_epi64x (-13) 4 8 3
  let sad := (List.range n.toNat).foldl (fun sad (i : Nat) =>
    let vp := _mm256_maskload_epi64 (ptr_add p (i * pitch)) mask
    let vq := _mm256_maskload_epi64 (ptr_add q (i * pitch)) mask
    _mm256_add_epi32 sad (_mm256_sad_epu8 vp vq)) _mm256_setzero_si256
  _mm256_storeu_si256 sad 0

/-- Sum of absolute differences of an nx16 window; `result[0]` is returned. -/
def sad_nx16_u8_avx2_intrin (p q : Buf) (pitch n : Int) : Int :=
  let mask := _mm256_setr_epi64x (-13) (-12) 8 3
  let zeros := _mm256_setzero_si256
  let sad := (List.range n.toNat).foldl (fun sad (i : Nat) =>
    let vp := _mm256_maskload_epi64 (ptr_add p (i * pitch)) mask
    let vq := _mm256_maskload_epi64 (ptr_add q (i * pitch)) mask
    _mm256_add_epi32 sad (_mm256_sad_epu8 vp vq)) _mm256_setzero_si256
  let sad := _mm256_hadd_epi32 (_mm256_hadd_epi32 sad zeros) zeros
  _mm256_storeu_si256 sad 0

/-- The sum over `i < n` and `k < W` of `|p[i*pitch+k] - q[i*pitch+k]|`. -/
def sad_sum (W : Nat) (p q : Buf) (pitch : Int) (n : Nat) : Int :=
  sumTo n (fun i => sumTo W (fun k => |px p (i * pitch + k) - px q (i * pitch + k)|))

/-- The absolute difference `|p[off+t] - q[off+t]|`. -/
def abd (p q : Buf) (off : Int) (t : Nat) : Int := |px p (off + t) - px q (off + t)|

/-- The register added to `sad` by one iteration of `sad_nx8_u8_avx2_intrin`. -/
def sad_term8 (p q : Buf) (off : Int) : m256i :=
  let mask := _mm256_setr_epi64x (-13) 4 8 3
  _mm256_sad_epu8 (_mm256_maskload_epi64 (ptr_add p off) mask)
    (_mm256_maskload_epi64 (ptr_add q off) mask)

/-- The register added to `sad` by one iteration of `sad_nx16_u8_avx2_intrin`. -/
def sad_term16 (p q : Buf) (off : Int) : m256i :=
  let mask := _mm256_setr_epi64x (-13) (-12) 8 3
  _mm256_sad_epu8 (_mm256_maskload_epi64 (ptr_add p off) mask)
    (_mm256_maskload_epi64 (ptr_add q off) mask)

/-! ## Floating point -/

/-- The `float`/`double` operations the program uses. `toInt` is the cast `(int) x`, undefined
(`none`) when `x` is not a number or is out of the range of `int`. -/
structure FloatOps (F : Type) where
  ofInt : Int → F
  lit : ℚ → F
  add : F → F → F
  sub : F → F → F
  mul : F → F → F
  div : F → F → F
  lt : F → F → Bool
  gt : F → F → Bool
  ge : F → F → Bool
  floor : F → F
  toInt : F → Option Int

/-- Floating-point values with the IEEE-754 special values. Finite values are rationals: exact
in the instance `ieee`, rounded after every operation in the instance `rounded`; the zero is
the positive zero. -/
inductive Fp where
  | fin (q : ℚ)
  | pinf
  | ninf
  | nan
  deriving DecidableEq

namespace Fp

def add : Fp → Fp → Fp
  | nan, _ => nan
  | _, nan => nan
  | fin a, fin b => fin (a + b)
  | fin _, pinf => pinf
  | fin _, ninf => ninf
  | pinf, ninf => nan
  | pinf, _ => pinf
  | ninf, pinf => nan
  | ninf, _ => ninf

def neg : Fp → Fp
  | fin a => fin (-a)
  | pinf => ninf
  | ninf => pinf
  | nan => nan

def sub (x y : Fp) : Fp := add x (neg y)

def mul : Fp → Fp → Fp
  | nan, _ => nan
  | _, nan => nan
  | fin a, fin b => fin (a * b)
  | fin a, pinf => if a = 0 then nan else if 0 < a then pinf else ninf
  | fin a, ninf => if a = 0 then nan else if 0 < a then ninf else pinf
  | pinf, fin b => if b = 0 then nan else if 0 < b then pinf else ninf
  | ninf, fin b => if b = 0 then nan else if 0 < b then ninf else pinf
  | pinf, pinf => pinf
  | pinf, ninf => ninf
  | ninf, pinf => ninf
  | ninf, ninf => pinf

/-- Division; a finite non-zero value divided by zero is an infinity and `0 / 0` is NaN. -/
def div : Fp → Fp → Fp
  | nan, _ => nan
  | _, nan => nan
  | fin a, fin b =>
    if b = 0 then (if a = 0 then nan else if 0 < a then pinf else ninf) else fin (a / b)
  | fin _, pinf => fin 0
  | fin _, ninf => fin 0
  | pinf, fin b => if 0 ≤ b then pinf else ninf
  | ninf, fin b => if 0 ≤ b then ninf else pinf
  | pinf, pinf => nan
  | pinf, ninf => nan
  | ninf, pinf => nan
  | ninf, ninf => nan

/-- The comparison `x < y`; false when either side is NaN. -/
def lt : Fp → Fp → Bool
  | nan, _ => false
  | _, nan => false
  | fin a, fin b => decide (a < b)
  | fin _, pinf => true
  | fin _, ninf => false
  | pinf, _ => false
  | ninf, ninf => false
  | ninf, _ => true

def gt (x y : Fp) : Bool := lt y x

/-- The comparison `x >= y`; false when either side is NaN. -/
def ge : Fp → Fp → Bool
  | nan, _ => false
  | _, nan => false
  | fin a, fin b => decide (b ≤ a)
  | fin _, pinf => false
  | fin _, ninf => true
  | pinf, _ => true
  | ninf, ninf => true
  | ninf, _ => false

def floor : Fp → Fp
  | fin a => fin (⌊a⌋ : Int)
  | x => x

/-- The cast `(int) x`: truncation toward zero, undefined out of range and on non-numbers. -/
def toInt : Fp → Option Int
  | fin a =>
    if -2147483649 < a ∧ a < 2147483648 then some (if 0 ≤ a then ⌊a⌋ else ⌈a⌉) else none
  | _ => none

end Fp

/-- The instance of `FloatOps` on `Fp` with exact arithmetic on numbers. -/
def ieee : FloatOps Fp where
  ofInt := fun i => Fp.fin i
  lit := fun q => Fp.fin q
  add := Fp.add
  sub := Fp.sub
  mul := Fp.mul
  div := Fp.div
  lt := Fp.lt
  gt := Fp.gt
  ge := Fp.ge
  floor := Fp.floor
  toInt := Fp.toInt

/-! ### Rounding -/

/-- The position of the top bit of `n >= 1`: the `k` with `2^k <= n < 2^(k+1)`, found by
halving at most `fuel` times. -/
def log2_fuel : Nat → Nat → Nat
  | 0, _ => 0
  | fuel + 1, n => if 2 ≤ n then log2_fuel fuel (n / 2) + 1 else 0

/-- The binary exponent of a non-zero rational: the `e` with `2^e <= |q| < 2^(e+1)`. -/
def floor_log2 (q : ℚ) : Int :=
  let e0 : Int := (log2_fuel q.num.natAbs q.num.natAbs : Int) - (log2_fuel q.den q.den : Int)
  if (q.den : Int) * 2 ^ e0.toNat ≤ (q.num.natAbs : Int) * 2 ^ (-e0).toNat then e0 else e0 - 1

/-- Rounding to the nearest number with a significand of 53 bits, ties to even, as `double`
arithmetic rounds every result; the exponent range is not bounded. -/
def round53 (q : ℚ) : ℚ :=
  if q = 0 then 0 else
    let e := floor_log2 q
    let a := (52 - e).toNat
    let b := (e - 52).toNat
    let N : Int := q.num * 2 ^ a
    let D : Int := (q.den : Int) * 2 ^ b
    let f := N / D
    let r := N % D
    let m := if 2 * r < D then f else if D < 2 * r then f + 1 else if f % 2 = 0 then f else f + 1
    ((m * 2 ^ b : Int) : ℚ) / ((2 ^ a : Nat) : ℚ)

/-- A number rounded by `rnd`; the infinities and NaN are kept. -/
def Fp.round (rnd : ℚ → ℚ) : Fp → Fp
  | Fp.fin q => Fp.fin (rnd q)
  | x => x

/-- The instance of `FloatOps` on `Fp` in which every conversion, literal and arithmetic result
is rounded by `rnd`, as the C `double` operations round; comparisons, `floor` and the cast to
`int` are exact. The exponent range is not bounded: no finite result overflows to an infinity. -/
def rounded (rnd : ℚ → ℚ) : FloatOps Fp where
  ofInt := fun i => Fp.fin (rnd i)
  lit := fun q => Fp.fin (rnd q)
  add := fun x y => Fp.round rnd (Fp.add x y)
  sub := fun x y => Fp.round rnd (Fp.sub x y)
  mul := fun x y => Fp.round rnd (Fp.mul x y)
  div := fun x y => Fp.round rnd (Fp.div x y)
  lt := Fp.lt
  gt := Fp.gt
  ge := Fp.ge
  floor := Fp.floor
  toInt := Fp.toInt

/-! ## format_detector.h, format_detector.c -/

def MAX_WIDTH : Int := 8192
def MAX_HEIGHT : Int := 8192
def WINSIZE_HEIGHT : Nat := 20
def WINSIZE_WIDTH : Nat := 10
def BINS : Nat := 100

/-- Video resolution. -/
structure res_t where
  width : Int
  height : Int

/-- What `calculate_frame_delta` prints (`dd`, `dd_avx`) and stores (`delta`). -/
structure FrameDelta (F : Type) where
  dd : Int
  dd_avx : Int
  delta : F

/-- What `calculate_field_delta` prints and stores. -/
structure FieldDelta (F : Type) where
  dd_even : Int
  dd_odd : Int
  dd_even_avx : Int
  dd_odd_avx : Int
  delta_even : F
  delta_odd : F

/-- The pair accumulated by the scalar loop is `(dd_even, dd_odd)`, the pair accumulated by the
AVX2 loop is `(dd_even_avx, dd_odd_avx)`. -/
def calculate_field_delta {F : Type} (fp : FloatOps F) (frame : Buf) (res : res_t) :
    FieldDelta F :=
  let pitch : Int := 16
  let n : Int := Int.tdiv res.width pitch
  let dd := (List.range (Int.tdiv res.height 2 - 1).toNat).foldl
    (fun (dd : Int × Int) (i : Nat) =>
      (List.range res.width.toNat).foldl (fun (dd : Int × Int) (j : Nat) =>
        let d_even := px frame (2 * i * res.width + j) - px frame (2 * (i + 1) * res.width + j)
        let dd_even := wrap32 (dd.1 + d_even * d_even)
        let d_odd := px frame ((2 * i + 1) * res.width + j) - px frame ((2 * i + 3) * res.width + j)
        let dd_odd := wrap32 (dd.2 + d_odd * d_odd)
        (dd_even, dd_odd)) dd) (0, 0)
  let dd_avx := (List.range (Int.tdiv res.height 2 - 1).toNat).foldl
    (fun (dd : Int × Int) (i : Nat) =>
      (wrap32 (dd.1 + ssd_nx16_u8_avx2_intrin (ptr_add frame (2 * i * res.width))
          (ptr_add frame (2 * (i + 1) * res.width)) pitch n),
       wrap32 (dd.2 + ssd_nx16_u8_avx2_intrin (ptr_add frame ((2 * i + 1) * res.width))
          (ptr_add frame ((2 * i + 3) * res.width)) pitch n))) (0, 0)
  { dd_even := dd.1, dd_odd := dd.2, dd_even_avx := dd_avx.1, dd_odd_avx := dd_avx.2
    delta_even := fp.div (fp.ofInt dd.1) (fp.ofInt ((Int.tdiv res.height 2 - 1) * res.width))
    delta_odd := fp.div (fp.ofInt dd.2) (fp.ofInt ((Int.tdiv res.height 2 - 1) * res.width)) }

/-- The scalar loop accumulates `dd`, the AVX2 loop `dd_avx`; `delta` is computed from `dd`. -/
def calculate_frame_delta {F : Type} (fp : FloatOps F) (frame : Buf) (res : res_t) :
    FrameDelta F :=
  let pitch : Int := 16
  let n : Int := Int.tdiv res.width pitch
  let dd := (List.range (res.height - 1).toNat).foldl (fun (dd : Int) (i : Nat) =>
      (List.range res.width.toNat).foldl (fun (dd : Int) (j : Nat) =>
        let d := px frame (i * res.width + j) - px frame ((i + 1) * res.width + j)
        wrap32 (dd + d * d)) dd) 0
  let dd_avx := (List.range (res.height - 1).toNat).foldl (fun (dd_avx : Int) (i : Nat) =>
      wrap32 (dd_avx + ssd_nx16_u8_avx2_intrin (ptr_add frame (i * res.width))
        (ptr_add frame ((i + 1) * res.width)) pitch n)) 0
  { dd := dd, dd_avx := dd_avx
    delta := fp.div (fp.ofInt dd) (fp.ofInt ((res.height - 1) * res.width)) }

/-- Returns `(delta, delta_even, delta_odd)`. -/
def calculate_deltas {F : Type} (fp : FloatOps F) (frame : Buf) (res : res_t) : F × F × F :=
  let fd := calculate_field_delta fp frame res
  let fr := calculate_frame_delta fp frame res
  (fr.delta, fd.delta_even, fd.delta_odd)

/-- The value `gamma` computed in `main` for one frame from the three deltas. -/
def main_gamma {F : Type} (fp : FloatOps F) (frame : Buf) (res : res_t) : F :=
  let ds := calculate_deltas fp frame res
  fp.div ds.1 (fp.add (fp.add ds.2.1 ds.2.2) (fp.lit (1 / 100000)))

/-- The sum over `i < height-1`, `j < width` of `(frame[i*width+j] - frame[(i+1)*width+j])^2`. -/
def frame_sum (frame : Buf) (width height : Int) : Int :=
  sumTo (height - 1).toNat (fun i => sumTo width.toNat (fun j =>
    (px frame (i * width + j) - px frame ((i + 1) * width + j)) ^ 2))

/-- The sum over `i < height/2-1`, `j < width` of `(frame[2i*width+j] - frame[(2i+2)*width+j])^2`. -/
def field_sum_even (frame : Buf) (width height : Int) : Int :=
  sumTo (height / 2 - 1).toNat (fun i => sumTo width.toNat (fun j =>
    (px frame (2 * i * width + j) - px frame ((2 * i + 2) * width + j)) ^ 2))

/-- The sum over `i < height/2-1`, `j < width` of
`(frame[(2i+1)*width+j] - frame[(2i+3)*width+j])^2`. -/
def field_sum_odd (frame : Buf) (width height : Int) : Int :=
  sumTo (height / 2 - 1).toNat (fun i => sumTo width.toNat (fun j =>
    (px frame ((2 * i + 1) * width + j) - px frame ((2 * i + 3) * width + j)) ^ 2))

/-- Every row of the frame is identical to the row below it. -/
def rows_identical (frame : Buf) (width height : Int) : Prop :=
  ∀ i j : Nat, (i : Int) < height - 1 → (j : Int) < width →
    frame (i * width + j) = frame ((i + 1) * width + j)

/-- The calls `ssd_nx16_u8_avx2_intrin (&frame[p], &frame[q], pitch, n)` made by
`calculate_frame_delta`, in order, as `(p, q, pitch, n)`. -/
def calculate_frame_delta_calls (res : res_t) : List (Int × Int × Int × Int) :=
  let pitch : Int := 16
  let n : Int := Int.tdiv res.width pitch
  (List.range (res.height - 1).toNat).map (fun (i : Nat) =>
    ((i : Int) * res.width, ((i : Int) + 1) * res.width, pitch, n))

/-- The calls `ssd_nx16_u8_avx2_intrin (&frame[p], &frame[q], pitch, n)` made by
`calculate_field_delta`, in order, as `(p, q, pitch, n)`. -/
def calculate_field_delta_calls (res : res_t) : List (Int × Int × Int × Int) :=
  let pitch : Int := 16
  let n : Int := Int.tdiv res.width pitch
  (List.range (Int.tdiv res.height 2 - 1).toNat).flatMap (fun (i : Nat) =>
    [(2 * (i : Int) * res.width, 2 * ((i : Int) + 1) * res.width, pitch, n),
     ((2 * (i : Int) + 1) * res.width, (2 * (i : Int) + 3) * res.width, pitch, n)])

/-- The sum of `frame_sum` restricted to the columns `j < c`. -/
def frame_sum_cols (frame : Buf) (width height : Int) (c : Nat) : Int :=
  sumTo (height - 1).toNat (fun i => sumTo c (fun j =>
    (px frame (i * width + j) - px frame ((i + 1) * width + j)) ^ 2))

/-- The sum of `field_sum_even` restricted to the columns `j < c`. -/
def field_sum_even_cols (frame : Buf) (width height : Int) (c : Nat) : Int :=
  sumTo (height / 2 - 1).toNat (fun i => sumTo c (fun j =>
    (px frame (2 * i * width + j) - px frame ((2 * i + 2) * width + j)) ^ 2))

/-- The sum of `field_sum_odd` restricted to the columns `j < c`. -/
def field_sum_odd_cols (frame : Buf) (width height : Int) (c : Nat) : Int :=
  sumTo (height / 2 - 1).toNat (fun i => sumTo c (fun j =>
    (px frame ((2 * i + 1) * width + j) - px frame ((2 * i + 3) * width + j)) ^ 2))

/-! ## pattern_detector_utils.c -/

/-- Clamps `x` to the range `[x_min, x_max]`. -/
def clamp {F : Type} (fp : FloatOps F) (x x_min x_max : F) : F :=
  if fp.lt x x_min then x_min else if fp.gt x x_max then x_max else x


/-- The variables `(i_min, x_min)` of `min_index` after `m` iterations of its loop
(`i = 1, ..., m`). -/
def min_index_state {F : Type} (fp : FloatOps F) (x : Nat → F) (m : Nat) : Nat × F :=
  (List.range m).foldl (fun (st : Nat × F) (t : Nat) =>
    let i := t + 1
    if fp.lt (x i) st.2 then (i, x i) else st) (0, x 0)

/-- Index of the minimum of `x[0..n-1]`. -/
def min_index {F : Type} (fp : FloatOps F) (x : Nat → F) (n : Int) : Nat :=
  (min_index_state fp x (n - 1).toNat).1

/-! ### Instruction set support -/

/-- The processor as `cpuid` sees it: `cpu eax ecx r` is the register `abcd[r]` (as a 32-bit
pattern) after `cpuid` with the inputs `eax` and `ecx`. -/
abbrev Cpu := Nat → Nat → Nat → Nat

/-- The array `abcd` filled by `run_cpuid (eax, ecx, abcd)`. -/
def run_cpuid (cpu : Cpu) (eax ecx : Nat) : Nat → Nat := cpu eax ecx

/-- The probe of the FMA, MOVBE, OSXSAVE, AVX2, BMI1, BMI2 and LZCNT feature bits. -/
def check_4th_gen_intel_core_features (cpu : Cpu) : Int :=
  let fma_movbe_osxsave_mask := (1 <<< 12) ||| (1 <<< 22) ||| (1 <<< 27)
  let avx2_bmi12_mask := (1 <<< 5) ||| (1 <<< 3) ||| (1 <<< 8)
  let abcd := run_cpuid cpu 1 0
  if abcd 2 &&& fma_movbe_osxsave_mask ≠ fma_movbe_osxsave_mask then 0
  else
    let abcd := run_cpuid cpu 7 0
    if abcd 1 &&& avx2_bmi12_mask ≠ avx2_bmi12_mask then 0
    else
      let abcd := run_cpuid cpu 2147483649 0
      if abcd 2 &&& (1 <<< 5) = 0 then 0 else 1

/-- The static variable of `can_use_intel_core_4th_gen_features`, with the number of times the
probe was evaluated so far (not part of the program state). -/
structure ProbeState where
  the_4th_gen_features_available : Int
  probes : Nat
  deriving DecidableEq

/-- The state at program start: the static variable is initialised to -1. -/
def probe_init : ProbeState := { the_4th_gen_features_available := -1, probes := 0 }

/-- One call, on the processor `cpu`: the value returned and the state left. -/
def can_use_intel_core_4th_gen_features (cpu : Cpu) (st : ProbeState) : Int × ProbeState :=
  let st1 : ProbeState :=
    if st.the_4th_gen_features_available < 0 then
      { the_4th_gen_features_available := check_4th_gen_intel_core_features cpu
        probes := st.probes + 1 }
    else st
  (st1.the_4th_gen_features_available, st1)

/-- One call of `get_cpu_asm_type`: 3 (AVX2) or 1 (NONAVX2). -/
def get_cpu_asm_type (cpu : Cpu) (st : ProbeState) : Nat × ProbeState :=
  let r := can_use_intel_core_4th_gen_features cpu st
  (if r.1 = 1 then 3 else 1, r.2)

/-- One call of either function: `get_cpu_asm_type` when the flag is true,
`can_use_intel_core_4th_gen_features` otherwise; the processor is the one seen at that call. -/
def probe_call (c : Bool × Cpu) (st : ProbeState) : Int × ProbeState :=
  if c.1 then
    let r := get_cpu_asm_type c.2 st
    ((r.1 : Int), r.2)
  else can_use_intel_core_4th_gen_features c.2 st

/-- A sequence of calls: the values returned, in order, and the state left. -/
def probe_calls (cs : List (Bool × Cpu)) (st : ProbeState) : List Int × ProbeState :=
  cs.foldl (fun (acc : List Int × ProbeState) c =>
    let r := probe_call c acc.2
    (acc.1 ++ [r.1], r.2)) ([], st)

/-! ## interlace_detector.c -/

/-- The 2-D array `a` with `a[r][c]` replaced by `v`. -/
def upd2 (a : Nat → Nat → Int) (r c : Nat) (v : Int) : Nat → Nat → Int :=
  fun r1 c1 => if r1 = r ∧ c1 = c then v else a r1 c1

/-- A histogram sample as it is emitted (not part of the program state): the row offset, the
step, the three accumulators and the field difference before clamping. -/
structure Sample (F : Type) where
  i : Nat
  step : Nat
  delta : Int
  energe_even : Int
  energe_odd : Int
  field_diff : F

/-- The variables of `detect_interlace`, with the list of the samples emitted so far. -/
structure InterlaceState (F : Type) where
  j : Nat
  step : Nat
  delta : Int
  energe_odd : Int
  energe_even : Int
  d : Nat → Nat → Int
  pcf_even : Nat → Nat → Int
  pcf_odd : Nat → Nat → Int
  hist : Nat → Int
  hist_count : Int
  hist_total : F
  field_diff : Nat → F
  samples : List (Sample F)

/-- The body of the `do ... while` loop for row `m` of the window at row offset `i`, `j++`
included. -/
def window_cell {F : Type} (frame : Buf) (res : res_t) (i m : Nat) (s : InterlaceState F) :
    InterlaceState F :=
  let r := m / 2
  let c := s.j % WINSIZE_WIDTH
  let s1 : InterlaceState F :=
    if m % 2 = 1 then
      let energe_odd :=
        if WINSIZE_WIDTH ≤ s.j then wrap32 (s.energe_odd - s.pcf_odd r c) else s.energe_odd
      let pcf_odd := upd2 s.pcf_odd r c (px frame (((m + i : Nat) : Int) * res.width + s.j))
      let energe_odd := wrap32 (energe_odd + pcf_odd r c * pcf_odd r c)
      let delta := if WINSIZE_WIDTH ≤ s.j then wrap32 (s.delta - s.d r c * s.d r c) else s.delta
      let d := upd2 s.d r c (pcf_odd r c - s.pcf_even r c)
      let delta := wrap32 (delta + d r c * d r c)
      { s with energe_odd := energe_odd, pcf_odd := pcf_odd, delta := delta, d := d }
    else
      let energe_even :=
        if WINSIZE_WIDTH ≤ s.j then wrap32 (s.energe_even - s.pcf_even r c * s.pcf_even r c)
        else s.energe_even
      let pcf_even := upd2 s.pcf_even r c (px frame (((m + i : Nat) : Int) * res.width + s.j))
      let energe_even := wrap32 (energe_even + pcf_even r c * pcf_even r c)
      { s with energe_even := energe_even, pcf_even := pcf_even }
  { s1 with j := s1.j + 1 }

/-- The loop `do ... while (j < WINSIZE_WIDTH)`, unrolled at most `fuel` times. -/
def window_row {F : Type} (frame : Buf) (res : res_t) (i m : Nat) :
    Nat → InterlaceState F → InterlaceState F
  | 0, s => s
  | fuel + 1, s =>
    let s1 := window_cell frame res i m s
    if s1.j < WINSIZE_WIDTH then window_row frame res i m fuel s1 else s1

/-- The loop over the rows `m` of the window followed by `step++`. Each `do ... while` runs at
most `WINSIZE_WIDTH` times since `j` starts at 0 or above. -/
def window_update {F : Type} (frame : Buf) (res : res_t) (i : Nat) (s : InterlaceState F) :
    InterlaceState F :=
  let s1 := (List.range WINSIZE_HEIGHT).foldl (fun (s : InterlaceState F) (m : Nat) =>
    window_row frame res i m WINSIZE_WIDTH
      { s with j := if s.step = 0 then 0 else s.step + WINSIZE_WIDTH - 1 }) s
  { s1 with step := s1.step + 1 }

/-- The histogram update. The result is `none` where the behaviour of the C code is undefined:
the cast to `int` of a value that is not a number or is out of range, or an index `k` outside
`hist[0..BINS-1]`. -/
def update_histogram {F : Type} (fp : FloatOps F) (i : Nat) (s : InterlaceState F) :
    Option (InterlaceState F) :=
  let unclamped := fp.div (fp.ofInt s.delta) (fp.ofInt (wrap32 (s.energe_even + s.energe_odd)))
  let field_diff_origin := clamp fp unclamped (fp.ofInt 0) (fp.lit (1 / 2))
  let field_diff_norm :=
    fp.div (fp.sub field_diff_origin (fp.ofInt 0)) (fp.sub (fp.lit (1 / 2)) (fp.ofInt 0))
  match fp.toInt (fp.floor (fp.add (fp.mul field_diff_norm (fp.ofInt ((BINS : Int) - 1)))
      (fp.lit (1 / 2)))) with
  | none => none
  | some k0 =>
    let k := min k0 ((BINS : Int) - 1)
    let sample : Sample F :=
      { i := i, step := s.step - 1, delta := s.delta, energe_even := s.energe_even,
        energe_odd := s.energe_odd, field_diff := unclamped }
    if 0 ≤ k ∧ k < BINS then
      some { s with
        hist := (fun n => if n = k.toNat then s.hist n + 1 else s.hist n),
        hist_count := s.hist_count + 1,
        hist_total := fp.add s.hist_total field_diff_origin,
        field_diff := (fun n => if n = k.toNat then field_diff_origin else s.field_diff n),
        samples := s.samples ++ [sample] }
    else none

/-- The loop `for (...; j < res->width - WINSIZE_WIDTH; )` at row offset `i`, run for at most
`fuel` iterations; `none` also when the fuel does not suffice. -/
def scan_steps {F : Type} (fp : FloatOps F) (frame : Buf) (res : res_t) (i : Nat) :
    Nat → InterlaceState F → Option (InterlaceState F)
  | 0, s => if (s.j : Int) < res.width - WINSIZE_WIDTH then none else some s
  | fuel + 1, s =>
    if (s.j : Int) < res.width - WINSIZE_WIDTH then
      let s1 := window_update frame res i s
      if WINSIZE_WIDTH ≤ s1.j then
        (update_histogram fp i s1).bind (scan_steps fp frame res i fuel)
      else scan_steps fp frame res i fuel s1
    else some s

/-- The scan of the image: for every row offset the window variables are reset and the window
slides to the right; `j` grows at every iteration, so `width` iterations always suffice. -/
def interlace_scan {F : Type} (fp : FloatOps F) (frame : Buf) (res : res_t) :
    Option (InterlaceState F) :=
  (List.range (res.height - WINSIZE_HEIGHT).toNat).foldl
    (fun (st : Option (InterlaceState F)) (i : Nat) =>
      st.bind (fun s => scan_steps fp frame res i res.width.toNat
        { s with j := 0, step := 0, delta := 0, energe_odd := 0, energe_even := 0 }))
    (some { j := 0, step := 0, delta := 0, energe_odd := 0, energe_even := 0
            d := fun _ _ => 0, pcf_even := fun _ _ => 0, pcf_odd := fun _ _ => 0
            hist := fun _ => 0, hist_count := 0, hist_total := fp.lit 0
            field_diff := fun _ => fp.lit 0, samples := [] })

/-- What `detect_interlace` writes to the histogram log: the average and one row
`(fd_origin, fd_norm, dist, hist)` for each `k` of the final loop. -/
structure InterlaceLog (F : Type) where
  average : F
  rows : List (F × Nat × F × Int)

/-- The scan followed by the rows written for `k = 0, ..., BINS-2`. -/
def detect_interlace {F : Type} (fp : FloatOps F) (frame : Buf) (res : res_t) :
    Option (InterlaceLog F) :=
  (interlace_scan fp frame res).map (fun s =>
    { average := fp.div s.hist_total (fp.ofInt s.hist_count)
      rows := (List.range (BINS - 1)).map (fun k =>
        (s.field_diff k, k,
         fp.mul (fp.div (fp.ofInt (s.hist k)) (fp.ofInt s.hist_count)) (fp.ofInt 100),
         s.hist k)) })

/-- The squared field difference of the window at rows `i..i+19`, columns `s..s+9`, from
scratch. -/
def window_delta (frame : Buf) (width : Int) (i s : Nat) : Int :=
  sumTo 10 (fun r => sumTo 10 (fun c =>
    (px frame (((i + 2 * r + 1 : Nat) : Int) * width + ((s + c : Nat) : Int))
      - px frame (((i + 2 * r : Nat) : Int) * width + ((s + c : Nat) : Int))) ^ 2))

/-- The energy of the even rows of the window, from scratch. -/
def window_energy_even (frame : Buf) (width : Int) (i s : Nat) : Int :=
  sumTo 10 (fun r => sumTo 10 (fun c =>
    (px frame (((i + 2 * r : Nat) : Int) * width + ((s + c : Nat) : Int))) ^ 2))

/-- The energy of the odd rows of the window, from scratch. -/
def window_energy_odd (frame : Buf) (width : Int) (i s : Nat) : Int :=
  sumTo 10 (fun r => sumTo 10 (fun c =>
    (px frame (((i + 2 * r + 1 : Nat) : Int) * width + ((s + c : Nat) : Int))) ^ 2))

/-- The variables of `detect_interlace` after the `memset`s, before the scan. -/
def interlace_init {F : Type} (fp : FloatOps F) : InterlaceState F :=
  { j := 0, step := 0, delta := 0, energe_odd := 0, energe_even := 0
    d := fun _ _ => 0, pcf_even := fun _ _ => 0, pcf_odd := fun _ _ => 0
    hist := fun _ => 0, hist_count := 0, hist_total := fp.lit 0
    field_diff := fun _ => fp.lit 0, samples := [] }

/-- The sample emitted by `update_histogram` at row offset `i` in the state `s`. -/
def emitted_sample {F : Type} (fp : FloatOps F) (i : Nat) (s : InterlaceState F) : Sample F :=
  { i := i, step := s.step - 1, delta := s.delta, energe_even := s.energe_even,
    energe_odd := s.energe_odd
    field_diff := fp.div (fp.ofInt s.delta) (fp.ofInt (wrap32 (s.energe_even + s.energe_odd))) }

/-- The clamped field difference `field_diff_origin` of an emitted sample. -/
def sample_clamped {F : Type} (fp : FloatOps F) (x : Sample F) : F :=
  clamp fp x.field_diff (fp.ofInt 0) (fp.lit (1 / 2))

/-- The bin index `k` computed for an emitted sample, where the cast to `int` is defined. -/
def sample_bin {F : Type} (fp : FloatOps F) (x : Sample F) : Option Int :=
  (fp.toInt (fp.floor (fp.add (fp.mul
    (fp.div (fp.sub (sample_clamped fp x) (fp.ofInt 0)) (fp.sub (fp.lit (1 / 2)) (fp.ofInt 0)))
    (fp.ofInt ((BINS : Int) - 1))) (fp.lit (1 / 2))))).map (fun k0 => min k0 ((BINS : Int) - 1))

/-- The samples of `l` whose bin index is `k`, in the order of `l`. -/
def samples_in_bin {F : Type} (fp : FloatOps F) (l : List (Sample F)) (k : Nat) :
    List (Sample F) :=
  l.filter (fun x => decide (sample_bin fp x = some (k : Int)))

/-- The clamped field difference of the last sample of `l` whose bin index is `k`, and 0 when
no sample of `l` has bin index `k`. -/
def last_in_bin {F : Type} (fp : FloatOps F) (l : List (Sample F)) (k : Nat) : F :=
  match (samples_in_bin fp l k).getLast? with
  | some x => sample_clamped fp x
  | none => fp.lit 0

/-- Scan order of window positions: row offsets top to bottom, steps left to right within a row
offset. -/
def scan_before {F : Type} (a b : Sample F) : Prop :=
  a.i < b.i ∨ (a.i = b.i ∧ a.step < b.step)

/-- The sum of `hist[k]` over `k < BINS`. -/
def hist_sum {F : Type} (s : InterlaceState F) : Int := sumTo BINS (fun k => s.hist k)

/-- The state of the scan between row offsets, once `n` of them are done. -/
def scan_inv {F : Type} (fp : FloatOps F) (n : Nat) (s : InterlaceState F) : Prop :=
  hist_sum s = s.hist_count ∧ s.hist_count = (s.samples.length : Int) ∧
  (∀ k, k < BINS → s.hist k = ((samples_in_bin fp s.samples k).length : Int)) ∧
  (∀ k, k < BINS → s.field_diff k = last_in_bin fp s.samples k) ∧
  s.samples.Pairwise scan_before ∧ (∀ x ∈ s.samples, x.i < n)

/-- The state of the scan during the slide at row offset `i`. -/
def slide_inv {F : Type} (fp : FloatOps F) (i : Nat) (s : InterlaceState F) : Prop :=
  hist_sum s = s.hist_count ∧ s.hist_count = (s.samples.length : Int) ∧
  (∀ k, k < BINS → s.hist k = ((samples_in_bin fp s.samples k).length : Int)) ∧
  (∀ k, k < BINS → s.field_diff k = last_in_bin fp s.samples k) ∧
  s.samples.Pairwise scan_before ∧
  (∀ x ∈ s.samples, x.i < i ∨ (x.i = i ∧ x.step < s.step))

/-- The energy of the ten pixels of row `row` in the columns `s..s+9`. -/
def row_energy (frame : Buf) (width : Int) (row s : Nat) : Int :=
  sumTo 10 (fun c => (px frame ((row : Int) * width + ((s + c : Nat) : Int))) ^ 2)

/-- The squared difference of the rows `i+2r+1` and `i+2r` in the columns `s..s+9`. -/
def row_delta (frame : Buf) (width : Int) (i r s : Nat) : Int :=
  sumTo 10 (fun c =>
    (px frame (((i + 2 * r + 1 : Nat) : Int) * width + ((s + c : Nat) : Int))
      - px frame (((i + 2 * r : Nat) : Int) * width + ((s + c : Nat) : Int))) ^ 2)

/-- The window at rows `i..i+19`, columns `st..st+9` is resident in the state: column `c` of
the window is held in slot `c mod 10` of the three buffers, and `energe_even` and `delta` are
the sums over the window. -/
def window_resident {F : Type} (frame : Buf) (width : Int) (i st : Nat)
    (s : InterlaceState F) : Prop :=
  (∀ r c, r < 10 → st ≤ c → c < st + 10 →
    s.pcf_even r (c % 10) = px frame (((i + 2 * r : Nat) : Int) * width + (c : Int)) ∧
    s.pcf_odd r (c % 10) = px frame (((i + 2 * r + 1 : Nat) : Int) * width + (c : Int)) ∧
    s.d r (c % 10) = px frame (((i + 2 * r + 1 : Nat) : Int) * width + (c : Int))
      - px frame (((i + 2 * r : Nat) : Int) * width + (c : Int))) ∧
  s.energe_even = window_energy_even frame width i st ∧
  s.delta = window_delta frame width i st

/-- Every sample of the list carries the even energy and the squared field difference of its
window, computed from scratch. -/
def samples_exact {F : Type} (frame : Buf) (width : Int) (l : List (Sample F)) : Prop :=
  ∀ x ∈ l, x.energe_even = window_energy_even frame width x.i x.step ∧
    x.delta = window_delta frame width x.i x.step

/-- The window variables during the slide at row offset `i`: just reset, or holding the window
of the last step done. -/
def window_inv {F : Type} (frame : Buf) (width : Int) (i : Nat) (s : InterlaceState F) : Prop :=
  samples_exact frame width s.samples ∧
  ((s.step = 0 ∧ s.energe_even = 0 ∧ s.delta = 0) ∨
   (1 ≤ s.step ∧ window_resident frame width i (s.step - 1) s))

/-- The window variables in the window update that slides the window from the columns
`st..st+9` to `st+1..st+10`, when the rows `m' < m` of the window are done: the rows done hold
the new window, the others the old one. -/
def slide_rows {F : Type} (frame : Buf) (width : Int) (i st m : Nat)
    (s : InterlaceState F) : Prop :=
  s.step = st + 1 ∧
  (∀ r c, r < 10 → (if 2 * r < m then st + 1 else st) ≤ c →
    c < (if 2 * r < m then st + 1 else st) + 10 →
    s.pcf_even r (c % 10) = px frame (((i + 2 * r : Nat) : Int) * width + (c : Int))) ∧
  (∀ r c, r < 10 → (if 2 * r + 1 < m then st + 1 else st) ≤ c →
    c < (if 2 * r + 1 < m then st + 1 else st) + 10 →
    s.pcf_odd r (c % 10) = px frame (((i + 2 * r + 1 : Nat) : Int) * width + (c : Int)) ∧
    s.d r (c % 10) = px frame (((i + 2 * r + 1 : Nat) : Int) * width + (c : Int))
      - px frame (((i + 2 * r : Nat) : Int) * width + (c : Int))) ∧
  s.energe_even = wrap32 (sumTo 10 (fun r =>
    row_energy frame width (i + 2 * r) (if 2 * r < m then st + 1 else st))) ∧
  s.delta = wrap32 (sumTo 10 (fun r =>
    row_delta frame width i r (if 2 * r + 1 < m then st + 1 else st)))

/-- The window variables in the first window update of a row offset (step 0), when the rows
`m' < m` of the window are done: the rows done hold the columns `0..9`, and the sums are those
of the rows done. -/
def fill_rows {F : Type} (frame : Buf) (width : Int) (i m : Nat)
    (s : InterlaceState F) : Prop :=
  s.step = 0 ∧
  (∀ r c, r < 10 → 2 * r < m → c < 10 →
    s.pcf_even r c = px frame (((i + 2 * r : Nat) : Int) * width + (c : Int))) ∧
  (∀ r c, r < 10 → 2 * r + 1 < m → c < 10 →
    s.pcf_odd r c = px frame (((i + 2 * r + 1 : Nat) : Int) * width + (c : Int)) ∧
    s.d r c = px frame (((i + 2 * r + 1 : Nat) : Int) * width + (c : Int))
      - px frame (((i + 2 * r : Nat) : Int) * width + (c : Int))) ∧
  s.energe_even = wrap32 (sumTo 10 (fun r =>
    if 2 * r < m then row_energy frame width (i + 2 * r) 0 else 0)) ∧
  s.delta = wrap32 (sumTo 10 (fun r =>
    if 2 * r + 1 < m then row_delta frame width i r 0 else 0))

/-! ## telecine_detector.c -/

def PATTERN_LENGTH : Nat := 5

/-- The array `x` with `x[k]` replaced by `v`. -/
def upd {F : Type} (x : Nat → F) (k : Nat) (v : F) : Nat → F := fun n => if n = k then v else x n

/-- Returns `(ssd_even, ssd_odd)`; the loop state is `(s_even, s_odd)`. -/
def compute_ssd {F : Type} (fp : FloatOps F) (cur prev : Buf) (res : res_t) : F × F :=
  let s := (List.range res.height.toNat).foldl (fun (s : Int × Int) (i : Nat) =>
    let a := (List.range res.width.toNat).foldl (fun (a : Int) (j : Nat) =>
      let d := px prev (i * res.width + j) - px cur (i * res.width + j)
      wrap32 (a + d * d)) 0
    if i % 2 = 1 then (s.1, wrap32 (s.2 + a)) else (wrap32 (s.1 + a), s.2)) (0, 0)
  let d : Int := Int.tdiv (res.width * res.height) 2
  (fp.div (fp.ofInt s.1) (fp.ofInt d), fp.div (fp.ofInt s.2) (fp.ofInt d))

/-- The sum of `(prev[i*width+j] - cur[i*width+j])^2` over the rows `i < height` with
`i mod 2 = o` and all `j < width`. -/
def ssd_field_sum (o : Nat) (cur prev : Buf) (width height : Int) : Int :=
  sumTo height.toNat (fun i => if i % 2 = o then sumTo width.toNat (fun j =>
    (px prev (i * width + j) - px cur (i * width + j)) ^ 2) else 0)

/-- The variables of the main loop of `telecine_detector`. -/
structure TelecineState (F : Type) where
  i : Nat
  prev : Buf
  sequence_ssd_even : Nat → F
  sequence_ssd_odd : Nat → F

/-- One iteration of the main loop, for a frame `cur` that was read. -/
def telecine_step {F : Type} (fp : FloatOps F) (res : res_t) (st : TelecineState F) (cur : Buf) :
    TelecineState F :=
  let st1 : TelecineState F :=
    if 0 < st.i then
      let ssd := compute_ssd fp cur st.prev res
      { st with
        sequence_ssd_even := upd st.sequence_ssd_even (st.i % PATTERN_LENGTH)
          (fp.add (st.sequence_ssd_even (st.i % PATTERN_LENGTH)) ssd.1)
        sequence_ssd_odd := upd st.sequence_ssd_odd (st.i % PATTERN_LENGTH)
          (fp.add (st.sequence_ssd_odd (st.i % PATTERN_LENGTH)) ssd.2) }
    else st
  { st1 with prev := cur, i := st.i + 1 }

/-- The main loop over the frames read from the input file, tables zeroed first. -/
def telecine_main_loop {F : Type} (fp : FloatOps F) (res : res_t) (frames : List Buf) :
    TelecineState F :=
  frames.foldl (telecine_step fp res)
    { i := 0, prev := fun _ => 0
      sequence_ssd_even := fun _ => fp.ofInt 0, sequence_ssd_odd := fun _ => fp.ofInt 0 }

/-- What `telecine_detector` computes after the stream ended: the normalised tables, the two
minimal-energy offsets and the line printed on the standard output (`verbose = 0`). -/
structure TelecineResult (F : Type) where
  sequence_ssd_even : Nat → F
  sequence_ssd_odd : Nat → F
  i : Nat
  j : Nat
  stdout : String

/-- The totals `(ssd_even, ssd_odd)` of the two tables. -/
def telecine_totals {F : Type} (fp : FloatOps F) (st : TelecineState F) : F × F :=
  (List.range PATTERN_LENGTH).foldl (fun (t : F × F) (k : Nat) =>
    (fp.add t.1 (st.sequence_ssd_even k), fp.add t.2 (st.sequence_ssd_odd k)))
    (fp.lit 0, fp.lit 0)

/-- The two tables after every entry was divided by the total of its table. -/
def telecine_normalise {F : Type} (fp : FloatOps F) (st : TelecineState F) :
    (Nat → F) × (Nat → F) :=
  let tot := telecine_totals fp st
  (List.range PATTERN_LENGTH).foldl (fun (s : (Nat → F) × (Nat → F)) (k : Nat) =>
    (upd s.1 k (fp.div (s.1 k) tot.1), upd s.2 k (fp.div (s.2 k) tot.2)))
    (st.sequence_ssd_even, st.sequence_ssd_odd)

/-- The detector after command-line parsing, on the frames `fread` delivers. -/
def telecine_detector {F : Type} (fp : FloatOps F) (res : res_t) (frames : List Buf) :
    TelecineResult F :=
  let st := telecine_main_loop fp res frames
  let seq := telecine_normalise fp st
  let i := min_index fp seq.1 PATTERN_LENGTH
  let j := min_index fp seq.2 PATTERN_LENGTH
  { sequence_ssd_even := seq.1, sequence_ssd_odd := seq.2, i := i, j := j
    stdout :=
      if fp.ge (seq.1 i) (fp.lit (1 / 10)) || fp.ge (seq.2 j) (fp.lit (1 / 10)) then
        "Telecine IS NOT detected\n"
      else
        "Telecine detected\n" }

/-- Frame `i` of the stream (`f_i`). -/
def frame_at (frames : List Buf) (i : Nat) : Buf := frames.getD i (fun _ => 0)

/-- The floating-point sum, in increasing `i`, of `v i` over `1 <= i < N` with
`i mod PATTERN_LENGTH = k`, starting from the zero the tables are initialised with. -/
def phase_sum {F : Type} (fp : FloatOps F) (v : Nat → F) (N k : Nat) : F :=
  ((List.range N).filter (fun i => decide (1 ≤ i ∧ i % PATTERN_LENGTH = k))).foldl
    (fun acc i => fp.add acc (v i)) (fp.ofInt 0)

/-- The sum of the five entries of a table, accumulated from 0 as the totals are. -/
def table_sum {F : Type} (fp : FloatOps F) (x : Nat → F) : F :=
  (List.range PATTERN_LENGTH).foldl (fun (t : F) (k : Nat) => fp.add t (x k)) (fp.lit 0)

/-- The rational value of a number; 0 for NaN and the infinities. -/
def Fp.toRat : Fp → ℚ
  | Fp.fin q => q
  | _ => 0

/-- The exact sum of the values of the five entries of a table. -/
def table_value_sum (x : Nat → Fp) : ℚ :=
  ((List.range PATTERN_LENGTH).map (fun k => Fp.toRat (x k))).sum

/-- The frames `a` and `b` differ at some pixel of a row `i < height` with `i mod 2 = o`. -/
def differ_on_rows (o : Nat) (a b : Buf) (width height : Int) : Prop :=
  ∃ i j : Nat, (i : Int) < height ∧ (j : Int) < width ∧ i % 2 = o ∧
    a (i * width + j) ≠ b (i * width + j)

/-- The frames `a` and `b` agree on every pixel of every row `i < height` with `i mod 2 = o`. -/
def agree_on_rows (o : Nat) (a b : Buf) (width height : Int) : Prop :=
  ∀ i j : Nat, (i : Int) < height → (j : Int) < width → i % 2 = o →
    a (i * width + j) = b (i * width + j)

/-- The pattern of a stream on the rows of one field (`o = 0` even, `o = 1` odd): every pair of
successive frames `(f_(i-1), f_i)` at phase `p` agrees on those rows, every other phase has a
pair that differs on them, and the sum of every pair fits in a 32-bit `int`. -/
def phase_pattern (o : Nat) (frames : List Buf) (width height : Int) (p : Nat) : Prop :=
  (∀ i, 1 ≤ i → i < frames.length → i % PATTERN_LENGTH = p →
    agree_on_rows o (frame_at frames i) (frame_at frames (i - 1)) width height) ∧
  (∀ k, k < PATTERN_LENGTH → k ≠ p → ∃ i, 1 ≤ i ∧ i < frames.length ∧ i % PATTERN_LENGTH = k ∧
    differ_on_rows o (frame_at frames i) (frame_at frames (i - 1)) width height) ∧
  (∀ i, 1 ≤ i → i < frames.length →
    ssd_field_sum o (frame_at frames i) (frame_at frames (i - 1)) width height < 2147483648)

/-! ## The frame indices read -/

/-- The offsets read by `_mm256_maskload_epi64 (mem, mask)`: the bytes of the 64-bit lanes
whose mask lane has its top bit set; the other lanes are not accessed. -/
def maskload_reads (mask : m256i) : List Int :=
  ((List.range 32).filter (fun b => decide (128 ≤ mask (8 * (b / 8) + 7)))).map
    (fun (b : Nat) => (b : Int))

/-- The frame indices read by the call `ssd_nx16_u8_avx2_intrin (&frame[p], &frame[q], pitch, n)`. -/
def ssd_nx16_reads (p q pitch n : Int) : List Int :=
  let mask := _mm256_setr_epi64x (-13) (-12) 8 3
  (List.range n.toNat).flatMap (fun (i : Nat) =>
    (maskload_reads mask).map (fun b => p + ((i : Int) * pitch + b))
      ++ (maskload_reads mask).map (fun b => q + ((i : Int) * pitch + b)))

/-- The frame indices read by `calculate_frame_delta`: by the scalar loop, then by the calls of
the AVX2 kernel. -/
def calculate_frame_delta_reads (res : res_t) : List Int :=
  (List.range (res.height - 1).toNat).flatMap (fun (i : Nat) =>
    (List.range res.width.toNat).flatMap (fun (j : Nat) =>
      [(i : Int) * res.width + j, ((i : Int) + 1) * res.width + j]))
  ++ (calculate_frame_delta_calls res).flatMap (fun c =>
    ssd_nx16_reads c.1 c.2.1 c.2.2.1 c.2.2.2)

/-- The frame indices read by `calculate_field_delta`: by the scalar loop, then by the calls of
the AVX2 kernel. -/
def calculate_field_delta_reads (res : res_t) : List Int :=
  (List.range (Int.tdiv res.height 2 - 1).toNat).flatMap (fun (i : Nat) =>
    (List.range res.width.toNat).flatMap (fun (j : Nat) =>
      [2 * (i : Int) * res.width + j, 2 * ((i : Int) + 1) * res.width + j,
       (2 * (i : Int) + 1) * res.width + j, (2 * (i : Int) + 3) * res.width + j]))
  ++ (calculate_field_delta_calls res).flatMap (fun c =>
    ssd_nx16_reads c.1 c.2.1 c.2.2.1 c.2.2.2)

/-- The indices at which `compute_ssd` reads `prev` and `cur`. -/
def compute_ssd_reads (res : res_t) : List Int :=
  (List.range res.height.toNat).flatMap (fun (i : Nat) =>
    (List.range res.width.toNat).map (fun (j : Nat) => (i : Int) * res.width + j))

/-- The frame indices read by the loop `do ... while (j < WINSIZE_WIDTH)` for row `m` of the
window. -/
def window_row_reads {F : Type} (frame : Buf) (res : res_t) (i m : Nat) :
    Nat → InterlaceState F → List Int
  | 0, _ => []
  | fuel + 1, s =>
    (((m + i : Nat) : Int) * res.width + s.j) ::
      (let s1 := window_cell frame res i m s
       if s1.j < WINSIZE_WIDTH then window_row_reads frame res i m fuel s1 else [])

/-- The frame indices read by one window update. -/
def window_update_reads {F : Type} (frame : Buf) (res : res_t) (i : Nat)
    (s : InterlaceState F) : List Int :=
  ((List.range WINSIZE_HEIGHT).foldl (fun (a : InterlaceState F × List Int) (m : Nat) =>
    (window_row frame res i m WINSIZE_WIDTH
        { a.1 with j := if a.1.step = 0 then 0 else a.1.step + WINSIZE_WIDTH - 1 },
      a.2 ++ window_row_reads frame res i m WINSIZE_WIDTH
        { a.1 with j := if a.1.step = 0 then 0 else a.1.step + WINSIZE_WIDTH - 1 }))
    (s, [])).2

/-- The frame indices read by the sliding loop at row offset `i`, up to the point where the
behaviour is undefined, if there is one. -/
def scan_steps_reads {F : Type} (fp : FloatOps F) (frame : Buf) (res : res_t) (i : Nat) :
    Nat → InterlaceState F → List Int
  | 0, _ => []
  | fuel + 1, s =>
    if (s.j : Int) < res.width - WINSIZE_WIDTH then
      let s1 := window_update frame res i s
      window_update_reads frame res i s ++
        (if WINSIZE_WIDTH ≤ s1.j then
          match update_histogram fp i s1 with
          | none => []
          | some s2 => scan_steps_reads fp frame res i fuel s2
        else scan_steps_reads fp frame res i fuel s1)
    else []

/-- The frame indices read by the scan of `detect_interlace`. -/
def interlace_reads {F : Type} (fp : FloatOps F) (frame : Buf) (res : res_t) : List Int :=
  ((List.range (res.height - WINSIZE_HEIGHT).toNat).foldl
    (fun (a : Option (InterlaceState F) × List Int) (i : Nat) =>
      match a.1 with
      | none => a
      | some s =>
        (scan_steps fp frame res i res.width.toNat
            { s with j := 0, step := 0, delta := 0, energe_odd := 0, energe_even := 0 },
          a.2 ++ scan_steps_reads fp frame res i res.width.toNat
            { s with j := 0, step := 0, delta := 0, energe_odd := 0, energe_even := 0 }))
    (some (interlace_init fp), [])).2

/-! ## The window positions of the scan and the accumulator `energe_odd` -/

/-- The number of window positions in a row offset: the steps `0 .. max (0, width - 20)` when
`width > WINSIZE_WIDTH`, none otherwise. -/
def steps_per_row (width : Int) : Nat := if width ≤ 10 then 0 else (width - 20).toNat + 1

/-- The window positions `(row offset, step)` of a resolution in scan order: row offsets
`0 .. height - 21`, and within a row offset the steps `0 .. max (0, width - 20)`. -/
def scan_positions (res : res_t) : List (Nat × Nat) :=
  (List.range (res.height - 20).toNat).flatMap (fun (i : Nat) =>
    (List.range (steps_per_row res.width)).map (fun (s : Nat) => (i, s)))

/-- What `energe_odd` holds in excess of the odd energy of the window after `s` slides at row
offset `i`: every pixel of an odd row that left the window was subtracted un-squared. -/
def odd_excess (frame : Buf) (width : Int) (i s : Nat) : Int :=
  sumTo s (fun c => sumTo 10 (fun r =>
    px frame (((i + 2 * r + 1 : Nat) : Int) * width + (c : Int))
        * px frame (((i + 2 * r + 1 : Nat) : Int) * width + (c : Int))
      - px frame (((i + 2 * r + 1 : Nat) : Int) * width + (c : Int))))

/-- Every sample of the list carries in `energe_odd` the odd energy of its window plus the
excess left by the slides before it, as an `int`. -/
def samples_odd {F : Type} (frame : Buf) (width : Int) (l : List (Sample F)) : Prop :=
  ∀ x ∈ l, x.energe_odd
    = wrap32 (window_energy_odd frame width x.i x.step + odd_excess frame width x.i x.step)

/-- The variable `energe_odd` during the slide at row offset `i`. -/
def odd_inv {F : Type} (frame : Buf) (width : Int) (i : Nat) (s : InterlaceState F) : Prop :=
  window_inv frame width i s ∧ samples_odd frame width s.samples ∧
  ((s.step = 0 ∧ s.energe_odd = 0) ∨
   (1 ≤ s.step ∧ s.energe_odd
      = wrap32 (window_energy_odd frame width i (s.step - 1)
          + odd_excess frame width i (s.step - 1))))

/-! ## Example inputs -/

/-- Two rows of 16 bytes that differ in five places. -/
def exP : Buf := fun k =>
  if k = 0 then 3 else if k = 5 then 200 else if k = 15 then 7 else if k = 16 then 9
  else if k = 17 then 255 else 0

def exQ : Buf := fun k =>
  if k = 0 then 5 else if k = 5 then 0 else if k = 15 then 17 else if k = 40 then 1 else 0

/-- A frame of width 1 and height 4 with rows 0, 0, 1, 1. -/
def exFrame14 : Buf := fun k => if k = 2 then 1 else if k = 3 then 1 else 0

/-- A frame of width 2 and height 4 with rows (1,2), (3,4), (5,7), (0,9). -/
def exFrame24 : Buf := fun k =>
  if k = 0 then 1 else if k = 1 then 2 else if k = 2 then 3 else if k = 3 then 4
  else if k = 4 then 5 else if k = 5 then 7 else if k = 7 then 9 else 0

/-- Frames of width 1 and height 2: the even row is pixel 0, the odd row is pixel 1. -/
def exF0 : Buf := fun _ => 0

def exF1 : Buf := fun k => if k = 0 then 1 else if k = 1 then 2 else 0

def exF2 : Buf := fun k => if k = 0 then 3 else if k = 1 then 1 else 0

def exF3 : Buf := fun k => if k = 0 then 7 else if k = 1 then 9 else 0

/-- A stream of 11 frames of width 1 and height 2 in which every pair of successive frames
differs in both rows. -/
def exStream11 : List Buf := [exF0, exF1, exF2, exF3, exF0, exF1, exF2, exF3, exF1, exF2, exF0]

/-- A stream of 5 frames of width 1 and height 2 in which frame 3 duplicates frame 2 and every
other pair of successive frames differs in both rows. -/
def exStream5 : List Buf := [exF0, exF1, exF2, exF2, exF3]

/-- A frame of width 21 and height 22, zero except for the value 2 at row 1, columns 0 and 1. -/
def exFrame21 : Buf := fun k => if k = 21 then 2 else if k = 22 then 2 else 0

/-- The state of `detect_interlace` after the scan of `exFrame21` at 21x22. -/
def exScan21 : InterlaceState Fp :=
  (interlace_scan ieee exFrame21 ⟨21, 22⟩).getD (interlace_init ieee)

/-- The window variables after the first window update of an all-zero 21x22 frame. -/
def exZeroWindow : InterlaceState Fp :=
  window_update exF0 ⟨21, 22⟩ 0 (interlace_init ieee)

/-- A frame of width 8192 whose even rows are 0 and whose odd rows are 255. -/
def exStripes : Buf := fun k => if (k / 8192) % 2 = 0 then 0 else 255

/-- A frame whose pixels are all 7: every row is identical to the row below it. -/
def exConst : Buf := fun _ => 7

/-- A stream of 6 frames of width 1 and height 2 in which frame 3 duplicates frame 2 and every
other pair of successive frames differs in both rows. -/
def exStream6 : List Buf := [exF0, exF1, exF2, exF2, exF3, exF0]

/-- A frame of width 17 and height 4 whose second row is 1 in every column and whose other rows
are 0 but for the fourth row, which is 2 in every column. -/
def exFrame17 : Buf := fun k => if 17 ≤ k ∧ k < 34 then 1 else if 51 ≤ k ∧ k < 68 then 2 else 0

/-- A processor with every feature bit set. -/
def exCpuAll : Cpu := fun _ _ _ => 4294967295

/-- A processor without AVX2, BMI1 and BMI2: leaf 7 reports no feature. -/
def exCpuNoAvx2 : Cpu := fun eax _ _ => if eax = 7 then 0 else 4294967295

/-- A table of five numbers whose minimum, 2, is at the indices 1 and 3. -/
def exTable : Nat → Fp := fun k => Fp.fin (if k = 1 then 2 else if k = 3 then 2 else 5)

/-- A frame of width 1 and height 2 that agrees with `exF1` on the even row and differs from it
on the odd row. -/
def exF5 : Buf := fun k => if k = 0 then 1 else if k = 1 then 5 else 0

/-- A frame of width 1 and height 2 with both pixels equal to `v`. -/
def exFlat (v : Fin 256) : Buf := fun k => if k = 0 then v else if k = 1 then v else 0

/-- A stream of six frames of width 1 and height 2 with the pixel values 0, 3, 6, 10, 16, 16. -/
def exStreamRound : List Buf := [exFlat 0, exFlat 3, exFlat 6, exFlat 10, exFlat 16, exFlat 16]

/-! # Properties -/

/-! ## The AVX2 SSD kernels -/

theorem epi32_of_lanes (f : Nat → Nat) (k : Nat) (hk : k < 8) :
    epi32 (of_lanes 32 4 f) k = f k % 4294967296 := by
  have h0 : 4 * k / 4 = k := by omega
  have h1 : (4 * k + 1) / 4 = k := by omega
  have h2 : (4 * k + 2) / 4 = k := by omega
  have h3 : (4 * k + 3) / 4 = k := by omega
  have m0 : 4 * k % 4 = 0 := by omega
  have m1 : (4 * k + 1) % 4 = 1 := by omega
  have m2 : (4 * k + 2) % 4 = 2 := by omega
  have m3 : (4 * k + 3) % 4 = 3 := by omega
  have b0 : 4 * k < 32 := by omega
  have b1 : 4 * k + 1 < 32 := by omega
  have b2 : 4 * k + 2 < 32 := by omega
  have b3 : 4 * k + 3 < 32 := by omega
  simp only [epi32, of_lanes, h0, h1, h2, h3, m0, m1, m2, m3, b0, b1, b2, b3, if_true]
  generalize f k = x
  norm_num
  omega

theorem epi16_of_lanes (f : Nat → Nat) (k : Nat) (hk : k < 16) :
    epi16 (of_lanes 32 2 f) k = f k % 65536 := by
  have h0 : 2 * k / 2 = k := by omega
  have h1 : (2 * k + 1) / 2 = k := by omega
  have m0 : 2 * k % 2 = 0 := by omega
  have m1 : (2 * k + 1) % 2 = 1 := by omega
  have b0 : 2 * k < 32 := by omega
  have b1 : 2 * k + 1 < 32 := by omega
  simp only [epi16, of_lanes, h0, h1, m0, m1, b0, b1, if_true]
  generalize f k = x
  norm_num
  omega

theorem mask256_top (b : Nat) (hb : b < 32) :
    128 ≤ _mm256_setr_epi64x (-13) (-12) 8 3 (8 * (b / 8) + 7) ↔ b < 16 := by
  have : b / 8 = 0 ∨ b / 8 = 1 ∨ b / 8 = 2 ∨ b / 8 = 3 := by omega
  rcases this with h | h | h | h <;> rw [h] <;>
    simp [_mm256_setr_epi64x, of_lanes, ofS64] <;> omega

theorem mask128_top (b : Nat) (hb : b < 16) :
    128 ≤ _mm_set_epi64x 4 (-13) (8 * (b / 8) + 7) ↔ b < 8 := by
  have : b / 8 = 0 ∨ b / 8 = 1 := by omega
  rcases this with h | h <;> rw [h] <;>
    simp [_mm_set_epi64x, of_lanes, ofS64] <;> omega


theorem maskload256_byte (mem : Buf) (b : Nat) :
    _mm256_maskload_epi64 mem (_mm256_setr_epi64x (-13) (-12) 8 3) b
      = if b < 16 then (mem (b : Int)).val else 0 := by
  unfold _mm256_maskload_epi64
  by_cases hb : b < 32
  · have h := mask256_top b hb
    by_cases h16 : b < 16
    · have h1 := h.mpr h16
      simp only [hb, h16, h1, and_self, if_true]
    · have h1 : ¬ 128 ≤ _mm256_setr_epi64x (-13) (-12) 8 3 (8 * (b / 8) + 7) := fun c => h16 (h.mp c)
      simp only [h16, h1, and_false, if_false]
  · have : ¬ b < 16 := by omega
    simp [hb, this]

theorem maskload128_byte (mem : Buf) (b : Nat) :
    _mm_maskload_epi64 mem (_mm_set_epi64x 4 (-13)) b
      = if b < 8 then (mem (b : Int)).val else 0 := by
  unfold _mm_maskload_epi64
  by_cases hb : b < 16
  · have h := mask128_top b hb
    by_cases h8 : b < 8
    · have h1 := h.mpr h8
      simp only [hb, h8, h1, and_self, if_true]
    · have h1 : ¬ 128 ≤ _mm_set_epi64x 4 (-13) (8 * (b / 8) + 7) := fun c => h8 (h.mp c)
      simp only [h8, h1, and_false, if_false]
  · have : ¬ b < 8 := by omega
    simp [hb, this]

/-- The low 16-bit lanes after `unpacklo` against zero: bytes 0..7 of the first half. -/
theorem epi16_unpacklo (mem : Buf) (j : Nat) (hj : j < 16) :
    epi16 (_mm256_unpacklo_epi8
        (_mm256_maskload_epi64 mem (_mm256_setr_epi64x (-13) (-12) 8 3)) _mm256_setzero_si256) j
      = if j < 8 then (mem (j : Int)).val else 0 := by
  have b0 : 2 * j < 32 := by omega
  have b1 : 2 * j + 1 < 32 := by omega
  have m0 : 2 * j % 2 = 0 := by omega
  have m1 : ¬ (2 * j + 1) % 2 = 0 := by omega
  simp only [epi16, _mm256_unpacklo_epi8, b0, b1, m0, m1, if_true, if_false,
    _mm256_setzero_si256, maskload256_byte]
  by_cases h : j < 8
  · have e : 16 * (2 * j / 16) + 2 * j % 16 / 2 = j := by omega
    rw [e]; simp [h]; omega
  · have e : ¬ 16 * (2 * j / 16) + 2 * j % 16 / 2 < 16 := by omega
    simp [h, e]

theorem epi16_unpackhi (mem : Buf) (j : Nat) (hj : j < 16) :
    epi16 (_mm256_unpackhi_epi8
        (_mm256_maskload_epi64 mem (_mm256_setr_epi64x (-13) (-12) 8 3)) _mm256_setzero_si256) j
      = if j < 8 then (mem ((8 + j : Nat) : Int)).val else 0 := by
  have b0 : 2 * j < 32 := by omega
  have b1 : 2 * j + 1 < 32 := by omega
  have m0 : 2 * j % 2 = 0 := by omega
  have m1 : ¬ (2 * j + 1) % 2 = 0 := by omega
  simp only [epi16, _mm256_unpackhi_epi8, b0, b1, m0, m1, if_true, if_false,
    _mm256_setzero_si256, maskload256_byte]
  by_cases h : j < 8
  · have e : 16 * (2 * j / 16) + 8 + 2 * j % 16 / 2 = 8 + j := by omega
    rw [e]; simp [h]; omega
  · have e : ¬ 16 * (2 * j / 16) + 8 + 2 * j % 16 / 2 < 16 := by omega
    simp [h, e]

theorem epi16_cvtepu8 (mem : Buf) (j : Nat) (hj : j < 16) :
    epi16 (_mm256_cvtepu8_epi16 (_mm_maskload_epi64 mem (_mm_set_epi64x 4 (-13)))) j
      = if j < 8 then (mem (j : Int)).val else 0 := by
  rw [_mm256_cvtepu8_epi16, epi16_of_lanes _ _ hj, maskload128_byte]
  by_cases h : j < 8
  · have := (mem (j : Int)).isLt
    simp [h]; omega
  · simp [h]

/-- The signed reading of a wrapped 16-bit difference of two bytes is their difference. -/
theorem toS16_sub (a b : Nat) (ha : a < 256) (hb : b < 256) :
    toS16 ((a + 65536 - b) % 65536) = (a : Int) - (b : Int) := by
  unfold toS16
  split <;> omega

theorem sq_bound (a b : Nat) (ha : a < 256) (hb : b < 256) :
    0 ≤ ((a : Int) - b) * ((a : Int) - b) ∧ ((a : Int) - b) * ((a : Int) - b) ≤ 65025 := by
  constructor
  · exact mul_self_nonneg _
  · have h1 : -255 ≤ (a : Int) - b := by omega
    have h2 : (a : Int) - b ≤ 255 := by omega
    nlinarith

/-- One 32-bit lane of `madd(va, va)` where `va = sub(x, y)` and the 16-bit lanes of `x`, `y` are bytes. -/
theorem epi32_madd_sub (x y : m256i) (k : Nat) (hk : k < 8)
    (a0 b0 a1 b1 : Nat) (ha0 : a0 < 256) (hb0 : b0 < 256) (ha1 : a1 < 256) (hb1 : b1 < 256)
    (hx0 : epi16 x (2 * k) = a0) (hy0 : epi16 y (2 * k) = b0)
    (hx1 : epi16 x (2 * k + 1) = a1) (hy1 : epi16 y (2 * k + 1) = b1) :
    ((epi32 (_mm256_madd_epi16 (_mm256_sub_epi16 x y) (_mm256_sub_epi16 x y)) k : Nat) : Int)
      = ((a0 : Int) - b0) * ((a0 : Int) - b0) + ((a1 : Int) - b1) * ((a1 : Int) - b1) := by
  have k0 : 2 * k < 16 := by omega
  have k1 : 2 * k + 1 < 16 := by omega
  rw [_mm256_madd_epi16, epi32_of_lanes _ _ hk]
  simp only [_mm256_sub_epi16, epi16_of_lanes _ _ k0, epi16_of_lanes _ _ k1, hx0, hy0, hx1, hy1,
    Nat.mod_mod, toS16_sub _ _ ha0 hb0, toS16_sub _ _ ha1 hb1]
  have s0 := sq_bound a0 b0 ha0 hb0
  have s1 := sq_bound a1 b1 ha1 hb1
  generalize ((a0 : Int) - b0) * ((a0 : Int) - b0) = u at *
  generalize ((a1 : Int) - b1) * ((a1 : Int) - b1) = v at *
  omega


theorem epi32_zero (k : Nat) : epi32 _mm256_setzero_si256 k = 0 := by
  simp [epi32, _mm256_setzero_si256]

theorem epi32_add (a b : m256i) (k : Nat) (hk : k < 8) :
    epi32 (_mm256_add_epi32 a b) k = (epi32 a k + epi32 b k) % 4294967296 := by
  rw [_mm256_add_epi32, epi32_of_lanes _ _ hk, Nat.mod_mod]

/-- Lane 0 after the two horizontal adds against zero: the sum of lanes 0..3, modulo 2^32. -/
theorem epi32_hadd_hadd (s : m256i) :
    epi32 (_mm256_hadd_epi32 (_mm256_hadd_epi32 s _mm256_setzero_si256) _mm256_setzero_si256) 0
      = (epi32 s 0 + epi32 s 1 + epi32 s 2 + epi32 s 3) % 4294967296 := by
  have h0 : (0 : Nat) < 8 := by omega
  have h1 : (1 : Nat) < 8 := by omega
  rw [_mm256_hadd_epi32, epi32_of_lanes _ _ h0]
  simp only [Nat.zero_mod, Nat.zero_div, Nat.mul_zero, Nat.zero_add, Nat.mod_mod,
    show (0 : Nat) < 2 by omega, if_true]
  rw [_mm256_hadd_epi32, epi32_of_lanes _ _ h0, epi32_of_lanes _ _ h1]
  simp only [Nat.zero_mod, Nat.zero_div, Nat.mul_zero, Nat.zero_add, Nat.mod_mod,
    show (0 : Nat) < 2 by omega, if_true]
  norm_num
  omega

/-- A register accumulated by `add_epi32` holds, lane by lane, the sums modulo 2^32. -/
theorem epi32_fold_add (T : Nat → m256i) (c : Nat → Nat → Int)
    (hT : ∀ i k, k < 8 → ((epi32 (T i) k : Nat) : Int) = c i k) (n k : Nat) (hk : k < 8) :
    ((epi32 ((List.range n).foldl (fun s i => _mm256_add_epi32 s (T i)) _mm256_setzero_si256) k
        : Nat) : Int) = sumTo n (fun i => c i k) % 4294967296 := by
  induction n with
  | zero => simp [epi32_zero, sumTo]
  | succ n ih =>
    rw [List.range_succ, List.foldl_append, List.foldl_cons, List.foldl_nil, epi32_add _ _ _ hk,
      sumTo]
    push_cast
    rw [ih, hT n k hk]
    omega

theorem wrap32_of_lt (x : Int) (h0 : 0 ≤ x) (h1 : x < 2147483648) : wrap32 x = x := by
  unfold wrap32; omega

theorem toS32_mod (x : Int) (n : Nat) (h : (n : Int) = x % 4294967296) : toS32 n = wrap32 x := by
  unfold toS32 wrap32
  split <;> omega


theorem byte_lt (p : Buf) (k : Int) : (p k).val < 256 := (p k).isLt

theorem ite_byte_lt (c : Prop) [Decidable c] (p : Buf) (k : Int) :
    (if c then (p k).val else 0) < 256 := by
  split
  · exact (p k).isLt
  · omega

theorem epi32_term8 (p q : Buf) (off : Int) (k : Nat) (hk : k < 8) :
    ((epi32 (term8 p q off) k : Nat) : Int)
      = if k < 4 then sqd p q off (2 * k) + sqd p q off (2 * k + 1) else 0 := by
  have k0 : 2 * k < 16 := by omega
  have k1 : 2 * k + 1 < 16 := by omega
  unfold term8
  rw [epi32_madd_sub _ _ k hk _ _ _ _ (ite_byte_lt _ _ _) (ite_byte_lt _ _ _) (ite_byte_lt _ _ _)
    (ite_byte_lt _ _ _) (epi16_cvtepu8 _ _ k0) (epi16_cvtepu8 _ _ k0) (epi16_cvtepu8 _ _ k1)
    (epi16_cvtepu8 _ _ k1)]
  by_cases h : k < 4
  · have e0 : 2 * k < 8 := by omega
    have e1 : 2 * k + 1 < 8 := by omega
    simp only [h, e0, e1, if_true, sqd, px, ptr_add]
    push_cast
    ring
  · have e0 : ¬ 2 * k < 8 := by omega
    have e1 : ¬ 2 * k + 1 < 8 := by omega
    simp [h, e0, e1]

theorem epi32_term16 (p q : Buf) (off : Int) (k : Nat) (hk : k < 8) :
    ((epi32 (term16 p q off) k : Nat) : Int)
      = if k < 4 then sqd p q off (2 * k) + sqd p q off (2 * k + 1)
          + (sqd p q off (8 + 2 * k) + sqd p q off (8 + (2 * k + 1))) else 0 := by
  have k0 : 2 * k < 16 := by omega
  have k1 : 2 * k + 1 < 16 := by omega
  unfold term16
  simp only []
  rw [epi32_add _ _ _ hk]
  push_cast
  rw [epi32_madd_sub _ _ k hk _ _ _ _ (ite_byte_lt _ _ _) (ite_byte_lt _ _ _) (ite_byte_lt _ _ _)
    (ite_byte_lt _ _ _) (epi16_unpacklo _ _ k0) (epi16_unpacklo _ _ k0) (epi16_unpacklo _ _ k1)
    (epi16_unpacklo _ _ k1),
    epi32_madd_sub _ _ k hk _ _ _ _ (ite_byte_lt _ _ _) (ite_byte_lt _ _ _) (ite_byte_lt _ _ _)
    (ite_byte_lt _ _ _) (epi16_unpackhi _ _ k0) (epi16_unpackhi _ _ k0) (epi16_unpackhi _ _ k1)
    (epi16_unpackhi _ _ k1)]
  by_cases h : k < 4
  · have e0 : 2 * k < 8 := by omega
    have e1 : 2 * k + 1 < 8 := by omega
    simp only [h, e0, e1, if_true, sqd, px, ptr_add]
    have b1 := sq_bound _ _ (byte_lt p (off + ((2 * k : Nat) : Int))) (byte_lt q (off + ((2 * k : Nat) : Int)))
    have b2 := sq_bound _ _ (byte_lt p (off + ((2 * k + 1 : Nat) : Int))) (byte_lt q (off + ((2 * k + 1 : Nat) : Int)))
    have b3 := sq_bound _ _ (byte_lt p (off + ((8 + 2 * k : Nat) : Int))) (byte_lt q (off + ((8 + 2 * k : Nat) : Int)))
    have b4 := sq_bound _ _ (byte_lt p (off + ((8 + (2 * k + 1) : Nat) : Int))) (byte_lt q (off + ((8 + (2 * k + 1) : Nat) : Int)))
    simp only [pow_two]
    generalize ((p (off + ((2 * k : Nat) : Int))).val : Int) - _ = u1 at *
    omega
  · have e0 : ¬ 2 * k < 8 := by omega
    have e1 : ¬ 2 * k + 1 < 8 := by omega
    simp [h, e0, e1]


theorem sumTo_add (n : Nat) (f g : Nat → Int) :
    sumTo n (fun i => f i + g i) = sumTo n f + sumTo n g := by
  induction n with
  | zero => simp [sumTo]
  | succ n ih => simp only [sumTo, ih]; ring

theorem sumTo_congr (n : Nat) (f g : Nat → Int) (h : ∀ i, i < n → f i = g i) :
    sumTo n f = sumTo n g := by
  induction n with
  | zero => simp [sumTo]
  | succ n ih =>
    simp only [sumTo]
    rw [ih (fun i hi => h i (by omega)), h n (by omega)]

/-- The value returned by `ssd_nx16_u8_avx2_intrin`, for every `n`, without any range assumption. -/
theorem ssd_nx16_wrap (p q : Buf) (pitch n : Int) :
    ssd_nx16_u8_avx2_intrin p q pitch n = wrap32 (ssd_sum 16 p q pitch n.toNat) := by
  have hfold := epi32_fold_add (fun i => term16 p q ((i : Int) * pitch))
    (fun i k => if k < 4 then sqd p q (i * pitch) (2 * k) + sqd p q (i * pitch) (2 * k + 1)
          + (sqd p q (i * pitch) (8 + 2 * k) + sqd p q (i * pitch) (8 + (2 * k + 1))) else 0)
    (fun i k hk => epi32_term16 p q _ k hk) n.toNat
  have h0 := hfold 0 (by omega)
  have h1 := hfold 1 (by omega)
  have h2 := hfold 2 (by omega)
  have h3 := hfold 3 (by omega)
  show toS32 (epi32 (_mm256_hadd_epi32 (_mm256_hadd_epi32
    ((List.range n.toNat).foldl (fun (s : m256i) (i : Nat) => _mm256_add_epi32 s (term16 p q ((i : Int) * pitch)))
      _mm256_setzero_si256) _mm256_setzero_si256) _mm256_setzero_si256) 0) = _
  apply toS32_mod
  rw [epi32_hadd_hadd]
  push_cast
  rw [h0, h1, h2, h3]
  have e : ssd_sum 16 p q pitch n.toNat
      = sumTo n.toNat (fun i => sqd p q (i * pitch) 0 + sqd p q (i * pitch) 1
          + (sqd p q (i * pitch) 8 + sqd p q (i * pitch) 9))
        + sumTo n.toNat (fun i => sqd p q (i * pitch) 2 + sqd p q (i * pitch) 3
          + (sqd p q (i * pitch) 10 + sqd p q (i * pitch) 11))
        + sumTo n.toNat (fun i => sqd p q (i * pitch) 4 + sqd p q (i * pitch) 5
          + (sqd p q (i * pitch) 12 + sqd p q (i * pitch) 13))
        + sumTo n.toNat (fun i => sqd p q (i * pitch) 6 + sqd p q (i * pitch) 7
          + (sqd p q (i * pitch) 14 + sqd p q (i * pitch) 15)) := by
    rw [← sumTo_add, ← sumTo_add, ← sumTo_add]
    unfold ssd_sum
    apply sumTo_congr
    intro i _
    simp only [sumTo, sqd]
    push_cast
    ring
  rw [e]
  simp only [show (0 : Nat) < 4 by omega, show (1 : Nat) < 4 by omega, show (2 : Nat) < 4 by omega,
    show (3 : Nat) < 4 by omega, if_true]
  norm_num
  omega

theorem ssd_nx8_wrap (p q : Buf) (pitch n : Int) :
    ssd_nx8_u8_avx2_intrin p q pitch n = wrap32 (ssd_sum 8 p q pitch n.toNat) := by
  have hfold := epi32_fold_add (fun i => term8 p q ((i : Int) * pitch))
    (fun i k => if k < 4 then sqd p q (i * pitch) (2 * k) + sqd p q (i * pitch) (2 * k + 1) else 0)
    (fun i k hk => epi32_term8 p q _ k hk) n.toNat
  have h0 := hfold 0 (by omega)
  have h1 := hfold 1 (by omega)
  have h2 := hfold 2 (by omega)
  have h3 := hfold 3 (by omega)
  show toS32 (epi32 (_mm256_hadd_epi32 (_mm256_hadd_epi32
    ((List.range n.toNat).foldl (fun (s : m256i) (i : Nat) => _mm256_add_epi32 s (term8 p q ((i : Int) * pitch)))
      _mm256_setzero_si256) _mm256_setzero_si256) _mm256_setzero_si256) 0) = _
  apply toS32_mod
  rw [epi32_hadd_hadd]
  push_cast
  rw [h0, h1, h2, h3]
  have e : ssd_sum 8 p q pitch n.toNat
      = sumTo n.toNat (fun i => sqd p q (i * pitch) 0 + sqd p q (i * pitch) 1)
        + sumTo n.toNat (fun i => sqd p q (i * pitch) 2 + sqd p q (i * pitch) 3)
        + sumTo n.toNat (fun i => sqd p q (i * pitch) 4 + sqd p q (i * pitch) 5)
        + sumTo n.toNat (fun i => sqd p q (i * pitch) 6 + sqd p q (i * pitch) 7) := by
    rw [← sumTo_add, ← sumTo_add, ← sumTo_add]
    unfold ssd_sum
    apply sumTo_congr
    intro i _
    simp only [sumTo, sqd]
    push_cast
    ring
  rw [e]
  simp only [show (0 : Nat) < 4 by omega, show (1 : Nat) < 4 by omega, show (2 : Nat) < 4 by omega,
    show (3 : Nat) < 4 by omega, if_true]
  norm_num
  omega

theorem sumTo_nonneg (n : Nat) (f : Nat → Int) (h : ∀ i, i < n → 0 ≤ f i) : 0 ≤ sumTo n f := by
  induction n with
  | zero => simp [sumTo]
  | succ n ih =>
    simp only [sumTo]
    have h1 := ih (fun i hi => h i (by omega))
    have h2 := h n (by omega)
    omega

theorem ssd_sum_nonneg (W : Nat) (p q : Buf) (pitch : Int) (n : Nat) :
    0 ≤ ssd_sum W p q pitch n :=
  sumTo_nonneg _ _ (fun _ _ => sumTo_nonneg _ _ (fun _ _ => sq_nonneg _))

/-- C1: for W = 8 and W = 16, every `n`, every `pitch` and all buffers, `ssd_nxW_u8_avx2_intrin`
returns the sum over `i < n`, `k < W` of `(p[i*pitch+k] - q[i*pitch+k])^2` whenever that sum is
below 2^31, and it returns 0 for `n = 0`. -/
theorem ssd_kernels_correct (p q : Buf) (pitch n : Int) :
    (ssd_sum 8 p q pitch n.toNat < 2147483648 →
      ssd_nx8_u8_avx2_intrin p q pitch n = ssd_sum 8 p q pitch n.toNat) ∧
    (ssd_sum 16 p q pitch n.toNat < 2147483648 →
      ssd_nx16_u8_avx2_intrin p q pitch n = ssd_sum 16 p q pitch n.toNat) ∧
    ssd_nx8_u8_avx2_intrin p q pitch 0 = 0 ∧ ssd_nx16_u8_avx2_intrin p q pitch 0 = 0 := by
  refine ⟨fun h => ?_, fun h => ?_, ?_, ?_⟩
  · rw [ssd_nx8_wrap, wrap32_of_lt _ (ssd_sum_nonneg _ _ _ _ _) h]
  · rw [ssd_nx16_wrap, wrap32_of_lt _ (ssd_sum_nonneg _ _ _ _ _) h]
  · rw [ssd_nx8_wrap]; rfl
  · rw [ssd_nx16_wrap]; rfl

theorem ssd_kernels_correct_witness :
    ssd_sum 16 exP exQ 16 (2 : Int).toNat = 105210 ∧
    ssd_nx16_u8_avx2_intrin exP exQ 16 2 = ssd_sum 16 exP exQ 16 (2 : Int).toNat ∧
    ssd_sum 8 exP exQ 8 (3 : Int).toNat = 105210 ∧
    ssd_nx8_u8_avx2_intrin exP exQ 8 3 = ssd_sum 8 exP exQ 8 (3 : Int).toNat :=
  ⟨by decide, (ssd_kernels_correct exP exQ 16 2).2.1 (by decide), by decide,
    (ssd_kernels_correct exP exQ 8 3).1 (by decide)⟩

/-! ## Integer accumulators, the delta engine and `compute_ssd` -/

theorem wrap32_add_left (x y : Int) : wrap32 (wrap32 x + y) = wrap32 (x + y) := by
  unfold wrap32; omega

theorem wrap32_add_right (x y : Int) : wrap32 (x + wrap32 y) = wrap32 (x + y) := by
  unfold wrap32; omega

theorem wrap32_zero : wrap32 0 = 0 := by decide

/-- An `int` accumulator over a loop holds the wrapped sum of the terms added. -/
theorem foldl_wrap32 (g : Nat → Int) (a : Int) (n : Nat) :
    (List.range n).foldl (fun (acc : Int) (j : Nat) => wrap32 (acc + g j)) (wrap32 a)
      = wrap32 (a + sumTo n g) := by
  induction n with
  | zero => simp [sumTo]
  | succ n ih =>
    rw [List.range_succ, List.foldl_append, ih]
    simp only [List.foldl_cons, List.foldl_nil, sumTo, wrap32_add_left, add_assoc]

theorem foldl_wrap32_nested (g : Nat → Nat → Int) (a : Int) (h w : Nat) :
    (List.range h).foldl (fun (acc : Int) (i : Nat) =>
        (List.range w).foldl (fun (acc : Int) (j : Nat) => wrap32 (acc + g i j)) acc) (wrap32 a)
      = wrap32 (a + sumTo h (fun i => sumTo w (g i))) := by
  induction h with
  | zero => simp [sumTo]
  | succ h ih =>
    rw [List.range_succ, List.foldl_append, ih]
    simp only [List.foldl_cons, List.foldl_nil, sumTo, foldl_wrap32, add_assoc]

theorem foldl_wrap32_pair (g1 g2 : Nat → Int) (a1 a2 : Int) (n : Nat) :
    (List.range n).foldl (fun (acc : Int × Int) (j : Nat) =>
        (wrap32 (acc.1 + g1 j), wrap32 (acc.2 + g2 j))) (wrap32 a1, wrap32 a2)
      = (wrap32 (a1 + sumTo n g1), wrap32 (a2 + sumTo n g2)) := by
  induction n with
  | zero => simp [sumTo]
  | succ n ih =>
    rw [List.range_succ, List.foldl_append, ih]
    simp only [List.foldl_cons, List.foldl_nil, sumTo, wrap32_add_left, add_assoc]

theorem foldl_wrap32_pair_nested (g1 g2 : Nat → Nat → Int) (a1 a2 : Int) (h w : Nat) :
    (List.range h).foldl (fun (acc : Int × Int) (i : Nat) =>
        (List.range w).foldl (fun (acc : Int × Int) (j : Nat) =>
          (wrap32 (acc.1 + g1 i j), wrap32 (acc.2 + g2 i j))) acc) (wrap32 a1, wrap32 a2)
      = (wrap32 (a1 + sumTo h (fun i => sumTo w (g1 i))),
         wrap32 (a2 + sumTo h (fun i => sumTo w (g2 i)))) := by
  induction h with
  | zero => simp [sumTo]
  | succ h ih =>
    rw [List.range_succ, List.foldl_append, ih]
    simp only [List.foldl_cons, List.foldl_nil, sumTo, foldl_wrap32_pair, add_assoc]

/-- The scalar accumulator of `calculate_frame_delta`, for every frame and resolution. -/
theorem frame_dd_wrap {F : Type} (fp : FloatOps F) (frame : Buf) (res : res_t) :
    (calculate_frame_delta fp frame res).dd = wrap32 (frame_sum frame res.width res.height) := by
  have h := foldl_wrap32_nested (fun i j =>
    (px frame (i * res.width + j) - px frame ((i + 1) * res.width + j))
      * (px frame (i * res.width + j) - px frame ((i + 1) * res.width + j))) 0
    (res.height - 1).toNat res.width.toNat
  rw [wrap32_zero, zero_add] at h
  unfold frame_sum
  simp only [pow_two]
  rw [← h]
  rfl

theorem field_dd_wrap {F : Type} (fp : FloatOps F) (frame : Buf) (res : res_t)
    (hh : 0 ≤ res.height) :
    (calculate_field_delta fp frame res).dd_even
        = wrap32 (field_sum_even frame res.width res.height) ∧
    (calculate_field_delta fp frame res).dd_odd
        = wrap32 (field_sum_odd frame res.width res.height) := by
  have h := foldl_wrap32_pair_nested
    (fun i j => (px frame (2 * i * res.width + j) - px frame (2 * (i + 1) * res.width + j))
      * (px frame (2 * i * res.width + j) - px frame (2 * (i + 1) * res.width + j)))
    (fun i j => (px frame ((2 * i + 1) * res.width + j) - px frame ((2 * i + 3) * res.width + j))
      * (px frame ((2 * i + 1) * res.width + j) - px frame ((2 * i + 3) * res.width + j))) 0 0
    (Int.tdiv res.height 2 - 1).toNat res.width.toNat
  rw [wrap32_zero, zero_add, zero_add] at h
  have e : (calculate_field_delta fp frame res).dd_even = _ ∧
      (calculate_field_delta fp frame res).dd_odd = _ :=
    ⟨congrArg Prod.fst h, congrArg Prod.snd h⟩
  have e1 : ∀ i : Int, 2 * (i + 1) * res.width = (2 * i + 2) * res.width := fun i => by ring
  refine ⟨e.1.trans ?_, e.2.trans ?_⟩
  · unfold field_sum_even
    rw [Int.tdiv_eq_ediv hh (by omega)]
    simp only [pow_two, e1]
  · unfold field_sum_odd
    rw [Int.tdiv_eq_ediv hh (by omega)]
    simp only [pow_two]

/-- The row loop of `compute_ssd`: even rows go to the first counter, odd rows to the second. -/
theorem foldl_ssd_rows (r : Nat → Int) (x y : Int) (n : Nat) :
    (List.range n).foldl (fun (s : Int × Int) (i : Nat) =>
        if i % 2 = 1 then (s.1, wrap32 (s.2 + wrap32 (r i)))
        else (wrap32 (s.1 + wrap32 (r i)), s.2)) (wrap32 x, wrap32 y)
      = (wrap32 (x + sumTo n (fun i => if i % 2 = 0 then r i else 0)),
         wrap32 (y + sumTo n (fun i => if i % 2 = 1 then r i else 0))) := by
  induction n with
  | zero => simp [sumTo]
  | succ n ih =>
    rw [List.range_succ, List.foldl_append, ih]
    simp only [List.foldl_cons, List.foldl_nil, sumTo]
    by_cases hp : n % 2 = 1
    · simp [hp, wrap32_add_left, wrap32_add_right, add_assoc]
    · have hq : n % 2 = 0 := by omega
      simp [hq, wrap32_add_left, wrap32_add_right, add_assoc]

/-- The two counters of `compute_ssd`, for every pair of frames and every resolution. -/
theorem compute_ssd_wrap {F : Type} (fp : FloatOps F) (cur prev : Buf) (res : res_t) :
    compute_ssd fp cur prev res
      = (fp.div (fp.ofInt (wrap32 (ssd_field_sum 0 cur prev res.width res.height)))
            (fp.ofInt (Int.tdiv (res.width * res.height) 2)),
         fp.div (fp.ofInt (wrap32 (ssd_field_sum 1 cur prev res.width res.height)))
            (fp.ofInt (Int.tdiv (res.width * res.height) 2))) := by
  have hin : ∀ i : Nat, (List.range res.width.toNat).foldl (fun (a : Int) (j : Nat) =>
      wrap32 (a + (px prev (i * res.width + j) - px cur (i * res.width + j))
        * (px prev (i * res.width + j) - px cur (i * res.width + j)))) 0
      = wrap32 (sumTo res.width.toNat (fun j =>
          (px prev (i * res.width + j) - px cur (i * res.width + j)) ^ 2)) := by
    intro i
    have h := foldl_wrap32 (fun j => (px prev (i * res.width + j) - px cur (i * res.width + j))
        * (px prev (i * res.width + j) - px cur (i * res.width + j))) 0 res.width.toNat
    rw [wrap32_zero, zero_add] at h
    rw [h]
    simp only [pow_two]
  have h := foldl_ssd_rows (fun i => sumTo res.width.toNat (fun j =>
          (px prev (i * res.width + j) - px cur (i * res.width + j)) ^ 2)) 0 0 res.height.toNat
  rw [wrap32_zero, zero_add, zero_add] at h
  unfold compute_ssd ssd_field_sum
  simp only [hin, h]


theorem frame_sum_nonneg (frame : Buf) (w h : Int) : 0 ≤ frame_sum frame w h :=
  sumTo_nonneg _ _ (fun _ _ => sumTo_nonneg _ _ (fun _ _ => sq_nonneg _))

theorem field_sum_even_nonneg (frame : Buf) (w h : Int) : 0 ≤ field_sum_even frame w h :=
  sumTo_nonneg _ _ (fun _ _ => sumTo_nonneg _ _ (fun _ _ => sq_nonneg _))

theorem field_sum_odd_nonneg (frame : Buf) (w h : Int) : 0 ≤ field_sum_odd frame w h :=
  sumTo_nonneg _ _ (fun _ _ => sumTo_nonneg _ _ (fun _ _ => sq_nonneg _))

theorem ssd_field_sum_nonneg (o : Nat) (cur prev : Buf) (w h : Int) :
    0 ≤ ssd_field_sum o cur prev w h := by
  apply sumTo_nonneg
  intro i _
  split
  · exact sumTo_nonneg _ _ (fun _ _ => sq_nonneg _)
  · exact le_refl 0

/-- C2 (evaluation at the failing input): for the 1x4 frame with rows 0, 0, 1, 1 the scalar
sums are 1 while the AVX2 sums, taken over `width/16 = 0` windows per row, are 0. -/
theorem delta_avx_sums_differ :
    (calculate_frame_delta ieee exFrame14 ⟨1, 4⟩).dd = 1 ∧
    (calculate_frame_delta ieee exFrame14 ⟨1, 4⟩).dd_avx = 0 ∧
    (calculate_field_delta ieee exFrame14 ⟨1, 4⟩).dd_even = 1 ∧
    (calculate_field_delta ieee exFrame14 ⟨1, 4⟩).dd_even_avx = 0 ∧
    (calculate_field_delta ieee exFrame14 ⟨1, 4⟩).dd_odd = 1 ∧
    (calculate_field_delta ieee exFrame14 ⟨1, 4⟩).dd_odd_avx = 0 := by
  decide

/-- C3: for width >= 1 and height >= 2, `calculate_frame_delta` stores
`delta = S / ((height-1)*width)` (the floating-point quotient of the two integers), where `S` is
the sum over `i < height-1`, `j < width` of `(frame[i*width+j] - frame[(i+1)*width+j])^2`,
whenever `S` fits in a 32-bit `int`. -/
theorem calculate_frame_delta_correct {F : Type} (fp : FloatOps F) (frame : Buf)
    (width height : Int) (_hw : 1 ≤ width) (_hh : 2 ≤ height)
    (hS : frame_sum frame width height < 2147483648) :
    (calculate_frame_delta fp frame ⟨width, height⟩).delta
      = fp.div (fp.ofInt (frame_sum frame width height)) (fp.ofInt ((height - 1) * width)) := by
  have h := frame_dd_wrap fp frame ⟨width, height⟩
  rw [wrap32_of_lt _ (frame_sum_nonneg _ _ _) hS] at h
  show fp.div (fp.ofInt (calculate_frame_delta fp frame ⟨width, height⟩).dd) _ = _
  rw [h]

theorem calculate_frame_delta_correct_witness :
    frame_sum exFrame24 2 4 = 50 ∧
    (calculate_frame_delta ieee exFrame24 ⟨2, 4⟩).delta
      = ieee.div (ieee.ofInt (frame_sum exFrame24 2 4)) (ieee.ofInt ((4 - 1) * 2)) :=
  ⟨by decide, calculate_frame_delta_correct ieee exFrame24 2 4 (by decide) (by decide) (by decide)⟩

/-- C4: for width >= 1 and even height >= 4, `calculate_field_delta` stores
`delta_even = Se / ((height/2-1)*width)` and `delta_odd = So / ((height/2-1)*width)`, where `Se`
sums `(frame[2i*width+j] - frame[(2i+2)*width+j])^2` and `So` sums
`(frame[(2i+1)*width+j] - frame[(2i+3)*width+j])^2` over `i < height/2-1`, `j < width`, whenever
`Se` and `So` fit in a 32-bit `int`. -/
theorem calculate_field_delta_correct {F : Type} (fp : FloatOps F) (frame : Buf)
    (width height : Int) (_hw : 1 ≤ width) (hh : 4 ≤ height) (_he : height % 2 = 0)
    (hSe : field_sum_even frame width height < 2147483648)
    (hSo : field_sum_odd frame width height < 2147483648) :
    (calculate_field_delta fp frame ⟨width, height⟩).delta_even
      = fp.div (fp.ofInt (field_sum_even frame width height))
          (fp.ofInt ((height / 2 - 1) * width)) ∧
    (calculate_field_delta fp frame ⟨width, height⟩).delta_odd
      = fp.div (fp.ofInt (field_sum_odd frame width height))
          (fp.ofInt ((height / 2 - 1) * width)) := by
  have h := field_dd_wrap fp frame ⟨width, height⟩ (by show 0 ≤ height; omega)
  rw [wrap32_of_lt _ (field_sum_even_nonneg _ _ _) hSe,
    wrap32_of_lt _ (field_sum_odd_nonneg _ _ _) hSo] at h
  have hd : Int.tdiv height 2 = height / 2 := Int.tdiv_eq_ediv (by omega) (by omega)
  constructor
  · show fp.div (fp.ofInt (calculate_field_delta fp frame ⟨width, height⟩).dd_even)
      (fp.ofInt ((Int.tdiv height 2 - 1) * width)) = _
    rw [h.1, hd]
  · show fp.div (fp.ofInt (calculate_field_delta fp frame ⟨width, height⟩).dd_odd)
      (fp.ofInt ((Int.tdiv height 2 - 1) * width)) = _
    rw [h.2, hd]

theorem calculate_field_delta_correct_witness :
    field_sum_even exFrame24 2 4 = 41 ∧ field_sum_odd exFrame24 2 4 = 34 ∧
    (calculate_field_delta ieee exFrame24 ⟨2, 4⟩).delta_even
      = ieee.div (ieee.ofInt (field_sum_even exFrame24 2 4)) (ieee.ofInt ((4 / 2 - 1) * 2)) ∧
    (calculate_field_delta ieee exFrame24 ⟨2, 4⟩).delta_odd
      = ieee.div (ieee.ofInt (field_sum_odd exFrame24 2 4)) (ieee.ofInt ((4 / 2 - 1) * 2)) :=
  ⟨by decide, by decide, calculate_field_delta_correct ieee exFrame24 2 4 (by decide) (by decide)
    (by decide) (by decide) (by decide)⟩

/-- C6: for width*height >= 2, `compute_ssd` stores `ssd_even = Se / (width*height/2)` and
`ssd_odd = So / (width*height/2)` (floating-point quotients of the integers), where `Se` is the
sum of `(prev[i*width+j] - cur[i*width+j])^2` over the even rows `i < height` and all
`j < width`, and `So` the same sum over the odd rows, whenever `Se` and `So` fit in a 32-bit
`int`. -/
theorem compute_ssd_correct {F : Type} (fp : FloatOps F) (cur prev : Buf) (width height : Int)
    (hwh : 2 ≤ width * height)
    (hSe : ssd_field_sum 0 cur prev width height < 2147483648)
    (hSo : ssd_field_sum 1 cur prev width height < 2147483648) :
    compute_ssd fp cur prev ⟨width, height⟩
      = (fp.div (fp.ofInt (ssd_field_sum 0 cur prev width height))
            (fp.ofInt (width * height / 2)),
         fp.div (fp.ofInt (ssd_field_sum 1 cur prev width height))
            (fp.ofInt (width * height / 2))) := by
  rw [compute_ssd_wrap]
  show (fp.div (fp.ofInt (wrap32 (ssd_field_sum 0 cur prev width height)))
      (fp.ofInt (Int.tdiv (width * height) 2)), fp.div (fp.ofInt (wrap32
      (ssd_field_sum 1 cur prev width height))) (fp.ofInt (Int.tdiv (width * height) 2))) = _
  rw [wrap32_of_lt _ (ssd_field_sum_nonneg _ _ _ _ _) hSe,
    wrap32_of_lt _ (ssd_field_sum_nonneg _ _ _ _ _) hSo,
    Int.tdiv_eq_ediv (by omega) (by omega)]

theorem compute_ssd_correct_witness :
    ssd_field_sum 0 exFrame24 exFrame14 2 4 = 79 ∧ ssd_field_sum 1 exFrame24 exFrame14 2 4 = 94 ∧
    compute_ssd ieee exFrame24 exFrame14 ⟨2, 4⟩
      = (ieee.div (ieee.ofInt (ssd_field_sum 0 exFrame24 exFrame14 2 4))
            (ieee.ofInt (2 * 4 / 2)),
         ieee.div (ieee.ofInt (ssd_field_sum 1 exFrame24 exFrame14 2 4))
            (ieee.ofInt (2 * 4 / 2))) :=
  ⟨by decide, by decide,
    compute_ssd_correct ieee exFrame24 exFrame14 2 4 (by decide) (by decide) (by decide)⟩

/-! ## The telecine detector -/

theorem phase_sum_congr {F : Type} (fp : FloatOps F) (v w : Nat → F) (N k : Nat)
    (h : ∀ i, i < N → v i = w i) : phase_sum fp v N k = phase_sum fp w N k := by
  unfold phase_sum
  induction N with
  | zero => rfl
  | succ N ih =>
    rw [List.range_succ, List.filter_append, List.foldl_append, List.foldl_append,
      ih (fun i hi => h i (by omega))]
    by_cases c : 1 ≤ N ∧ N % PATTERN_LENGTH = k
    · simp [List.filter, c, h N (by omega)]
    · simp [List.filter, c]

theorem phase_sum_succ {F : Type} (fp : FloatOps F) (v : Nat → F) (N k : Nat) :
    phase_sum fp v (N + 1) k
      = if 1 ≤ N ∧ N % PATTERN_LENGTH = k then fp.add (phase_sum fp v N k) (v N)
        else phase_sum fp v N k := by
  unfold phase_sum
  rw [List.range_succ, List.filter_append, List.foldl_append]
  by_cases c : 1 ≤ N ∧ N % PATTERN_LENGTH = k
  · simp [List.filter, c]
  · simp [List.filter, c]

theorem frame_at_append_lt (l : List Buf) (a : Buf) (i : Nat) (h : i < l.length) :
    frame_at (l ++ [a]) i = frame_at l i := by
  unfold frame_at
  rw [List.getD_append _ _ _ _ h]

theorem frame_at_append_length (l : List Buf) (a : Buf) :
    frame_at (l ++ [a]) l.length = a := by
  unfold frame_at
  rw [List.getD_append_right _ _ _ _ (le_refl _)]
  simp

/-- The state of the main loop of `telecine_detector` after the frames `frames` were read. -/
theorem telecine_main_loop_inv {F : Type} (fp : FloatOps F) (res : res_t) (frames : List Buf) :
    (telecine_main_loop fp res frames).i = frames.length ∧
    (telecine_main_loop fp res frames).prev = frame_at frames (frames.length - 1) ∧
    (∀ k, (telecine_main_loop fp res frames).sequence_ssd_even k
      = phase_sum fp (fun i =>
          (compute_ssd fp (frame_at frames i) (frame_at frames (i - 1)) res).1)
          frames.length k) ∧
    (∀ k, (telecine_main_loop fp res frames).sequence_ssd_odd k
      = phase_sum fp (fun i =>
          (compute_ssd fp (frame_at frames i) (frame_at frames (i - 1)) res).2)
          frames.length k) := by
  induction frames using List.reverseRecOn with
  | nil => exact ⟨rfl, rfl, fun _ => rfl, fun _ => rfl⟩
  | append_singleton l a ih =>
    obtain ⟨hi, hp, he, ho⟩ := ih
    have hstep : telecine_main_loop fp res (l ++ [a])
        = telecine_step fp res (telecine_main_loop fp res l) a := by
      unfold telecine_main_loop
      rw [List.foldl_append]
      rfl
    have hlen : (l ++ [a]).length = l.length + 1 := by simp
    have hcur : frame_at (l ++ [a]) l.length = a := frame_at_append_length l a
    have hprev : 0 < l.length → frame_at (l ++ [a]) (l.length - 1) = frame_at l (l.length - 1) :=
      fun h => frame_at_append_lt l a _ (by omega)
    rw [hstep, hlen]
    refine ⟨?_, ?_, ?_, ?_⟩
    · simp [telecine_step, hi]
    · simp [telecine_step, hcur]
    · intro k
      rw [phase_sum_succ]
      have hc := phase_sum_congr fp
        (fun i => (compute_ssd fp (frame_at (l ++ [a]) i) (frame_at (l ++ [a]) (i - 1)) res).1)
        (fun i => (compute_ssd fp (frame_at l i) (frame_at l (i - 1)) res).1) l.length k
        (fun i hlt => by
          simp only []
          rw [frame_at_append_lt l a i hlt, frame_at_append_lt l a (i - 1) (by omega)])
      rw [hc, ← he k]
      by_cases h0 : 0 < l.length
      · simp only [telecine_step, hi, h0, if_true, hcur, hprev h0, hp]
        by_cases hk : l.length % PATTERN_LENGTH = k
        · have h1 : 1 ≤ l.length := h0
          simp [upd, hk, h1]
        · have hk2 : ¬ k = l.length % PATTERN_LENGTH := fun c => hk c.symm
          simp [upd, hk, hk2]
      · have h1 : ¬ 1 ≤ l.length := by omega
        simp [telecine_step, hi, h0, h1]
    · intro k
      rw [phase_sum_succ]
      have hc := phase_sum_congr fp
        (fun i => (compute_ssd fp (frame_at (l ++ [a]) i) (frame_at (l ++ [a]) (i - 1)) res).2)
        (fun i => (compute_ssd fp (frame_at l i) (frame_at l (i - 1)) res).2) l.length k
        (fun i hlt => by
          simp only []
          rw [frame_at_append_lt l a i hlt, frame_at_append_lt l a (i - 1) (by omega)])
      rw [hc, ← ho k]
      by_cases h0 : 0 < l.length
      · simp only [telecine_step, hi, h0, if_true, hcur, hprev h0, hp]
        by_cases hk : l.length % PATTERN_LENGTH = k
        · have h1 : 1 ≤ l.length := h0
          simp [upd, hk, h1]
        · have hk2 : ¬ k = l.length % PATTERN_LENGTH := fun c => hk c.symm
          simp [upd, hk, hk2]
      · have h1 : ¬ 1 ≤ l.length := by omega
        simp [telecine_step, hi, h0, h1]

/-- C7: after the main loop of `telecine_detector` over the frames `f_0 .. f_(N-1)`, every
phase `k` holds in `sequence_ssd_even[k]` the (floating-point, in stream order) sum over
`1 <= i < N` with `i mod 5 = k` of `ssd_even(f_i, f_(i-1))`, and in `sequence_ssd_odd[k]` the
same sum of `ssd_odd`; after the first frame alone both tables are still zero. -/
theorem telecine_tables_accumulate {F : Type} (fp : FloatOps F) (res : res_t)
    (frames : List Buf) (f0 : Buf) (k : Nat) :
    (telecine_main_loop fp res frames).sequence_ssd_even k
      = phase_sum fp (fun i =>
          (compute_ssd fp (frame_at frames i) (frame_at frames (i - 1)) res).1)
          frames.length k ∧
    (telecine_main_loop fp res frames).sequence_ssd_odd k
      = phase_sum fp (fun i =>
          (compute_ssd fp (frame_at frames i) (frame_at frames (i - 1)) res).2)
          frames.length k ∧
    (telecine_main_loop fp res [f0]).sequence_ssd_even k = fp.ofInt 0 ∧
    (telecine_main_loop fp res [f0]).sequence_ssd_odd k = fp.ofInt 0 :=
  ⟨(telecine_main_loop_inv fp res frames).2.2.1 k, (telecine_main_loop_inv fp res frames).2.2.2 k,
    rfl, rfl⟩

/-! ### `min_index` -/

theorem Fp_lt_trans (a b c : Fp) (h1 : Fp.lt a b = true) (h2 : Fp.lt b c = true) :
    Fp.lt a c = true := by
  cases a <;> cases b <;> cases c <;> simp_all [Fp.lt]
  exact lt_trans h1 h2

theorem Fp_lt_irrefl (a : Fp) : Fp.lt a a = false := by
  cases a <;> simp [Fp.lt]

/-- The loop of `min_index` on `ieee`: the state is `(i_min, x[i_min])`, no entry seen so far is
below `x[i_min]`, and `x[i_min]` is `x[0]` or below it. -/
theorem min_index_loop_inv (x : Nat → Fp) (m : Nat) :
    (min_index_state ieee x m).2 = x (min_index_state ieee x m).1 ∧
    (min_index_state ieee x m).1 ≤ m ∧
    (∀ k, k ≤ m → Fp.lt (x k) (min_index_state ieee x m).2 = false) ∧
    ((min_index_state ieee x m).1 = 0 ∨ Fp.lt (min_index_state ieee x m).2 (x 0) = true) := by
  induction m with
  | zero =>
    refine ⟨rfl, le_refl _, ?_, Or.inl rfl⟩
    intro k hk
    have : k = 0 := by omega
    subst this
    exact Fp_lt_irrefl _
  | succ m ih =>
    have hs : min_index_state ieee x (m + 1)
        = if ieee.lt (x (m + 1)) (min_index_state ieee x m).2 then (m + 1, x (m + 1))
          else min_index_state ieee x m := by
      unfold min_index_state
      rw [List.range_succ, List.foldl_append]
      rfl
    rw [hs]
    generalize min_index_state ieee x m = st at ih
    obtain ⟨h1, h2, h3, h4⟩ := ih
    by_cases c : ieee.lt (x (m + 1)) st.2 = true
    · rw [if_pos c]
      have c1 : Fp.lt (x (m + 1)) st.2 = true := c
      refine ⟨rfl, le_refl _, ?_, Or.inr ?_⟩
      · intro k hk
        by_cases hk2 : k ≤ m
        · cases hx : Fp.lt (x k) (x (m + 1))
          · rfl
          · have := Fp_lt_trans _ _ _ hx c1
            rw [h3 k hk2] at this
            exact absurd this (by simp)
        · have : k = m + 1 := by omega
          subst this
          exact Fp_lt_irrefl _
      · rcases h4 with h4 | h4
        · rw [h1, h4] at c1
          exact c1
        · exact Fp_lt_trans _ _ _ c1 h4
    · rw [if_neg c]
      refine ⟨h1, by omega, ?_, h4⟩
      intro k hk
      by_cases hk2 : k ≤ m
      · exact h3 k hk2
      · have : k = m + 1 := by omega
        subst this
        have c1 : ¬ Fp.lt (x (m + 1)) st.2 = true := c
        simpa using c1

/-- For `min_index` on `ieee` with `n = 5`: the index is below 5, no entry of `x[0..4]` is below the
selected one, and the selected entry is `x[0]` (index 0) or below `x[0]`. -/
theorem min_index_spec (x : Nat → Fp) :
    min_index ieee x PATTERN_LENGTH < 5 ∧
    (∀ k, k < 5 → Fp.lt (x k) (x (min_index ieee x PATTERN_LENGTH)) = false) ∧
    (min_index ieee x PATTERN_LENGTH = 0 ∨
      Fp.lt (x (min_index ieee x PATTERN_LENGTH)) (x 0) = true) := by
  obtain ⟨h1, h2, h3, h4⟩ := min_index_loop_inv x 4
  have e : min_index ieee x PATTERN_LENGTH = (min_index_state ieee x 4).1 := rfl
  rw [e]
  refine ⟨by omega, fun k hk => ?_, ?_⟩
  · rw [← h1]; exact h3 k (by omega)
  · rw [← h1]; exact h4

theorem range_five : List.range PATTERN_LENGTH = [0, 1, 2, 3, 4] := by decide

theorem telecine_totals_eq {F : Type} (fp : FloatOps F) (st : TelecineState F) :
    telecine_totals fp st
      = (fp.add (fp.add (fp.add (fp.add (fp.add (fp.lit 0) (st.sequence_ssd_even 0))
            (st.sequence_ssd_even 1)) (st.sequence_ssd_even 2)) (st.sequence_ssd_even 3))
            (st.sequence_ssd_even 4),
         fp.add (fp.add (fp.add (fp.add (fp.add (fp.lit 0) (st.sequence_ssd_odd 0))
            (st.sequence_ssd_odd 1)) (st.sequence_ssd_odd 2)) (st.sequence_ssd_odd 3))
            (st.sequence_ssd_odd 4)) := by
  unfold telecine_totals
  rw [range_five]
  rfl

/-- Every entry of a normalised table is the entry of the table divided by the table's total. -/
theorem telecine_normalise_entry {F : Type} (fp : FloatOps F) (st : TelecineState F) (k : Nat)
    (hk : k < 5) :
    (telecine_normalise fp st).1 k = fp.div (st.sequence_ssd_even k) (telecine_totals fp st).1 ∧
    (telecine_normalise fp st).2 k = fp.div (st.sequence_ssd_odd k) (telecine_totals fp st).2 := by
  unfold telecine_normalise
  rw [range_five]
  simp only [List.foldl_cons, List.foldl_nil]
  interval_cases k <;> simp [upd]

theorem Fp_not_ge_iff_lt (x : Fp) (c : ℚ) (hx : x ≠ Fp.nan) :
    Fp.ge x (Fp.fin c) = false ↔ Fp.lt x (Fp.fin c) = true := by
  cases x <;> simp_all [Fp.ge, Fp.lt]

theorem telecine_stdout_cases {F : Type} (fp : FloatOps F) (res : res_t) (frames : List Buf) :
    (telecine_detector fp res frames).stdout
      = if fp.ge ((telecine_detector fp res frames).sequence_ssd_even
            (telecine_detector fp res frames).i) (fp.lit (1 / 10))
          || fp.ge ((telecine_detector fp res frames).sequence_ssd_odd
            (telecine_detector fp res frames).j) (fp.lit (1 / 10))
        then "Telecine IS NOT detected\n" else "Telecine detected\n" := rfl

/-- The verdict rule on numbers: when neither selected minimum is NaN, no entry of a normalised
table is below the entry selected by `min_index`, and `telecine_detector` prints
'Telecine detected' if and only if both selected minima are below 0.1; otherwise it prints
'Telecine IS NOT detected'. -/
theorem telecine_verdict (res : res_t) (frames : List Buf)
    (hE : (telecine_detector ieee res frames).sequence_ssd_even
      (telecine_detector ieee res frames).i ≠ Fp.nan)
    (hO : (telecine_detector ieee res frames).sequence_ssd_odd
      (telecine_detector ieee res frames).j ≠ Fp.nan) :
    (∀ k, k < 5 → Fp.lt ((telecine_detector ieee res frames).sequence_ssd_even k)
      ((telecine_detector ieee res frames).sequence_ssd_even
        (telecine_detector ieee res frames).i) = false) ∧
    (∀ k, k < 5 → Fp.lt ((telecine_detector ieee res frames).sequence_ssd_odd k)
      ((telecine_detector ieee res frames).sequence_ssd_odd
        (telecine_detector ieee res frames).j) = false) ∧
    ((telecine_detector ieee res frames).stdout = "Telecine detected\n" ↔
      (Fp.lt ((telecine_detector ieee res frames).sequence_ssd_even
          (telecine_detector ieee res frames).i) (Fp.fin (1 / 10)) = true ∧
       Fp.lt ((telecine_detector ieee res frames).sequence_ssd_odd
          (telecine_detector ieee res frames).j) (Fp.fin (1 / 10)) = true)) ∧
    ((telecine_detector ieee res frames).stdout ≠ "Telecine detected\n" →
      (telecine_detector ieee res frames).stdout = "Telecine IS NOT detected\n") := by
  refine ⟨(min_index_spec _).2.1, (min_index_spec _).2.1, ?_, ?_⟩
  · rw [telecine_stdout_cases, ← Fp_not_ge_iff_lt _ _ hE, ← Fp_not_ge_iff_lt _ _ hO]
    show (if Fp.ge _ (Fp.fin (1 / 10)) || Fp.ge _ (Fp.fin (1 / 10)) then _ else _) = _ ↔ _
    cases Fp.ge ((telecine_detector ieee res frames).sequence_ssd_even
        (telecine_detector ieee res frames).i) (Fp.fin (1 / 10)) <;>
      cases Fp.ge ((telecine_detector ieee res frames).sequence_ssd_odd
        (telecine_detector ieee res frames).j) (Fp.fin (1 / 10)) <;> simp
  · rw [telecine_stdout_cases]
    split <;> simp

/-- The verdict rule at a stream of 11 frames whose tables are numbers. -/
theorem telecine_verdict_example :
    (telecine_detector ieee ⟨1, 2⟩ exStream11).stdout = "Telecine detected\n" ↔
      (Fp.lt ((telecine_detector ieee ⟨1, 2⟩ exStream11).sequence_ssd_even
          (telecine_detector ieee ⟨1, 2⟩ exStream11).i) (Fp.fin (1 / 10)) = true ∧
       Fp.lt ((telecine_detector ieee ⟨1, 2⟩ exStream11).sequence_ssd_odd
          (telecine_detector ieee ⟨1, 2⟩ exStream11).j) (Fp.fin (1 / 10)) = true) :=
  (telecine_verdict ⟨1, 2⟩ exStream11 (by decide!) (by decide!)).2.2.1

/-- C8 (evaluation at the failing input): for a stream of two identical frames both totals are
zero and the normalised tables are NaN throughout; 'Telecine detected' is printed although
neither selected minimum is below 0.1. -/
theorem telecine_verdict_nan :
    (telecine_detector ieee ⟨1, 2⟩ [exF1, exF1]).stdout = "Telecine detected\n" ∧
    ¬ (Fp.lt ((telecine_detector ieee ⟨1, 2⟩ [exF1, exF1]).sequence_ssd_even
          (telecine_detector ieee ⟨1, 2⟩ [exF1, exF1]).i) (Fp.fin (1 / 10)) = true ∧
       Fp.lt ((telecine_detector ieee ⟨1, 2⟩ [exF1, exF1]).sequence_ssd_odd
          (telecine_detector ieee ⟨1, 2⟩ [exF1, exF1]).j) (Fp.fin (1 / 10)) = true) := by
  decide!


/-- Phase 0 receives no pair while fewer than 6 frames were read. -/
theorem phase_sum_zero_short {F : Type} (fp : FloatOps F) (v : Nat → F) (N : Nat) (hN : N < 6) :
    phase_sum fp v N 0 = fp.ofInt 0 := by
  interval_cases N <;> rfl

theorem Fp_div_zero_left (t : Fp) : Fp.div (Fp.fin 0) t = Fp.fin 0 ∨ Fp.div (Fp.fin 0) t = Fp.nan := by
  cases t with
  | fin b =>
    by_cases hb : b = 0
    · right; simp [Fp.div, hb]
    · left; simp [Fp.div, hb]
  | pinf => left; rfl
  | ninf => left; rfl
  | nan => right; rfl

/-- A value that is zero or NaN, or is below such a value, is not `>= 0.1`. -/
theorem Fp_ge_tenth_false (v x0 : Fp) (h0 : x0 = Fp.fin 0 ∨ x0 = Fp.nan)
    (hv : v = x0 ∨ Fp.lt v x0 = true) : Fp.ge v (Fp.fin (1 / 10)) = false := by
  rcases h0 with h0 | h0 <;> subst h0
  · rcases hv with hv | hv
    · subst hv
      simp [Fp.ge]
    · cases v with
      | fin q =>
        simp only [Fp.lt, decide_eq_true_eq] at hv
        simp only [Fp.ge, decide_eq_false_iff_not, not_le]
        linarith
      | pinf => simp [Fp.lt] at hv
      | ninf => rfl
      | nan => rfl
  · rcases hv with hv | hv
    · subst hv; rfl
    · cases v <;> simp [Fp.lt] at hv

/-- With fewer than 6 frames the entry selected by `min_index` in either normalised table is
not `>= 0.1`: entry 0 is `0 / total`, which is 0 or NaN. -/
theorem telecine_short_min (res : res_t) (frames : List Buf) (hN : frames.length < 6) :
    Fp.ge ((telecine_detector ieee res frames).sequence_ssd_even
      (telecine_detector ieee res frames).i) (Fp.fin (1 / 10)) = false ∧
    Fp.ge ((telecine_detector ieee res frames).sequence_ssd_odd
      (telecine_detector ieee res frames).j) (Fp.fin (1 / 10)) = false := by
  have inv := telecine_main_loop_inv ieee res frames
  have he0 := inv.2.2.1 0
  have ho0 := inv.2.2.2 0
  rw [phase_sum_zero_short _ _ _ hN] at he0 ho0
  have hn := telecine_normalise_entry ieee (telecine_main_loop ieee res frames) 0 (by omega)
  rw [he0, ho0] at hn
  constructor
  · apply Fp_ge_tenth_false _ ((telecine_normalise ieee (telecine_main_loop ieee res frames)).1 0)
    · rw [hn.1]; exact Fp_div_zero_left _
    · rcases (min_index_spec (telecine_normalise ieee (telecine_main_loop ieee res frames)).1).2.2
        with h | h
      · left
        show (telecine_normalise ieee (telecine_main_loop ieee res frames)).1
          (min_index ieee (telecine_normalise ieee (telecine_main_loop ieee res frames)).1
            PATTERN_LENGTH) = _
        rw [h]
      · right; exact h
  · apply Fp_ge_tenth_false _ ((telecine_normalise ieee (telecine_main_loop ieee res frames)).2 0)
    · rw [hn.2]; exact Fp_div_zero_left _
    · rcases (min_index_spec (telecine_normalise ieee (telecine_main_loop ieee res frames)).2).2.2
        with h | h
      · left
        show (telecine_normalise ieee (telecine_main_loop ieee res frames)).2
          (min_index ieee (telecine_normalise ieee (telecine_main_loop ieee res frames)).2
            PATTERN_LENGTH) = _
        rw [h]
      · right; exact h

/-- A number that is the first entry, or below the first entry, of a table whose first entry
is zero or NaN is not above 0. -/
theorem Fp_selected_le_zero (v x0 : Fp) (h0 : x0 = Fp.fin 0 ∨ x0 = Fp.nan)
    (hv : v = x0 ∨ Fp.lt v x0 = true) (a : ℚ) (ha : v = Fp.fin a) : a ≤ 0 := by
  subst ha
  rcases h0 with h0 | h0 <;> subst h0
  · rcases hv with hv | hv
    · exact le_of_eq (Fp.fin.inj hv)
    · simp only [Fp.lt, decide_eq_true_eq] at hv
      exact le_of_lt hv
  · rcases hv with hv | hv
    · exact absurd hv (by simp)
    · simp [Fp.lt] at hv

/-- C9 (amended): for every stream of fewer than 6 frames `telecine_detector` has no
indeterminate outcome: it prints one of the two verdicts. Phase 0 has received no pair, so
entry 0 of both tables is still the initial zero after the main loop; whenever the two minima
selected by `min_index` are numbers, neither is above 0 and the verdict printed is
'Telecine detected'. -/
theorem telecine_short_stream {F : Type} (fp : FloatOps F) (res : res_t) (frames : List Buf)
    (hN : frames.length < 6) :
    ((telecine_detector fp res frames).stdout = "Telecine detected\n" ∨
      (telecine_detector fp res frames).stdout = "Telecine IS NOT detected\n") ∧
    (telecine_main_loop fp res frames).sequence_ssd_even 0 = fp.ofInt 0 ∧
    (telecine_main_loop fp res frames).sequence_ssd_odd 0 = fp.ofInt 0 ∧
    (∀ a b : ℚ,
      (telecine_detector ieee res frames).sequence_ssd_even
        (telecine_detector ieee res frames).i = Fp.fin a →
      (telecine_detector ieee res frames).sequence_ssd_odd
        (telecine_detector ieee res frames).j = Fp.fin b →
      a ≤ 0 ∧ b ≤ 0 ∧ (telecine_detector ieee res frames).stdout = "Telecine detected\n") := by
  refine ⟨?_, ?_, ?_, ?_⟩
  · rw [telecine_stdout_cases]
    split_ifs
    · exact Or.inr rfl
    · exact Or.inl rfl
  · rw [(telecine_main_loop_inv fp res frames).2.2.1 0, phase_sum_zero_short _ _ _ hN]
  · rw [(telecine_main_loop_inv fp res frames).2.2.2 0, phase_sum_zero_short _ _ _ hN]
  · intro a b ha hb
    have inv := telecine_main_loop_inv ieee res frames
    have he0 := inv.2.2.1 0
    have ho0 := inv.2.2.2 0
    rw [phase_sum_zero_short _ _ _ hN] at he0 ho0
    have hn := telecine_normalise_entry ieee (telecine_main_loop ieee res frames) 0 (by omega)
    rw [he0, ho0] at hn
    refine ⟨?_, ?_, ?_⟩
    · apply Fp_selected_le_zero _
        ((telecine_normalise ieee (telecine_main_loop ieee res frames)).1 0) _ _ a ha
      · rw [hn.1]; exact Fp_div_zero_left _
      · rcases (min_index_spec
          (telecine_normalise ieee (telecine_main_loop ieee res frames)).1).2.2 with h | h
        · left
          show (telecine_normalise ieee (telecine_main_loop ieee res frames)).1
            (min_index ieee (telecine_normalise ieee (telecine_main_loop ieee res frames)).1
              PATTERN_LENGTH) = _
          rw [h]
        · right; exact h
    · apply Fp_selected_le_zero _
        ((telecine_normalise ieee (telecine_main_loop ieee res frames)).2 0) _ _ b hb
      · rw [hn.2]; exact Fp_div_zero_left _
      · rcases (min_index_spec
          (telecine_normalise ieee (telecine_main_loop ieee res frames)).2).2.2 with h | h
        · left
          show (telecine_normalise ieee (telecine_main_loop ieee res frames)).2
            (min_index ieee (telecine_normalise ieee (telecine_main_loop ieee res frames)).2
              PATTERN_LENGTH) = _
          rw [h]
        · right; exact h
    · have h := telecine_short_min res frames hN
      rw [telecine_stdout_cases]
      show (if Fp.ge _ (Fp.fin (1 / 10)) || Fp.ge _ (Fp.fin (1 / 10)) then _ else _) = _
      rw [h.1, h.2]
      rfl

theorem telecine_short_stream_witness :
    [exF0, exF1, exF2, exF3].length < 6 ∧
    (telecine_detector ieee ⟨1, 2⟩ [exF0, exF1, exF2, exF3]).sequence_ssd_even
      (telecine_detector ieee ⟨1, 2⟩ [exF0, exF1, exF2, exF3]).i = Fp.fin 0 ∧
    (telecine_detector ieee ⟨1, 2⟩ [exF0, exF1, exF2, exF3]).sequence_ssd_odd
      (telecine_detector ieee ⟨1, 2⟩ [exF0, exF1, exF2, exF3]).j = Fp.fin 0 ∧
    (0 : ℚ) ≤ 0 ∧ (0 : ℚ) ≤ 0 ∧
    (telecine_detector ieee ⟨1, 2⟩ [exF0, exF1, exF2, exF3]).stdout = "Telecine detected\n" :=
  ⟨by decide, by decide!, by decide!,
    (telecine_short_stream ieee ⟨1, 2⟩ [exF0, exF1, exF2, exF3] (by decide)).2.2.2 0 0
      (by decide!) (by decide!)⟩

/-- C9 (counterexample): a stream of exactly 3 frames is given the verdict 'Telecine detected';
the result is not indeterminate. -/
theorem telecine_three_frames :
    [exF0, exF1, exF2].length = 3 ∧
    ¬ ((telecine_detector ieee ⟨1, 2⟩ [exF0, exF1, exF2]).stdout ≠ "Telecine detected\n" ∧
       (telecine_detector ieee ⟨1, 2⟩ [exF0, exF1, exF2]).stdout ≠ "Telecine IS NOT detected\n") := by
  decide!

theorem sumTo_pos (n : Nat) (f : Nat → Int) (h : ∀ i, i < n → 0 ≤ f i) (i0 : Nat) (hi : i0 < n)
    (hp : 0 < f i0) : 0 < sumTo n f := by
  induction n with
  | zero => omega
  | succ n ih =>
    simp only [sumTo]
    have hn := h n (by omega)
    by_cases c : i0 < n
    · have := ih (fun i hi => h i (by omega)) c
      omega
    · have e : i0 = n := by omega
      subst e
      have := sumTo_nonneg i0 f (fun i hi => h i (by omega))
      omega

theorem sumTo_zero (n : Nat) (f : Nat → Int) (h : ∀ i, i < n → f i = 0) : sumTo n f = 0 := by
  induction n with
  | zero => rfl
  | succ n ih =>
    simp only [sumTo]
    rw [ih (fun i hi => h i (by omega)), h n (by omega)]
    rfl

/-- Identical frames have zero field sums. -/
theorem ssd_field_sum_self (o : Nat) (a : Buf) (w h : Int) : ssd_field_sum o a a w h = 0 := by
  apply sumTo_zero
  intro i _
  split
  · apply sumTo_zero
    intro j _
    simp
  · rfl

/-- Frames that differ on a row of the field have a positive field sum. -/
theorem ssd_field_sum_pos (o : Nat) (cur prev : Buf) (w h : Int)
    (hd : differ_on_rows o cur prev w h) : 0 < ssd_field_sum o cur prev w h := by
  obtain ⟨i, j, hi, hj, ho, hne⟩ := hd
  unfold ssd_field_sum
  apply sumTo_pos _ _ _ i (by omega)
  · simp only [ho, if_true]
    apply sumTo_pos _ _ (fun _ _ => sq_nonneg _) j (by omega)
    have hne2 : px prev (i * w + j) - px cur (i * w + j) ≠ 0 := by
      intro c
      apply hne
      unfold px at c
      have : ((prev (i * w + j)).val : Int) = ((cur (i * w + j)).val : Int) := by omega
      exact (Fin.ext (by exact_mod_cast this)).symm
    positivity
  · intro i _
    split
    · exact sumTo_nonneg _ _ (fun _ _ => sq_nonneg _)
    · exact le_refl 0

/-- The function `min_index` returns 0 on a table whose entry 0 is zero and whose entries are non-negative
numbers. -/
theorem min_index_zero (x : Nat → Fp) (h0 : x 0 = Fp.fin 0)
    (hx : ∀ m, m < 5 → ∃ q : ℚ, x m = Fp.fin q ∧ 0 ≤ q) : min_index ieee x PATTERN_LENGTH = 0 := by
  obtain ⟨h1, _, h3⟩ := min_index_spec x
  rcases h3 with h3 | h3
  · exact h3
  · obtain ⟨q, hq, hq0⟩ := hx _ h1
    rw [hq, h0] at h3
    simp only [Fp.lt, decide_eq_true_eq] at h3
    linarith

/-- Normalisation of tables of finite entries with non-zero totals. -/
theorem telecine_normalise_fin (st : TelecineState Fp) (a b : Nat → ℚ)
    (ha : ∀ m, m < 5 → st.sequence_ssd_even m = Fp.fin (a m))
    (hb : ∀ m, m < 5 → st.sequence_ssd_odd m = Fp.fin (b m))
    (hTa : a 0 + a 1 + a 2 + a 3 + a 4 ≠ 0) (hTb : b 0 + b 1 + b 2 + b 3 + b 4 ≠ 0)
    (m : Nat) (hm : m < 5) :
    (telecine_normalise ieee st).1 m = Fp.fin (a m / (a 0 + a 1 + a 2 + a 3 + a 4)) ∧
    (telecine_normalise ieee st).2 m = Fp.fin (b m / (b 0 + b 1 + b 2 + b 3 + b 4)) := by
  have hn := telecine_normalise_entry ieee st m hm
  rw [telecine_totals_eq, ha 0 (by omega), ha 1 (by omega), ha 2 (by omega), ha 3 (by omega),
    ha 4 (by omega), hb 0 (by omega), hb 1 (by omega), hb 2 (by omega), hb 3 (by omega),
    hb 4 (by omega), ha m hm, hb m hm] at hn
  rw [hn.1, hn.2]
  simp only [ieee, Fp.add, Fp.div, zero_add, if_neg hTa, if_neg hTb]
  exact ⟨trivial, trivial⟩


/-- The tables after the main loop over exactly five frames: phase 0 is untouched and phase
`m` holds the energy of the pair `(f_(m-1), f_m)`. -/
theorem telecine_loop_five {F : Type} (fp : FloatOps F) (res : res_t) (f0 f1 f2 f3 f4 : Buf)
    (m : Nat) (hm : m < 5) :
    (telecine_main_loop fp res [f0, f1, f2, f3, f4]).sequence_ssd_even m
      = (if m = 0 then fp.ofInt 0 else fp.add (fp.ofInt 0)
          (compute_ssd fp (frame_at [f0, f1, f2, f3, f4] m)
            (frame_at [f0, f1, f2, f3, f4] (m - 1)) res).1) ∧
    (telecine_main_loop fp res [f0, f1, f2, f3, f4]).sequence_ssd_odd m
      = (if m = 0 then fp.ofInt 0 else fp.add (fp.ofInt 0)
          (compute_ssd fp (frame_at [f0, f1, f2, f3, f4] m)
            (frame_at [f0, f1, f2, f3, f4] (m - 1)) res).2) := by
  obtain ⟨_, _, he, ho⟩ := telecine_main_loop_inv fp res [f0, f1, f2, f3, f4]
  rw [he m, ho m]
  interval_cases m <;> exact ⟨rfl, rfl⟩

/-- The energy of a pair on `ieee`: a non-negative number, zero for identical frames and
positive for frames that differ on the field. -/
theorem compute_ssd_fin (cur prev : Buf) (width height : Int) (hwh : 2 ≤ width * height)
    (hSe : ssd_field_sum 0 cur prev width height < 2147483648)
    (hSo : ssd_field_sum 1 cur prev width height < 2147483648) :
    ∃ a b : ℚ, compute_ssd ieee cur prev ⟨width, height⟩ = (Fp.fin a, Fp.fin b) ∧ 0 ≤ a ∧ 0 ≤ b ∧
      (cur = prev → a = 0 ∧ b = 0) ∧
      (differ_on_rows 0 cur prev width height → 0 < a) ∧
      (differ_on_rows 1 cur prev width height → 0 < b) := by
  have hd : (1 : Int) ≤ width * height / 2 := by
    generalize width * height = wh at *
    omega
  have hdq : (0 : ℚ) < ((width * height / 2 : Int) : ℚ) := by exact_mod_cast hd
  have hEn := ssd_field_sum_nonneg 0 cur prev width height
  have hOn := ssd_field_sum_nonneg 1 cur prev width height
  refine ⟨(ssd_field_sum 0 cur prev width height : ℚ) / ((width * height / 2 : Int) : ℚ),
    (ssd_field_sum 1 cur prev width height : ℚ) / ((width * height / 2 : Int) : ℚ), ?_, ?_, ?_, ?_,
    ?_, ?_⟩
  · rw [compute_ssd_wrap]
    show (ieee.div (ieee.ofInt (wrap32 (ssd_field_sum 0 cur prev width height)))
      (ieee.ofInt (Int.tdiv (width * height) 2)), ieee.div (ieee.ofInt (wrap32
      (ssd_field_sum 1 cur prev width height))) (ieee.ofInt (Int.tdiv (width * height) 2))) = _
    rw [wrap32_of_lt _ hEn hSe, wrap32_of_lt _ hOn hSo, Int.tdiv_eq_ediv (by omega) (by omega)]
    simp only [ieee, Fp.div, if_neg (ne_of_gt hdq)]
  · exact div_nonneg (by exact_mod_cast hEn) (le_of_lt hdq)
  · exact div_nonneg (by exact_mod_cast hOn) (le_of_lt hdq)
  · intro e
    subst e
    rw [ssd_field_sum_self, ssd_field_sum_self]
    simp
  · intro hdf
    have := ssd_field_sum_pos 0 cur prev width height hdf
    exact div_pos (by exact_mod_cast this) hdq
  · intro hdf
    have := ssd_field_sum_pos 1 cur prev width height hdf
    exact div_pos (by exact_mod_cast this) hdq

/-- C10 (amended): a 5-frame stream in which frame `k` (1 <= k <= 4) duplicates frame `k-1` and
every other pair of successive frames differs in both its even and its odd rows (sums within
`int` range) gets the verdict 'Telecine detected'; the entry of phase `k` is 0 in both
normalised tables and no entry is smaller, but so is the entry of phase 0, which no pair of a
5-frame stream reaches, and `min_index` returns 0 for both tables. -/
theorem telecine_five_frames (width height : Int) (f0 f1 f2 f3 f4 : Buf) (k : Nat)
    (hk1 : 1 ≤ k) (hk4 : k ≤ 4) (hwh : 2 ≤ width * height)
    (hdup : frame_at [f0, f1, f2, f3, f4] k = frame_at [f0, f1, f2, f3, f4] (k - 1))
    (hdiff : ∀ m ∈ [1, 2, 3, 4], m ≠ k →
      differ_on_rows 0 (frame_at [f0, f1, f2, f3, f4] m) (frame_at [f0, f1, f2, f3, f4] (m - 1))
        width height ∧
      differ_on_rows 1 (frame_at [f0, f1, f2, f3, f4] m) (frame_at [f0, f1, f2, f3, f4] (m - 1))
        width height)
    (hrange : ∀ m ∈ [1, 2, 3, 4],
      ssd_field_sum 0 (frame_at [f0, f1, f2, f3, f4] m) (frame_at [f0, f1, f2, f3, f4] (m - 1))
        width height < 2147483648 ∧
      ssd_field_sum 1 (frame_at [f0, f1, f2, f3, f4] m) (frame_at [f0, f1, f2, f3, f4] (m - 1))
        width height < 2147483648) :
    (telecine_detector ieee ⟨width, height⟩ [f0, f1, f2, f3, f4]).stdout = "Telecine detected\n" ∧
    (telecine_detector ieee ⟨width, height⟩ [f0, f1, f2, f3, f4]).i = 0 ∧
    (telecine_detector ieee ⟨width, height⟩ [f0, f1, f2, f3, f4]).j = 0 ∧
    (telecine_detector ieee ⟨width, height⟩ [f0, f1, f2, f3, f4]).sequence_ssd_even k = Fp.fin 0 ∧
    (telecine_detector ieee ⟨width, height⟩ [f0, f1, f2, f3, f4]).sequence_ssd_odd k = Fp.fin 0 ∧
    (∀ m, m < 5 →
      Fp.lt ((telecine_detector ieee ⟨width, height⟩ [f0, f1, f2, f3, f4]).sequence_ssd_even m)
        (Fp.fin 0) = false ∧
      Fp.lt ((telecine_detector ieee ⟨width, height⟩ [f0, f1, f2, f3, f4]).sequence_ssd_odd m)
        (Fp.fin 0) = false) := by
  have hc : ∀ m ∈ [1, 2, 3, 4], ∃ a b : ℚ,
      compute_ssd ieee (frame_at [f0, f1, f2, f3, f4] m) (frame_at [f0, f1, f2, f3, f4] (m - 1))
        ⟨width, height⟩ = (Fp.fin a, Fp.fin b) ∧ 0 ≤ a ∧ 0 ≤ b ∧
      (m = k → a = 0 ∧ b = 0) ∧ (m ≠ k → 0 < a ∧ 0 < b) := by
    intro m hm
    obtain ⟨a, b, h1, h2, h3, h4, h5, h6⟩ := compute_ssd_fin (frame_at [f0, f1, f2, f3, f4] m)
      (frame_at [f0, f1, f2, f3, f4] (m - 1)) width height hwh (hrange m hm).1 (hrange m hm).2
    refine ⟨a, b, h1, h2, h3, fun e => h4 (by rw [e]; exact hdup), fun e => ?_⟩
    exact ⟨h5 (hdiff m hm e).1, h6 (hdiff m hm e).2⟩
  obtain ⟨a1, b1, c1, pa1, pb1, z1, q1⟩ := hc 1 (by decide)
  obtain ⟨a2, b2, c2, pa2, pb2, z2, q2⟩ := hc 2 (by decide)
  obtain ⟨a3, b3, c3, pa3, pb3, z3, q3⟩ := hc 3 (by decide)
  obtain ⟨a4, b4, c4, pa4, pb4, z4, q4⟩ := hc 4 (by decide)
  let a : Nat → ℚ := fun m =>
    if m = 1 then a1 else if m = 2 then a2 else if m = 3 then a3 else if m = 4 then a4 else 0
  let b : Nat → ℚ := fun m =>
    if m = 1 then b1 else if m = 2 then b2 else if m = 3 then b3 else if m = 4 then b4 else 0
  have hst : ∀ m, m < 5 →
      (telecine_main_loop ieee ⟨width, height⟩ [f0, f1, f2, f3, f4]).sequence_ssd_even m
        = Fp.fin (a m) ∧
      (telecine_main_loop ieee ⟨width, height⟩ [f0, f1, f2, f3, f4]).sequence_ssd_odd m
        = Fp.fin (b m) := by
    intro m hm
    have h := telecine_loop_five ieee ⟨width, height⟩ f0 f1 f2 f3 f4 m hm
    rw [h.1, h.2]
    interval_cases m
    · simp [ieee, a, b]
    · rw [c1]; simp [ieee, Fp.add, a, b]
    · rw [c2]; simp [ieee, Fp.add, a, b]
    · rw [c3]; simp [ieee, Fp.add, a, b]
    · rw [c4]; simp [ieee, Fp.add, a, b]
  have ha0 : ∀ m, 0 ≤ a m := by
    intro m
    simp only [a]
    split_ifs <;> first | assumption | exact le_refl 0
  have hb0 : ∀ m, 0 ≤ b m := by
    intro m
    simp only [b]
    split_ifs <;> first | assumption | exact le_refl 0
  have hak : a k = 0 ∧ b k = 0 := by
    have hk : k = 1 ∨ k = 2 ∨ k = 3 ∨ k = 4 := by omega
    rcases hk with e | e | e | e <;> subst e
    · exact ⟨by simp [a, (z1 rfl).1], by simp [b, (z1 rfl).2]⟩
    · exact ⟨by simp [a, (z2 rfl).1], by simp [b, (z2 rfl).2]⟩
    · exact ⟨by simp [a, (z3 rfl).1], by simp [b, (z3 rfl).2]⟩
    · exact ⟨by simp [a, (z4 rfl).1], by simp [b, (z4 rfl).2]⟩
  have hT : 0 < a 0 + a 1 + a 2 + a 3 + a 4 ∧ 0 < b 0 + b 1 + b 2 + b 3 + b 4 := by
    have e0 : a 0 = 0 := by simp [a]
    have e1 : a 1 = a1 := by simp [a]
    have e2 : a 2 = a2 := by simp [a]
    have e3 : a 3 = a3 := by simp [a]
    have e4 : a 4 = a4 := by simp [a]
    have g0 : b 0 = 0 := by simp [b]
    have g1 : b 1 = b1 := by simp [b]
    have g2 : b 2 = b2 := by simp [b]
    have g3 : b 3 = b3 := by simp [b]
    have g4 : b 4 = b4 := by simp [b]
    rw [e0, e1, e2, e3, e4, g0, g1, g2, g3, g4]
    by_cases e : k = 1
    · have := q2 (by omega)
      constructor <;> linarith [this.1, this.2]
    · have := q1 (fun c => e c.symm)
      constructor <;> linarith [this.1, this.2]
  have hn := telecine_normalise_fin (telecine_main_loop ieee ⟨width, height⟩ [f0, f1, f2, f3, f4])
    a b (fun m hm => (hst m hm).1) (fun m hm => (hst m hm).2) (ne_of_gt hT.1) (ne_of_gt hT.2)
  have hx1 : ∀ m, m < 5 → ∃ q : ℚ,
      (telecine_normalise ieee (telecine_main_loop ieee ⟨width, height⟩ [f0, f1, f2, f3, f4])).1 m
        = Fp.fin q ∧ 0 ≤ q :=
    fun m hm => ⟨_, (hn m hm).1, div_nonneg (ha0 m) (le_of_lt hT.1)⟩
  have hx2 : ∀ m, m < 5 → ∃ q : ℚ,
      (telecine_normalise ieee (telecine_main_loop ieee ⟨width, height⟩ [f0, f1, f2, f3, f4])).2 m
        = Fp.fin q ∧ 0 ≤ q :=
    fun m hm => ⟨_, (hn m hm).2, div_nonneg (hb0 m) (le_of_lt hT.2)⟩
  have hz1 : (telecine_normalise ieee
      (telecine_main_loop ieee ⟨width, height⟩ [f0, f1, f2, f3, f4])).1 0 = Fp.fin 0 := by
    rw [(hn 0 (by omega)).1]; simp [a]
  have hz2 : (telecine_normalise ieee
      (telecine_main_loop ieee ⟨width, height⟩ [f0, f1, f2, f3, f4])).2 0 = Fp.fin 0 := by
    rw [(hn 0 (by omega)).2]; simp [b]
  have hi : (telecine_detector ieee ⟨width, height⟩ [f0, f1, f2, f3, f4]).i = 0 :=
    min_index_zero _ hz1 hx1
  have hj : (telecine_detector ieee ⟨width, height⟩ [f0, f1, f2, f3, f4]).j = 0 :=
    min_index_zero _ hz2 hx2
  refine ⟨?_, hi, hj, ?_, ?_, ?_⟩
  · rw [telecine_stdout_cases, hi, hj]
    show (if Fp.ge ((telecine_normalise ieee (telecine_main_loop ieee ⟨width, height⟩
      [f0, f1, f2, f3, f4])).1 0) (Fp.fin (1 / 10)) || Fp.ge ((telecine_normalise ieee
      (telecine_main_loop ieee ⟨width, height⟩ [f0, f1, f2, f3, f4])).2 0) (Fp.fin (1 / 10))
      then _ else _) = _
    rw [hz1, hz2]
    simp [Fp.ge]
  · show (telecine_normalise ieee (telecine_main_loop ieee ⟨width, height⟩
      [f0, f1, f2, f3, f4])).1 k = _
    rw [(hn k (by omega)).1, hak.1]; simp
  · show (telecine_normalise ieee (telecine_main_loop ieee ⟨width, height⟩
      [f0, f1, f2, f3, f4])).2 k = _
    rw [(hn k (by omega)).2, hak.2]; simp
  · intro m hm
    obtain ⟨q1, hq1, hq1n⟩ := hx1 m hm
    obtain ⟨q2, hq2, hq2n⟩ := hx2 m hm
    constructor
    · show Fp.lt ((telecine_normalise ieee (telecine_main_loop ieee ⟨width, height⟩
        [f0, f1, f2, f3, f4])).1 m) _ = _
      rw [hq1]; simp [Fp.lt, hq1n]
    · show Fp.lt ((telecine_normalise ieee (telecine_main_loop ieee ⟨width, height⟩
        [f0, f1, f2, f3, f4])).2 m) _ = _
      rw [hq2]; simp [Fp.lt, hq2n]

theorem telecine_five_frames_witness :
    (telecine_detector ieee ⟨1, 2⟩ exStream5).stdout = "Telecine detected\n" ∧
    (telecine_detector ieee ⟨1, 2⟩ exStream5).i = 0 ∧
    (telecine_detector ieee ⟨1, 2⟩ exStream5).j = 0 ∧
    (telecine_detector ieee ⟨1, 2⟩ exStream5).sequence_ssd_even 3 = Fp.fin 0 ∧
    (telecine_detector ieee ⟨1, 2⟩ exStream5).sequence_ssd_odd 3 = Fp.fin 0 ∧
    (∀ m, m < 5 →
      Fp.lt ((telecine_detector ieee ⟨1, 2⟩ exStream5).sequence_ssd_even m) (Fp.fin 0) = false ∧
      Fp.lt ((telecine_detector ieee ⟨1, 2⟩ exStream5).sequence_ssd_odd m) (Fp.fin 0) = false) :=
  telecine_five_frames 1 2 exF0 exF1 exF2 exF2 exF3 3 (by decide) (by decide) (by decide) rfl
    (fun m hm hne => by
      simp only [List.mem_cons, List.mem_singleton, List.not_mem_nil, or_false] at hm
      rcases hm with e | e | e | e <;> subst e
      · exact ⟨⟨0, 0, by decide, by decide, rfl, by decide⟩, ⟨1, 0, by decide, by decide, rfl, by decide⟩⟩
      · exact ⟨⟨0, 0, by decide, by decide, rfl, by decide⟩, ⟨1, 0, by decide, by decide, rfl, by decide⟩⟩
      · exact absurd rfl hne
      · exact ⟨⟨0, 0, by decide, by decide, rfl, by decide⟩, ⟨1, 0, by decide, by decide, rfl, by decide⟩⟩)
    (by decide)

/-- C10 (counterexample): in the 5-frame stream `exStream5` frame 3 duplicates frame 2 and the
other successive frames differ in both rows, yet the minimal-energy phase index found for either
table is 0, not the duplication offset 3. -/
theorem telecine_five_frames_index :
    frame_at exStream5 3 = frame_at exStream5 (3 - 1) ∧
    (∀ m ∈ [1, 2, 4],
      differ_on_rows 0 (frame_at exStream5 m) (frame_at exStream5 (m - 1)) 1 2 ∧
      differ_on_rows 1 (frame_at exStream5 m) (frame_at exStream5 (m - 1)) 1 2) ∧
    (telecine_detector ieee ⟨1, 2⟩ exStream5).i = 0 ∧
    (telecine_detector ieee ⟨1, 2⟩ exStream5).j = 0 ∧
    ¬ ((telecine_detector ieee ⟨1, 2⟩ exStream5).i = 3 ∧
       (telecine_detector ieee ⟨1, 2⟩ exStream5).j = 3 ∧
       (telecine_detector ieee ⟨1, 2⟩ exStream5).stdout = "Telecine detected\n") := by
  refine ⟨rfl, ?_, by decide!, by decide!, by decide!⟩
  intro m hm
  simp only [List.mem_cons, List.mem_singleton, List.not_mem_nil, or_false] at hm
  rcases hm with e | e | e <;> subst e <;>
    exact ⟨⟨0, 0, by decide, by decide, rfl, by decide⟩, ⟨1, 0, by decide, by decide, rfl, by decide⟩⟩

/-! ## The interlace detector -/

theorem window_cell_j {F : Type} (frame : Buf) (res : res_t) (i m : Nat) (s : InterlaceState F) :
    (window_cell frame res i m s).j = s.j + 1 := by
  unfold window_cell
  by_cases h : m % 2 = 1 <;> simp [h]

/-- The `do ... while` loop leaves by its own test within `WINSIZE_WIDTH` iterations: once the
bound covers the columns left below `WINSIZE_WIDTH`, a larger bound gives the same state. -/
theorem window_row_fuel {F : Type} (frame : Buf) (res : res_t) (i m : Nat) (fuel : Nat)
    (s : InterlaceState F) (h1 : 1 ≤ fuel) (h2 : WINSIZE_WIDTH - s.j ≤ fuel) :
    window_row frame res i m (fuel + 1) s = window_row frame res i m fuel s := by
  induction fuel generalizing s with
  | zero => omega
  | succ f ih =>
    have e1 : window_row frame res i m (f + 1 + 1) s
        = if (window_cell frame res i m s).j < WINSIZE_WIDTH
          then window_row frame res i m (f + 1) (window_cell frame res i m s)
          else window_cell frame res i m s := rfl
    have e2 : window_row frame res i m (f + 1) s
        = if (window_cell frame res i m s).j < WINSIZE_WIDTH
          then window_row frame res i m f (window_cell frame res i m s)
          else window_cell frame res i m s := rfl
    rw [e1, e2]
    by_cases c : (window_cell frame res i m s).j < WINSIZE_WIDTH
    · rw [if_pos c, if_pos c]
      have hj := window_cell_j frame res i m s
      have hw : WINSIZE_WIDTH = 10 := rfl
      apply ih
      · omega
      · omega
    · rw [if_neg c, if_neg c]

/-- C5 (evaluation at the failing input): on the 21x22 frame `exFrame21` four samples are
emitted. At row offset 0, step 1 (columns 1..10) the running `energe_odd` is 6 and the field
difference `4 / 6`, while the window recomputed from scratch has odd energy 4 and field
difference `4 / 4`: leaving the window, `pcf_odd[0][0] = 2` was subtracted instead of its
square. -/
theorem interlace_field_diff_differs :
    (interlace_scan ieee exFrame21 ⟨21, 22⟩).map (fun s => s.samples.map (fun x =>
        (x.i, x.step, x.delta, x.energe_even, x.energe_odd)))
      = some [(0, 0, 8, 0, 8), (0, 1, 4, 0, 6), (1, 0, 8, 8, 0), (1, 1, 4, 4, 0)] ∧
    (interlace_scan ieee exFrame21 ⟨21, 22⟩).map (fun s => s.samples.map (fun x => x.field_diff))
      = some [Fp.fin 1, Fp.fin (2 / 3), Fp.fin 1, Fp.fin 1] ∧
    window_delta exFrame21 21 0 1 = 4 ∧ window_energy_even exFrame21 21 0 1 = 0 ∧
    window_energy_odd exFrame21 21 0 1 = 4 ∧
    ieee.div (ieee.ofInt (window_delta exFrame21 21 0 1))
      (ieee.ofInt (window_energy_even exFrame21 21 0 1 + window_energy_odd exFrame21 21 0 1))
      = Fp.fin 1 := by
  decide!

/-! ### The histogram of the interlace detector -/

/-- The histogram part of the state: what only `update_histogram` changes. -/
theorem window_cell_hist {F : Type} (frame : Buf) (res : res_t) (i m : Nat)
    (s : InterlaceState F) :
    (window_cell frame res i m s).hist = s.hist ∧
    (window_cell frame res i m s).hist_count = s.hist_count ∧
    (window_cell frame res i m s).hist_total = s.hist_total ∧
    (window_cell frame res i m s).field_diff = s.field_diff ∧
    (window_cell frame res i m s).samples = s.samples ∧
    (window_cell frame res i m s).step = s.step := by
  unfold window_cell
  by_cases h : m % 2 = 1 <;> simp [h]

theorem window_row_hist {F : Type} (frame : Buf) (res : res_t) (i m fuel : Nat)
    (s : InterlaceState F) :
    (window_row frame res i m fuel s).hist = s.hist ∧
    (window_row frame res i m fuel s).hist_count = s.hist_count ∧
    (window_row frame res i m fuel s).hist_total = s.hist_total ∧
    (window_row frame res i m fuel s).field_diff = s.field_diff ∧
    (window_row frame res i m fuel s).samples = s.samples ∧
    (window_row frame res i m fuel s).step = s.step := by
  induction fuel generalizing s with
  | zero => exact ⟨rfl, rfl, rfl, rfl, rfl, rfl⟩
  | succ f ih =>
    have e : window_row frame res i m (f + 1) s
        = if (window_cell frame res i m s).j < WINSIZE_WIDTH
          then window_row frame res i m f (window_cell frame res i m s)
          else window_cell frame res i m s := rfl
    obtain ⟨c1, c2, c3, c4, c5, c6⟩ := window_cell_hist frame res i m s
    rw [e]
    split
    · obtain ⟨h1, h2, h3, h4, h5, h6⟩ := ih (window_cell frame res i m s)
      exact ⟨h1.trans c1, h2.trans c2, h3.trans c3, h4.trans c4, h5.trans c5, h6.trans c6⟩
    · exact ⟨c1, c2, c3, c4, c5, c6⟩

theorem window_update_hist {F : Type} (frame : Buf) (res : res_t) (i : Nat)
    (s : InterlaceState F) :
    (window_update frame res i s).hist = s.hist ∧
    (window_update frame res i s).hist_count = s.hist_count ∧
    (window_update frame res i s).hist_total = s.hist_total ∧
    (window_update frame res i s).field_diff = s.field_diff ∧
    (window_update frame res i s).samples = s.samples ∧
    (window_update frame res i s).step = s.step + 1 := by
  have key : ∀ (l : List Nat) (s : InterlaceState F),
      let t := l.foldl (fun (s : InterlaceState F) (m : Nat) =>
        window_row frame res i m WINSIZE_WIDTH
          { s with j := if s.step = 0 then 0 else s.step + WINSIZE_WIDTH - 1 }) s
      t.hist = s.hist ∧ t.hist_count = s.hist_count ∧ t.hist_total = s.hist_total ∧
      t.field_diff = s.field_diff ∧ t.samples = s.samples ∧ t.step = s.step := by
    intro l
    induction l with
    | nil => intro s; exact ⟨rfl, rfl, rfl, rfl, rfl, rfl⟩
    | cons m l ih =>
      intro s
      simp only [List.foldl_cons]
      obtain ⟨h1, h2, h3, h4, h5, h6⟩ := ih (window_row frame res i m WINSIZE_WIDTH
          { s with j := if s.step = 0 then 0 else s.step + WINSIZE_WIDTH - 1 })
      obtain ⟨r1, r2, r3, r4, r5, r6⟩ := window_row_hist frame res i m WINSIZE_WIDTH
          { s with j := if s.step = 0 then 0 else s.step + WINSIZE_WIDTH - 1 }
      exact ⟨h1.trans r1, h2.trans r2, h3.trans r3, h4.trans r4, h5.trans r5, h6.trans r6⟩
  obtain ⟨h1, h2, h3, h4, h5, h6⟩ := key (List.range WINSIZE_HEIGHT) s
  unfold window_update
  simp only []
  exact ⟨h1, h2, h3, h4, h5, by rw [h6]⟩

/-- What a defined histogram update does: the emitted sample falls in a bin `k < BINS`,
`hist[k]` and `hist_count` grow by one, `field_diff[k]` is overwritten by the clamped field
difference and the window variables are untouched. -/
theorem update_histogram_some {F : Type} (fp : FloatOps F) (i : Nat) (s t : InterlaceState F)
    (h : update_histogram fp i s = some t) :
    ∃ k : Nat, k < BINS ∧ sample_bin fp (emitted_sample fp i s) = some (k : Int) ∧
      t.hist = (fun n => if n = k then s.hist n + 1 else s.hist n) ∧
      t.hist_count = s.hist_count + 1 ∧
      t.hist_total = fp.add s.hist_total (sample_clamped fp (emitted_sample fp i s)) ∧
      t.field_diff = (fun n => if n = k then sample_clamped fp (emitted_sample fp i s)
        else s.field_diff n) ∧
      t.samples = s.samples ++ [emitted_sample fp i s] ∧
      t.j = s.j ∧ t.step = s.step := by
  unfold update_histogram at h
  simp only [] at h
  cases hk : fp.toInt (fp.floor (fp.add (fp.mul
      (fp.div (fp.sub (clamp fp (fp.div (fp.ofInt s.delta)
        (fp.ofInt (wrap32 (s.energe_even + s.energe_odd)))) (fp.ofInt 0) (fp.lit (1 / 2)))
        (fp.ofInt 0)) (fp.sub (fp.lit (1 / 2)) (fp.ofInt 0)))
      (fp.ofInt ((BINS : Int) - 1))) (fp.lit (1 / 2)))) with
  | none => rw [hk] at h; simp at h
  | some k0 =>
    rw [hk] at h
    simp only [] at h
    by_cases c : 0 ≤ min k0 ((BINS : Int) - 1) ∧ min k0 ((BINS : Int) - 1) < BINS
    · rw [if_pos c] at h
      have ht := (Option.some.inj h).symm
      refine ⟨(min k0 ((BINS : Int) - 1)).toNat, ?_, ?_, ?_, ?_, ?_, ?_, ?_, ?_, ?_⟩
      · have : (BINS : Int) = 100 := rfl
        have hb : BINS = 100 := rfl
        omega
      · unfold sample_bin sample_clamped emitted_sample
        simp only []
        rw [hk]
        simp only [Option.map_some']
        congr 1
        omega
      all_goals (subst ht; rfl)
    · rw [if_neg c] at h
      simp at h


theorem scan_steps_zero {F : Type} (fp : FloatOps F) (frame : Buf) (res : res_t) (i : Nat)
    (s : InterlaceState F) :
    scan_steps fp frame res i 0 s
      = if (s.j : Int) < res.width - WINSIZE_WIDTH then none else some s := rfl

theorem scan_steps_succ {F : Type} (fp : FloatOps F) (frame : Buf) (res : res_t) (i fuel : Nat)
    (s : InterlaceState F) :
    scan_steps fp frame res i (fuel + 1) s
      = if (s.j : Int) < res.width - WINSIZE_WIDTH then
          (if WINSIZE_WIDTH ≤ (window_update frame res i s).j then
            (update_histogram fp i (window_update frame res i s)).bind
              (scan_steps fp frame res i fuel)
          else scan_steps fp frame res i fuel (window_update frame res i s))
        else some s := rfl

theorem interlace_scan_eq {F : Type} (fp : FloatOps F) (frame : Buf) (res : res_t) :
    interlace_scan fp frame res
      = (List.range (res.height - WINSIZE_HEIGHT).toNat).foldl
          (fun (st : Option (InterlaceState F)) (i : Nat) =>
            st.bind (fun s => scan_steps fp frame res i res.width.toNat
              { s with j := 0, step := 0, delta := 0, energe_odd := 0, energe_even := 0 }))
          (some (interlace_init fp)) := rfl

/-- The `do ... while` loop started at column `j` ends at column `WINSIZE_WIDTH` when
`j < WINSIZE_WIDTH` and at column `j + 1` otherwise. -/
theorem window_row_j {F : Type} (frame : Buf) (res : res_t) (i m : Nat)
    (s : InterlaceState F) :
    (window_row frame res i m WINSIZE_WIDTH s).j
      = if s.j < WINSIZE_WIDTH then WINSIZE_WIDTH else s.j + 1 := by
  have key : ∀ (fuel : Nat) (s : InterlaceState F), 1 ≤ fuel → WINSIZE_WIDTH - s.j ≤ fuel →
      (window_row frame res i m fuel s).j
        = if s.j < WINSIZE_WIDTH then WINSIZE_WIDTH else s.j + 1 := by
    intro fuel
    induction fuel with
    | zero => intro s h; omega
    | succ f ih =>
      intro s _ h2
      have e : window_row frame res i m (f + 1) s
          = if (window_cell frame res i m s).j < WINSIZE_WIDTH
            then window_row frame res i m f (window_cell frame res i m s)
            else window_cell frame res i m s := rfl
      have hj := window_cell_j frame res i m s
      have hw : WINSIZE_WIDTH = 10 := rfl
      rw [e]
      by_cases c : (window_cell frame res i m s).j < WINSIZE_WIDTH
      · rw [if_pos c, ih _ (by omega) (by omega), if_pos c, if_pos (by omega)]
      · rw [if_neg c, hj]
        by_cases c2 : s.j < WINSIZE_WIDTH
        · rw [if_pos c2]; omega
        · rw [if_neg c2]
  exact key WINSIZE_WIDTH s (by decide) (by omega)

/-- After the window update at step `step`, `j` is `WINSIZE_WIDTH` for step 0 and
`step + WINSIZE_WIDTH` afterwards. -/
theorem window_update_j {F : Type} (frame : Buf) (res : res_t) (i : Nat)
    (s : InterlaceState F) :
    (window_update frame res i s).j = s.step + WINSIZE_WIDTH := by
  have hw : WINSIZE_WIDTH = 10 := rfl
  have key : ∀ (l : List Nat) (s : InterlaceState F), l ≠ [] →
      (l.foldl (fun (s : InterlaceState F) (m : Nat) =>
        window_row frame res i m WINSIZE_WIDTH
          { s with j := if s.step = 0 then 0 else s.step + WINSIZE_WIDTH - 1 }) s).j
        = s.step + WINSIZE_WIDTH ∧
      (l.foldl (fun (s : InterlaceState F) (m : Nat) =>
        window_row frame res i m WINSIZE_WIDTH
          { s with j := if s.step = 0 then 0 else s.step + WINSIZE_WIDTH - 1 }) s).step
        = s.step := by
    intro l
    induction l using List.reverseRecOn with
    | nil => intro s h; exact absurd rfl h
    | append_singleton l m ih =>
      intro s _
      rw [List.foldl_append]
      simp only [List.foldl_cons, List.foldl_nil]
      have hstep : (l.foldl (fun (s : InterlaceState F) (m : Nat) =>
          window_row frame res i m WINSIZE_WIDTH
            { s with j := if s.step = 0 then 0 else s.step + WINSIZE_WIDTH - 1 }) s).step
          = s.step := by
        by_cases hl : l = []
        · subst hl; rfl
        · exact (ih s hl).2
      generalize l.foldl (fun (s : InterlaceState F) (m : Nat) =>
          window_row frame res i m WINSIZE_WIDTH
            { s with j := if s.step = 0 then 0 else s.step + WINSIZE_WIDTH - 1 }) s = u at hstep
      constructor
      · rw [window_row_j]
        simp only []
        by_cases c : u.step = 0
        · rw [if_pos c, if_pos (by omega)]; omega
        · rw [if_neg c, if_neg (by omega)]; omega
      · rw [(window_row_hist frame res i m WINSIZE_WIDTH _).2.2.2.2.2]
        exact hstep
  have hne : List.range WINSIZE_HEIGHT ≠ [] := by decide
  have hk := (key (List.range WINSIZE_HEIGHT) s hne).1
  unfold window_update
  simp only []
  exact hk

theorem scan_steps_rows {F : Type} (fp : FloatOps F) (frame : Buf) (res : res_t)
    (R : InterlaceState F → Prop) (i : Nat)
    (hstep : ∀ s t, R s → update_histogram fp i (window_update frame res i s) = some t → R t)
    (fuel : Nat) (s t : InterlaceState F) (hs : R s)
    (h : scan_steps fp frame res i fuel s = some t) : R t := by
  induction fuel generalizing s with
  | zero =>
    rw [scan_steps_zero] at h
    split at h
    · simp at h
    · rw [← Option.some.inj h]; exact hs
  | succ f ih =>
    rw [scan_steps_succ] at h
    split at h
    · have hj := window_update_j frame res i s
      rw [if_pos (by omega)] at h
      cases hu : update_histogram fp i (window_update frame res i s) with
      | none => rw [hu] at h; simp at h
      | some u =>
        rw [hu] at h
        exact ih u (hstep _ _ hs hu) h
    · rw [← Option.some.inj h]; exact hs

/-- Induction over the scan, row offset by row offset: `Q n` holds between row offsets, once
`n` of them are done, and `R i` during the slide at row offset `i`, where every iteration is a
window update followed by a defined histogram update. -/
theorem interlace_scan_rows {F : Type} (fp : FloatOps F) (frame : Buf) (res : res_t)
    (Q R : Nat → InterlaceState F → Prop) (h0 : Q 0 (interlace_init fp))
    (hreset : ∀ i s, Q i s →
      R i { s with j := 0, step := 0, delta := 0, energe_odd := 0, energe_even := 0 })
    (hstep : ∀ i s t, R i s →
      update_histogram fp i (window_update frame res i s) = some t → R i t)
    (hexit : ∀ i s, R i s → Q (i + 1) s)
    (t : InterlaceState F) (h : interlace_scan fp frame res = some t) :
    Q (res.height - WINSIZE_HEIGHT).toNat t := by
  rw [interlace_scan_eq] at h
  have key : ∀ (n : Nat) (t : InterlaceState F),
      (List.range n).foldl (fun (st : Option (InterlaceState F)) (i : Nat) =>
            st.bind (fun s => scan_steps fp frame res i res.width.toNat
              { s with j := 0, step := 0, delta := 0, energe_odd := 0, energe_even := 0 }))
          (some (interlace_init fp)) = some t → Q n t := by
    intro n
    induction n with
    | zero =>
      intro t ht
      simp only [List.range_zero, List.foldl_nil] at ht
      rw [← Option.some.inj ht]; exact h0
    | succ n ih =>
      intro t ht
      rw [List.range_succ, List.foldl_append] at ht
      simp only [List.foldl_cons, List.foldl_nil] at ht
      cases hp : (List.range n).foldl (fun (st : Option (InterlaceState F)) (i : Nat) =>
            st.bind (fun s => scan_steps fp frame res i res.width.toNat
              { s with j := 0, step := 0, delta := 0, energe_odd := 0, energe_even := 0 }))
          (some (interlace_init fp)) with
      | none => rw [hp] at ht; simp at ht
      | some s =>
        rw [hp] at ht
        simp only [Option.bind] at ht
        exact hexit n t (scan_steps_rows fp frame res (R n) n (hstep n) _ _ t
          (hreset n s (ih s hp)) ht)
  exact key _ t h

theorem sumTo_update_one (n k : Nat) (f : Nat → Int) (hk : k < n) :
    sumTo n (fun m => if m = k then f m + 1 else f m) = sumTo n f + 1 := by
  induction n with
  | zero => omega
  | succ n ih =>
    simp only [sumTo]
    by_cases c : k = n
    · subst c
      have e : sumTo k (fun m => if m = k then f m + 1 else f m) = sumTo k f :=
        sumTo_congr _ _ _ (fun i hi => by rw [if_neg (by omega)])
      rw [e, if_pos rfl]; ring
    · rw [ih (by omega), if_neg (fun e => c e.symm)]; ring

theorem samples_in_bin_append {F : Type} (fp : FloatOps F) (l : List (Sample F)) (x : Sample F)
    (k : Nat) :
    samples_in_bin fp (l ++ [x]) k
      = samples_in_bin fp l k ++ (if sample_bin fp x = some (k : Int) then [x] else []) := by
  unfold samples_in_bin
  rw [List.filter_append]
  by_cases c : sample_bin fp x = some (k : Int)
  · simp [List.filter, c]
  · simp [List.filter, c]

theorem slide_inv_step {F : Type} (fp : FloatOps F) (frame : Buf) (res : res_t) (i : Nat)
    (s t : InterlaceState F) (hs : slide_inv fp i s)
    (h : update_histogram fp i (window_update frame res i s) = some t) : slide_inv fp i t := by
  obtain ⟨a1, a2, a3, a4, a5, a6⟩ := hs
  obtain ⟨w1, w2, _, w4, w5, w6⟩ := window_update_hist frame res i s
  obtain ⟨k, hk, hb, u1, u2, _, u4, u5, _, u7⟩ := update_histogram_some fp i _ t h
  have hxi : (emitted_sample fp i (window_update frame res i s)).i = i := rfl
  have hxs : (emitted_sample fp i (window_update frame res i s)).step = s.step := by
    show (window_update frame res i s).step - 1 = s.step
    rw [w6]; omega
  generalize emitted_sample fp i (window_update frame res i s) = x at *
  rw [w1] at u1
  rw [w2] at u2
  rw [w4] at u4
  rw [w5] at u5
  rw [w6] at u7
  refine ⟨?_, ?_, ?_, ?_, ?_, ?_⟩
  · unfold hist_sum at a1 ⊢
    rw [u1, u2, sumTo_update_one _ _ _ hk, a1]
  · rw [u2, u5, a2]; simp
  · intro n hn
    rw [u1, u5, samples_in_bin_append]
    simp only []
    by_cases c : n = k
    · subst c
      rw [if_pos rfl, if_pos hb, a3 n hn]; simp
    · have hne : ¬ sample_bin fp x = some (n : Int) := by
        rw [hb]; intro e
        exact c (by exact_mod_cast (Option.some.inj e).symm)
      rw [if_neg c, if_neg hne, a3 n hn]; simp
  · intro n hn
    rw [u4, u5]
    unfold last_in_bin
    rw [samples_in_bin_append]
    simp only []
    by_cases c : n = k
    · subst c
      rw [if_pos rfl, if_pos hb]
      simp
    · have hne : ¬ sample_bin fp x = some (n : Int) := by
        rw [hb]; intro e
        exact c (by exact_mod_cast (Option.some.inj e).symm)
      rw [if_neg c, if_neg hne, a4 n hn]
      unfold last_in_bin
      simp
  · rw [u5, List.pairwise_append]
    refine ⟨a5, List.pairwise_singleton _ _, ?_⟩
    intro a ha b hb2
    rw [List.mem_singleton] at hb2
    subst hb2
    unfold scan_before
    rcases a6 a ha with h1 | ⟨h1, h2⟩
    · left; omega
    · right; exact ⟨by omega, by omega⟩
  · intro a ha
    rw [u5, List.mem_append, List.mem_singleton] at ha
    rw [u7]
    rcases ha with ha | ha
    · rcases a6 a ha with h1 | ⟨h1, h2⟩
      · left; exact h1
      · right; exact ⟨h1, by omega⟩
    · subst ha
      right; exact ⟨hxi, by omega⟩

/-- The histogram after the scan: the bin counts and `hist_count` count the emitted samples,
`field_diff[k]` is the clamped field difference of the last sample of bin `k`, and the samples
were emitted in scan order at row offsets below `height - WINSIZE_HEIGHT`. -/
theorem interlace_scan_inv {F : Type} (fp : FloatOps F) (frame : Buf) (res : res_t)
    (t : InterlaceState F) (h : interlace_scan fp frame res = some t) :
    scan_inv fp (res.height - WINSIZE_HEIGHT).toNat t := by
  apply interlace_scan_rows fp frame res (scan_inv fp) (slide_inv fp) _ _ _ _ t h
  · refine ⟨sumTo_zero _ _ (fun _ _ => rfl), rfl, fun k _ => rfl, fun k _ => rfl,
      List.Pairwise.nil, ?_⟩
    intro x hx
    exact absurd hx (List.not_mem_nil x)
  · intro i s hs
    obtain ⟨a1, a2, a3, a4, a5, a6⟩ := hs
    exact ⟨a1, a2, a3, a4, a5, fun x hx => Or.inl (a6 x hx)⟩
  · intro i s t hs ht
    exact slide_inv_step fp frame res i s t hs ht
  · intro i s hs
    obtain ⟨a1, a2, a3, a4, a5, a6⟩ := hs
    refine ⟨a1, a2, a3, a4, a5, fun x hx => ?_⟩
    rcases a6 x hx with h1 | ⟨h1, _⟩ <;> omega

theorem option_eq_some_getD {α : Type} (o : Option α) (d : α) (h : o.isSome = true) :
    o = some (o.getD d) := by
  cases o with
  | none => simp at h
  | some x => rfl

theorem exScan21_eq : interlace_scan ieee exFrame21 ⟨21, 22⟩ = some exScan21 :=
  option_eq_some_getD _ _ (by decide!)

/-- C13: when the scan of `detect_interlace` is over, the bin counts sum to `hist_count`, which
is the number of samples emitted; the samples were emitted at pairwise distinct window
positions, in scan order. -/
theorem interlace_hist_count {F : Type} (fp : FloatOps F) (frame : Buf) (res : res_t)
    (t : InterlaceState F) (h : interlace_scan fp frame res = some t) :
    hist_sum t = t.hist_count ∧ t.hist_count = (t.samples.length : Int) ∧
    t.samples.Pairwise scan_before := by
  obtain ⟨a1, a2, _, _, a5, _⟩ := interlace_scan_inv fp frame res t h
  exact ⟨a1, a2, a5⟩

theorem interlace_hist_count_witness :
    exScan21.hist_count = 4 ∧ hist_sum exScan21 = exScan21.hist_count ∧
    exScan21.hist_count = (exScan21.samples.length : Int) ∧
    exScan21.samples.Pairwise scan_before :=
  ⟨by decide!, interlace_hist_count ieee exFrame21 ⟨21, 22⟩ exScan21 exScan21_eq⟩

/-- C17: when the scan of `detect_interlace` is over, for every bin `k < BINS`, `hist[k]` is the
number of emitted samples whose bin index is `k`; if `hist[k] > 0`, `field_diff[k]` is the
clamped field difference of the last of them in scan order, and if `hist[k] = 0`,
`field_diff[k] = 0`. The list of samples is in scan order. -/
theorem interlace_field_diff_last {F : Type} (fp : FloatOps F) (frame : Buf) (res : res_t)
    (t : InterlaceState F) (h : interlace_scan fp frame res = some t) (k : Nat) (hk : k < BINS) :
    t.samples.Pairwise scan_before ∧
    t.hist k = ((samples_in_bin fp t.samples k).length : Int) ∧
    (0 < t.hist k → ∃ x, (samples_in_bin fp t.samples k).getLast? = some x ∧
      t.field_diff k = sample_clamped fp x) ∧
    (t.hist k = 0 → t.field_diff k = fp.lit 0) := by
  obtain ⟨_, _, a3, a4, a5, _⟩ := interlace_scan_inv fp frame res t h
  refine ⟨a5, a3 k hk, ?_, ?_⟩
  · intro hpos
    rw [a3 k hk] at hpos
    have hne : samples_in_bin fp t.samples k ≠ [] := by
      intro e
      rw [e] at hpos
      simp at hpos
    refine ⟨(samples_in_bin fp t.samples k).getLast hne, List.getLast?_eq_getLast _ hne, ?_⟩
    rw [a4 k hk]
    unfold last_in_bin
    rw [List.getLast?_eq_getLast _ hne]
  · intro hz
    rw [a3 k hk] at hz
    have he : samples_in_bin fp t.samples k = [] := by
      apply List.eq_nil_of_length_eq_zero
      exact_mod_cast hz
    rw [a4 k hk]
    unfold last_in_bin
    rw [he]
    rfl

theorem interlace_field_diff_last_witness :
    exScan21.hist 99 = 4 ∧ exScan21.field_diff 99 = Fp.fin (1 / 2) ∧
    exScan21.samples.Pairwise scan_before ∧
    exScan21.hist 99 = ((samples_in_bin ieee exScan21.samples 99).length : Int) ∧
    (0 < exScan21.hist 99 → ∃ x, (samples_in_bin ieee exScan21.samples 99).getLast? = some x ∧
      exScan21.field_diff 99 = sample_clamped ieee x) ∧
    (exScan21.hist 99 = 0 → exScan21.field_diff 99 = ieee.lit 0) :=
  ⟨by decide!, by decide!,
    interlace_field_diff_last ieee exFrame21 ⟨21, 22⟩ exScan21 exScan21_eq 99 (by decide)⟩

/-- The sliding loop never stops for lack of iterations: with `fuel` covering the columns left,
`scan_steps` is undefined only where a histogram update is. -/
theorem scan_steps_none {F : Type} (fp : FloatOps F) (frame : Buf) (res : res_t) (i : Nat)
    (fuel : Nat) (s : InterlaceState F)
    (hj : s.j = if s.step = 0 then 0 else s.step + 9)
    (hf : res.width - WINSIZE_WIDTH ≤ (s.j : Int) + (fuel : Int))
    (h : scan_steps fp frame res i fuel s = none) :
    ∃ u, update_histogram fp i u = none := by
  have hw : WINSIZE_WIDTH = 10 := rfl
  have hwi : ((WINSIZE_WIDTH : Nat) : Int) = 10 := rfl
  induction fuel generalizing s with
  | zero =>
    rw [scan_steps_zero] at h
    split at h
    · rename_i c
      simp only [Nat.cast_zero, add_zero] at hf
      omega
    · simp at h
  | succ f ih =>
    rw [scan_steps_succ] at h
    split at h
    · have hj1 := window_update_j frame res i s
      have hs1 := (window_update_hist frame res i s).2.2.2.2.2
      rw [if_pos (by omega)] at h
      cases hu : update_histogram fp i (window_update frame res i s) with
      | none => exact ⟨_, hu⟩
      | some u =>
        rw [hu] at h
        obtain ⟨_, _, _, _, _, _, _, _, uj, us⟩ := update_histogram_some fp i _ u hu
        apply ih u
        · rw [uj, us, hj1, hs1, if_neg (by omega)]; omega
        · rw [uj, hj1]
          push_cast at hf ⊢
          split at hj <;> omega
        · exact h
    · simp at h

/-- The scan is undefined only where a histogram update is undefined. -/
theorem interlace_scan_none {F : Type} (fp : FloatOps F) (frame : Buf) (res : res_t)
    (h : interlace_scan fp frame res = none) :
    ∃ i u, update_histogram fp i u = none := by
  rw [interlace_scan_eq] at h
  have key : ∀ (l : List Nat) (st : Option (InterlaceState F)),
      l.foldl (fun (st : Option (InterlaceState F)) (i : Nat) =>
            st.bind (fun s => scan_steps fp frame res i res.width.toNat
              { s with j := 0, step := 0, delta := 0, energe_odd := 0, energe_even := 0 }))
          st = none → st = none ∨ ∃ i u, update_histogram fp i u = none := by
    intro l
    induction l with
    | nil => intro st h; exact Or.inl h
    | cons i l ih =>
      intro st h
      simp only [List.foldl_cons] at h
      rcases ih _ h with h1 | h1
      · cases st with
        | none => exact Or.inl rfl
        | some s =>
          right
          simp only [Option.bind] at h1
          obtain ⟨u, hu⟩ := scan_steps_none fp frame res i _ _ rfl (by
            have hwi : ((WINSIZE_WIDTH : Nat) : Int) = 10 := rfl
            show res.width - WINSIZE_WIDTH ≤ ((0 : Nat) : Int) + (res.width.toNat : Int)
            omega) h1
          exact ⟨i, u, hu⟩
      · exact Or.inr h1
  rcases key _ _ h with h1 | h1
  · simp at h1
  · exact h1

/-- The clamp of `detect_interlace` on `ieee`: NaN stays NaN, every other value lands in
`[0, 1/2]`. -/
theorem clamp_ieee (u : Fp) :
    (u = Fp.nan ∧ clamp ieee u (ieee.ofInt 0) (ieee.lit (1 / 2)) = Fp.nan) ∨
    (u ≠ Fp.nan ∧ ∃ q : ℚ, clamp ieee u (ieee.ofInt 0) (ieee.lit (1 / 2)) = Fp.fin q ∧
      0 ≤ q ∧ q ≤ 1 / 2) := by
  cases u with
  | nan => left; exact ⟨rfl, rfl⟩
  | pinf =>
    right
    refine ⟨by simp, 1 / 2, ?_, by norm_num, le_refl _⟩
    simp [clamp, ieee, Fp.lt, Fp.gt]
  | ninf =>
    right
    refine ⟨by simp, 0, ?_, le_refl _, by norm_num⟩
    simp [clamp, ieee, Fp.lt, Fp.gt]
  | fin a =>
    right
    refine ⟨by simp, ?_⟩
    by_cases h1 : a < 0
    · refine ⟨0, ?_, le_refl _, by norm_num⟩
      simp [clamp, ieee, Fp.lt, h1]
    · by_cases h2 : 1 / 2 < a
      · refine ⟨1 / 2, ?_, by norm_num, le_refl _⟩
        have h2' : (2 : ℚ)⁻¹ < a := by simpa using h2
        simp [clamp, ieee, Fp.lt, Fp.gt, h1, h2']
      · refine ⟨a, ?_, by linarith, by linarith⟩
        have h2' : ¬ (2 : ℚ)⁻¹ < a := by simpa using h2
        simp [clamp, ieee, Fp.lt, Fp.gt, h1, h2']

/-- The bin index of a clamped field difference `q` in `[0, 1/2]` is `floor (2 q * 99 + 1/2)`,
between 0 and 99. -/
theorem bin_ieee (q : ℚ) (h0 : 0 ≤ q) (h1 : q ≤ 1 / 2) :
    ieee.toInt (ieee.floor (ieee.add (ieee.mul
      (ieee.div (ieee.sub (Fp.fin q) (ieee.ofInt 0)) (ieee.sub (ieee.lit (1 / 2)) (ieee.ofInt 0)))
      (ieee.ofInt ((BINS : Int) - 1))) (ieee.lit (1 / 2))))
      = some ⌊2 * q * 99 + 1 / 2⌋ ∧
    0 ≤ ⌊2 * q * 99 + 1 / 2⌋ ∧ ⌊2 * q * 99 + 1 / 2⌋ ≤ 99 := by
  have hlo : (0 : ℤ) ≤ ⌊2 * q * 99 + 1 / 2⌋ := Int.floor_nonneg.mpr (by linarith)
  have hhi : ⌊2 * q * 99 + 1 / 2⌋ ≤ 99 := by
    have : ⌊2 * q * 99 + 1 / 2⌋ < 100 := Int.floor_lt.mpr (by push_cast; linarith)
    omega
  refine ⟨?_, hlo, hhi⟩
  have e : ieee.add (ieee.mul
      (ieee.div (ieee.sub (Fp.fin q) (ieee.ofInt 0)) (ieee.sub (ieee.lit (1 / 2)) (ieee.ofInt 0)))
      (ieee.ofInt ((BINS : Int) - 1))) (ieee.lit (1 / 2)) = Fp.fin (2 * q * 99 + 1 / 2) := by
    have hb : (((BINS : Int) - 1 : Int) : ℚ) = 99 := by
      have : ((BINS : Int) - 1 : Int) = 99 := rfl
      rw [this]; norm_num
    simp only [ieee, Fp.sub, Fp.neg, Fp.add, Fp.div, Fp.mul, hb]
    norm_num
    ring
  rw [e]
  show Fp.toInt (Fp.fin ((⌊2 * q * 99 + 1 / 2⌋ : Int) : ℚ)) = _
  have c1 : (-2147483649 : ℚ) < ((⌊2 * q * 99 + 1 / 2⌋ : Int) : ℚ) := by
    have : (0 : ℚ) ≤ ((⌊2 * q * 99 + 1 / 2⌋ : Int) : ℚ) := by exact_mod_cast hlo
    linarith
  have c2 : ((⌊2 * q * 99 + 1 / 2⌋ : Int) : ℚ) < 2147483648 := by
    have : ((⌊2 * q * 99 + 1 / 2⌋ : Int) : ℚ) ≤ 99 := by exact_mod_cast hhi
    linarith
  have c3 : (0 : ℚ) ≤ ((⌊2 * q * 99 + 1 / 2⌋ : Int) : ℚ) := by exact_mod_cast hlo
  simp only [Fp.toInt, c1, c2, and_self, if_true, c3, Int.floor_intCast]

/-- The field difference of a sample is NaN exactly when `delta` and the energy sum are both
zero. -/
theorem field_diff_nan_iff (i : Nat) (s : InterlaceState Fp) :
    (emitted_sample ieee i s).field_diff = Fp.nan
      ↔ s.delta = 0 ∧ wrap32 (s.energe_even + s.energe_odd) = 0 := by
  show Fp.div (Fp.fin (s.delta : ℚ)) (Fp.fin ((wrap32 (s.energe_even + s.energe_odd) : Int) : ℚ))
    = Fp.nan ↔ _
  by_cases hE : wrap32 (s.energe_even + s.energe_odd) = 0
  · by_cases hd : s.delta = 0
    · simp [Fp.div, hE, hd]
    · have hd2 : ¬ (s.delta : ℚ) = 0 := by exact_mod_cast hd
      simp only [Fp.div, hE, Int.cast_zero, if_true, hd2, if_false, hd, false_and, iff_false]
      split <;> simp
  · have hE2 : ¬ ((wrap32 (s.energe_even + s.energe_odd) : Int) : ℚ) = 0 := by exact_mod_cast hE
    simp [Fp.div, hE, hE2]

/-- On `ieee` the histogram update is undefined exactly for a sample whose field difference is
NaN: the clamp lets NaN through and the cast of NaN to `int` is undefined. -/
theorem update_histogram_ieee_none_iff (i : Nat) (s : InterlaceState Fp) :
    update_histogram ieee i s = none ↔ (emitted_sample ieee i s).field_diff = Fp.nan := by
  have hb : ((BINS : Nat) : Int) = 100 := rfl
  rcases clamp_ieee (emitted_sample ieee i s).field_diff with ⟨h1, h2⟩ | ⟨h1, q, h2, h3, h4⟩
  · constructor
    · intro _; exact h1
    · intro _
      unfold update_histogram
      simp only []
      have h2' : clamp ieee (ieee.div (ieee.ofInt s.delta)
          (ieee.ofInt (wrap32 (s.energe_even + s.energe_odd)))) (ieee.ofInt 0) (ieee.lit (1 / 2))
          = Fp.nan := h2
      rw [h2']
      rfl
  · constructor
    · intro hn
      exfalso
      unfold update_histogram at hn
      simp only [] at hn
      have h2' : clamp ieee (ieee.div (ieee.ofInt s.delta)
          (ieee.ofInt (wrap32 (s.energe_even + s.energe_odd)))) (ieee.ofInt 0) (ieee.lit (1 / 2))
          = Fp.fin q := h2
      obtain ⟨b1, b2, b3⟩ := bin_ieee q h3 h4
      rw [h2', b1] at hn
      simp only [] at hn
      rw [if_pos (by omega)] at hn
      simp at hn
    · intro hn
      exact absurd hn h1

/-- In range: on `ieee` every defined bin index is between 0 and `BINS - 1`, and the bin index
is defined for every sample whose field difference is not NaN. -/
theorem sample_bin_ieee (x : Sample Fp) (hx : x.field_diff ≠ Fp.nan) :
    ∃ k : Int, sample_bin ieee x = some k ∧ 0 ≤ k ∧ k ≤ 99 := by
  rcases clamp_ieee x.field_diff with ⟨h1, _⟩ | ⟨_, q, h2, h3, h4⟩
  · exact absurd h1 hx
  · obtain ⟨b1, b2, b3⟩ := bin_ieee q h3 h4
    refine ⟨⌊2 * q * 99 + 1 / 2⌋, ?_, b2, b3⟩
    unfold sample_bin sample_clamped
    rw [h2, b1]
    simp only [Option.map_some']
    congr 1
    have hb : ((BINS : Nat) : Int) = 100 := rfl
    omega

/-- C12 (evaluation at the failing input): in the first window of an all-zero 21x22 frame
`delta`, `energe_even` and `energe_odd` are 0, the field difference `0 / 0` is NaN, the clamp
returns NaN and the cast to `int` that gives the bin index `k` is undefined: no index in
`0 .. BINS-1` is produced and the scan has no defined result. -/
theorem interlace_zero_window_bin :
    exZeroWindow.delta = 0 ∧ exZeroWindow.energe_even = 0 ∧ exZeroWindow.energe_odd = 0 ∧
    (emitted_sample ieee 0 exZeroWindow).field_diff = Fp.nan ∧
    sample_clamped ieee (emitted_sample ieee 0 exZeroWindow) = Fp.nan ∧
    sample_bin ieee (emitted_sample ieee 0 exZeroWindow) = none ∧
    (update_histogram ieee 0 exZeroWindow).isSome = false ∧
    (interlace_scan ieee exF0 ⟨21, 22⟩).isSome = false := by
  decide!

theorem sumTo_const (n : Nat) (c : Int) : sumTo n (fun _ => c) = n * c := by
  induction n with
  | zero => simp [sumTo]
  | succ n ih => simp only [sumTo, ih]; push_cast; ring

theorem exStripes_px (i j : Nat) (hj : j < 8192) :
    px exStripes ((i : Int) * 8192 + (j : Int)) = if i % 2 = 0 then 0 else 255 := by
  have e : ((i : Int) * 8192 + (j : Int)) / 8192 = (i : Int) := by omega
  unfold px exStripes
  rw [e]
  by_cases c : i % 2 = 0
  · have c2 : (i : Int) % 2 = 0 := by omega
    simp [c, c2]
  · have c2 : ¬ (i : Int) % 2 = 0 := by omega
    simp [c, c2]
    rfl

/-- The three values returned by `calculate_deltas` in terms of the scalar accumulators. -/
theorem calculate_deltas_eq {F : Type} (fp : FloatOps F) (frame : Buf) (res : res_t) :
    calculate_deltas fp frame res
      = (fp.div (fp.ofInt (calculate_frame_delta fp frame res).dd)
            (fp.ofInt ((res.height - 1) * res.width)),
         fp.div (fp.ofInt (calculate_field_delta fp frame res).dd_even)
            (fp.ofInt ((Int.tdiv res.height 2 - 1) * res.width)),
         fp.div (fp.ofInt (calculate_field_delta fp frame res).dd_odd)
            (fp.ofInt ((Int.tdiv res.height 2 - 1) * res.width))) := rfl

theorem exStripes_frame_sum : frame_sum exStripes 8192 6 = 2663424000 := by
  have h : frame_sum exStripes 8192 6 = sumTo 5 (fun _ => sumTo 8192 (fun _ => (65025 : Int))) := by
    unfold frame_sum
    apply sumTo_congr
    intro i _
    apply sumTo_congr
    intro j hj
    have hj2 : j < 8192 := hj
    have e1 := exStripes_px i j hj2
    have e2 := exStripes_px (i + 1) j hj2
    push_cast at e2
    rw [e1, e2]
    by_cases c : i % 2 = 0
    · have c2 : ¬ (i + 1) % 2 = 0 := by omega
      simp [c, c2]
    · have c2 : (i + 1) % 2 = 0 := by omega
      simp [c, c2]
  rw [h, sumTo_const, sumTo_const]
  norm_num

/-- C14 (evaluation at the failing input): for the 8192x6 frame of alternating rows 0 and 255
the exact sum of squared row differences is 2663424000 > 2^31 - 1, the `int` accumulator `dd`
wraps to -1631543296 and the `delta` returned by `calculate_deltas` is negative. -/
theorem frame_delta_overflow :
    frame_sum exStripes 8192 6 = 2663424000 ∧
    (calculate_frame_delta ieee exStripes ⟨8192, 6⟩).dd = -1631543296 ∧
    (calculate_deltas ieee exStripes ⟨8192, 6⟩).1 = Fp.fin (-1631543296 / 40960) ∧
    Fp.lt (calculate_deltas ieee exStripes ⟨8192, 6⟩).1 (Fp.fin 0) = true := by
  have hdd : (calculate_frame_delta ieee exStripes ⟨8192, 6⟩).dd = -1631543296 := by
    rw [frame_dd_wrap]
    show wrap32 (frame_sum exStripes 8192 6) = _
    rw [exStripes_frame_sum]
    decide
  have hdelta : (calculate_deltas ieee exStripes ⟨8192, 6⟩).1 = Fp.fin (-1631543296 / 40960) := by
    rw [calculate_deltas_eq, hdd]
    simp only [ieee, Fp.div]
    norm_num
  refine ⟨exStripes_frame_sum, hdd, hdelta, ?_⟩
  rw [hdelta]
  simp only [Fp.lt]
  norm_num

/-- The three deltas on `ieee` for width >= 1 and height >= 4: quotients of the accumulators by
non-zero divisors, hence numbers. -/
theorem calculate_deltas_ieee (frame : Buf) (width height : Int) (hw : 1 ≤ width)
    (hh : 4 ≤ height) :
    0 < (((height - 1) * width : Int) : ℚ) ∧ 0 < (((height / 2 - 1) * width : Int) : ℚ) ∧
    calculate_deltas ieee frame ⟨width, height⟩
      = (Fp.fin ((wrap32 (frame_sum frame width height) : ℚ) / (((height - 1) * width : Int) : ℚ)),
         Fp.fin ((wrap32 (field_sum_even frame width height) : ℚ)
            / (((height / 2 - 1) * width : Int) : ℚ)),
         Fp.fin ((wrap32 (field_sum_odd frame width height) : ℚ)
            / (((height / 2 - 1) * width : Int) : ℚ))) := by
  have hd : Int.tdiv height 2 = height / 2 := Int.tdiv_eq_ediv (by omega) (by omega)
  have p1 : (0 : Int) < (height - 1) * width := Int.mul_pos (by omega) (by omega)
  have p2 : (0 : Int) < (height / 2 - 1) * width := Int.mul_pos (by omega) (by omega)
  have q1 : 0 < (((height - 1) * width : Int) : ℚ) := by exact_mod_cast p1
  have q2 : 0 < (((height / 2 - 1) * width : Int) : ℚ) := by exact_mod_cast p2
  refine ⟨q1, q2, ?_⟩
  have hf := field_dd_wrap ieee frame ⟨width, height⟩ (by show 0 ≤ height; omega)
  rw [calculate_deltas_eq, frame_dd_wrap, hf.1, hf.2]
  show (Fp.div (Fp.fin _) (Fp.fin (((height - 1) * width : Int) : ℚ)),
    Fp.div (Fp.fin _) (Fp.fin (((Int.tdiv height 2 - 1) * width : Int) : ℚ)),
    Fp.div (Fp.fin _) (Fp.fin (((Int.tdiv height 2 - 1) * width : Int) : ℚ))) = _
  rw [hd]
  simp only [Fp.div, if_neg (ne_of_gt q1), if_neg (ne_of_gt q2)]

/-- For width >= 1, height >= 4 and sums within `int` range the three deltas are non-negative
numbers and `gamma` is a non-negative number: the divisor of `gamma` is at least 0.00001. -/
theorem main_gamma_ieee (frame : Buf) (width height : Int) (hw : 1 ≤ width) (hh : 4 ≤ height)
    (hS : frame_sum frame width height < 2147483648)
    (hSe : field_sum_even frame width height < 2147483648)
    (hSo : field_sum_odd frame width height < 2147483648) :
    ∃ a b c : ℚ, 0 ≤ a ∧ 0 ≤ b ∧ 0 ≤ c ∧
      a = (frame_sum frame width height : ℚ) / (((height - 1) * width : Int) : ℚ) ∧
      b = (field_sum_even frame width height : ℚ) / (((height / 2 - 1) * width : Int) : ℚ) ∧
      c = (field_sum_odd frame width height : ℚ) / (((height / 2 - 1) * width : Int) : ℚ) ∧
      calculate_deltas ieee frame ⟨width, height⟩ = (Fp.fin a, Fp.fin b, Fp.fin c) ∧
      main_gamma ieee frame ⟨width, height⟩ = Fp.fin (a / (b + c + 1 / 100000)) ∧
      0 ≤ a / (b + c + 1 / 100000) := by
  obtain ⟨q1, q2, hd⟩ := calculate_deltas_ieee frame width height hw hh
  rw [wrap32_of_lt _ (frame_sum_nonneg _ _ _) hS,
    wrap32_of_lt _ (field_sum_even_nonneg _ _ _) hSe,
    wrap32_of_lt _ (field_sum_odd_nonneg _ _ _) hSo] at hd
  have n1 : (0 : ℚ) ≤ (frame_sum frame width height : ℚ) := by
    exact_mod_cast frame_sum_nonneg frame width height
  have n2 : (0 : ℚ) ≤ (field_sum_even frame width height : ℚ) := by
    exact_mod_cast field_sum_even_nonneg frame width height
  have n3 : (0 : ℚ) ≤ (field_sum_odd frame width height : ℚ) := by
    exact_mod_cast field_sum_odd_nonneg frame width height
  have a0 := div_nonneg n1 (le_of_lt q1)
  have b0 := div_nonneg n2 (le_of_lt q2)
  have c0 := div_nonneg n3 (le_of_lt q2)
  refine ⟨_, _, _, a0, b0, c0, rfl, rfl, rfl, hd, ?_, ?_⟩
  · have hpos : (0 : ℚ) < (field_sum_even frame width height : ℚ)
          / (((height / 2 - 1) * width : Int) : ℚ)
        + (field_sum_odd frame width height : ℚ) / (((height / 2 - 1) * width : Int) : ℚ)
        + 1 / 100000 := by linarith
    show ieee.div (calculate_deltas ieee frame ⟨width, height⟩).1
      (ieee.add (ieee.add (calculate_deltas ieee frame ⟨width, height⟩).2.1
        (calculate_deltas ieee frame ⟨width, height⟩).2.2) (ieee.lit (1 / 100000))) = _
    rw [hd]
    simp only [ieee, Fp.add, Fp.div, if_neg (ne_of_gt hpos)]
  · apply div_nonneg a0
    linarith

/-- A frame whose rows are all identical has zero sums of squared row differences. -/
theorem rows_identical_sums (frame : Buf) (width height : Int)
    (hrows : rows_identical frame width height) :
    frame_sum frame width height = 0 ∧ field_sum_even frame width height = 0 ∧
    field_sum_odd frame width height = 0 := by
  refine ⟨?_, ?_, ?_⟩
  · apply sumTo_zero
    intro i hi
    apply sumTo_zero
    intro j hj
    have e := hrows i j (by omega) (by omega)
    unfold px
    rw [e]
    simp
  · apply sumTo_zero
    intro i hi
    apply sumTo_zero
    intro j hj
    have e1 := hrows (2 * i) j (by push_cast; omega) (by omega)
    have e2 := hrows (2 * i + 1) j (by push_cast; omega) (by omega)
    push_cast at e1 e2
    have e3 : (2 * (i : Int) + 1 + 1) * width = (2 * (i : Int) + 2) * width := by ring
    rw [e3] at e2
    unfold px
    rw [e1, e2]
    simp
  · apply sumTo_zero
    intro i hi
    apply sumTo_zero
    intro j hj
    have e1 := hrows (2 * i + 1) j (by push_cast; omega) (by omega)
    have e2 := hrows (2 * i + 2) j (by push_cast; omega) (by omega)
    push_cast at e1 e2
    have e3 : (2 * (i : Int) + 1 + 1) * width = (2 * (i : Int) + 2) * width := by ring
    have e4 : (2 * (i : Int) + 2 + 1) * width = (2 * (i : Int) + 3) * width := by ring
    rw [e3] at e1
    rw [e4] at e2
    unfold px
    rw [e1, e2]
    simp

/-- For width >= 1 and height >= 4 a frame whose rows are all identical gives three zero deltas
and `gamma = 0`. -/
theorem progressive_deltas_zero (frame : Buf) (width height : Int) (hw : 1 ≤ width)
    (hh : 4 ≤ height) (hrows : rows_identical frame width height) :
    calculate_deltas ieee frame ⟨width, height⟩ = (Fp.fin 0, Fp.fin 0, Fp.fin 0) ∧
    main_gamma ieee frame ⟨width, height⟩ = Fp.fin 0 := by
  obtain ⟨s1, s2, s3⟩ := rows_identical_sums frame width height hrows
  obtain ⟨a, b, c, _, _, _, ha, hb, hc, hd, hg, _⟩ := main_gamma_ieee frame width height hw hh
    (by rw [s1]; decide) (by rw [s2]; decide) (by rw [s3]; decide)
  rw [s1] at ha
  rw [s2] at hb
  rw [s3] at hc
  simp only [Int.cast_zero, zero_div] at ha hb hc
  subst ha hb hc
  refine ⟨hd, ?_⟩
  rw [hg]
  simp

/-- C15 (evaluation at the failing input): for the all-zero frame of width 1 and height 2 the
divisor `(height/2 - 1) * width` of the field deltas is 0, `delta_even` and `delta_odd` are
`0 / 0 = NaN`, and `gamma` is NaN, not a finite number. -/
theorem gamma_height_two :
    (Int.tdiv 2 2 - 1) * 1 = 0 ∧
    calculate_deltas ieee exF0 ⟨1, 2⟩ = (Fp.fin 0, Fp.nan, Fp.nan) ∧
    main_gamma ieee exF0 ⟨1, 2⟩ = Fp.nan := by
  decide!

/-- C16 (evaluation at the failing input): the constant frame `exConst` of width 1 and
height 2 has identical rows, yet `calculate_deltas` yields `delta = 0`, `delta_even = NaN`,
`delta_odd = NaN` and `gamma` is NaN, not 0. -/
theorem progressive_height_two :
    rows_identical exConst 1 2 ∧
    calculate_deltas ieee exConst ⟨1, 2⟩ = (Fp.fin 0, Fp.nan, Fp.nan) ∧
    main_gamma ieee exConst ⟨1, 2⟩ = Fp.nan :=
  ⟨fun _ _ _ _ => rfl, by decide!, by decide!⟩

/-- For height <= WINSIZE_HEIGHT or width <= WINSIZE_WIDTH no window position is scanned: the
state after the scan is the state after the `memset`s. -/
theorem interlace_scan_degenerate {F : Type} (fp : FloatOps F) (frame : Buf) (res : res_t)
    (h : res.height ≤ 20 ∨ res.width ≤ 10) :
    interlace_scan fp frame res = some (interlace_init fp) := by
  rw [interlace_scan_eq]
  have hwi : ((WINSIZE_WIDTH : Nat) : Int) = 10 := rfl
  have hhi : ((WINSIZE_HEIGHT : Nat) : Int) = 20 := rfl
  rcases h with h | h
  · have e : (res.height - (WINSIZE_HEIGHT : Int)).toNat = 0 := by omega
    rw [e]
    rfl
  · have key : ∀ (l : List Nat),
        l.foldl (fun (st : Option (InterlaceState F)) (i : Nat) =>
            st.bind (fun s => scan_steps fp frame res i res.width.toNat
              { s with j := 0, step := 0, delta := 0, energe_odd := 0, energe_even := 0 }))
          (some (interlace_init fp)) = some (interlace_init fp) := by
      intro l
      induction l with
      | nil => rfl
      | cons i l ih =>
        simp only [List.foldl_cons, Option.bind]
        have e : scan_steps fp frame res i res.width.toNat
            { interlace_init fp with
              j := 0, step := 0, delta := 0, energe_odd := 0, energe_even := 0 }
            = some (interlace_init fp) := by
          cases res.width.toNat with
          | zero =>
            rw [scan_steps_zero, if_neg]
            · rfl
            · show ¬ (((0 : Nat) : Int) < res.width - (WINSIZE_WIDTH : Int))
              omega
          | succ f =>
            rw [scan_steps_succ, if_neg]
            · rfl
            · show ¬ (((0 : Nat) : Int) < res.width - (WINSIZE_WIDTH : Int))
              omega
        rw [e]
        exact ih
    exact key _

/-- C18 (amended): for height <= 20 or width <= 10 no window position is scanned,
`hist_count = 0`, and `detect_interlace` signals no error: it writes the mean
`hist_total / hist_count = 0 / 0`, which is NaN, and every row it writes carries
`field_diff = 0`, the percentage `0 / 0 * 100`, which is NaN, and the count 0. -/
theorem detect_interlace_degenerate (frame : Buf) (res : res_t)
    (h : res.height ≤ 20 ∨ res.width ≤ 10) :
    (interlace_scan ieee frame res).map (fun s => (s.hist_count, s.samples.length))
      = some (0, 0) ∧
    ∃ log, detect_interlace ieee frame res = some log ∧ log.average = Fp.nan ∧
      ∀ row ∈ log.rows, row.1 = Fp.fin 0 ∧ row.2.2.1 = Fp.nan ∧ row.2.2.2 = 0 := by
  unfold detect_interlace
  rw [interlace_scan_degenerate ieee frame res h]
  refine ⟨rfl, _, rfl, rfl, ?_⟩
  intro row hrow
  simp only [List.mem_map] at hrow
  obtain ⟨k, _, rfl⟩ := hrow
  exact ⟨rfl, rfl, rfl⟩

theorem detect_interlace_degenerate_witness :
    (interlace_scan ieee exFrame21 ⟨10, 22⟩).map (fun s => (s.hist_count, s.samples.length))
      = some (0, 0) ∧
    ∃ log, detect_interlace ieee exFrame21 ⟨10, 22⟩ = some log ∧ log.average = Fp.nan ∧
      ∀ row ∈ log.rows, row.1 = Fp.fin 0 ∧ row.2.2.1 = Fp.nan ∧ row.2.2.2 = 0 :=
  detect_interlace_degenerate exFrame21 ⟨10, 22⟩ (Or.inr (by decide))

/-- C18 (counterexample): for a frame of width 10 and height 22 `detect_interlace` raises no
error; it writes the mean `0 / 0`, a NaN, computed with the zero divisor `hist_count`. -/
theorem detect_interlace_no_error :
    (interlace_scan ieee exF0 ⟨10, 22⟩).map (fun s => s.hist_count) = some 0 ∧
    (detect_interlace ieee exF0 ⟨10, 22⟩).isSome = true ∧
    (detect_interlace ieee exF0 ⟨10, 22⟩).map (fun l => l.average) = some Fp.nan := by
  decide!

/-- C20 (evaluation at the failing input): for the 21x22 frame `exFrame21` the table written
has 99 rows, for the bin indices 0 to 98; all 4 samples are in bin 99, for which no row is
written. -/
theorem interlace_log_rows :
    (detect_interlace ieee exFrame21 ⟨21, 22⟩).map (fun l => l.rows.length) = some 99 ∧
    (detect_interlace ieee exFrame21 ⟨21, 22⟩).map (fun l => l.rows.map (fun r => r.2.1))
      = some (List.range 99) ∧
    (detect_interlace ieee exFrame21 ⟨21, 22⟩).map (fun l => l.rows.map (fun r => r.2.2.2))
      = some (List.replicate 99 0) ∧
    exScan21.hist 99 = 4 ∧ exScan21.hist_count = 4 := by
  decide!

/-- A quotient with the divisor zero is not a number. -/
theorem Fp_div_zero_right (x : Fp) (q : ℚ) : Fp.div x (Fp.fin 0) ≠ Fp.fin q := by
  cases x with
  | fin a =>
    simp only [Fp.div, if_true]
    split_ifs <;> simp
  | pinf => simp [Fp.div]
  | ninf => simp [Fp.div]
  | nan => simp [Fp.div]

/-- A sum over a phase of numbers is a number. -/
theorem phase_sum_fin (v : Nat → Fp) (N k : Nat) (h : ∀ i, i < N → ∃ q : ℚ, v i = Fp.fin q) :
    ∃ q : ℚ, phase_sum ieee v N k = Fp.fin q := by
  induction N with
  | zero => exact ⟨0, by simp [phase_sum, ieee]⟩
  | succ N ih =>
    obtain ⟨q, hq⟩ := ih (fun i hi => h i (by omega))
    obtain ⟨r, hr⟩ := h N (by omega)
    rw [phase_sum_succ]
    split_ifs
    · exact ⟨q + r, by rw [hq, hr]; rfl⟩
    · exact ⟨q, hq⟩

/-- A sum over a phase of zeros is zero. -/
theorem phase_sum_fin_zero (v : Nat → Fp) (N k : Nat) (h : ∀ i, i < N → v i = Fp.fin 0) :
    phase_sum ieee v N k = Fp.fin 0 := by
  induction N with
  | zero => simp [phase_sum, ieee]
  | succ N ih =>
    rw [phase_sum_succ, ih (fun i hi => h i (by omega)), h N (by omega)]
    split_ifs
    · simp [ieee, Fp.add]
    · rfl

/-- The energies of a pair of frames of at least two pixels are numbers on `ieee`. -/
theorem compute_ssd_number (cur prev : Buf) (width height : Int) (hwh : 2 ≤ width * height) :
    ∃ a b : ℚ, compute_ssd ieee cur prev ⟨width, height⟩ = (Fp.fin a, Fp.fin b) := by
  have hd : (1 : Int) ≤ width * height / 2 := by
    generalize width * height = wh at *
    omega
  have hdq : (0 : ℚ) < ((width * height / 2 : Int) : ℚ) := by exact_mod_cast hd
  refine ⟨(wrap32 (ssd_field_sum 0 cur prev width height) : ℚ) / ((width * height / 2 : Int) : ℚ),
    (wrap32 (ssd_field_sum 1 cur prev width height) : ℚ) / ((width * height / 2 : Int) : ℚ), ?_⟩
  rw [compute_ssd_wrap]
  show (ieee.div (ieee.ofInt (wrap32 (ssd_field_sum 0 cur prev width height)))
    (ieee.ofInt (Int.tdiv (width * height) 2)), ieee.div (ieee.ofInt (wrap32
    (ssd_field_sum 1 cur prev width height))) (ieee.ofInt (Int.tdiv (width * height) 2))) = _
  rw [Int.tdiv_eq_ediv (by omega) (by omega)]
  simp only [ieee, Fp.div, if_neg (ne_of_gt hdq)]

/-- The tables after the main loop hold numbers when a frame has at least two pixels. -/
theorem telecine_tables_fin (width height : Int) (frames : List Buf) (hwh : 2 ≤ width * height)
    (k : Nat) :
    (telecine_main_loop ieee ⟨width, height⟩ frames).sequence_ssd_even k
      = Fp.fin (Fp.toRat ((telecine_main_loop ieee ⟨width, height⟩ frames).sequence_ssd_even k)) ∧
    (telecine_main_loop ieee ⟨width, height⟩ frames).sequence_ssd_odd k
      = Fp.fin (Fp.toRat ((telecine_main_loop ieee ⟨width, height⟩ frames).sequence_ssd_odd k)) := by
  obtain ⟨_, _, he, ho⟩ := telecine_main_loop_inv ieee ⟨width, height⟩ frames
  constructor
  · obtain ⟨q, hq⟩ := phase_sum_fin (fun i =>
      (compute_ssd ieee (frame_at frames i) (frame_at frames (i - 1)) ⟨width, height⟩).1)
      frames.length k (fun i _ => by
        obtain ⟨a, b, hab⟩ := compute_ssd_number (frame_at frames i) (frame_at frames (i - 1))
          width height hwh
        exact ⟨a, by simp only [hab]⟩)
    rw [he k, hq]
    rfl
  · obtain ⟨q, hq⟩ := phase_sum_fin (fun i =>
      (compute_ssd ieee (frame_at frames i) (frame_at frames (i - 1)) ⟨width, height⟩).2)
      frames.length k (fun i _ => by
        obtain ⟨a, b, hab⟩ := compute_ssd_number (frame_at frames i) (frame_at frames (i - 1))
          width height hwh
        exact ⟨b, by simp only [hab]⟩)
    rw [ho k, hq]
    rfl

theorem table_sum_eq {F : Type} (fp : FloatOps F) (x : Nat → F) :
    table_sum fp x
      = fp.add (fp.add (fp.add (fp.add (fp.add (fp.lit 0) (x 0)) (x 1)) (x 2)) (x 3)) (x 4) := by
  unfold table_sum
  rw [range_five]
  rfl

/-- The totals of a stream of identical frames of at least two pixels are zero. -/
theorem telecine_totals_identical (width height : Int) (frames : List Buf) (f : Buf)
    (hwh : 2 ≤ width * height) (hid : ∀ i, i < frames.length → frame_at frames i = f) :
    telecine_totals ieee (telecine_main_loop ieee ⟨width, height⟩ frames)
      = (Fp.fin 0, Fp.fin 0) := by
  obtain ⟨_, _, he, ho⟩ := telecine_main_loop_inv ieee ⟨width, height⟩ frames
  have hz : ∀ i, i < frames.length →
      compute_ssd ieee (frame_at frames i) (frame_at frames (i - 1)) ⟨width, height⟩
        = (Fp.fin 0, Fp.fin 0) := by
    intro i hi
    rw [hid i hi, hid (i - 1) (by omega)]
    obtain ⟨a, b, hab, _, _, h0, _, _⟩ := compute_ssd_fin f f width height hwh
      (by rw [ssd_field_sum_self]; decide) (by rw [ssd_field_sum_self]; decide)
    rw [hab, (h0 rfl).1, (h0 rfl).2]
  have e1 : ∀ k, (telecine_main_loop ieee ⟨width, height⟩ frames).sequence_ssd_even k
      = Fp.fin 0 := by
    intro k
    rw [he k]
    exact phase_sum_fin_zero _ _ _ (fun i hi => by simp only [hz i hi])
  have e2 : ∀ k, (telecine_main_loop ieee ⟨width, height⟩ frames).sequence_ssd_odd k
      = Fp.fin 0 := by
    intro k
    rw [ho k]
    exact phase_sum_fin_zero _ _ _ (fun i hi => by simp only [hz i hi])
  rw [telecine_totals_eq]
  simp only [e1, e2]
  simp [ieee, Fp.add]

/-- The totals of a stream of fewer than 2 frames are zero. -/
theorem telecine_totals_short {F : Type} (fp : FloatOps F) (res : res_t) (frames : List Buf)
    (hN : frames.length < 2) :
    telecine_totals fp (telecine_main_loop fp res frames)
      = telecine_totals fp (telecine_main_loop fp res []) := by
  match frames, hN with
  | [], _ => rfl
  | [_], _ => rfl
  | _ :: _ :: _, h => exact absurd h (by simp)

/-- C19 (amended): `telecine_detector` has no guard on the totals. Streams of fewer than 2
frames, and streams of identical frames of at least two pixels, have both totals zero; when
the total of a table is zero every entry of that normalised table is the quotient by zero, not
a number, and one of the two verdict lines is printed all the same. -/
theorem telecine_zero_total (width height : Int) (frames : List Buf) :
    (frames.length < 2 →
      telecine_totals ieee (telecine_main_loop ieee ⟨width, height⟩ frames)
        = (Fp.fin 0, Fp.fin 0)) ∧
    (2 ≤ width * height → (∀ i, i < frames.length → frame_at frames i = frame_at frames 0) →
      telecine_totals ieee (telecine_main_loop ieee ⟨width, height⟩ frames)
        = (Fp.fin 0, Fp.fin 0)) ∧
    ((telecine_totals ieee (telecine_main_loop ieee ⟨width, height⟩ frames)).1 = Fp.fin 0 →
      ∀ k, k < 5 → ∀ q : ℚ,
        (telecine_detector ieee ⟨width, height⟩ frames).sequence_ssd_even k ≠ Fp.fin q) ∧
    ((telecine_totals ieee (telecine_main_loop ieee ⟨width, height⟩ frames)).2 = Fp.fin 0 →
      ∀ k, k < 5 → ∀ q : ℚ,
        (telecine_detector ieee ⟨width, height⟩ frames).sequence_ssd_odd k ≠ Fp.fin q) ∧
    ((telecine_detector ieee ⟨width, height⟩ frames).stdout = "Telecine detected\n" ∨
     (telecine_detector ieee ⟨width, height⟩ frames).stdout = "Telecine IS NOT detected\n") := by
  refine ⟨?_, ?_, ?_, ?_, ?_⟩
  · intro hN
    rw [telecine_totals_short ieee _ frames hN, telecine_totals_eq]
    simp [telecine_main_loop, ieee, Fp.add]
  · intro hwh hid
    exact telecine_totals_identical width height frames _ hwh hid
  · intro h0 k hk q
    show (telecine_normalise ieee (telecine_main_loop ieee ⟨width, height⟩ frames)).1 k ≠ _
    rw [(telecine_normalise_entry ieee _ k hk).1, h0]
    exact Fp_div_zero_right _ q
  · intro h0 k hk q
    show (telecine_normalise ieee (telecine_main_loop ieee ⟨width, height⟩ frames)).2 k ≠ _
    rw [(telecine_normalise_entry ieee _ k hk).2, h0]
    exact Fp_div_zero_right _ q
  · rw [telecine_stdout_cases]
    split_ifs
    · exact Or.inr rfl
    · exact Or.inl rfl

theorem telecine_zero_total_witness :
    telecine_totals ieee (telecine_main_loop ieee ⟨1, 2⟩ [exF2, exF2, exF2])
      = (Fp.fin 0, Fp.fin 0) ∧
    (∀ k, k < 5 → ∀ q : ℚ,
      (telecine_detector ieee ⟨1, 2⟩ [exF2, exF2, exF2]).sequence_ssd_even k ≠ Fp.fin q) :=
  have h := (telecine_zero_total 1 2 [exF2, exF2, exF2]).2.1 (by decide)
    (fun i hi => by
      have h3 : i < 3 := hi
      interval_cases i <;> rfl)
  ⟨h, (telecine_zero_total 1 2 [exF2, exF2, exF2]).2.2.1 (by rw [h])⟩

/-- C19 (counterexample): for a stream of one frame both totals are zero, every entry of the
normalised even table is the NaN `0 / 0`, and the verdict 'Telecine detected' is derived
from the quotients; no 'no data' result is returned. -/
theorem telecine_single_frame :
    telecine_totals ieee (telecine_main_loop ieee ⟨1, 2⟩ [exF2]) = (Fp.fin 0, Fp.fin 0) ∧
    (List.range 5).map (telecine_detector ieee ⟨1, 2⟩ [exF2]).sequence_ssd_even
      = [Fp.nan, Fp.nan, Fp.nan, Fp.nan, Fp.nan] ∧
    (List.range 5).map (telecine_detector ieee ⟨1, 2⟩ [exF2]).sequence_ssd_odd
      = [Fp.nan, Fp.nan, Fp.nan, Fp.nan, Fp.nan] ∧
    (telecine_detector ieee ⟨1, 2⟩ [exF2]).stdout = "Telecine detected\n" := by
  decide!

/-! ## Rounding to 53 bits -/

/-- With enough fuel `log2_fuel` finds the top bit. -/
theorem log2_fuel_spec (fuel n : Nat) (hf : n ≤ fuel) (hn : n ≠ 0) :
    2 ^ log2_fuel fuel n ≤ n ∧ n < 2 ^ (log2_fuel fuel n + 1) := by
  induction fuel generalizing n with
  | zero => omega
  | succ fuel ih =>
    unfold log2_fuel
    split_ifs with c
    · obtain ⟨h1, h2⟩ := ih (n / 2) (by omega) (by omega)
      rw [pow_succ] at h2 ⊢
      rw [pow_succ]
      constructor <;> omega
    · have : n = 1 := by omega
      subst this
      simp

theorem zpow_two_split (e : Int) :
    (2 : ℚ) ^ e = (2 : ℚ) ^ e.toNat / (2 : ℚ) ^ (-e).toNat := by
  have h : e = (e.toNat : Int) - ((-e).toNat : Int) := by omega
  calc (2 : ℚ) ^ e = (2 : ℚ) ^ ((e.toNat : Int) - ((-e).toNat : Int)) := by rw [← h]
    _ = (2 : ℚ) ^ e.toNat / (2 : ℚ) ^ (-e).toNat := by
      rw [zpow_sub₀ (by norm_num : (2 : ℚ) ≠ 0), zpow_natCast, zpow_natCast]

theorem abs_eq_natAbs_div (q : ℚ) : |q| = (q.num.natAbs : ℚ) / (q.den : ℚ) := by
  have h1 : (q.num.natAbs : ℚ) = |(q.num : ℚ)| := by
    rw [Nat.cast_natAbs, Int.cast_abs]
  rw [h1]
  conv_lhs => rw [← Rat.num_div_den q]
  rw [abs_div, Nat.abs_cast]

/-- The binary exponent is not above the number: `2^e <= |q|`. -/
theorem floor_log2_le (q : ℚ) (hq : q ≠ 0) : (2 : ℚ) ^ floor_log2 q ≤ |q| := by
  have hn : q.num.natAbs ≠ 0 := by
    intro h
    exact hq (Rat.zero_of_num_zero (Int.natAbs_eq_zero.mp h))
  have hd : (0 : ℚ) < (q.den : ℚ) := by exact_mod_cast q.den_pos
  have hnq : (0 : ℚ) < (q.num.natAbs : ℚ) := by exact_mod_cast Nat.pos_of_ne_zero hn
  rw [abs_eq_natAbs_div]
  unfold floor_log2
  simp only []
  generalize hE : ((log2_fuel q.num.natAbs q.num.natAbs : Int) - (log2_fuel q.den q.den : Int)) = e0
  split_ifs with c
  · rw [zpow_two_split, div_le_div_iff₀ (by positivity) hd]
    have c2 : (q.den : ℚ) * 2 ^ e0.toNat ≤ (q.num.natAbs : ℚ) * 2 ^ (-e0).toNat := by
      exact_mod_cast c
    linarith
  · have h1 : (2 : ℚ) ^ (e0 - 1)
        = (2 : ℚ) ^ (log2_fuel q.num.natAbs q.num.natAbs) / (2 : ℚ) ^ (log2_fuel q.den q.den + 1) := by
      rw [← hE, show ((log2_fuel q.num.natAbs q.num.natAbs : Int) - (log2_fuel q.den q.den : Int)) - 1
        = (log2_fuel q.num.natAbs q.num.natAbs : Int) - ((log2_fuel q.den q.den + 1 : Nat) : Int) from by
          push_cast; ring,
        zpow_sub₀ (by norm_num : (2 : ℚ) ≠ 0), zpow_natCast, zpow_natCast]
    rw [h1, div_le_div_iff₀ (by positivity) hd]
    have a1 : ((2 ^ log2_fuel q.num.natAbs q.num.natAbs : Nat) : ℚ) ≤ (q.num.natAbs : ℚ) := by
      exact_mod_cast (log2_fuel_spec _ _ (le_refl _) hn).1
    have a2 : (q.den : ℚ) ≤ ((2 ^ (log2_fuel q.den q.den + 1) : Nat) : ℚ) := by
      exact_mod_cast le_of_lt (log2_fuel_spec _ _ (le_refl _) q.den_nz).2
    push_cast at a1 a2
    calc (2 : ℚ) ^ (log2_fuel q.num.natAbs q.num.natAbs) * (q.den : ℚ)
        ≤ (q.num.natAbs : ℚ) * (q.den : ℚ) := by
          exact mul_le_mul_of_nonneg_right a1 (le_of_lt hd)
      _ ≤ (q.num.natAbs : ℚ) * (2 : ℚ) ^ (log2_fuel q.den q.den + 1) := by
          exact mul_le_mul_of_nonneg_left a2 (le_of_lt hnq)

/-- The nearest integer to `N / D`, ties to even, is within one half of it. -/
theorem nearest_int_error (N D : Int) (hD : 0 < D) :
    |(((if 2 * (N % D) < D then N / D else if D < 2 * (N % D) then N / D + 1
        else if (N / D) % 2 = 0 then N / D else N / D + 1 : Int) : ℚ)) - (N : ℚ) / (D : ℚ)|
      ≤ 1 / 2 := by
  have hr0 : 0 ≤ N % D := Int.emod_nonneg N (ne_of_gt hD)
  have hr1 : N % D < D := Int.emod_lt_of_pos N hD
  have hN : (N : ℚ) = (D : ℚ) * ((N / D : Int) : ℚ) + ((N % D : Int) : ℚ) := by
    exact_mod_cast (Int.ediv_add_emod N D).symm
  have hDq : (0 : ℚ) < (D : ℚ) := by exact_mod_cast hD
  have hq : (N : ℚ) / (D : ℚ) = ((N / D : Int) : ℚ) + ((N % D : Int) : ℚ) / (D : ℚ) := by
    rw [hN]
    field_simp
    ring
  have hr0q : (0 : ℚ) ≤ ((N % D : Int) : ℚ) := by exact_mod_cast hr0
  have hr1q : ((N % D : Int) : ℚ) < (D : ℚ) := by exact_mod_cast hr1
  have hfrac0 : 0 ≤ ((N % D : Int) : ℚ) / (D : ℚ) := div_nonneg hr0q (le_of_lt hDq)
  have low : 2 * (N % D) ≤ D → ((N % D : Int) : ℚ) / (D : ℚ) ≤ 1 / 2 := by
    intro h
    rw [div_le_iff₀ hDq]
    have : ((2 * (N % D) : Int) : ℚ) ≤ (D : ℚ) := by exact_mod_cast h
    push_cast at this
    linarith
  have high : D ≤ 2 * (N % D) → 1 / 2 ≤ ((N % D : Int) : ℚ) / (D : ℚ) := by
    intro h
    rw [le_div_iff₀ hDq]
    have : (D : ℚ) ≤ ((2 * (N % D) : Int) : ℚ) := by exact_mod_cast h
    push_cast at this
    linarith
  have hfrac1 : ((N % D : Int) : ℚ) / (D : ℚ) < 1 := by
    rw [div_lt_one hDq]; exact hr1q
  rw [hq]
  split_ifs with c1 c2 c3
  · have := low (by omega)
    rw [abs_le]; constructor <;> linarith
  · have := high (by omega)
    push_cast
    rw [abs_le]; constructor <;> linarith
  · have := low (by omega)
    rw [abs_le]; constructor <;> linarith
  · have := high (by omega)
    push_cast
    rw [abs_le]; constructor <;> linarith

/-- The rounding to 53 bits has a relative error of at most `2^-53`. -/
theorem round53_error (q : ℚ) : |round53 q - q| ≤ 1 / 2 ^ 53 * |q| := by
  by_cases hq : q = 0
  · subst hq
    simp [round53]
  have hle := floor_log2_le q hq
  unfold round53
  rw [if_neg hq]
  simp only []
  generalize floor_log2 q = e at hle
  have hD : (0 : Int) < (q.den : Int) * 2 ^ (e - 52).toNat := by
    have : (0 : Int) < (q.den : Int) := by exact_mod_cast q.den_pos
    positivity
  have hm := nearest_int_error (q.num * 2 ^ (52 - e).toNat) ((q.den : Int) * 2 ^ (e - 52).toNat) hD
  generalize (if 2 * (q.num * 2 ^ (52 - e).toNat % ((q.den : Int) * 2 ^ (e - 52).toNat))
      < (q.den : Int) * 2 ^ (e - 52).toNat
    then q.num * 2 ^ (52 - e).toNat / ((q.den : Int) * 2 ^ (e - 52).toNat)
    else if (q.den : Int) * 2 ^ (e - 52).toNat
        < 2 * (q.num * 2 ^ (52 - e).toNat % ((q.den : Int) * 2 ^ (e - 52).toNat))
      then q.num * 2 ^ (52 - e).toNat / ((q.den : Int) * 2 ^ (e - 52).toNat) + 1
      else if q.num * 2 ^ (52 - e).toNat / ((q.den : Int) * 2 ^ (e - 52).toNat) % 2 = 0
        then q.num * 2 ^ (52 - e).toNat / ((q.den : Int) * 2 ^ (e - 52).toNat)
        else q.num * 2 ^ (52 - e).toNat / ((q.den : Int) * 2 ^ (e - 52).toNat) + 1) = m at hm ⊢
  have hu : (2 : ℚ) ^ (e - 52) = (2 : ℚ) ^ (e - 52).toNat / (2 : ℚ) ^ (52 - e).toNat := by
    rw [zpow_two_split (e - 52), show -(e - 52) = 52 - e from by ring]
  have hden : (0 : ℚ) < (q.den : ℚ) := by exact_mod_cast q.den_pos
  have ha : (0 : ℚ) < (2 : ℚ) ^ (52 - e).toNat := by positivity
  have hb : (0 : ℚ) < (2 : ℚ) ^ (e - 52).toNat := by positivity
  have hqv : q = (q.num : ℚ) / (q.den : ℚ) := (Rat.num_div_den q).symm
  have key : ((m * 2 ^ (e - 52).toNat : Int) : ℚ) / ((2 ^ (52 - e).toNat : Nat) : ℚ) - q
      = ((m : ℚ) - ((q.num * 2 ^ (52 - e).toNat : Int) : ℚ)
          / (((q.den : Int) * 2 ^ (e - 52).toNat : Int) : ℚ)) * (2 : ℚ) ^ (e - 52) := by
    rw [hu]
    conv_lhs => rw [hqv]
    push_cast
    field_simp
    ring
  rw [key, abs_mul, abs_of_pos (zpow_pos (by norm_num : (0 : ℚ) < 2) (e - 52))]
  have h52 : (2 : ℚ) ^ (e - 52) = (2 : ℚ) ^ e / 2 ^ 52 := by
    rw [zpow_sub₀ (by norm_num : (2 : ℚ) ≠ 0)]
    norm_cast
  have hpos : (0 : ℚ) < (2 : ℚ) ^ e := zpow_pos (by norm_num) e
  calc |(m : ℚ) - ((q.num * 2 ^ (52 - e).toNat : Int) : ℚ)
          / (((q.den : Int) * 2 ^ (e - 52).toNat : Int) : ℚ)| * (2 : ℚ) ^ (e - 52)
      ≤ 1 / 2 * (2 : ℚ) ^ (e - 52) :=
        mul_le_mul_of_nonneg_right hm (le_of_lt (zpow_pos (by norm_num) _))
    _ = 1 / 2 ^ 53 * (2 : ℚ) ^ e := by rw [h52]; ring
    _ ≤ 1 / 2 ^ 53 * |q| := mul_le_mul_of_nonneg_left hle (by positivity)

/-! ## The normalised tables under rounding -/

/-- A rounding with a relative error of at most `u` keeps 0. -/
theorem rnd_zero (rnd : ℚ → ℚ) (u : ℚ) (hrnd : ∀ x : ℚ, |rnd x - x| ≤ u * |x|) : rnd 0 = 0 := by
  have h := hrnd 0
  simp only [abs_zero, mul_zero, sub_zero] at h
  exact abs_eq_zero.mp (le_antisymm h (abs_nonneg _))

/-- A rounding with a relative error of at most `u` maps `x >= 0` into `[(1-u) x, (1+u) x]`. -/
theorem rnd_bounds (rnd : ℚ → ℚ) (u : ℚ) (hrnd : ∀ x : ℚ, |rnd x - x| ≤ u * |x|) (x : ℚ)
    (hx : 0 ≤ x) : (1 - u) * x ≤ rnd x ∧ rnd x ≤ (1 + u) * x := by
  have h := hrnd x
  rw [abs_of_nonneg hx, abs_le] at h
  constructor <;> linarith [h.1, h.2]

theorem rnd_nonneg (rnd : ℚ → ℚ) (u : ℚ) (hu1 : u ≤ 1)
    (hrnd : ∀ x : ℚ, |rnd x - x| ≤ u * |x|) (x : ℚ) (hx : 0 ≤ x) : 0 ≤ rnd x := by
  have h := (rnd_bounds rnd u hrnd x hx).1
  have : 0 ≤ (1 - u) * x := mul_nonneg (by linarith) hx
  linarith

theorem rnd_pos (rnd : ℚ → ℚ) (u : ℚ) (hu1 : u < 1)
    (hrnd : ∀ x : ℚ, |rnd x - x| ≤ u * |x|) (x : ℚ) (hx : 0 < x) : 0 < rnd x := by
  have h := (rnd_bounds rnd u hrnd x (le_of_lt hx)).1
  have : 0 < (1 - u) * x := mul_pos (by linarith) hx
  linarith

theorem rounded_add_fin (rnd : ℚ → ℚ) (a b : ℚ) :
    (rounded rnd).add (Fp.fin a) (Fp.fin b) = Fp.fin (rnd (a + b)) := rfl

theorem rounded_div_fin (rnd : ℚ → ℚ) (a b : ℚ) (hb : b ≠ 0) :
    (rounded rnd).div (Fp.fin a) (Fp.fin b) = Fp.fin (rnd (a / b)) := by
  show Fp.round rnd (Fp.div (Fp.fin a) (Fp.fin b)) = _
  simp only [Fp.div, if_neg hb]
  rfl

/-- With rounding, the energies of a pair of frames of at least two pixels whose sums fit in an
`int` are numbers that are not negative. -/
theorem compute_ssd_rounded (rnd : ℚ → ℚ) (u : ℚ) (hu1 : u < 1)
    (hrnd : ∀ x : ℚ, |rnd x - x| ≤ u * |x|) (cur prev : Buf) (width height : Int)
    (hwh : 2 ≤ width * height)
    (hSe : ssd_field_sum 0 cur prev width height < 2147483648)
    (hSo : ssd_field_sum 1 cur prev width height < 2147483648) :
    ∃ a b : ℚ, compute_ssd (rounded rnd) cur prev ⟨width, height⟩ = (Fp.fin a, Fp.fin b) ∧
      0 ≤ a ∧ 0 ≤ b := by
  have hd : (1 : Int) ≤ width * height / 2 := by
    generalize width * height = wh at *
    omega
  have hdq : (0 : ℚ) < ((width * height / 2 : Int) : ℚ) := by exact_mod_cast hd
  have hrd := rnd_pos rnd u hu1 hrnd _ hdq
  have h0 := ssd_field_sum_nonneg 0 cur prev width height
  have h1 := ssd_field_sum_nonneg 1 cur prev width height
  have h0q : (0 : ℚ) ≤ ((ssd_field_sum 0 cur prev width height : Int) : ℚ) := by exact_mod_cast h0
  have h1q : (0 : ℚ) ≤ ((ssd_field_sum 1 cur prev width height : Int) : ℚ) := by exact_mod_cast h1
  refine ⟨rnd (rnd ((ssd_field_sum 0 cur prev width height : Int) : ℚ)
      / rnd ((width * height / 2 : Int) : ℚ)),
    rnd (rnd ((ssd_field_sum 1 cur prev width height : Int) : ℚ)
      / rnd ((width * height / 2 : Int) : ℚ)), ?_, ?_, ?_⟩
  · rw [compute_ssd_wrap]
    show ((rounded rnd).div ((rounded rnd).ofInt (wrap32 (ssd_field_sum 0 cur prev width height)))
      ((rounded rnd).ofInt (Int.tdiv (width * height) 2)),
      (rounded rnd).div ((rounded rnd).ofInt (wrap32 (ssd_field_sum 1 cur prev width height)))
      ((rounded rnd).ofInt (Int.tdiv (width * height) 2))) = _
    rw [Int.tdiv_eq_ediv (by omega) (by omega), wrap32_of_lt _ h0 hSe, wrap32_of_lt _ h1 hSo]
    show ((rounded rnd).div (Fp.fin _) (Fp.fin _), (rounded rnd).div (Fp.fin _) (Fp.fin _)) = _
    rw [rounded_div_fin _ _ _ (ne_of_gt hrd), rounded_div_fin _ _ _ (ne_of_gt hrd)]
  · exact rnd_nonneg rnd u (le_of_lt hu1) hrnd _
      (div_nonneg (rnd_nonneg rnd u (le_of_lt hu1) hrnd _ h0q) (le_of_lt hrd))
  · exact rnd_nonneg rnd u (le_of_lt hu1) hrnd _
      (div_nonneg (rnd_nonneg rnd u (le_of_lt hu1) hrnd _ h1q) (le_of_lt hrd))

/-- With rounding, a sum over a phase of numbers that are not negative is such a number. -/
theorem phase_sum_rounded (rnd : ℚ → ℚ) (u : ℚ) (hu1 : u < 1)
    (hrnd : ∀ x : ℚ, |rnd x - x| ≤ u * |x|) (v : Nat → Fp) (N k : Nat)
    (h : ∀ i, 1 ≤ i → i < N → ∃ q : ℚ, v i = Fp.fin q ∧ 0 ≤ q) :
    ∃ q : ℚ, phase_sum (rounded rnd) v N k = Fp.fin q ∧ 0 ≤ q := by
  induction N with
  | zero =>
    refine ⟨0, ?_, le_refl _⟩
    show Fp.fin (rnd ((0 : Int) : ℚ)) = _
    rw [Int.cast_zero, rnd_zero rnd u hrnd]
  | succ N ih =>
    obtain ⟨q, hq, hq0⟩ := ih (fun i h1 hi => h i h1 (by omega))
    rw [phase_sum_succ]
    split_ifs with c
    · obtain ⟨r, hr, hr0⟩ := h N c.1 (by omega)
      rw [hq, hr, rounded_add_fin]
      exact ⟨_, rfl, rnd_nonneg rnd u (le_of_lt hu1) hrnd _ (by linarith)⟩
    · exact ⟨q, hq, hq0⟩

/-- One rounded addition of a term that is not negative to a partial sum known within the
factors `(1-u)^j` and `(1+u)^j`. -/
theorem rounded_sum_step (rnd : ℚ → ℚ) (u : ℚ) (hu0 : 0 ≤ u) (hu1 : u < 1)
    (hrnd : ∀ x : ℚ, |rnd x - x| ≤ u * |x|) (j : Nat) (x X a : ℚ) (hX : 0 ≤ X) (ha : 0 ≤ a)
    (hlo : (1 - u) ^ j * X ≤ x) (hhi : x ≤ (1 + u) ^ j * X) :
    (1 - u) ^ (j + 1) * (X + a) ≤ rnd (x + a) ∧ rnd (x + a) ≤ (1 + u) ^ (j + 1) * (X + a) := by
  have hl0 : 0 ≤ (1 - u) ^ j := pow_nonneg (by linarith) j
  have hl1 : (1 - u) ^ j ≤ 1 := pow_le_one₀ (by linarith) (by linarith)
  have hh1 : 1 ≤ (1 + u) ^ j := one_le_pow₀ (by linarith)
  have hx0 : 0 ≤ x := le_trans (mul_nonneg hl0 hX) hlo
  obtain ⟨b1, b2⟩ := rnd_bounds rnd u hrnd (x + a) (by linarith)
  have e1 : (1 - u) ^ j * a ≤ a := by
    have := mul_le_mul_of_nonneg_right hl1 ha
    linarith
  have e2 : a ≤ (1 + u) ^ j * a := by
    have := mul_le_mul_of_nonneg_right hh1 ha
    linarith
  constructor
  · calc (1 - u) ^ (j + 1) * (X + a) = (1 - u) * ((1 - u) ^ j * X + (1 - u) ^ j * a) := by ring
      _ ≤ (1 - u) * (x + a) := mul_le_mul_of_nonneg_left (by linarith) (by linarith)
      _ ≤ rnd (x + a) := b1
  · calc rnd (x + a) ≤ (1 + u) * (x + a) := b2
      _ ≤ (1 + u) * ((1 + u) ^ j * X + (1 + u) ^ j * a) :=
          mul_le_mul_of_nonneg_left (by linarith) (by linarith)
      _ = (1 + u) ^ (j + 1) * (X + a) := by ring

/-- The rounded sum of five numbers that are not negative, accumulated from 0 as the totals
are, lies within the factors `(1-u)^5` and `(1+u)^5` of their exact sum. -/
theorem rounded_sum_five (rnd : ℚ → ℚ) (u : ℚ) (hu0 : 0 ≤ u) (hu1 : u < 1)
    (hrnd : ∀ x : ℚ, |rnd x - x| ≤ u * |x|) (a0 a1 a2 a3 a4 : ℚ)
    (h0 : 0 ≤ a0) (h1 : 0 ≤ a1) (h2 : 0 ≤ a2) (h3 : 0 ≤ a3) (h4 : 0 ≤ a4) :
    ∃ t : ℚ,
      (rounded rnd).add ((rounded rnd).add ((rounded rnd).add ((rounded rnd).add
        ((rounded rnd).add ((rounded rnd).lit 0) (Fp.fin a0)) (Fp.fin a1)) (Fp.fin a2))
        (Fp.fin a3)) (Fp.fin a4) = Fp.fin t ∧
      (1 - u) ^ 5 * (a0 + a1 + a2 + a3 + a4) ≤ t ∧
      t ≤ (1 + u) ^ 5 * (a0 + a1 + a2 + a3 + a4) := by
  have z : (rounded rnd).lit 0 = Fp.fin 0 := by
    show Fp.fin (rnd 0) = _
    rw [rnd_zero rnd u hrnd]
  rw [z]
  simp only [rounded_add_fin, zero_add]
  have s1 := rounded_sum_step rnd u hu0 hu1 hrnd 0 0 0 a0 (le_refl _) h0 (by simp) (by simp)
  have s2 := rounded_sum_step rnd u hu0 hu1 hrnd 1 _ _ a1 (by linarith) h1 s1.1 s1.2
  have s3 := rounded_sum_step rnd u hu0 hu1 hrnd 2 _ _ a2 (by linarith) h2 s2.1 s2.2
  have s4 := rounded_sum_step rnd u hu0 hu1 hrnd 3 _ _ a3 (by linarith) h3 s3.1 s3.2
  have s5 := rounded_sum_step rnd u hu0 hu1 hrnd 4 _ _ a4 (by linarith) h4 s4.1 s4.2
  simp only [zero_add] at s5
  exact ⟨_, rfl, s5.1, s5.2⟩

/-- The fifth powers of `1 - u` and `1 + u` for a small `u`. -/
theorem pow_five_bounds (u : ℚ) (hu0 : 0 ≤ u) (hu1 : u ≤ 1 / 128) :
    1 - 5 * u ≤ (1 - u) ^ 5 ∧ (1 + u) ^ 5 ≤ 1 + 5 * u + 11 * u ^ 2 := by
  have h2 : 0 ≤ u ^ 2 := sq_nonneg u
  have h3 : 0 ≤ u ^ 2 * (1 / 128 - u) := mul_nonneg h2 (by linarith)
  have h4 : 0 ≤ u ^ 2 * (u * (1 / 128 - u)) := mul_nonneg h2 (mul_nonneg hu0 (by linarith))
  have h5 : 0 ≤ u ^ 2 * (u ^ 2 * (1 / 128 - u)) := mul_nonneg h2 h3
  have h6 : 0 ≤ u ^ 2 * u := mul_nonneg h2 hu0
  have h7 : 0 ≤ u ^ 2 * u ^ 2 := mul_nonneg h2 h2
  have h8 : 0 ≤ u ^ 2 * u ^ 2 * u := mul_nonneg h7 hu0
  constructor
  · have e : (1 - u) ^ 5 = 1 - 5 * u + 10 * u ^ 2 - 10 * (u ^ 2 * u) + 5 * (u ^ 2 * u ^ 2)
        - u ^ 2 * u ^ 2 * u := by ring
    rw [e]
    nlinarith [h2, h3, h4, h5, h6, h7, h8]
  · have e : (1 + u) ^ 5 = 1 + 5 * u + 10 * u ^ 2 + 10 * (u ^ 2 * u) + 5 * (u ^ 2 * u ^ 2)
        + u ^ 2 * u ^ 2 * u := by ring
    rw [e]
    nlinarith [h2, h3, h4, h5, h6, h7, h8]

/-- The exact sum of five rounded quotients by a total that is within the factors `(1-u)^5`
and `(1+u)^5` of the exact sum of the numerators. -/
theorem normalised_sum_bounds (rnd : ℚ → ℚ) (u : ℚ) (hu0 : 0 ≤ u) (hu1 : u ≤ 1 / 128)
    (hrnd : ∀ x : ℚ, |rnd x - x| ≤ u * |x|) (a0 a1 a2 a3 a4 t : ℚ)
    (h0 : 0 ≤ a0) (h1 : 0 ≤ a1) (h2 : 0 ≤ a2) (h3 : 0 ≤ a3) (h4 : 0 ≤ a4) (ht : t ≠ 0)
    (hlo : (1 - u) ^ 5 * (a0 + a1 + a2 + a3 + a4) ≤ t)
    (hhi : t ≤ (1 + u) ^ 5 * (a0 + a1 + a2 + a3 + a4)) :
    (0 ≤ rnd (a0 / t) ∧ 0 ≤ rnd (a1 / t) ∧ 0 ≤ rnd (a2 / t) ∧ 0 ≤ rnd (a3 / t) ∧
      0 ≤ rnd (a4 / t)) ∧
    1 - 6 * u ≤ rnd (a0 / t) + rnd (a1 / t) + rnd (a2 / t) + rnd (a3 / t) + rnd (a4 / t) ∧
    rnd (a0 / t) + rnd (a1 / t) + rnd (a2 / t) + rnd (a3 / t) + rnd (a4 / t) ≤ 1 + 7 * u := by
  obtain ⟨p1, p2⟩ := pow_five_bounds u hu0 hu1
  have hS : 0 ≤ a0 + a1 + a2 + a3 + a4 := by linarith
  have hl0 : 0 ≤ (1 - u) ^ 5 := pow_nonneg (by linarith) 5
  have ht0 : 0 ≤ t := le_trans (mul_nonneg hl0 hS) hlo
  have htp : 0 < t := lt_of_le_of_ne ht0 (Ne.symm ht)
  have q0 := rnd_bounds rnd u hrnd (a0 / t) (div_nonneg h0 ht0)
  have q1 := rnd_bounds rnd u hrnd (a1 / t) (div_nonneg h1 ht0)
  have q2 := rnd_bounds rnd u hrnd (a2 / t) (div_nonneg h2 ht0)
  have q3 := rnd_bounds rnd u hrnd (a3 / t) (div_nonneg h3 ht0)
  have q4 := rnd_bounds rnd u hrnd (a4 / t) (div_nonneg h4 ht0)
  have hu1' : u ≤ 1 := by linarith
  have eS : a0 / t + a1 / t + a2 / t + a3 / t + a4 / t = (a0 + a1 + a2 + a3 + a4) / t := by
    field_simp
  generalize a0 + a1 + a2 + a3 + a4 = S at hS hlo hhi eS
  have hSt : 0 ≤ S / t := div_nonneg hS ht0
  -- S / t lies in [1 / (1+u)^5, 1 / (1-u)^5]
  have u1 : (1 - 5 * u) * (S / t) ≤ 1 := by
    have hA : (1 - 5 * u) * S ≤ t := le_trans (mul_le_mul_of_nonneg_right p1 hS) hlo
    have : (1 - 5 * u) * (S / t) = ((1 - 5 * u) * S) / t := by ring
    rw [this, div_le_one htp]
    exact hA
  have u2 : 1 ≤ (1 + 5 * u + 11 * u ^ 2) * (S / t) := by
    have hA : t ≤ (1 + 5 * u + 11 * u ^ 2) * S := le_trans hhi (mul_le_mul_of_nonneg_right p2 hS)
    have : (1 + 5 * u + 11 * u ^ 2) * (S / t) = ((1 + 5 * u + 11 * u ^ 2) * S) / t := by ring
    rw [this, one_le_div htp]
    exact hA
  refine ⟨⟨rnd_nonneg rnd u hu1' hrnd _ (div_nonneg h0 ht0),
    rnd_nonneg rnd u hu1' hrnd _ (div_nonneg h1 ht0),
    rnd_nonneg rnd u hu1' hrnd _ (div_nonneg h2 ht0),
    rnd_nonneg rnd u hu1' hrnd _ (div_nonneg h3 ht0),
    rnd_nonneg rnd u hu1' hrnd _ (div_nonneg h4 ht0)⟩, ?_, ?_⟩
  · have lo : (1 - u) * (S / t)
        ≤ rnd (a0 / t) + rnd (a1 / t) + rnd (a2 / t) + rnd (a3 / t) + rnd (a4 / t) := by
      rw [← eS]
      linarith [q0.1, q1.1, q2.1, q3.1, q4.1]
    have hu2 : 0 ≤ u ^ 2 := sq_nonneg u
    have a := mul_le_mul_of_nonneg_left u2 (show 0 ≤ 1 - 6 * u from by linarith)
    have b : (1 - 6 * u) * ((1 + 5 * u + 11 * u ^ 2) * (S / t))
        = (1 - u) * (S / t) - (19 * u ^ 2 + 66 * (u * u ^ 2)) * (S / t) := by ring
    have c : 0 ≤ (19 * u ^ 2 + 66 * (u * u ^ 2)) * (S / t) :=
      mul_nonneg (by have := mul_nonneg hu0 hu2; linarith) hSt
    linarith
  · have hi : rnd (a0 / t) + rnd (a1 / t) + rnd (a2 / t) + rnd (a3 / t) + rnd (a4 / t)
        ≤ (1 + u) * (S / t) := by
      rw [← eS]
      linarith [q0.2, q1.2, q2.2, q3.2, q4.2]
    have a := mul_le_mul_of_nonneg_left u1 (show 0 ≤ 1 + 7 * u from by linarith)
    have b : (1 + 7 * u) * ((1 - 5 * u) * (S / t))
        = (1 + u) * (S / t) + u * (1 - 35 * u) * (S / t) := by ring
    have c : 0 ≤ u * (1 - 35 * u) * (S / t) :=
      mul_nonneg (mul_nonneg hu0 (by linarith)) hSt
    linarith

/-- A table of five numbers that are not negative, divided entry by entry by its rounded total
when that total is not zero: the quotients are numbers that are not negative, their exact sum
is within `7 u` of 1 and their rounded sum is within `13 u` of 1. -/
theorem normalised_table_sum (rnd : ℚ → ℚ) (u : ℚ) (hu0 : 0 ≤ u) (hu1 : u ≤ 1 / 128)
    (hrnd : ∀ x : ℚ, |rnd x - x| ≤ u * |x|) (x y : Nat → Fp) (T : Fp)
    (hx : ∀ k, k < 5 → ∃ q : ℚ, x k = Fp.fin q ∧ 0 ≤ q)
    (hT : T = (rounded rnd).add ((rounded rnd).add ((rounded rnd).add ((rounded rnd).add
        ((rounded rnd).add ((rounded rnd).lit 0) (x 0)) (x 1)) (x 2)) (x 3)) (x 4))
    (hT0 : T ≠ Fp.fin 0)
    (hy : ∀ k, k < 5 → y k = (rounded rnd).div (x k) T) :
    (∀ k, k < 5 → ∃ q : ℚ, y k = Fp.fin q ∧ 0 ≤ q) ∧
    |table_value_sum y - 1| ≤ 7 * u ∧
    ∃ s : ℚ, table_sum (rounded rnd) y = Fp.fin s ∧ |s - 1| ≤ 13 * u := by
  have hu1' : u < 1 := by linarith
  obtain ⟨a0, e0, h0⟩ := hx 0 (by omega)
  obtain ⟨a1, e1, h1⟩ := hx 1 (by omega)
  obtain ⟨a2, e2, h2⟩ := hx 2 (by omega)
  obtain ⟨a3, e3, h3⟩ := hx 3 (by omega)
  obtain ⟨a4, e4, h4⟩ := hx 4 (by omega)
  obtain ⟨t, et, tlo, thi⟩ := rounded_sum_five rnd u hu0 hu1' hrnd a0 a1 a2 a3 a4 h0 h1 h2 h3 h4
  rw [e0, e1, e2, e3, e4, et] at hT
  have ht : t ≠ 0 := by
    intro h
    apply hT0
    rw [hT, h]
  have y0 : y 0 = Fp.fin (rnd (a0 / t)) := by
    rw [hy 0 (by omega), e0, hT, rounded_div_fin _ _ _ ht]
  have y1 : y 1 = Fp.fin (rnd (a1 / t)) := by
    rw [hy 1 (by omega), e1, hT, rounded_div_fin _ _ _ ht]
  have y2 : y 2 = Fp.fin (rnd (a2 / t)) := by
    rw [hy 2 (by omega), e2, hT, rounded_div_fin _ _ _ ht]
  have y3 : y 3 = Fp.fin (rnd (a3 / t)) := by
    rw [hy 3 (by omega), e3, hT, rounded_div_fin _ _ _ ht]
  have y4 : y 4 = Fp.fin (rnd (a4 / t)) := by
    rw [hy 4 (by omega), e4, hT, rounded_div_fin _ _ _ ht]
  obtain ⟨⟨n0, n1, n2, n3, n4⟩, slo, shi⟩ := normalised_sum_bounds rnd u hu0 hu1 hrnd
    a0 a1 a2 a3 a4 t h0 h1 h2 h3 h4 ht tlo thi
  obtain ⟨p1, p2⟩ := pow_five_bounds u hu0 hu1
  refine ⟨?_, ?_, ?_⟩
  · intro k hk
    interval_cases k
    · exact ⟨_, y0, n0⟩
    · exact ⟨_, y1, n1⟩
    · exact ⟨_, y2, n2⟩
    · exact ⟨_, y3, n3⟩
    · exact ⟨_, y4, n4⟩
  · have e : table_value_sum y
        = rnd (a0 / t) + rnd (a1 / t) + rnd (a2 / t) + rnd (a3 / t) + rnd (a4 / t) := by
      unfold table_value_sum
      rw [range_five]
      simp only [List.map_cons, List.map_nil, List.sum_cons, List.sum_nil, y0, y1, y2, y3, y4,
        Fp.toRat]
      ring
    rw [e, abs_le]
    constructor <;> linarith
  · obtain ⟨s, es, s1, s2⟩ := rounded_sum_five rnd u hu0 hu1' hrnd _ _ _ _ _ n0 n1 n2 n3 n4
    refine ⟨s, ?_, ?_⟩
    · rw [table_sum_eq, y0, y1, y2, y3, y4]
      exact es
    · generalize rnd (a0 / t) + rnd (a1 / t) + rnd (a2 / t) + rnd (a3 / t) + rnd (a4 / t) = N
        at s1 s2 slo shi
      have hN : 0 ≤ N := by linarith
      have hu2 : 0 ≤ u ^ 2 := sq_nonneg u
      have c1 : (1 - 5 * u) * N ≤ s := le_trans (mul_le_mul_of_nonneg_right p1 hN) s1
      have c2 : s ≤ (1 + 5 * u + 11 * u ^ 2) * N :=
        le_trans s2 (mul_le_mul_of_nonneg_right p2 hN)
      have d1 : (1 - 5 * u) * (1 - 6 * u) ≤ (1 - 5 * u) * N :=
        mul_le_mul_of_nonneg_left slo (by linarith)
      have d2 : (1 + 5 * u + 11 * u ^ 2) * N ≤ (1 + 5 * u + 11 * u ^ 2) * (1 + 7 * u) :=
        mul_le_mul_of_nonneg_left shi (by linarith)
      have f1 : (1 - 5 * u) * (1 - 6 * u) = 1 - 11 * u + 30 * u ^ 2 := by ring
      have f2 : (1 + 5 * u + 11 * u ^ 2) * (1 + 7 * u)
          = 1 + 12 * u + 46 * u ^ 2 + 77 * (u * u ^ 2) := by ring
      have g1 : u ^ 2 ≤ u * (1 / 128) := by
        have := mul_le_mul_of_nonneg_left hu1 hu0
        calc u ^ 2 = u * u := by ring
          _ ≤ u * (1 / 128) := this
      have g2 : u * u ^ 2 ≤ u * (1 / 128) := by
        have : u ^ 2 ≤ 1 / 128 := by linarith
        exact mul_le_mul_of_nonneg_left this hu0
      rw [abs_le]
      constructor <;> linarith

/-- With rounding, the tables after the main loop hold numbers that are not negative when a
frame has at least two pixels and the sums of every pair of successive frames fit in an `int`. -/
theorem telecine_tables_rounded (rnd : ℚ → ℚ) (u : ℚ) (hu1 : u < 1)
    (hrnd : ∀ x : ℚ, |rnd x - x| ≤ u * |x|) (width height : Int) (frames : List Buf)
    (hwh : 2 ≤ width * height)
    (hS : ∀ o, o < 2 → ∀ i, 1 ≤ i → i < frames.length →
      ssd_field_sum o (frame_at frames i) (frame_at frames (i - 1)) width height < 2147483648)
    (k : Nat) :
    (∃ q : ℚ, (telecine_main_loop (rounded rnd) ⟨width, height⟩ frames).sequence_ssd_even k
      = Fp.fin q ∧ 0 ≤ q) ∧
    (∃ q : ℚ, (telecine_main_loop (rounded rnd) ⟨width, height⟩ frames).sequence_ssd_odd k
      = Fp.fin q ∧ 0 ≤ q) := by
  obtain ⟨_, _, he, ho⟩ := telecine_main_loop_inv (rounded rnd) ⟨width, height⟩ frames
  constructor
  · rw [he k]
    apply phase_sum_rounded rnd u hu1 hrnd
    intro i h1 hi
    obtain ⟨a, b, hab, ha, hb⟩ := compute_ssd_rounded rnd u hu1 hrnd (frame_at frames i)
      (frame_at frames (i - 1)) width height hwh (hS 0 (by omega) i h1 hi)
      (hS 1 (by omega) i h1 hi)
    exact ⟨a, by simp only [hab], ha⟩
  · rw [ho k]
    apply phase_sum_rounded rnd u hu1 hrnd
    intro i h1 hi
    obtain ⟨a, b, hab, ha, hb⟩ := compute_ssd_rounded rnd u hu1 hrnd (frame_at frames i)
      (frame_at frames (i - 1)) width height hwh (hS 0 (by omega) i h1 hi)
      (hS 1 (by omega) i h1 hi)
    exact ⟨b, by simp only [hab], hb⟩

/-- C11 (amended): with every `double` operation rounded with a relative error of at most `u`
(`u <= 1/128`; `u = 2^-53` for `double`), for every stream of frames of at least two pixels
whose pair sums fit in an `int` and whose even and odd totals are not zero, the entries of
both normalised tables are numbers that are not negative and the five entries of each table
sum to 1 within the rounding tolerance: within `7 u` for the exact sum of the entries and within
`13 u` for the sum accumulated in `double`. -/
theorem telecine_tables_sum_one (rnd : ℚ → ℚ) (u : ℚ) (hu0 : 0 ≤ u) (hu1 : u ≤ 1 / 128)
    (hrnd : ∀ x : ℚ, |rnd x - x| ≤ u * |x|) (width height : Int) (frames : List Buf)
    (hwh : 2 ≤ width * height)
    (hS : ∀ o, o < 2 → ∀ i, 1 ≤ i → i < frames.length →
      ssd_field_sum o (frame_at frames i) (frame_at frames (i - 1)) width height < 2147483648)
    (hTe : (telecine_totals (rounded rnd)
      (telecine_main_loop (rounded rnd) ⟨width, height⟩ frames)).1 ≠ Fp.fin 0)
    (hTo : (telecine_totals (rounded rnd)
      (telecine_main_loop (rounded rnd) ⟨width, height⟩ frames)).2 ≠ Fp.fin 0) :
    ((∀ k, k < 5 → ∃ q : ℚ,
        (telecine_detector (rounded rnd) ⟨width, height⟩ frames).sequence_ssd_even k = Fp.fin q
          ∧ 0 ≤ q) ∧
      |table_value_sum (telecine_detector (rounded rnd) ⟨width, height⟩ frames).sequence_ssd_even
        - 1| ≤ 7 * u ∧
      ∃ s : ℚ, table_sum (rounded rnd)
          (telecine_detector (rounded rnd) ⟨width, height⟩ frames).sequence_ssd_even = Fp.fin s
        ∧ |s - 1| ≤ 13 * u) ∧
    ((∀ k, k < 5 → ∃ q : ℚ,
        (telecine_detector (rounded rnd) ⟨width, height⟩ frames).sequence_ssd_odd k = Fp.fin q
          ∧ 0 ≤ q) ∧
      |table_value_sum (telecine_detector (rounded rnd) ⟨width, height⟩ frames).sequence_ssd_odd
        - 1| ≤ 7 * u ∧
      ∃ s : ℚ, table_sum (rounded rnd)
          (telecine_detector (rounded rnd) ⟨width, height⟩ frames).sequence_ssd_odd = Fp.fin s
        ∧ |s - 1| ≤ 13 * u) := by
  have hu1' : u < 1 := by linarith
  have ht := telecine_totals_eq (rounded rnd)
    (telecine_main_loop (rounded rnd) ⟨width, height⟩ frames)
  constructor
  · exact normalised_table_sum rnd u hu0 hu1 hrnd
      (telecine_main_loop (rounded rnd) ⟨width, height⟩ frames).sequence_ssd_even
      (telecine_normalise (rounded rnd)
        (telecine_main_loop (rounded rnd) ⟨width, height⟩ frames)).1
      (telecine_totals (rounded rnd) (telecine_main_loop (rounded rnd) ⟨width, height⟩ frames)).1
      (fun k _ => (telecine_tables_rounded rnd u hu1' hrnd width height frames hwh hS k).1)
      (by rw [ht]) hTe
      (fun k hk => (telecine_normalise_entry (rounded rnd) _ k hk).1)
  · exact normalised_table_sum rnd u hu0 hu1 hrnd
      (telecine_main_loop (rounded rnd) ⟨width, height⟩ frames).sequence_ssd_odd
      (telecine_normalise (rounded rnd)
        (telecine_main_loop (rounded rnd) ⟨width, height⟩ frames)).2
      (telecine_totals (rounded rnd) (telecine_main_loop (rounded rnd) ⟨width, height⟩ frames)).2
      (fun k _ => (telecine_tables_rounded rnd u hu1' hrnd width height frames hwh hS k).2)
      (by rw [ht]) hTo
      (fun k hk => (telecine_normalise_entry (rounded rnd) _ k hk).2)

theorem telecine_tables_sum_one_witness :
    6 ≤ exStreamRound.length ∧
    table_sum (rounded round53)
        (telecine_detector (rounded round53) ⟨1, 2⟩ exStreamRound).sequence_ssd_even
      = Fp.fin (9007199254740991 / 9007199254740992) ∧
    |table_value_sum (telecine_detector (rounded round53) ⟨1, 2⟩ exStreamRound).sequence_ssd_even
      - 1| ≤ 7 * (1 / 2 ^ 53) ∧
    ∃ s : ℚ, table_sum (rounded round53)
        (telecine_detector (rounded round53) ⟨1, 2⟩ exStreamRound).sequence_ssd_even = Fp.fin s
      ∧ |s - 1| ≤ 13 * (1 / 2 ^ 53) :=
  ⟨by decide, by decide!,
    (telecine_tables_sum_one round53 (1 / 2 ^ 53) (by norm_num) (by norm_num) round53_error
      1 2 exStreamRound (by decide)
      (fun o ho i h1 hi => by
        have h6 : i < 6 := hi
        interval_cases o <;> interval_cases i <;> decide)
      (by decide!) (by decide!)).1.2⟩

/-- C11 (counterexample): for the stream of six identical frames `exF1` both totals are zero,
every normalised entry is the NaN `0 / 0`, and the sum of the five entries of either table is
NaN, not 1. -/
theorem telecine_identical_sum :
    (List.replicate 6 exF1).length = 6 ∧
    telecine_totals ieee (telecine_main_loop ieee ⟨1, 2⟩ (List.replicate 6 exF1))
      = (Fp.fin 0, Fp.fin 0) ∧
    table_sum ieee (telecine_detector ieee ⟨1, 2⟩ (List.replicate 6 exF1)).sequence_ssd_even
      = Fp.nan ∧
    table_sum ieee (telecine_detector ieee ⟨1, 2⟩ (List.replicate 6 exF1)).sequence_ssd_odd
      = Fp.nan := by
  decide!

/-! ## `min_index` on ordered values -/

theorem Fp_lt_of_lt_of_not_lt (a b c : Fp) (hc : c ≠ Fp.nan) (h1 : Fp.lt a b = true)
    (h2 : Fp.lt c b = false) : Fp.lt a c = true := by
  cases a <;> cases b <;> cases c <;> simp_all [Fp.lt]
  exact lt_of_lt_of_le h1 h2

theorem Fp_ge_of_not_lt (a b : Fp) (ha : a ≠ Fp.nan) (hb : b ≠ Fp.nan)
    (h : Fp.lt a b = false) : Fp.ge a b = true := by
  cases a <;> cases b <;> simp_all [Fp.lt, Fp.ge]

theorem min_index_state_succ {F : Type} (fp : FloatOps F) (x : Nat → F) (m : Nat) :
    min_index_state fp x (m + 1)
      = if fp.lt (x (m + 1)) (min_index_state fp x m).2 then (m + 1, x (m + 1))
        else min_index_state fp x m := by
  unfold min_index_state
  rw [List.range_succ, List.foldl_append]
  rfl

/-- The loop of `min_index` on values that are not NaN: every entry before `i_min` is above
`x[i_min]`. -/
theorem min_index_before_inv (x : Nat → Fp) (m : Nat) (hx : ∀ k, k ≤ m → x k ≠ Fp.nan) :
    ∀ k, k < (min_index_state ieee x m).1 →
      Fp.lt (x (min_index_state ieee x m).1) (x k) = true := by
  induction m with
  | zero =>
    intro k hk
    exact absurd hk (by simp [min_index_state])
  | succ m ih =>
    have ih2 := ih (fun k hk => hx k (by omega))
    obtain ⟨h1, h2, h3, _⟩ := min_index_loop_inv x m
    rw [min_index_state_succ]
    by_cases c : ieee.lt (x (m + 1)) (min_index_state ieee x m).2 = true
    · rw [if_pos c]
      intro k hk
      have hk2 : k ≤ m := by
        have : k < m + 1 := hk
        omega
      exact Fp_lt_of_lt_of_not_lt _ _ _ (hx k (by omega)) c (h3 k hk2)
    · rw [if_neg c]
      exact ih2

/-- C22: for an array `x` of `n >= 1` values none of which is NaN (the values of `double` are
then totally ordered), `min_index (x, n)` returns an index `i < n` such that `x[i] <= x[k]` for
every `k < n` and `x[k] > x[i]` for every `k < i`: the smallest index of a minimum. -/
theorem min_index_first (x : Nat → Fp) (n : Int) (hn : 1 ≤ n)
    (hx : ∀ k : Nat, (k : Int) < n → x k ≠ Fp.nan) :
    ((min_index ieee x n : Nat) : Int) < n ∧
    (∀ k : Nat, (k : Int) < n → Fp.ge (x k) (x (min_index ieee x n)) = true) ∧
    (∀ k : Nat, k < min_index ieee x n → Fp.lt (x (min_index ieee x n)) (x k) = true) := by
  obtain ⟨h1, h2, h3, _⟩ := min_index_loop_inv x (n - 1).toNat
  have h5 := min_index_before_inv x (n - 1).toNat (fun k hk => hx k (by omega))
  have e : min_index ieee x n = (min_index_state ieee x (n - 1).toNat).1 := rfl
  rw [e]
  refine ⟨by omega, fun k hk => ?_, h5⟩
  apply Fp_ge_of_not_lt _ _ (hx k hk) (hx _ (by omega))
  rw [← h1]
  exact h3 k (by omega)

theorem min_index_first_witness :
    min_index ieee exTable 5 = 1 ∧
    ((min_index ieee exTable 5 : Nat) : Int) < 5 ∧
    (∀ k : Nat, (k : Int) < 5 → Fp.ge (exTable k) (exTable (min_index ieee exTable 5)) = true) ∧
    (∀ k : Nat, k < min_index ieee exTable 5 →
      Fp.lt (exTable (min_index ieee exTable 5)) (exTable k) = true) :=
  ⟨by decide!, min_index_first exTable 5 (by decide) (fun _ _ => by simp [exTable])⟩

/-! ## The capability probe -/

theorem check_4th_gen_nonneg (cpu : Cpu) :
    check_4th_gen_intel_core_features cpu = 0 ∨ check_4th_gen_intel_core_features cpu = 1 := by
  unfold check_4th_gen_intel_core_features
  simp only []
  split_ifs <;> simp

/-- A call in a state left by a probe returns the cached value and leaves the state as it is. -/
theorem probe_call_cached (c : Bool × Cpu) (v : Int) (n : Nat) (hv : 0 ≤ v) :
    probe_call c { the_4th_gen_features_available := v, probes := n }
      = (if c.1 then (if v = 1 then 3 else 1) else v,
          { the_4th_gen_features_available := v, probes := n }) := by
  have hneg : ¬ v < 0 := by omega
  unfold probe_call get_cpu_asm_type can_use_intel_core_4th_gen_features
  simp only [hneg, if_false]
  split_ifs <;> simp_all

theorem probe_calls_cached (cs : List (Bool × Cpu)) (v : Int) (n : Nat) (hv : 0 ≤ v)
    (acc : List Int) :
    cs.foldl (fun (acc : List Int × ProbeState) c =>
        let r := probe_call c acc.2
        (acc.1 ++ [r.1], r.2))
      (acc, { the_4th_gen_features_available := v, probes := n })
      = (acc ++ cs.map (fun c => if c.1 then (if v = 1 then 3 else 1) else v),
          { the_4th_gen_features_available := v, probes := n }) := by
  induction cs generalizing acc with
  | nil => simp
  | cons c cs ih =>
    simp only [List.foldl_cons, probe_call_cached c v n hv, List.map_cons]
    rw [ih]
    simp

/-- C23: over any sequence of calls of `get_cpu_asm_type` and
`can_use_intel_core_4th_gen_features` from program start, each call seeing whatever processor
state, the probe is evaluated once, by the first call; the static variable then holds the value
`v` (0 or 1) of that probe, after the first call and after every later one, and every call
returns `v` (`can_use_intel_core_4th_gen_features`) or the type 3 or 1 derived from `v`
(`get_cpu_asm_type`). -/
theorem probe_cached (c0 : Bool × Cpu) (cs : List (Bool × Cpu)) :
    (probe_calls [c0] probe_init).2
      = { the_4th_gen_features_available := check_4th_gen_intel_core_features c0.2
          probes := 1 } ∧
    (probe_calls (c0 :: cs) probe_init).2 = (probe_calls [c0] probe_init).2 ∧
    (probe_calls (c0 :: cs) probe_init).2.the_4th_gen_features_available ≠ -1 ∧
    (probe_calls (c0 :: cs) probe_init).1
      = (c0 :: cs).map (fun c =>
          if c.1 then (if check_4th_gen_intel_core_features c0.2 = 1 then 3 else 1)
          else check_4th_gen_intel_core_features c0.2) := by
  have hv : 0 ≤ check_4th_gen_intel_core_features c0.2 := by
    rcases check_4th_gen_nonneg c0.2 with h | h <;> omega
  have h1 : probe_call c0 probe_init
      = (if c0.1 then (if check_4th_gen_intel_core_features c0.2 = 1 then 3 else 1)
          else check_4th_gen_intel_core_features c0.2,
        { the_4th_gen_features_available := check_4th_gen_intel_core_features c0.2
          probes := 1 }) := by
    unfold probe_call get_cpu_asm_type can_use_intel_core_4th_gen_features probe_init
    simp only [show ((-1 : Int) < 0) from by decide, if_true]
    split_ifs <;> simp_all
  have hall : probe_calls (c0 :: cs) probe_init
      = ((c0 :: cs).map (fun c =>
          if c.1 then (if check_4th_gen_intel_core_features c0.2 = 1 then 3 else 1)
          else check_4th_gen_intel_core_features c0.2),
        { the_4th_gen_features_available := check_4th_gen_intel_core_features c0.2
          probes := 1 }) := by
    unfold probe_calls
    simp only [List.foldl_cons, h1, List.nil_append]
    rw [probe_calls_cached cs _ 1 hv]
    simp
  have hone : probe_calls [c0] probe_init
      = ([if c0.1 then (if check_4th_gen_intel_core_features c0.2 = 1 then 3 else 1)
          else check_4th_gen_intel_core_features c0.2],
        { the_4th_gen_features_available := check_4th_gen_intel_core_features c0.2
          probes := 1 }) := by
    unfold probe_calls
    simp only [List.foldl_cons, h1, List.nil_append, List.foldl_nil]
  rw [hall, hone]
  refine ⟨rfl, rfl, ?_, rfl⟩
  show check_4th_gen_intel_core_features c0.2 ≠ -1
  omega

/-! ## The callers of the AVX2 kernel -/

/-- The AVX2 sum of `calculate_frame_delta` is accumulated over the calls listed by
`calculate_frame_delta_calls`. -/
theorem frame_delta_avx_calls {F : Type} (fp : FloatOps F) (frame : Buf) (res : res_t) :
    (calculate_frame_delta fp frame res).dd_avx
      = (calculate_frame_delta_calls res).foldl (fun (dd_avx : Int) c =>
          wrap32 (dd_avx + ssd_nx16_u8_avx2_intrin (ptr_add frame c.1) (ptr_add frame c.2.1)
            c.2.2.1 c.2.2.2)) 0 := by
  unfold calculate_frame_delta calculate_frame_delta_calls
  simp only [List.foldl_map]

theorem frame_delta_calls_length (res : res_t) :
    (calculate_frame_delta_calls res).length = (res.height - 1).toNat := by
  simp [calculate_frame_delta_calls]

/-- C24 (evaluation at the failing input): on a processor without AVX2 `get_cpu_asm_type`
returns 1, and `calculate_frame_delta` and `calculate_field_delta`, which take no account of
it, call `ssd_nx16_u8_avx2_intrin` once for a 16x2 frame and four times for a 16x6 frame. -/
theorem delta_calls_without_avx2 :
    (get_cpu_asm_type exCpuNoAvx2 probe_init).1 = 1 ∧
    (get_cpu_asm_type exCpuAll probe_init).1 = 3 ∧
    calculate_frame_delta_calls ⟨16, 2⟩ = [(0, 16, 16, 1)] ∧
    calculate_field_delta_calls ⟨16, 6⟩
      = [(0, 32, 16, 1), (16, 48, 16, 1), (32, 64, 16, 1), (48, 80, 16, 1)] := by
  decide

/-! ## The AVX2 SAD kernels -/

theorem mask256_top8 (b : Nat) (hb : b < 32) :
    128 ≤ _mm256_setr_epi64x (-13) 4 8 3 (8 * (b / 8) + 7) ↔ b < 8 := by
  have : b / 8 = 0 ∨ b / 8 = 1 ∨ b / 8 = 2 ∨ b / 8 = 3 := by omega
  rcases this with h | h | h | h <;> rw [h] <;>
    simp [_mm256_setr_epi64x, of_lanes, ofS64] <;> omega

theorem maskload256_byte8 (mem : Buf) (b : Nat) :
    _mm256_maskload_epi64 mem (_mm256_setr_epi64x (-13) 4 8 3) b
      = if b < 8 then (mem (b : Int)).val else 0 := by
  unfold _mm256_maskload_epi64
  by_cases hb : b < 32
  · have h := mask256_top8 b hb
    by_cases h8 : b < 8
    · have h1 := h.mpr h8
      simp only [hb, h8, h1, and_self, if_true]
    · have h1 : ¬ 128 ≤ _mm256_setr_epi64x (-13) 4 8 3 (8 * (b / 8) + 7) := fun c => h8 (h.mp c)
      simp only [h8, h1, and_false, if_false]
  · have : ¬ b < 8 := by omega
    simp [hb, this]

/-- The 32-bit lanes of a register built from 64-bit lanes whose values fit in 32 bits. -/
theorem epi32_of_lanes8 (f : Nat → Nat) (hf : ∀ m, f m < 4294967296) (k : Nat) (hk : k < 8) :
    epi32 (of_lanes 32 8 f) k = if k % 2 = 0 then f (k / 2) else 0 := by
  have key : ∀ x : Nat, x < 4294967296 →
      x % 256 + 256 * (x / 256 % 256) + 65536 * (x / 65536 % 256)
        + 16777216 * (x / 16777216 % 256) = x ∧
      x / 4294967296 % 256 = 0 ∧ x / 1099511627776 % 256 = 0 ∧
      x / 281474976710656 % 256 = 0 ∧ x / 72057594037927936 % 256 = 0 := by
    intro x hx
    omega
  interval_cases k <;> simp [epi32, of_lanes] <;>
    first
    | (obtain ⟨h1, -⟩ := key (f 0) (hf 0); omega)
    | (obtain ⟨h1, -⟩ := key (f 1) (hf 1); omega)
    | (obtain ⟨h1, -⟩ := key (f 2) (hf 2); omega)
    | (obtain ⟨h1, -⟩ := key (f 3) (hf 3); omega)

theorem abs_diff_u8_cast (x y : Nat) : ((abs_diff_u8 x y : Nat) : Int) = |(x : Int) - (y : Int)| := by
  unfold abs_diff_u8
  split
  · rw [abs_of_nonpos (by omega)]
    omega
  · rw [abs_of_nonneg (by omega)]
    omega

theorem abs_diff_u8_le (x y : Nat) (hx : x < 256) (hy : y < 256) : abs_diff_u8 x y ≤ 255 := by
  unfold abs_diff_u8
  split <;> omega

theorem abs_diff_u8_self (x : Nat) : abs_diff_u8 x x = 0 := by
  simp [abs_diff_u8]

theorem sad_lane_lt (a b : m256i) (ha : ∀ i, a i < 256) (hb : ∀ i, b i < 256) (k : Nat) :
    abs_diff_u8 (a (8 * k)) (b (8 * k)) + abs_diff_u8 (a (8 * k + 1)) (b (8 * k + 1))
      + abs_diff_u8 (a (8 * k + 2)) (b (8 * k + 2)) + abs_diff_u8 (a (8 * k + 3)) (b (8 * k + 3))
      + abs_diff_u8 (a (8 * k + 4)) (b (8 * k + 4)) + abs_diff_u8 (a (8 * k + 5)) (b (8 * k + 5))
      + abs_diff_u8 (a (8 * k + 6)) (b (8 * k + 6)) + abs_diff_u8 (a (8 * k + 7)) (b (8 * k + 7))
      < 4294967296 := by
  have h0 := abs_diff_u8_le _ _ (ha (8 * k)) (hb (8 * k))
  have h1 := abs_diff_u8_le _ _ (ha (8 * k + 1)) (hb (8 * k + 1))
  have h2 := abs_diff_u8_le _ _ (ha (8 * k + 2)) (hb (8 * k + 2))
  have h3 := abs_diff_u8_le _ _ (ha (8 * k + 3)) (hb (8 * k + 3))
  have h4 := abs_diff_u8_le _ _ (ha (8 * k + 4)) (hb (8 * k + 4))
  have h5 := abs_diff_u8_le _ _ (ha (8 * k + 5)) (hb (8 * k + 5))
  have h6 := abs_diff_u8_le _ _ (ha (8 * k + 6)) (hb (8 * k + 6))
  have h7 := abs_diff_u8_le _ _ (ha (8 * k + 7)) (hb (8 * k + 7))
  omega

/-- The 32-bit lanes of `sad_epu8` on registers of bytes: the even lanes hold the sums of the
8-byte groups, the odd lanes are zero. -/
theorem epi32_sad_epu8 (a b : m256i) (ha : ∀ i, a i < 256) (hb : ∀ i, b i < 256) (k : Nat)
    (hk : k < 8) :
    epi32 (_mm256_sad_epu8 a b) k
      = if k % 2 = 0 then
          abs_diff_u8 (a (8 * (k / 2))) (b (8 * (k / 2)))
            + abs_diff_u8 (a (8 * (k / 2) + 1)) (b (8 * (k / 2) + 1))
            + abs_diff_u8 (a (8 * (k / 2) + 2)) (b (8 * (k / 2) + 2))
            + abs_diff_u8 (a (8 * (k / 2) + 3)) (b (8 * (k / 2) + 3))
            + abs_diff_u8 (a (8 * (k / 2) + 4)) (b (8 * (k / 2) + 4))
            + abs_diff_u8 (a (8 * (k / 2) + 5)) (b (8 * (k / 2) + 5))
            + abs_diff_u8 (a (8 * (k / 2) + 6)) (b (8 * (k / 2) + 6))
            + abs_diff_u8 (a (8 * (k / 2) + 7)) (b (8 * (k / 2) + 7))
        else 0 := by
  unfold _mm256_sad_epu8
  rw [epi32_of_lanes8 _ (fun m => sad_lane_lt a b ha hb m) k hk]

theorem maskload256_lt (mem : Buf) (mask : m256i) (b : Nat) :
    _mm256_maskload_epi64 mem mask b < 256 := by
  unfold _mm256_maskload_epi64
  split
  · exact (mem _).isLt
  · omega

theorem epi32_sad_term8 (p q : Buf) (off : Int) (k : Nat) (hk : k < 8) :
    ((epi32 (sad_term8 p q off) k : Nat) : Int)
      = if k = 0 then abd p q off 0 + abd p q off 1 + abd p q off 2 + abd p q off 3
          + abd p q off 4 + abd p q off 5 + abd p q off 6 + abd p q off 7 else 0 := by
  unfold sad_term8
  simp only []
  rw [epi32_sad_epu8 _ _ (maskload256_lt _ _) (maskload256_lt _ _) k hk]
  simp only [maskload256_byte8]
  interval_cases k <;>
    simp [abs_diff_u8_cast, abs_diff_u8_self, abd, px, ptr_add]

theorem epi32_sad_term16 (p q : Buf) (off : Int) (k : Nat) (hk : k < 8) :
    ((epi32 (sad_term16 p q off) k : Nat) : Int)
      = if k = 0 then abd p q off 0 + abd p q off 1 + abd p q off 2 + abd p q off 3
          + abd p q off 4 + abd p q off 5 + abd p q off 6 + abd p q off 7
        else if k = 2 then abd p q off 8 + abd p q off 9 + abd p q off 10 + abd p q off 11
          + abd p q off 12 + abd p q off 13 + abd p q off 14 + abd p q off 15
        else 0 := by
  unfold sad_term16
  simp only []
  rw [epi32_sad_epu8 _ _ (maskload256_lt _ _) (maskload256_lt _ _) k hk]
  simp only [maskload256_byte]
  interval_cases k <;>
    simp [abs_diff_u8_cast, abs_diff_u8_self, abd, px, ptr_add]

/-- The value returned by `sad_nx8_u8_avx2_intrin`, for every `n`, without any range assumption. -/
theorem sad_nx8_wrap (p q : Buf) (pitch n : Int) :
    sad_nx8_u8_avx2_intrin p q pitch n = wrap32 (sad_sum 8 p q pitch n.toNat) := by
  have hfold := epi32_fold_add (fun i => sad_term8 p q ((i : Int) * pitch))
    (fun i k => if k = 0 then abd p q (i * pitch) 0 + abd p q (i * pitch) 1
          + abd p q (i * pitch) 2 + abd p q (i * pitch) 3 + abd p q (i * pitch) 4
          + abd p q (i * pitch) 5 + abd p q (i * pitch) 6 + abd p q (i * pitch) 7 else 0)
    (fun i k hk => epi32_sad_term8 p q _ k hk) n.toNat
  have h0 := hfold 0 (by omega)
  show toS32 (epi32 ((List.range n.toNat).foldl
    (fun (s : m256i) (i : Nat) => _mm256_add_epi32 s (sad_term8 p q ((i : Int) * pitch)))
      _mm256_setzero_si256) 0) = _
  apply toS32_mod
  rw [h0]
  have e : sad_sum 8 p q pitch n.toNat
      = sumTo n.toNat (fun i => abd p q (i * pitch) 0 + abd p q (i * pitch) 1
          + abd p q (i * pitch) 2 + abd p q (i * pitch) 3 + abd p q (i * pitch) 4
          + abd p q (i * pitch) 5 + abd p q (i * pitch) 6 + abd p q (i * pitch) 7) := by
    unfold sad_sum
    apply sumTo_congr
    intro i _
    simp only [sumTo, abd]
    push_cast
    ring
  rw [e]
  simp only [if_true]

/-- The value returned by `sad_nx16_u8_avx2_intrin`, for every `n`, without any range
assumption. -/
theorem sad_nx16_wrap (p q : Buf) (pitch n : Int) :
    sad_nx16_u8_avx2_intrin p q pitch n = wrap32 (sad_sum 16 p q pitch n.toNat) := by
  have hfold := epi32_fold_add (fun i => sad_term16 p q ((i : Int) * pitch))
    (fun i k => if k = 0 then abd p q (i * pitch) 0 + abd p q (i * pitch) 1
          + abd p q (i * pitch) 2 + abd p q (i * pitch) 3 + abd p q (i * pitch) 4
          + abd p q (i * pitch) 5 + abd p q (i * pitch) 6 + abd p q (i * pitch) 7
        else if k = 2 then abd p q (i * pitch) 8 + abd p q (i * pitch) 9
          + abd p q (i * pitch) 10 + abd p q (i * pitch) 11 + abd p q (i * pitch) 12
          + abd p q (i * pitch) 13 + abd p q (i * pitch) 14 + abd p q (i * pitch) 15
        else 0)
    (fun i k hk => epi32_sad_term16 p q _ k hk) n.toNat
  have h0 := hfold 0 (by omega)
  have h1 := hfold 1 (by omega)
  have h2 := hfold 2 (by omega)
  have h3 := hfold 3 (by omega)
  show toS32 (epi32 (_mm256_hadd_epi32 (_mm256_hadd_epi32
    ((List.range n.toNat).foldl
      (fun (s : m256i) (i : Nat) => _mm256_add_epi32 s (sad_term16 p q ((i : Int) * pitch)))
      _mm256_setzero_si256) _mm256_setzero_si256) _mm256_setzero_si256) 0) = _
  apply toS32_mod
  rw [epi32_hadd_hadd]
  push_cast
  rw [h0, h1, h2, h3]
  have e : sad_sum 16 p q pitch n.toNat
      = sumTo n.toNat (fun i => abd p q (i * pitch) 0 + abd p q (i * pitch) 1
          + abd p q (i * pitch) 2 + abd p q (i * pitch) 3 + abd p q (i * pitch) 4
          + abd p q (i * pitch) 5 + abd p q (i * pitch) 6 + abd p q (i * pitch) 7)
        + sumTo n.toNat (fun i => abd p q (i * pitch) 8 + abd p q (i * pitch) 9
          + abd p q (i * pitch) 10 + abd p q (i * pitch) 11 + abd p q (i * pitch) 12
          + abd p q (i * pitch) 13 + abd p q (i * pitch) 14 + abd p q (i * pitch) 15) := by
    rw [← sumTo_add]
    unfold sad_sum
    apply sumTo_congr
    intro i _
    simp only [sumTo, abd]
    push_cast
    ring
  rw [e]
  have z : sumTo n.toNat (fun _ => (0 : Int)) = 0 := sumTo_zero _ _ (fun _ _ => rfl)
  simp only [if_true, show ¬ ((1 : Nat) = 0) by omega, show ¬ ((1 : Nat) = 2) by omega,
    show ¬ ((2 : Nat) = 0) by omega, show ¬ ((3 : Nat) = 0) by omega,
    show ¬ ((3 : Nat) = 2) by omega, if_false, z]
  omega

theorem sad_sum_nonneg (W : Nat) (p q : Buf) (pitch : Int) (n : Nat) :
    0 ≤ sad_sum W p q pitch n :=
  sumTo_nonneg _ _ (fun _ _ => sumTo_nonneg _ _ (fun _ _ => abs_nonneg _))

/-- C21: for W = 8 and W = 16, every `n`, every `pitch` and all buffers, if the sum over
`i < n` and `k < W` of `|p[i*pitch+k] - q[i*pitch+k]|` is below 2^31 then
`sad_nxW_u8_avx2_intrin (p, q, pitch, n)` returns it; for `n <= 0` both return 0. -/
theorem sad_kernels_correct (p q : Buf) (pitch n : Int) :
    (sad_sum 8 p q pitch n.toNat < 2147483648 →
      sad_nx8_u8_avx2_intrin p q pitch n = sad_sum 8 p q pitch n.toNat) ∧
    (sad_sum 16 p q pitch n.toNat < 2147483648 →
      sad_nx16_u8_avx2_intrin p q pitch n = sad_sum 16 p q pitch n.toNat) ∧
    (n ≤ 0 → sad_nx8_u8_avx2_intrin p q pitch n = 0 ∧ sad_nx16_u8_avx2_intrin p q pitch n = 0) := by
  refine ⟨fun h => ?_, fun h => ?_, fun h => ?_⟩
  · rw [sad_nx8_wrap, wrap32_of_lt _ (sad_sum_nonneg _ _ _ _ _) h]
  · rw [sad_nx16_wrap, wrap32_of_lt _ (sad_sum_nonneg _ _ _ _ _) h]
  · have e : n.toNat = 0 := by omega
    rw [sad_nx8_wrap, sad_nx16_wrap, e]
    exact ⟨rfl, rfl⟩

theorem sad_kernels_correct_witness :
    sad_sum 16 exP exQ 16 (2 : Int).toNat = 476 ∧
    sad_nx16_u8_avx2_intrin exP exQ 16 2 = sad_sum 16 exP exQ 16 (2 : Int).toNat ∧
    sad_sum 8 exP exQ 8 (3 : Int).toNat = 476 ∧
    sad_nx8_u8_avx2_intrin exP exQ 8 3 = sad_sum 8 exP exQ 8 (3 : Int).toNat :=
  ⟨by decide, (sad_kernels_correct exP exQ 16 2).2.1 (by decide), by decide,
    (sad_kernels_correct exP exQ 8 3).1 (by decide)⟩

/-! ## The AVX2 sums of the delta engine -/

theorem sumTo_append (a b : Nat) (f : Nat → Int) :
    sumTo (a + b) f = sumTo a f + sumTo b (fun j => f (a + j)) := by
  induction b with
  | zero => simp [sumTo]
  | succ b ih =>
    rw [← Nat.add_assoc]
    simp only [sumTo, ih]
    ring

/-- A sum over `n` blocks of `W` consecutive indices is the sum over the first `n * W`
indices. -/
theorem sumTo_blocks (f : Nat → Int) (n W : Nat) :
    sumTo n (fun k => sumTo W (fun b => f (k * W + b))) = sumTo (n * W) f := by
  induction n with
  | zero => simp [sumTo]
  | succ n ih =>
    rw [Nat.succ_mul, sumTo_append (n * W) W, ← ih]
    rfl

theorem sumTo_le_sumTo (n : Nat) (f g : Nat → Int) (h : ∀ i, i < n → f i ≤ g i) :
    sumTo n f ≤ sumTo n g := by
  induction n with
  | zero => simp [sumTo]
  | succ n ih =>
    simp only [sumTo]
    have := ih (fun i hi => h i (by omega))
    have := h n (by omega)
    omega

theorem sumTo_le_of_le (n m : Nat) (f : Nat → Int) (hnm : n ≤ m) (h : ∀ i, i < m → 0 ≤ f i) :
    sumTo n f ≤ sumTo m f := by
  obtain ⟨d, rfl⟩ := Nat.exists_eq_add_of_le hnm
  rw [sumTo_append]
  have := sumTo_nonneg d (fun j => f (n + j)) (fun j hj => h (n + j) (by omega))
  omega

theorem wrap32_wrap32 (x : Int) : wrap32 (wrap32 x) = wrap32 x := by
  unfold wrap32; omega

theorem wrap32_sumTo (n : Nat) (f : Nat → Int) :
    wrap32 (sumTo n (fun i => wrap32 (f i))) = wrap32 (sumTo n f) := by
  induction n with
  | zero => rfl
  | succ n ih =>
    simp only [sumTo]
    rw [wrap32_add_right, ← wrap32_add_left, ih, wrap32_add_left]

/-- The sum of squared differences over `n` windows of 16 bytes of two rows of a frame is the sum
over the first `16 n` columns. -/
theorem ssd_sum_row (frame : Buf) (a b : Int) (n : Nat) :
    ssd_sum 16 (ptr_add frame a) (ptr_add frame b) 16 n
      = sumTo (16 * n) (fun j => (px frame (a + j) - px frame (b + j)) ^ 2) := by
  rw [Nat.mul_comm, ← sumTo_blocks]
  unfold ssd_sum
  apply sumTo_congr
  intro k _
  apply sumTo_congr
  intro t _
  simp only [px, ptr_add]
  push_cast
  rfl

/-- The AVX2 accumulator of `calculate_frame_delta`, for every frame and resolution: the wrapped
sum over the columns covered by the `width/16` windows of a row. -/
theorem frame_dd_avx_wrap {F : Type} (fp : FloatOps F) (frame : Buf) (res : res_t) :
    (calculate_frame_delta fp frame res).dd_avx
      = wrap32 (frame_sum_cols frame res.width res.height
          (16 * (Int.tdiv res.width 16).toNat)) := by
  have h := foldl_wrap32 (fun i => ssd_nx16_u8_avx2_intrin (ptr_add frame (i * res.width))
      (ptr_add frame ((i + 1) * res.width)) 16 (Int.tdiv res.width 16)) 0 (res.height - 1).toNat
  rw [wrap32_zero, zero_add] at h
  show (List.range (res.height - 1).toNat).foldl (fun (dd_avx : Int) (i : Nat) =>
      wrap32 (dd_avx + ssd_nx16_u8_avx2_intrin (ptr_add frame (i * res.width))
        (ptr_add frame ((i + 1) * res.width)) 16 (Int.tdiv res.width 16))) 0 = _
  rw [h]
  simp only [ssd_nx16_wrap, ssd_sum_row]
  rw [wrap32_sumTo]
  rfl

/-- The AVX2 accumulators of `calculate_field_delta`, for every frame and resolution. -/
theorem field_dd_avx_wrap {F : Type} (fp : FloatOps F) (frame : Buf) (res : res_t)
    (hh : 0 ≤ res.height) :
    (calculate_field_delta fp frame res).dd_even_avx
      = wrap32 (field_sum_even_cols frame res.width res.height
          (16 * (Int.tdiv res.width 16).toNat)) ∧
    (calculate_field_delta fp frame res).dd_odd_avx
      = wrap32 (field_sum_odd_cols frame res.width res.height
          (16 * (Int.tdiv res.width 16).toNat)) := by
  have h := foldl_wrap32_pair
    (fun i => ssd_nx16_u8_avx2_intrin (ptr_add frame (2 * i * res.width))
      (ptr_add frame (2 * (i + 1) * res.width)) 16 (Int.tdiv res.width 16))
    (fun i => ssd_nx16_u8_avx2_intrin (ptr_add frame ((2 * i + 1) * res.width))
      (ptr_add frame ((2 * i + 3) * res.width)) 16 (Int.tdiv res.width 16)) 0 0
    (Int.tdiv res.height 2 - 1).toNat
  rw [wrap32_zero, zero_add, zero_add] at h
  have e : (calculate_field_delta fp frame res).dd_even_avx = _ ∧
      (calculate_field_delta fp frame res).dd_odd_avx = _ :=
    ⟨congrArg Prod.fst h, congrArg Prod.snd h⟩
  have e1 : ∀ i : Int, 2 * (i + 1) * res.width = (2 * i + 2) * res.width := fun i => by ring
  refine ⟨e.1.trans ?_, e.2.trans ?_⟩
  · simp only [ssd_nx16_wrap, ssd_sum_row]
    rw [wrap32_sumTo]
    unfold field_sum_even_cols
    rw [Int.tdiv_eq_ediv hh (by omega)]
    simp only [e1]
  · simp only [ssd_nx16_wrap, ssd_sum_row]
    rw [wrap32_sumTo]
    unfold field_sum_odd_cols
    rw [Int.tdiv_eq_ediv hh (by omega)]

theorem frame_sum_cols_le (frame : Buf) (width height : Int) (c : Nat) (hc : c ≤ width.toNat) :
    frame_sum_cols frame width height c ≤ frame_sum frame width height :=
  sumTo_le_sumTo _ _ _ (fun _ _ => sumTo_le_of_le _ _ _ hc (fun _ _ => sq_nonneg _))

theorem field_sum_even_cols_le (frame : Buf) (width height : Int) (c : Nat)
    (hc : c ≤ width.toNat) :
    field_sum_even_cols frame width height c ≤ field_sum_even frame width height :=
  sumTo_le_sumTo _ _ _ (fun _ _ => sumTo_le_of_le _ _ _ hc (fun _ _ => sq_nonneg _))

theorem field_sum_odd_cols_le (frame : Buf) (width height : Int) (c : Nat)
    (hc : c ≤ width.toNat) :
    field_sum_odd_cols frame width height c ≤ field_sum_odd frame width height :=
  sumTo_le_sumTo _ _ _ (fun _ _ => sumTo_le_of_le _ _ _ hc (fun _ _ => sq_nonneg _))

/-- C30: for every frame and every resolution with width >= 0 and height >= 0 whose scalar sums
fit in a 32-bit `int`, `dd_avx` is the sum of squared row differences over the columns
`j < 16 * (width / 16)`, `dd_avx <= dd`, and `dd_avx = dd` when `width` is a multiple of 16;
likewise `dd_even_avx` and `dd_odd_avx` against `dd_even` and `dd_odd`. -/
theorem delta_avx_restricted {F : Type} (fp : FloatOps F) (frame : Buf) (width height : Int)
    (hw : 0 ≤ width) (hh : 0 ≤ height)
    (hS : frame_sum frame width height < 2147483648)
    (hSe : field_sum_even frame width height < 2147483648)
    (hSo : field_sum_odd frame width height < 2147483648) :
    ((calculate_frame_delta fp frame ⟨width, height⟩).dd_avx
        = frame_sum_cols frame width height (16 * (width / 16).toNat) ∧
      (calculate_frame_delta fp frame ⟨width, height⟩).dd_avx
        ≤ (calculate_frame_delta fp frame ⟨width, height⟩).dd ∧
      (width % 16 = 0 → (calculate_frame_delta fp frame ⟨width, height⟩).dd_avx
        = (calculate_frame_delta fp frame ⟨width, height⟩).dd)) ∧
    ((calculate_field_delta fp frame ⟨width, height⟩).dd_even_avx
        = field_sum_even_cols frame width height (16 * (width / 16).toNat) ∧
      (calculate_field_delta fp frame ⟨width, height⟩).dd_even_avx
        ≤ (calculate_field_delta fp frame ⟨width, height⟩).dd_even ∧
      (width % 16 = 0 → (calculate_field_delta fp frame ⟨width, height⟩).dd_even_avx
        = (calculate_field_delta fp frame ⟨width, height⟩).dd_even)) ∧
    ((calculate_field_delta fp frame ⟨width, height⟩).dd_odd_avx
        = field_sum_odd_cols frame width height (16 * (width / 16).toNat) ∧
      (calculate_field_delta fp frame ⟨width, height⟩).dd_odd_avx
        ≤ (calculate_field_delta fp frame ⟨width, height⟩).dd_odd ∧
      (width % 16 = 0 → (calculate_field_delta fp frame ⟨width, height⟩).dd_odd_avx
        = (calculate_field_delta fp frame ⟨width, height⟩).dd_odd)) := by
  have hn : Int.tdiv width 16 = width / 16 := Int.tdiv_eq_ediv hw (by omega)
  have hc : 16 * (width / 16).toNat ≤ width.toNat := by omega
  have hfull : width % 16 = 0 → 16 * (width / 16).toNat = width.toNat := fun h => by omega
  have a1 := frame_dd_wrap fp frame ⟨width, height⟩
  have a2 := frame_dd_avx_wrap fp frame ⟨width, height⟩
  obtain ⟨b1, c1⟩ := field_dd_wrap fp frame ⟨width, height⟩ hh
  obtain ⟨b2, c2⟩ := field_dd_avx_wrap fp frame ⟨width, height⟩ hh
  simp only [hn] at a1 a2 b1 b2 c1 c2
  have l1 := frame_sum_cols_le frame width height _ hc
  have l2 := field_sum_even_cols_le frame width height _ hc
  have l3 := field_sum_odd_cols_le frame width height _ hc
  have n1 : 0 ≤ frame_sum_cols frame width height (16 * (width / 16).toNat) :=
    sumTo_nonneg _ _ (fun _ _ => sumTo_nonneg _ _ (fun _ _ => sq_nonneg _))
  have n2 : 0 ≤ field_sum_even_cols frame width height (16 * (width / 16).toNat) :=
    sumTo_nonneg _ _ (fun _ _ => sumTo_nonneg _ _ (fun _ _ => sq_nonneg _))
  have n3 : 0 ≤ field_sum_odd_cols frame width height (16 * (width / 16).toNat) :=
    sumTo_nonneg _ _ (fun _ _ => sumTo_nonneg _ _ (fun _ _ => sq_nonneg _))
  rw [wrap32_of_lt _ (frame_sum_nonneg _ _ _) hS] at a1
  rw [wrap32_of_lt _ (field_sum_even_nonneg _ _ _) hSe] at b1
  rw [wrap32_of_lt _ (field_sum_odd_nonneg _ _ _) hSo] at c1
  rw [wrap32_of_lt _ n1 (by omega)] at a2
  rw [wrap32_of_lt _ n2 (by omega)] at b2
  rw [wrap32_of_lt _ n3 (by omega)] at c2
  refine ⟨⟨a2, by rw [a1, a2]; exact l1, fun h => ?_⟩, ⟨b2, by rw [b1, b2]; exact l2, fun h => ?_⟩,
    ⟨c2, by rw [c1, c2]; exact l3, fun h => ?_⟩⟩
  · rw [a1, a2, hfull h]; rfl
  · rw [b1, b2, hfull h]; rfl
  · rw [c1, c2, hfull h]; rfl

theorem delta_avx_restricted_witness :
    frame_sum exFrame17 17 4 = 102 ∧ frame_sum_cols exFrame17 17 4 (16 * ((17 : Int) / 16).toNat) = 96 ∧
    ((calculate_frame_delta ieee exFrame17 ⟨17, 4⟩).dd_avx
        = frame_sum_cols exFrame17 17 4 (16 * ((17 : Int) / 16).toNat) ∧
      (calculate_frame_delta ieee exFrame17 ⟨17, 4⟩).dd_avx
        ≤ (calculate_frame_delta ieee exFrame17 ⟨17, 4⟩).dd ∧
      ((17 : Int) % 16 = 0 → (calculate_frame_delta ieee exFrame17 ⟨17, 4⟩).dd_avx
        = (calculate_frame_delta ieee exFrame17 ⟨17, 4⟩).dd)) :=
  ⟨by decide, by decide,
    (delta_avx_restricted ieee exFrame17 17 4 (by decide) (by decide) (by decide) (by decide)
      (by decide)).1⟩

/-! ## The minimal-energy phase -/

theorem ssd_field_sum_agree (o : Nat) (cur prev : Buf) (w h : Int)
    (hag : agree_on_rows o cur prev w h) : ssd_field_sum o cur prev w h = 0 := by
  unfold ssd_field_sum
  apply sumTo_zero
  intro i hi
  split
  · rename_i hio
    apply sumTo_zero
    intro j hj
    have e : cur (i * w + j) = prev (i * w + j) := hag i j (by omega) (by omega) hio
    simp [px, e]
  · rfl

/-- The energies of a pair on `ieee` for frames of at least two pixels: the quotients of the
wrapped sums by the field size. -/
theorem compute_ssd_value (cur prev : Buf) (width height : Int) (hwh : 2 ≤ width * height) :
    compute_ssd ieee cur prev ⟨width, height⟩
      = (Fp.fin ((wrap32 (ssd_field_sum 0 cur prev width height) : ℚ)
            / ((width * height / 2 : Int) : ℚ)),
         Fp.fin ((wrap32 (ssd_field_sum 1 cur prev width height) : ℚ)
            / ((width * height / 2 : Int) : ℚ))) ∧
      (0 : ℚ) < ((width * height / 2 : Int) : ℚ) := by
  have hd : (1 : Int) ≤ width * height / 2 := by
    generalize width * height = wh at *
    omega
  have hdq : (0 : ℚ) < ((width * height / 2 : Int) : ℚ) := by exact_mod_cast hd
  refine ⟨?_, hdq⟩
  rw [compute_ssd_wrap]
  show (ieee.div (ieee.ofInt (wrap32 (ssd_field_sum 0 cur prev width height)))
    (ieee.ofInt (Int.tdiv (width * height) 2)), ieee.div (ieee.ofInt (wrap32
    (ssd_field_sum 1 cur prev width height))) (ieee.ofInt (Int.tdiv (width * height) 2))) = _
  rw [Int.tdiv_eq_ediv (by omega) (by omega)]
  simp only [ieee, Fp.div, if_neg (ne_of_gt hdq)]

/-- A sum over a phase of non-negative numbers is a non-negative number; it is zero when every
term of the phase is zero and positive when some term of the phase is positive. -/
theorem phase_sum_nonneg (v : Nat → Fp) (N k : Nat)
    (h : ∀ i, 1 ≤ i → i < N → i % PATTERN_LENGTH = k → ∃ q : ℚ, v i = Fp.fin q ∧ 0 ≤ q) :
    ∃ Q : ℚ, phase_sum ieee v N k = Fp.fin Q ∧ 0 ≤ Q ∧
      ((∀ i, 1 ≤ i → i < N → i % PATTERN_LENGTH = k → v i = Fp.fin 0) → Q = 0) ∧
      ((∃ i, 1 ≤ i ∧ i < N ∧ i % PATTERN_LENGTH = k ∧ ∃ q : ℚ, v i = Fp.fin q ∧ 0 < q) →
        0 < Q) := by
  induction N with
  | zero =>
    refine ⟨0, by simp [phase_sum, ieee], le_refl _, fun _ => rfl, ?_⟩
    rintro ⟨i, _, hi, _⟩
    omega
  | succ N ih =>
    obtain ⟨Q, hQ, hQ0, hz, hp⟩ := ih (fun i h1 hi hk => h i h1 (by omega) hk)
    rw [phase_sum_succ]
    by_cases c : 1 ≤ N ∧ N % PATTERN_LENGTH = k
    · rw [if_pos c]
      obtain ⟨q, hq, hq0⟩ := h N c.1 (by omega) c.2
      refine ⟨Q + q, by rw [hQ, hq]; rfl, by linarith, fun hall => ?_, ?_⟩
      · have e1 := hz (fun i h1 hi hk => hall i h1 (by omega) hk)
        have e2 := hall N c.1 (by omega) c.2
        rw [hq] at e2
        have e3 : q = 0 := by
          injection e2
        rw [e1, e3]
        norm_num
      · rintro ⟨i, h1, hi, hk, r, hr, hr0⟩
        by_cases hiN : i = N
        · subst hiN
          rw [hq] at hr
          have e3 : q = r := by
            injection hr
          linarith
        · have := hp ⟨i, h1, by omega, hk, r, hr, hr0⟩
          linarith
    · rw [if_neg c]
      refine ⟨Q, hQ, hQ0, fun hall => hz (fun i h1 hi hk => hall i h1 (by omega) hk), ?_⟩
      rintro ⟨i, h1, hi, hk, r, hr, hr0⟩
      have hiN : i ≠ N := by
        intro e
        subst e
        exact c ⟨h1, hk⟩
      exact hp ⟨i, h1, by omega, hk, r, hr, hr0⟩

/-- The index found by `min_index` in a table of five numbers that is zero at `p` and positive
elsewhere is `p`. -/
theorem min_index_unique_zero (x : Nat → Fp) (p : Nat) (hp : p < 5) (h0 : x p = Fp.fin 0)
    (hx : ∀ k, k < 5 → k ≠ p → ∃ q : ℚ, x k = Fp.fin q ∧ 0 < q) :
    min_index ieee x PATTERN_LENGTH = p := by
  obtain ⟨h1, h2, _⟩ := min_index_spec x
  by_contra hne
  obtain ⟨q, hq, hq0⟩ := hx _ h1 hne
  have := h2 p hp
  rw [h0, hq] at this
  simp only [Fp.lt, decide_eq_false_iff_not, not_lt] at this
  linarith

/-- The table of one field (`o = 0` even, `o = 1` odd) after normalisation, when the pairs at
phase `p` agree on the rows of the field and every other phase has a pair that differs there. -/
theorem telecine_phase_table (o : Nat) (e : Nat → Fp) (T : Fp) (width height : Int)
    (frames : List Buf) (p : Nat) (hwh : 2 ≤ width * height) (hp : p < 5)
    (he : ∀ k, e k = phase_sum ieee (fun i => Fp.fin
        ((wrap32 (ssd_field_sum o (frame_at frames i) (frame_at frames (i - 1)) width height) : ℚ)
          / ((width * height / 2 : Int) : ℚ))) frames.length k)
    (hT : T = Fp.add (Fp.add (Fp.add (Fp.add (Fp.add (Fp.fin 0) (e 0)) (e 1)) (e 2)) (e 3)) (e 4))
    (hagree : ∀ i, 1 ≤ i → i < frames.length → i % 5 = p →
      agree_on_rows o (frame_at frames i) (frame_at frames (i - 1)) width height)
    (hdiff : ∀ k, k < 5 → k ≠ p → ∃ i, 1 ≤ i ∧ i < frames.length ∧ i % 5 = k ∧
      differ_on_rows o (frame_at frames i) (frame_at frames (i - 1)) width height)
    (hrange : ∀ i, 1 ≤ i → i < frames.length →
      ssd_field_sum o (frame_at frames i) (frame_at frames (i - 1)) width height < 2147483648) :
    Fp.div (e p) T = Fp.fin 0 ∧
    ∀ k, k < 5 → k ≠ p → ∃ q : ℚ, Fp.div (e k) T = Fp.fin q ∧ 0 < q := by
  have hd : (1 : Int) ≤ width * height / 2 := by
    generalize width * height = wh at *
    omega
  have hdq : (0 : ℚ) < ((width * height / 2 : Int) : ℚ) := by exact_mod_cast hd
  have hv : ∀ i, 1 ≤ i → i < frames.length →
      wrap32 (ssd_field_sum o (frame_at frames i) (frame_at frames (i - 1)) width height)
        = ssd_field_sum o (frame_at frames i) (frame_at frames (i - 1)) width height :=
    fun i h1 hi => wrap32_of_lt _ (ssd_field_sum_nonneg _ _ _ _ _) (hrange i h1 hi)
  have hph : ∀ k, k < 5 → ∃ Q : ℚ, e k = Fp.fin Q ∧ 0 ≤ Q ∧ (k = p → Q = 0) ∧ (k ≠ p → 0 < Q) := by
    intro k hk
    obtain ⟨Q, hQ, hQ0, hz, hpos⟩ := phase_sum_nonneg (fun i => Fp.fin
        ((wrap32 (ssd_field_sum o (frame_at frames i) (frame_at frames (i - 1)) width height) : ℚ)
          / ((width * height / 2 : Int) : ℚ))) frames.length k
      (fun i h1 hi _ => ⟨_, rfl, by
        rw [hv i h1 hi]
        exact div_nonneg (by exact_mod_cast ssd_field_sum_nonneg _ _ _ _ _) (le_of_lt hdq)⟩)
    refine ⟨Q, by rw [he k, hQ], hQ0, fun hkp => ?_, fun hkp => ?_⟩
    · apply hz
      intro i h1 hi hik
      show Fp.fin _ = _
      rw [hv i h1 hi, ssd_field_sum_agree o _ _ _ _ (hagree i h1 hi (by rw [← hkp]; exact hik))]
      simp
    · obtain ⟨i, h1, hi, hik, hdf⟩ := hdiff k hk hkp
      apply hpos
      refine ⟨i, h1, hi, hik, _, rfl, ?_⟩
      rw [hv i h1 hi]
      exact div_pos (by exact_mod_cast ssd_field_sum_pos o _ _ _ _ hdf) hdq
  obtain ⟨Q0, e0, n0, z0, p0⟩ := hph 0 (by omega)
  obtain ⟨Q1, e1, n1, z1, p1⟩ := hph 1 (by omega)
  obtain ⟨Q2, e2, n2, z2, p2⟩ := hph 2 (by omega)
  obtain ⟨Q3, e3, n3, z3, p3⟩ := hph 3 (by omega)
  obtain ⟨Q4, e4, n4, z4, p4⟩ := hph 4 (by omega)
  have hTv : T = Fp.fin (Q0 + Q1 + Q2 + Q3 + Q4) := by
    rw [hT, e0, e1, e2, e3, e4]
    simp [Fp.add]
  have hTpos : 0 < Q0 + Q1 + Q2 + Q3 + Q4 := by
    have hq : p = 0 ∨ p = 1 ∨ p = 2 ∨ p = 3 ∨ p = 4 := by omega
    rcases hq with h | h | h | h | h
    · have := p1 (by omega); linarith
    · have := p0 (by omega); linarith
    · have := p0 (by omega); linarith
    · have := p0 (by omega); linarith
    · have := p0 (by omega); linarith
  have hdivk : ∀ k, k < 5 → ∃ Q : ℚ, Fp.div (e k) T = Fp.fin (Q / (Q0 + Q1 + Q2 + Q3 + Q4)) ∧
      (k = p → Q = 0) ∧ (k ≠ p → 0 < Q) := by
    intro k hk
    obtain ⟨Q, eQ, _, zQ, pQ⟩ := hph k hk
    refine ⟨Q, ?_, zQ, pQ⟩
    rw [eQ, hTv]
    simp only [Fp.div, if_neg (ne_of_gt hTpos)]
  constructor
  · obtain ⟨Q, hQ, zQ, _⟩ := hdivk p hp
    rw [hQ, zQ rfl]
    simp
  · intro k hk hkp
    obtain ⟨Q, hQ, _, pQ⟩ := hdivk k hk
    exact ⟨_, hQ, div_pos (pQ hkp) hTpos⟩

/-- C25: for every stream of frames of at least two pixels and every phase `p < 5`, if every
pair of successive frames at phase `p` agrees on all even rows and every other phase has a pair
that differs on an even row (sums within `int` range; the stream then has 6 frames or more, or
5 when `p = 0`), the minimal-energy phase index found by `telecine_detector` in the normalised
even table is `p` and that entry is 0; likewise for the odd rows and the odd table. -/
theorem telecine_min_phase (width height : Int) (frames : List Buf) (p : Nat)
    (hwh : 2 ≤ width * height) (hp : p < 5) :
    (phase_pattern 0 frames width height p →
      (telecine_detector ieee ⟨width, height⟩ frames).i = p ∧
      (telecine_detector ieee ⟨width, height⟩ frames).sequence_ssd_even p = Fp.fin 0) ∧
    (phase_pattern 1 frames width height p →
      (telecine_detector ieee ⟨width, height⟩ frames).j = p ∧
      (telecine_detector ieee ⟨width, height⟩ frames).sequence_ssd_odd p = Fp.fin 0) := by
  obtain ⟨_, _, he, ho⟩ := telecine_main_loop_inv ieee ⟨width, height⟩ frames
  have hT := telecine_totals_eq ieee (telecine_main_loop ieee ⟨width, height⟩ frames)
  constructor
  · rintro ⟨hagree, hdiff, hrange⟩
    have he2 : ∀ k, (telecine_main_loop ieee ⟨width, height⟩ frames).sequence_ssd_even k
        = phase_sum ieee (fun i => Fp.fin
          ((wrap32 (ssd_field_sum 0 (frame_at frames i) (frame_at frames (i - 1)) width height)
            : ℚ) / ((width * height / 2 : Int) : ℚ))) frames.length k := by
      intro k
      rw [he k]
      apply phase_sum_congr
      intro i _
      show (compute_ssd ieee _ _ ⟨width, height⟩).1 = _
      rw [(compute_ssd_value _ _ width height hwh).1]
    obtain ⟨h0, hpos⟩ := telecine_phase_table 0 _
      (telecine_totals ieee (telecine_main_loop ieee ⟨width, height⟩ frames)).1
      width height frames p hwh hp he2 (by rw [hT]; rfl) hagree hdiff hrange
    have hn : ∀ k, k < 5 →
        (telecine_normalise ieee (telecine_main_loop ieee ⟨width, height⟩ frames)).1 k
          = Fp.div ((telecine_main_loop ieee ⟨width, height⟩ frames).sequence_ssd_even k)
              (telecine_totals ieee (telecine_main_loop ieee ⟨width, height⟩ frames)).1 :=
      fun k hk => (telecine_normalise_entry ieee _ k hk).1
    have hi : min_index ieee
        (telecine_normalise ieee (telecine_main_loop ieee ⟨width, height⟩ frames)).1
        PATTERN_LENGTH = p :=
      min_index_unique_zero _ p hp (by rw [hn p hp]; exact h0)
        (fun k hk hkp => by rw [hn k hk]; exact hpos k hk hkp)
    refine ⟨hi, ?_⟩
    show (telecine_normalise ieee (telecine_main_loop ieee ⟨width, height⟩ frames)).1 p = _
    rw [hn p hp]
    exact h0
  · rintro ⟨hagree, hdiff, hrange⟩
    have ho2 : ∀ k, (telecine_main_loop ieee ⟨width, height⟩ frames).sequence_ssd_odd k
        = phase_sum ieee (fun i => Fp.fin
          ((wrap32 (ssd_field_sum 1 (frame_at frames i) (frame_at frames (i - 1)) width height)
            : ℚ) / ((width * height / 2 : Int) : ℚ))) frames.length k := by
      intro k
      rw [ho k]
      apply phase_sum_congr
      intro i _
      show (compute_ssd ieee _ _ ⟨width, height⟩).2 = _
      rw [(compute_ssd_value _ _ width height hwh).1]
    obtain ⟨h0, hpos⟩ := telecine_phase_table 1 _
      (telecine_totals ieee (telecine_main_loop ieee ⟨width, height⟩ frames)).2
      width height frames p hwh hp ho2 (by rw [hT]; rfl) hagree hdiff hrange
    have hn : ∀ k, k < 5 →
        (telecine_normalise ieee (telecine_main_loop ieee ⟨width, height⟩ frames)).2 k
          = Fp.div ((telecine_main_loop ieee ⟨width, height⟩ frames).sequence_ssd_odd k)
              (telecine_totals ieee (telecine_main_loop ieee ⟨width, height⟩ frames)).2 :=
      fun k hk => (telecine_normalise_entry ieee _ k hk).2
    have hj : min_index ieee
        (telecine_normalise ieee (telecine_main_loop ieee ⟨width, height⟩ frames)).2
        PATTERN_LENGTH = p :=
      min_index_unique_zero _ p hp (by rw [hn p hp]; exact h0)
        (fun k hk hkp => by rw [hn k hk]; exact hpos k hk hkp)
    refine ⟨hj, ?_⟩
    show (telecine_normalise ieee (telecine_main_loop ieee ⟨width, height⟩ frames)).2 p = _
    rw [hn p hp]
    exact h0

theorem exStream6_pattern (o : Nat) (ho : o < 2) : phase_pattern o exStream6 1 2 3 := by
  have hlen : exStream6.length = 6 := rfl
  refine ⟨?_, ?_, ?_⟩
  · intro i h1 hi h3 r c hr hc hro
    rw [hlen] at hi
    have : i = 3 := by
      have h3b : i % 5 = 3 := h3
      omega
    subst this
    rfl
  · intro k hk hkp
    have hk5 : k < 5 := hk
    have hr : ((o : Nat) : Int) < 2 := by omega
    have hoo : o % 2 = o := by omega
    have hq : k = 0 ∨ k = 1 ∨ k = 2 ∨ k = 4 := by omega
    rcases hq with h | h | h | h <;> subst h
    · refine ⟨5, by decide, by decide, by decide, o, 0, hr, by decide, hoo, ?_⟩
      interval_cases o <;> decide
    · refine ⟨1, by decide, by decide, by decide, o, 0, hr, by decide, hoo, ?_⟩
      interval_cases o <;> decide
    · refine ⟨2, by decide, by decide, by decide, o, 0, hr, by decide, hoo, ?_⟩
      interval_cases o <;> decide
    · refine ⟨4, by decide, by decide, by decide, o, 0, hr, by decide, hoo, ?_⟩
      interval_cases o <;> decide
  · intro i h1 hi
    rw [hlen] at hi
    interval_cases o <;> interval_cases i <;> decide

theorem telecine_min_phase_witness :
    exStream6.length = 6 ∧
    ((telecine_detector ieee ⟨1, 2⟩ exStream6).i = 3 ∧
      (telecine_detector ieee ⟨1, 2⟩ exStream6).sequence_ssd_even 3 = Fp.fin 0) ∧
    ((telecine_detector ieee ⟨1, 2⟩ exStream6).j = 3 ∧
      (telecine_detector ieee ⟨1, 2⟩ exStream6).sequence_ssd_odd 3 = Fp.fin 0) :=
  ⟨rfl,
    (telecine_min_phase 1 2 exStream6 3 (by decide) (by decide)).1
      (exStream6_pattern 0 (by decide)),
    (telecine_min_phase 1 2 exStream6 3 (by decide) (by decide)).2
      (exStream6_pattern 1 (by decide))⟩

/-! ## The sliding window -/

theorem upd2_same (a : Nat → Nat → Int) (r c : Nat) (v : Int) : upd2 a r c v r c = v := by
  simp [upd2]

theorem upd2_other (a : Nat → Nat → Int) (r c r1 c1 : Nat) (v : Int) (h : r1 ≠ r ∨ c1 ≠ c) :
    upd2 a r c v r1 c1 = a r1 c1 := by
  unfold upd2
  rw [if_neg]
  rintro ⟨h1, h2⟩
  rcases h with h | h
  · exact h h1
  · exact h h2

/-- One cell of an even row `m` of the window. -/
theorem window_cell_even {F : Type} (frame : Buf) (res : res_t) (i m : Nat)
    (s : InterlaceState F) (hm : m % 2 = 0) :
    (window_cell frame res i m s).pcf_even
      = upd2 s.pcf_even (m / 2) (s.j % WINSIZE_WIDTH)
          (px frame (((m + i : Nat) : Int) * res.width + s.j)) ∧
    (window_cell frame res i m s).energe_even
      = wrap32 ((if WINSIZE_WIDTH ≤ s.j then
            wrap32 (s.energe_even - s.pcf_even (m / 2) (s.j % WINSIZE_WIDTH)
              * s.pcf_even (m / 2) (s.j % WINSIZE_WIDTH))
          else s.energe_even)
        + px frame (((m + i : Nat) : Int) * res.width + s.j)
          * px frame (((m + i : Nat) : Int) * res.width + s.j)) ∧
    (window_cell frame res i m s).pcf_odd = s.pcf_odd ∧
    (window_cell frame res i m s).d = s.d ∧
    (window_cell frame res i m s).delta = s.delta := by
  have h : ¬ m % 2 = 1 := by omega
  unfold window_cell
  simp [h, upd2_same]

/-- One cell of an odd row `m` of the window. -/
theorem window_cell_odd {F : Type} (frame : Buf) (res : res_t) (i m : Nat)
    (s : InterlaceState F) (hm : m % 2 = 1) :
    (window_cell frame res i m s).pcf_odd
      = upd2 s.pcf_odd (m / 2) (s.j % WINSIZE_WIDTH)
          (px frame (((m + i : Nat) : Int) * res.width + s.j)) ∧
    (window_cell frame res i m s).d
      = upd2 s.d (m / 2) (s.j % WINSIZE_WIDTH)
          (px frame (((m + i : Nat) : Int) * res.width + s.j)
            - s.pcf_even (m / 2) (s.j % WINSIZE_WIDTH)) ∧
    (window_cell frame res i m s).delta
      = wrap32 ((if WINSIZE_WIDTH ≤ s.j then
            wrap32 (s.delta - s.d (m / 2) (s.j % WINSIZE_WIDTH)
              * s.d (m / 2) (s.j % WINSIZE_WIDTH))
          else s.delta)
        + (px frame (((m + i : Nat) : Int) * res.width + s.j)
            - s.pcf_even (m / 2) (s.j % WINSIZE_WIDTH))
          * (px frame (((m + i : Nat) : Int) * res.width + s.j)
            - s.pcf_even (m / 2) (s.j % WINSIZE_WIDTH))) ∧
    (window_cell frame res i m s).pcf_even = s.pcf_even ∧
    (window_cell frame res i m s).energe_even = s.energe_even := by
  unfold window_cell
  simp [hm, upd2_same]

/-- Started at a column `j >= WINSIZE_WIDTH - 1`, the `do ... while` loop runs its body once. -/
theorem window_row_single {F : Type} (frame : Buf) (res : res_t) (i m : Nat)
    (s : InterlaceState F) (hj : WINSIZE_WIDTH - 1 ≤ s.j) :
    window_row frame res i m WINSIZE_WIDTH s = window_cell frame res i m s := by
  have hw : WINSIZE_WIDTH = 10 := rfl
  have e : window_row frame res i m WINSIZE_WIDTH s
      = if (window_cell frame res i m s).j < WINSIZE_WIDTH
        then window_row frame res i m 9 (window_cell frame res i m s)
        else window_cell frame res i m s := rfl
  rw [e, if_neg]
  rw [window_cell_j]
  omega

/-- Started at a column `j < WINSIZE_WIDTH`, the `do ... while` loop runs its body
`WINSIZE_WIDTH - j` times. -/
theorem window_row_iterate {F : Type} (frame : Buf) (res : res_t) (i m : Nat) (fuel : Nat)
    (s : InterlaceState F) (hf : 1 ≤ fuel) (hj : s.j + fuel = WINSIZE_WIDTH) :
    window_row frame res i m fuel s = (window_cell frame res i m)^[fuel] s := by
  have hw : WINSIZE_WIDTH = 10 := rfl
  induction fuel generalizing s with
  | zero => omega
  | succ f ih =>
    have e : window_row frame res i m (f + 1) s
        = if (window_cell frame res i m s).j < WINSIZE_WIDTH
          then window_row frame res i m f (window_cell frame res i m s)
          else window_cell frame res i m s := rfl
    have hcj := window_cell_j frame res i m s
    rw [e, Function.iterate_succ_apply]
    by_cases c : f = 0
    · subst c
      rw [if_neg (by omega)]
      rfl
    · rw [if_pos (by omega)]
      exact ih _ (by omega) (by omega)
theorem sumTo_change_one (n r0 : Nat) (g g1 : Nat → Int) (hr0 : r0 < n)
    (h : ∀ r, r ≠ r0 → g1 r = g r) : sumTo n g1 = sumTo n g + (g1 r0 - g r0) := by
  induction n with
  | zero => omega
  | succ n ih =>
    simp only [sumTo]
    by_cases c : r0 = n
    · subst c
      rw [sumTo_congr r0 g1 g (fun r hr => h r (by omega))]
      ring
    · rw [ih (by omega), h n (fun e => c e.symm)]
      ring

theorem row_energy_slide (frame : Buf) (width : Int) (row st : Nat) :
    row_energy frame width row (st + 1)
      = row_energy frame width row st
        - px frame ((row : Int) * width + (st : Int)) * px frame ((row : Int) * width + (st : Int))
        + px frame ((row : Int) * width + ((st + 10 : Nat) : Int))
          * px frame ((row : Int) * width + ((st + 10 : Nat) : Int)) := by
  unfold row_energy
  simp only [sumTo, Nat.add_zero, pow_two]
  have e : ∀ k : Nat, st + 1 + k = st + (k + 1) := fun k => by omega
  simp only [e]
  ring

theorem row_delta_slide (frame : Buf) (width : Int) (i r st : Nat) :
    row_delta frame width i r (st + 1)
      = row_delta frame width i r st
        - (px frame (((i + 2 * r + 1 : Nat) : Int) * width + (st : Int))
            - px frame (((i + 2 * r : Nat) : Int) * width + (st : Int)))
          * (px frame (((i + 2 * r + 1 : Nat) : Int) * width + (st : Int))
            - px frame (((i + 2 * r : Nat) : Int) * width + (st : Int)))
        + (px frame (((i + 2 * r + 1 : Nat) : Int) * width + ((st + 10 : Nat) : Int))
            - px frame (((i + 2 * r : Nat) : Int) * width + ((st + 10 : Nat) : Int)))
          * (px frame (((i + 2 * r + 1 : Nat) : Int) * width + ((st + 10 : Nat) : Int))
            - px frame (((i + 2 * r : Nat) : Int) * width + ((st + 10 : Nat) : Int))) := by
  unfold row_delta
  simp only [sumTo, Nat.add_zero, pow_two]
  have e : ∀ k : Nat, st + 1 + k = st + (k + 1) := fun k => by omega
  simp only [e]
  ring

theorem wrap32_sub_add (a b c : Int) : wrap32 (wrap32 (wrap32 a - b) + c) = wrap32 (a - b + c) := by
  unfold wrap32; omega

/-- One row of the window update that slides the window by one column. -/
theorem slide_rows_step {F : Type} (frame : Buf) (res : res_t) (i st m : Nat)
    (s : InterlaceState F) (hm : m < 20) (hs : slide_rows frame res.width i st m s) :
    slide_rows frame res.width i st (m + 1)
      (window_row frame res i m WINSIZE_WIDTH
        { s with j := if s.step = 0 then 0 else s.step + WINSIZE_WIDTH - 1 }) := by
  obtain ⟨hstep, hE, hO, hee, hdl⟩ := hs
  have hw : WINSIZE_WIDTH = 10 := rfl
  have hne : ¬ s.step = 0 := by omega
  have hjv : s.step + WINSIZE_WIDTH - 1 = st + 10 := by omega
  rw [if_neg hne, hjv, window_row_single _ _ _ _ _ (by show WINSIZE_WIDTH - 1 ≤ st + 10; omega)]
  have hslot : (st + 10) % WINSIZE_WIDTH = st % 10 := by
    show (st + 10) % 10 = st % 10
    omega
  by_cases hpar : m % 2 = 0
  · obtain ⟨c1, c2, c3, c4, c5⟩ := window_cell_even frame res i m { s with j := st + 10 } hpar
    have hcs : (window_cell frame res i m { s with j := st + 10 }).step = s.step :=
      (window_cell_hist frame res i m _).2.2.2.2.2
    simp only [hslot, show WINSIZE_WIDTH ≤ st + 10 from by omega, if_true] at c1 c2
    have em : m + i = i + 2 * (m / 2) := by omega
    have hr0 : m / 2 < 10 := by omega
    have hold : s.pcf_even (m / 2) (st % 10)
        = px frame (((i + 2 * (m / 2) : Nat) : Int) * res.width + (st : Int)) := by
      have := hE (m / 2) st hr0
      rw [if_neg (by omega)] at this
      exact this (le_refl _) (by omega)
    refine ⟨by rw [hcs, hstep], ?_, ?_, ?_, ?_⟩
    · intro r c hr h1 h2
      rw [c1]
      by_cases hrm : r = m / 2
      · subst hrm
        rw [if_pos (by omega)] at h1 h2
        by_cases hc : c = st + 10
        · subst hc
          rw [show (st + 10) % 10 = st % 10 from by omega, upd2_same, em]
        · rw [upd2_other _ _ _ _ _ _ (Or.inr (by omega))]
          have := hE (m / 2) c hr0
          rw [if_neg (by omega)] at this
          exact this (by omega) (by omega)
      · rw [upd2_other _ _ _ _ _ _ (Or.inl hrm)]
        have hiff : (2 * r < m + 1) ↔ (2 * r < m) := by omega
        simp only [hiff] at h1 h2
        exact hE r c hr h1 h2
    · intro r c hr h1 h2
      rw [c3, c4]
      have hiff : (2 * r + 1 < m + 1) ↔ (2 * r + 1 < m) := by omega
      simp only [hiff] at h1 h2
      exact hO r c hr h1 h2
    · rw [c2, hee, hold, wrap32_sub_add]
      congr 1
      rw [sumTo_change_one 10 (m / 2)
        (fun r => row_energy frame res.width (i + 2 * r) (if 2 * r < m then st + 1 else st))
        (fun r => row_energy frame res.width (i + 2 * r) (if 2 * r < m + 1 then st + 1 else st))
        hr0 (fun r hr => by
          have hiff : (2 * r < m + 1) ↔ (2 * r < m) := by omega
          simp only [hiff])]
      rw [if_pos (by omega), if_neg (by omega), row_energy_slide, em]
      push_cast
      ring
    · rw [c5, hdl]
      congr 1
      apply sumTo_congr
      intro r _
      have hiff : (2 * r + 1 < m + 1) ↔ (2 * r + 1 < m) := by omega
      simp only [hiff]
  · have hpar1 : m % 2 = 1 := by omega
    obtain ⟨c1, c2, c3, c4, c5⟩ := window_cell_odd frame res i m { s with j := st + 10 } hpar1
    have hcs : (window_cell frame res i m { s with j := st + 10 }).step = s.step :=
      (window_cell_hist frame res i m _).2.2.2.2.2
    simp only [hslot, show WINSIZE_WIDTH ≤ st + 10 from by omega, if_true] at c1 c2 c3
    have em : m + i = i + 2 * (m / 2) + 1 := by omega
    have hr0 : m / 2 < 10 := by omega
    have hold : s.d (m / 2) (st % 10)
        = px frame (((i + 2 * (m / 2) + 1 : Nat) : Int) * res.width + (st : Int))
          - px frame (((i + 2 * (m / 2) : Nat) : Int) * res.width + (st : Int)) := by
      have := hO (m / 2) st hr0
      rw [if_neg (by omega)] at this
      exact (this (le_refl _) (by omega)).2
    have hnew : s.pcf_even (m / 2) (st % 10)
        = px frame (((i + 2 * (m / 2) : Nat) : Int) * res.width + ((st + 10 : Nat) : Int)) := by
      have := hE (m / 2) (st + 10) hr0
      rw [if_pos (by omega), show (st + 10) % 10 = st % 10 from by omega] at this
      exact this (by omega) (by omega)
    refine ⟨by rw [hcs, hstep], ?_, ?_, ?_, ?_⟩
    · intro r c hr h1 h2
      rw [c4]
      have hiff : (2 * r < m + 1) ↔ (2 * r < m) := by omega
      simp only [hiff] at h1 h2
      exact hE r c hr h1 h2
    · intro r c hr h1 h2
      rw [c1, c2]
      by_cases hrm : r = m / 2
      · subst hrm
        rw [if_pos (by omega)] at h1 h2
        by_cases hc : c = st + 10
        · subst hc
          rw [show (st + 10) % 10 = st % 10 from by omega, upd2_same, upd2_same, em, hnew]
          exact ⟨rfl, rfl⟩
        · rw [upd2_other _ _ _ _ _ _ (Or.inr (by omega)),
            upd2_other _ _ _ _ _ _ (Or.inr (by omega))]
          have := hO (m / 2) c hr0
          rw [if_neg (by omega)] at this
          exact this (by omega) (by omega)
      · rw [upd2_other _ _ _ _ _ _ (Or.inl hrm), upd2_other _ _ _ _ _ _ (Or.inl hrm)]
        have hiff : (2 * r + 1 < m + 1) ↔ (2 * r + 1 < m) := by omega
        simp only [hiff] at h1 h2
        exact hO r c hr h1 h2
    · rw [c5, hee]
      congr 1
      apply sumTo_congr
      intro r _
      have hiff : (2 * r < m + 1) ↔ (2 * r < m) := by omega
      simp only [hiff]
    · rw [c3, hdl, hold, hnew, wrap32_sub_add]
      congr 1
      rw [sumTo_change_one 10 (m / 2)
        (fun r => row_delta frame res.width i r (if 2 * r + 1 < m then st + 1 else st))
        (fun r => row_delta frame res.width i r (if 2 * r + 1 < m + 1 then st + 1 else st))
        hr0 (fun r hr => by
          have hiff : (2 * r + 1 < m + 1) ↔ (2 * r + 1 < m) := by omega
          simp only [hiff])]
      rw [if_pos (by omega), if_neg (by omega), row_delta_slide, em]
      push_cast
      ring

/-- The cells `c < k` of an even row `m` of the window in the first window update of a row
offset. -/
theorem fill_row_even {F : Type} (frame : Buf) (res : res_t) (i m : Nat)
    (s0 : InterlaceState F) (hm : m % 2 = 0) (hj : s0.j = 0) (e0 : Int)
    (he0 : s0.energe_even = wrap32 e0) (k : Nat) (hk : k ≤ 10) :
    ((window_cell frame res i m)^[k] s0).j = k ∧
    ((window_cell frame res i m)^[k] s0).step = s0.step ∧
    ((window_cell frame res i m)^[k] s0).pcf_odd = s0.pcf_odd ∧
    ((window_cell frame res i m)^[k] s0).d = s0.d ∧
    ((window_cell frame res i m)^[k] s0).delta = s0.delta ∧
    (∀ r c, (r ≠ m / 2 ∨ k ≤ c) →
      ((window_cell frame res i m)^[k] s0).pcf_even r c = s0.pcf_even r c) ∧
    (∀ c, c < k → ((window_cell frame res i m)^[k] s0).pcf_even (m / 2) c
      = px frame (((m + i : Nat) : Int) * res.width + (c : Int))) ∧
    ((window_cell frame res i m)^[k] s0).energe_even
      = wrap32 (e0 + sumTo k (fun c =>
          px frame (((m + i : Nat) : Int) * res.width + (c : Int))
            * px frame (((m + i : Nat) : Int) * res.width + (c : Int)))) := by
  have hw : WINSIZE_WIDTH = 10 := rfl
  induction k with
  | zero =>
    refine ⟨hj, rfl, rfl, rfl, rfl, fun _ _ _ => rfl, fun c hc => absurd hc (by omega), ?_⟩
    simp only [Function.iterate_zero, id_eq, sumTo, add_zero]
    exact he0
  | succ k ih =>
    obtain ⟨a1, a2, a3, a4, a5, a6, a7, a8⟩ := ih (by omega)
    rw [Function.iterate_succ_apply']
    generalize (window_cell frame res i m)^[k] s0 = u at *
    obtain ⟨c1, c2, c3, c4, c5⟩ := window_cell_even frame res i m u hm
    have hslot : u.j % WINSIZE_WIDTH = k := by
      rw [a1, hw]
      omega
    rw [hslot, if_neg (by rw [a1, hw]; omega), a1] at c2
    rw [hslot, a1] at c1
    refine ⟨by rw [window_cell_j, a1], ?_, by rw [c3, a3], by rw [c4, a4], by rw [c5, a5],
      ?_, ?_, ?_⟩
    · rw [(window_cell_hist frame res i m u).2.2.2.2.2, a2]
    · intro r c h
      rw [c1, upd2_other _ _ _ _ _ _ (by omega)]
      exact a6 r c (by omega)
    · intro c hc
      rw [c1]
      by_cases hck : c = k
      · subst hck
        rw [upd2_same]
      · rw [upd2_other _ _ _ _ _ _ (Or.inr hck)]
        exact a7 c (by omega)
    · rw [c2, a8, wrap32_add_left]
      simp only [sumTo]
      congr 1
      ring

/-- The cells `c < k` of an odd row `m` of the window in the first window update of a row
offset. -/
theorem fill_row_odd {F : Type} (frame : Buf) (res : res_t) (i m : Nat)
    (s0 : InterlaceState F) (hm : m % 2 = 1) (hj : s0.j = 0) (d0 : Int)
    (hd0 : s0.delta = wrap32 d0) (k : Nat) (hk : k ≤ 10) :
    ((window_cell frame res i m)^[k] s0).j = k ∧
    ((window_cell frame res i m)^[k] s0).step = s0.step ∧
    ((window_cell frame res i m)^[k] s0).pcf_even = s0.pcf_even ∧
    ((window_cell frame res i m)^[k] s0).energe_even = s0.energe_even ∧
    (∀ r c, (r ≠ m / 2 ∨ k ≤ c) →
      ((window_cell frame res i m)^[k] s0).pcf_odd r c = s0.pcf_odd r c ∧
      ((window_cell frame res i m)^[k] s0).d r c = s0.d r c) ∧
    (∀ c, c < k →
      ((window_cell frame res i m)^[k] s0).pcf_odd (m / 2) c
        = px frame (((m + i : Nat) : Int) * res.width + (c : Int)) ∧
      ((window_cell frame res i m)^[k] s0).d (m / 2) c
        = px frame (((m + i : Nat) : Int) * res.width + (c : Int)) - s0.pcf_even (m / 2) c) ∧
    ((window_cell frame res i m)^[k] s0).delta
      = wrap32 (d0 + sumTo k (fun c =>
          (px frame (((m + i : Nat) : Int) * res.width + (c : Int)) - s0.pcf_even (m / 2) c)
            * (px frame (((m + i : Nat) : Int) * res.width + (c : Int))
                - s0.pcf_even (m / 2) c))) := by
  have hw : WINSIZE_WIDTH = 10 := rfl
  induction k with
  | zero =>
    refine ⟨hj, rfl, rfl, rfl, fun _ _ _ => ⟨rfl, rfl⟩, fun c hc => absurd hc (by omega), ?_⟩
    simp only [Function.iterate_zero, id_eq, sumTo, add_zero]
    exact hd0
  | succ k ih =>
    obtain ⟨a1, a2, a3, a4, a6, a7, a8⟩ := ih (by omega)
    rw [Function.iterate_succ_apply']
    generalize (window_cell frame res i m)^[k] s0 = u at *
    obtain ⟨c1, c2, c3, c4, c5⟩ := window_cell_odd frame res i m u hm
    have hslot : u.j % WINSIZE_WIDTH = k := by
      rw [a1, hw]
      omega
    rw [hslot, if_neg (by rw [a1, hw]; omega), a1, a3] at c3
    rw [hslot, a1] at c1
    rw [hslot, a1, a3] at c2
    refine ⟨by rw [window_cell_j, a1], ?_, by rw [c4, a3], by rw [c5, a4], ?_, ?_, ?_⟩
    · rw [(window_cell_hist frame res i m u).2.2.2.2.2, a2]
    · intro r c h
      rw [c1, c2, upd2_other _ _ _ _ _ _ (by omega), upd2_other _ _ _ _ _ _ (by omega)]
      exact a6 r c (by omega)
    · intro c hc
      rw [c1, c2]
      by_cases hck : c = k
      · subst hck
        rw [upd2_same, upd2_same]
        exact ⟨rfl, rfl⟩
      · rw [upd2_other _ _ _ _ _ _ (Or.inr hck), upd2_other _ _ _ _ _ _ (Or.inr hck)]
        exact a7 c (by omega)
    · rw [c3, a8, wrap32_add_left]
      simp only [sumTo]
      congr 1
      ring

/-- One row of the first window update of a row offset. -/
theorem fill_rows_step {F : Type} (frame : Buf) (res : res_t) (i m : Nat)
    (s : InterlaceState F) (hm : m < 20) (hs : fill_rows frame res.width i m s) :
    fill_rows frame res.width i (m + 1)
      (window_row frame res i m WINSIZE_WIDTH
        { s with j := if s.step = 0 then 0 else s.step + WINSIZE_WIDTH - 1 }) := by
  obtain ⟨hstep, hE, hO, hee, hdl⟩ := hs
  have hw : WINSIZE_WIDTH = 10 := rfl
  rw [if_pos hstep, window_row_iterate _ _ _ _ _ _ (by decide) (by show 0 + WINSIZE_WIDTH = _; omega)]
  have hr0 : m / 2 < 10 := by omega
  by_cases hpar : m % 2 = 0
  · obtain ⟨_, b2, b3, b4, b5, b6, b7, b8⟩ := fill_row_even frame res i m { s with j := 0 } hpar rfl
      _ hee 10 (le_refl _)
    have em : m + i = i + 2 * (m / 2) := by omega
    refine ⟨by rw [hw, b2]; exact hstep, ?_, ?_, ?_, ?_⟩
    · intro r c hr h1 hc
      rw [hw]
      by_cases hrm : r = m / 2
      · subst hrm
        rw [b7 c hc, em]
      · rw [b6 r c (Or.inl hrm)]
        exact hE r c hr (by omega) hc
    · intro r c hr h1 hc
      rw [hw, b3, b4]
      exact hO r c hr (by omega) hc
    · rw [hw, b8]
      congr 1
      rw [sumTo_change_one 10 (m / 2)
        (fun r => if 2 * r < m then row_energy frame res.width (i + 2 * r) 0 else 0)
        (fun r => if 2 * r < m + 1 then row_energy frame res.width (i + 2 * r) 0 else 0)
        hr0 (fun r hr => by
          have hiff : (2 * r < m + 1) ↔ (2 * r < m) := by omega
          simp only [hiff])]
      rw [if_pos (by omega), if_neg (by omega), em]
      unfold row_energy
      simp only [Nat.zero_add, pow_two, sub_zero]
    · rw [hw, b5, hdl]
      congr 1
      apply sumTo_congr
      intro r _
      have hiff : (2 * r + 1 < m + 1) ↔ (2 * r + 1 < m) := by omega
      simp only [hiff]
  · have hpar1 : m % 2 = 1 := by omega
    obtain ⟨_, b2, b3, b4, b6, b7, b8⟩ := fill_row_odd frame res i m { s with j := 0 } hpar1 rfl
      _ hdl 10 (le_refl _)
    have em : m + i = i + 2 * (m / 2) + 1 := by omega
    have hpe : ∀ c, c < 10 → s.pcf_even (m / 2) c
        = px frame (((i + 2 * (m / 2) : Nat) : Int) * res.width + (c : Int)) :=
      fun c hc => hE (m / 2) c hr0 (by omega) hc
    refine ⟨by rw [hw, b2]; exact hstep, ?_, ?_, ?_, ?_⟩
    · intro r c hr h1 hc
      rw [hw, b3]
      exact hE r c hr (by omega) hc
    · intro r c hr h1 hc
      rw [hw]
      by_cases hrm : r = m / 2
      · subst hrm
        rw [(b7 c hc).1, (b7 c hc).2, em]
        exact ⟨rfl, by rw [← hpe c hc]⟩
      · rw [(b6 r c (Or.inl hrm)).1, (b6 r c (Or.inl hrm)).2]
        exact hO r c hr (by omega) hc
    · rw [hw, b4, hee]
      congr 1
      apply sumTo_congr
      intro r _
      have hiff : (2 * r < m + 1) ↔ (2 * r < m) := by omega
      simp only [hiff]
    · rw [hw, b8]
      congr 1
      rw [sumTo_change_one 10 (m / 2)
        (fun r => if 2 * r + 1 < m then row_delta frame res.width i r 0 else 0)
        (fun r => if 2 * r + 1 < m + 1 then row_delta frame res.width i r 0 else 0)
        hr0 (fun r hr => by
          have hiff : (2 * r + 1 < m + 1) ↔ (2 * r + 1 < m) := by omega
          simp only [hiff])]
      rw [if_pos (by omega), if_neg (by omega), em]
      unfold row_delta
      simp only [Nat.zero_add, pow_two, sub_zero]
      congr 1
      apply sumTo_congr
      intro c hc
      rw [hpe c hc]
theorem sumTo_le_const (n : Nat) (f : Nat → Int) (B : Int) (h : ∀ i, i < n → f i ≤ B) :
    sumTo n f ≤ n * B := by
  induction n with
  | zero => simp [sumTo]
  | succ n ih =>
    simp only [sumTo]
    have := ih (fun i hi => h i (by omega))
    have := h n (by omega)
    push_cast
    linarith

theorem px_sq_le (frame : Buf) (k : Int) : px frame k ^ 2 ≤ 65025 := by
  have h1 : 0 ≤ px frame k := by unfold px; omega
  have h2 : px frame k ≤ 255 := by
    have := (frame k).isLt
    unfold px
    omega
  nlinarith

theorem px_sub_sq_le (frame : Buf) (k l : Int) : (px frame k - px frame l) ^ 2 ≤ 65025 := by
  have h := (sq_bound _ _ (byte_lt frame k) (byte_lt frame l)).2
  rw [pow_two]
  exact h

theorem window_energy_even_range (frame : Buf) (width : Int) (i s : Nat) :
    0 ≤ window_energy_even frame width i s ∧ window_energy_even frame width i s < 2147483648 := by
  constructor
  · exact sumTo_nonneg _ _ (fun _ _ => sumTo_nonneg _ _ (fun _ _ => sq_nonneg _))
  · have h : window_energy_even frame width i s ≤ (10 : Nat) * ((10 : Nat) * 65025) :=
      sumTo_le_const _ _ _ (fun _ _ => sumTo_le_const _ _ _ (fun _ _ => px_sq_le _ _))
    norm_num at h
    omega

theorem window_delta_range (frame : Buf) (width : Int) (i s : Nat) :
    0 ≤ window_delta frame width i s ∧ window_delta frame width i s < 2147483648 := by
  constructor
  · exact sumTo_nonneg _ _ (fun _ _ => sumTo_nonneg _ _ (fun _ _ => sq_nonneg _))
  · have h : window_delta frame width i s ≤ (10 : Nat) * ((10 : Nat) * 65025) :=
      sumTo_le_const _ _ _ (fun _ _ => sumTo_le_const _ _ _ (fun _ _ => px_sub_sq_le _ _ _))
    norm_num at h
    omega

theorem window_energy_even_rows (frame : Buf) (width : Int) (i s : Nat) :
    window_energy_even frame width i s
      = sumTo 10 (fun r => row_energy frame width (i + 2 * r) s) := rfl

theorem window_delta_rows (frame : Buf) (width : Int) (i s : Nat) :
    window_delta frame width i s = sumTo 10 (fun r => row_delta frame width i r s) := rfl

/-- The rows of a window update, one after the other. -/
theorem window_update_fold {F : Type} (frame : Buf) (res : res_t) (i : Nat)
    (P : Nat → InterlaceState F → Prop) (s : InterlaceState F) (h0 : P 0 s)
    (hstep : ∀ m u, m < 20 → P m u → P (m + 1)
      (window_row frame res i m WINSIZE_WIDTH
        { u with j := if u.step = 0 then 0 else u.step + WINSIZE_WIDTH - 1 })) :
    P 20 ((List.range WINSIZE_HEIGHT).foldl (fun (s : InterlaceState F) (m : Nat) =>
      window_row frame res i m WINSIZE_WIDTH
        { s with j := if s.step = 0 then 0 else s.step + WINSIZE_WIDTH - 1 }) s) := by
  have key : ∀ n, n ≤ 20 →
      P n ((List.range n).foldl (fun (s : InterlaceState F) (m : Nat) =>
        window_row frame res i m WINSIZE_WIDTH
          { s with j := if s.step = 0 then 0 else s.step + WINSIZE_WIDTH - 1 }) s) := by
    intro n
    induction n with
    | zero => intro _; exact h0
    | succ n ih =>
      intro hn
      rw [List.range_succ, List.foldl_append]
      exact hstep n _ (by omega) (ih (by omega))
  exact key 20 (le_refl _)

theorem window_update_eq {F : Type} (frame : Buf) (res : res_t) (i : Nat)
    (s : InterlaceState F) :
    window_update frame res i s
      = { (List.range WINSIZE_HEIGHT).foldl (fun (s : InterlaceState F) (m : Nat) =>
            window_row frame res i m WINSIZE_WIDTH
              { s with j := if s.step = 0 then 0 else s.step + WINSIZE_WIDTH - 1 }) s with
          step := ((List.range WINSIZE_HEIGHT).foldl (fun (s : InterlaceState F) (m : Nat) =>
            window_row frame res i m WINSIZE_WIDTH
              { s with j := if s.step = 0 then 0 else s.step + WINSIZE_WIDTH - 1 }) s).step
            + 1 } := rfl

/-- The first window update of a row offset leaves the window of the columns `0..9` resident. -/
theorem window_update_fill {F : Type} (frame : Buf) (res : res_t) (i : Nat)
    (s : InterlaceState F) (hstep : s.step = 0) (hee : s.energe_even = 0) (hdl : s.delta = 0) :
    window_resident frame res.width i 0 (window_update frame res i s) := by
  have h20 := window_update_fold frame res i (fill_rows frame res.width i) s
    ⟨hstep, fun r c _ h _ => absurd h (by omega), fun r c _ h _ => absurd h (by omega),
      by rw [hee]; rfl, by rw [hdl]; rfl⟩
    (fun m u hm hu => fill_rows_step frame res i m u hm hu)
  rw [window_update_eq]
  generalize (List.range WINSIZE_HEIGHT).foldl (fun (s : InterlaceState F) (m : Nat) =>
      window_row frame res i m WINSIZE_WIDTH
        { s with j := if s.step = 0 then 0 else s.step + WINSIZE_WIDTH - 1 }) s = u at h20
  obtain ⟨_, hE, hO, he, hd⟩ := h20
  refine ⟨fun r c hr _ hc => ?_, ?_, ?_⟩
  · have hc10 : c % 10 = c := by omega
    rw [hc10]
    exact ⟨hE r c hr (by omega) (by omega), hO r c hr (by omega) (by omega)⟩
  · show u.energe_even = _
    rw [he, window_energy_even_rows]
    have e : sumTo 10 (fun r => if 2 * r < 20 then row_energy frame res.width (i + 2 * r) 0 else 0)
        = sumTo 10 (fun r => row_energy frame res.width (i + 2 * r) 0) :=
      sumTo_congr _ _ _ (fun r hr => by rw [if_pos (by omega)])
    rw [e, ← window_energy_even_rows]
    exact wrap32_of_lt _ (window_energy_even_range _ _ _ _).1 (window_energy_even_range _ _ _ _).2
  · show u.delta = _
    rw [hd, window_delta_rows]
    have e : sumTo 10 (fun r => if 2 * r + 1 < 20 then row_delta frame res.width i r 0 else 0)
        = sumTo 10 (fun r => row_delta frame res.width i r 0) :=
      sumTo_congr _ _ _ (fun r hr => by rw [if_pos (by omega)])
    rw [e, ← window_delta_rows]
    exact wrap32_of_lt _ (window_delta_range _ _ _ _).1 (window_delta_range _ _ _ _).2

/-- A later window update of a row offset slides the resident window by one column. -/
theorem window_update_slide {F : Type} (frame : Buf) (res : res_t) (i st : Nat)
    (s : InterlaceState F) (hstep : s.step = st + 1)
    (hres : window_resident frame res.width i st s) :
    window_resident frame res.width i (st + 1) (window_update frame res i s) := by
  obtain ⟨hA, hee, hdl⟩ := hres
  have h20 := window_update_fold frame res i (slide_rows frame res.width i st) s
    ⟨hstep,
      fun r c hr h1 h2 => by
        rw [if_neg (by omega)] at h1 h2
        exact (hA r c hr h1 h2).1,
      fun r c hr h1 h2 => by
        rw [if_neg (by omega)] at h1 h2
        exact ⟨(hA r c hr h1 h2).2.1, (hA r c hr h1 h2).2.2⟩,
      by
        rw [hee, window_energy_even_rows]
        have e : sumTo 10 (fun r => row_energy frame res.width (i + 2 * r)
              (if 2 * r < 0 then st + 1 else st))
            = sumTo 10 (fun r => row_energy frame res.width (i + 2 * r) st) :=
          sumTo_congr _ _ _ (fun r hr => by rw [if_neg (by omega)])
        rw [e, ← window_energy_even_rows]
        exact (wrap32_of_lt _ (window_energy_even_range _ _ _ _).1
          (window_energy_even_range _ _ _ _).2).symm,
      by
        rw [hdl, window_delta_rows]
        have e : sumTo 10 (fun r => row_delta frame res.width i r
              (if 2 * r + 1 < 0 then st + 1 else st))
            = sumTo 10 (fun r => row_delta frame res.width i r st) :=
          sumTo_congr _ _ _ (fun r hr => by rw [if_neg (by omega)])
        rw [e, ← window_delta_rows]
        exact (wrap32_of_lt _ (window_delta_range _ _ _ _).1
          (window_delta_range _ _ _ _).2).symm⟩
    (fun m u hm hu => slide_rows_step frame res i st m u hm hu)
  rw [window_update_eq]
  generalize (List.range WINSIZE_HEIGHT).foldl (fun (s : InterlaceState F) (m : Nat) =>
      window_row frame res i m WINSIZE_WIDTH
        { s with j := if s.step = 0 then 0 else s.step + WINSIZE_WIDTH - 1 }) s = u at h20
  obtain ⟨_, hE, hO, he, hd⟩ := h20
  refine ⟨fun r c hr h1 h2 => ?_, ?_, ?_⟩
  · have a := hE r c hr
    have b := hO r c hr
    rw [if_pos (by omega)] at a b
    exact ⟨a h1 h2, b h1 h2⟩
  · show u.energe_even = _
    rw [he, window_energy_even_rows]
    have e : sumTo 10 (fun r => row_energy frame res.width (i + 2 * r)
          (if 2 * r < 20 then st + 1 else st))
        = sumTo 10 (fun r => row_energy frame res.width (i + 2 * r) (st + 1)) :=
      sumTo_congr _ _ _ (fun r hr => by rw [if_pos (by omega)])
    rw [e, ← window_energy_even_rows]
    exact wrap32_of_lt _ (window_energy_even_range _ _ _ _).1 (window_energy_even_range _ _ _ _).2
  · show u.delta = _
    rw [hd, window_delta_rows]
    have e : sumTo 10 (fun r => row_delta frame res.width i r
          (if 2 * r + 1 < 20 then st + 1 else st))
        = sumTo 10 (fun r => row_delta frame res.width i r (st + 1)) :=
      sumTo_congr _ _ _ (fun r hr => by rw [if_pos (by omega)])
    rw [e, ← window_delta_rows]
    exact wrap32_of_lt _ (window_delta_range _ _ _ _).1 (window_delta_range _ _ _ _).2

/-- A defined histogram update leaves the window variables as they are. -/
theorem update_histogram_window {F : Type} (fp : FloatOps F) (i : Nat) (s t : InterlaceState F)
    (h : update_histogram fp i s = some t) :
    t.delta = s.delta ∧ t.energe_even = s.energe_even ∧ t.energe_odd = s.energe_odd ∧
    t.pcf_even = s.pcf_even ∧ t.pcf_odd = s.pcf_odd ∧ t.d = s.d := by
  unfold update_histogram at h
  simp only [] at h
  cases hk : fp.toInt (fp.floor (fp.add (fp.mul
      (fp.div (fp.sub (clamp fp (fp.div (fp.ofInt s.delta)
        (fp.ofInt (wrap32 (s.energe_even + s.energe_odd)))) (fp.ofInt 0) (fp.lit (1 / 2)))
        (fp.ofInt 0)) (fp.sub (fp.lit (1 / 2)) (fp.ofInt 0)))
      (fp.ofInt ((BINS : Int) - 1))) (fp.lit (1 / 2)))) with
  | none => rw [hk] at h; simp at h
  | some k0 =>
    rw [hk] at h
    simp only [] at h
    by_cases c : 0 ≤ min k0 ((BINS : Int) - 1) ∧ min k0 ((BINS : Int) - 1) < BINS
    · rw [if_pos c] at h
      have ht := (Option.some.inj h).symm
      subst ht
      exact ⟨rfl, rfl, rfl, rfl, rfl, rfl⟩
    · rw [if_neg c] at h
      simp at h

theorem emitted_sample_fields {F : Type} (fp : FloatOps F) (i : Nat) (u : InterlaceState F) :
    (emitted_sample fp i u).energe_even = u.energe_even ∧
    (emitted_sample fp i u).delta = u.delta ∧
    (emitted_sample fp i u).i = i ∧
    (emitted_sample fp i u).step = u.step - 1 := ⟨rfl, rfl, rfl, rfl⟩

/-- One iteration of the slide keeps the window invariant: the sample it emits carries the sums
of the window it covers. -/
theorem window_inv_step {F : Type} (fp : FloatOps F) (frame : Buf) (res : res_t) (i : Nat)
    (s t : InterlaceState F) (hs : window_inv frame res.width i s)
    (h : update_histogram fp i (window_update frame res i s) = some t) :
    window_inv frame res.width i t := by
  obtain ⟨hsam, hwin⟩ := hs
  obtain ⟨_, _, _, _, w5, w6⟩ := window_update_hist frame res i s
  obtain ⟨_, _, _, _, _, _, _, u5, _, u7⟩ := update_histogram_some fp i _ t h
  obtain ⟨v1, v2, _, v4, v5, v6⟩ := update_histogram_window fp i _ t h
  have hres : window_resident frame res.width i s.step (window_update frame res i s) := by
    rcases hwin with ⟨h0, he, hd⟩ | ⟨h1, hr⟩
    · rw [h0]
      exact window_update_fill frame res i s h0 he hd
    · have := window_update_slide frame res i (s.step - 1) s (by omega) hr
      rw [show s.step - 1 + 1 = s.step from by omega] at this
      exact this
  have hf := emitted_sample_fields fp i (window_update frame res i s)
  generalize emitted_sample fp i (window_update frame res i s) = y at hf u5
  generalize window_update frame res i s = u at *
  obtain ⟨f1, f2, f3, f4⟩ := hf
  obtain ⟨a, b, c⟩ := hres
  have hst : t.step - 1 = s.step := by rw [u7, w6]; omega
  refine ⟨?_, Or.inr ⟨by rw [u7, w6]; omega, ?_⟩⟩
  · intro x hx
    rw [u5, w5, List.mem_append, List.mem_singleton] at hx
    rcases hx with hx | hx
    · exact hsam x hx
    · subst hx
      rw [f1, f2, f3, f4, w6, show s.step + 1 - 1 = s.step from by omega]
      exact ⟨b, c⟩
  · rw [hst]
    refine ⟨?_, by rw [v2]; exact b, by rw [v1]; exact c⟩
    intro r c hr h1 h2
    rw [v4, v5, v6]
    exact a r c hr h1 h2

/-- Every sample emitted by the scan carries the even energy and the squared field difference
of the window it covers, computed from scratch. -/
theorem interlace_scan_exact {F : Type} (fp : FloatOps F) (frame : Buf) (res : res_t)
    (t : InterlaceState F) (h : interlace_scan fp frame res = some t) :
    samples_exact frame res.width t.samples := by
  apply interlace_scan_rows fp frame res
    (fun _ s => samples_exact frame res.width s.samples)
    (fun i s => window_inv frame res.width i s) _ _ _ _ t h
  · intro x hx
    exact absurd hx (List.not_mem_nil x)
  · intro i s hs
    exact ⟨hs, Or.inl ⟨rfl, rfl, rfl⟩⟩
  · intro i s t hs ht
    exact window_inv_step fp frame res i s t hs ht
  · intro i s hs
    exact hs.1

/-- C27: when the scan of `detect_interlace` is over, every sample emitted, at row offset `i`
and step `s` (window columns `s..s+9`), carries in `energe_even` the sum over `r < 10` and the
columns `s..s+9` of `frame[(i+2r)*width+col]^2`. -/
theorem interlace_energy_even {F : Type} (fp : FloatOps F) (frame : Buf) (res : res_t)
    (t : InterlaceState F) (h : interlace_scan fp frame res = some t) :
    ∀ x ∈ t.samples, x.energe_even = window_energy_even frame res.width x.i x.step :=
  fun x hx => (interlace_scan_exact fp frame res t h x hx).1

theorem interlace_energy_even_witness :
    exScan21.samples.map (fun x => (x.i, x.step, x.energe_even)) = [(0, 0, 0), (0, 1, 0), (1, 0, 8), (1, 1, 4)] ∧
    ∀ x ∈ exScan21.samples, x.energe_even = window_energy_even exFrame21 21 x.i x.step :=
  ⟨by decide!, interlace_energy_even ieee exFrame21 ⟨21, 22⟩ exScan21 exScan21_eq⟩

/-- C28: when the scan of `detect_interlace` is over, every sample emitted, at row offset `i`
and step `s` (window columns `s..s+9`), carries in `delta` the sum over `r < 10` and the columns
`s..s+9` of `(frame[(i+2r+1)*width+col] - frame[(i+2r)*width+col])^2`: nothing left in the
buffers by an earlier window or row offset contributes. -/
theorem interlace_delta_window {F : Type} (fp : FloatOps F) (frame : Buf) (res : res_t)
    (t : InterlaceState F) (h : interlace_scan fp frame res = some t) :
    ∀ x ∈ t.samples, x.delta = window_delta frame res.width x.i x.step :=
  fun x hx => (interlace_scan_exact fp frame res t h x hx).2

theorem interlace_delta_window_witness :
    exScan21.samples.map (fun x => (x.i, x.step, x.delta)) = [(0, 0, 8), (0, 1, 4), (1, 0, 8), (1, 1, 4)] ∧
    ∀ x ∈ exScan21.samples, x.delta = window_delta exFrame21 21 x.i x.step :=
  ⟨by decide!, interlace_delta_window ieee exFrame21 ⟨21, 22⟩ exScan21 exScan21_eq⟩

/-- C26 (evaluation at the failing input): of the four samples emitted on the 21x22 frame
`exFrame21`, the one at row offset 0, step 1 (columns 1..10) carries `energe_odd = 6` while the
sum of the squares of the odd rows of its window is 4. -/
theorem interlace_energy_odd_stale :
    exScan21.samples.map
        (fun x => (x.i, x.step, x.energe_odd, window_energy_odd exFrame21 21 x.i x.step))
      = [(0, 0, 8, 8), (0, 1, 6, 4), (1, 0, 0, 0), (1, 1, 0, 0)] := by
  decide!

/-! ## Memory safety of the frame accesses -/

theorem index_in_range (w h row col : Int) (hr0 : 0 ≤ row) (hr : row < h) (hc0 : 0 ≤ col)
    (hc : col < w) : 0 ≤ row * w + col ∧ row * w + col < w * h := by
  have hw : 0 < w := by omega
  constructor
  · have := mul_nonneg hr0 (le_of_lt hw)
    omega
  · have h1 : (row + 1) * w ≤ h * w := mul_le_mul_of_nonneg_right (by omega) (le_of_lt hw)
    have h2 : (row + 1) * w = row * w + w := by ring
    have h3 : h * w = w * h := by ring
    omega

theorem mem_maskload_reads16 (b : Int)
    (h : b ∈ maskload_reads (_mm256_setr_epi64x (-13) (-12) 8 3)) : 0 ≤ b ∧ b < 16 := by
  unfold maskload_reads at h
  simp only [List.mem_map, List.mem_filter, List.mem_range, decide_eq_true_eq] at h
  obtain ⟨n, ⟨hn, hm⟩, rfl⟩ := h
  have := (mask256_top n hn).mp hm
  omega

/-- The indices read by a call of the AVX2 kernel on the rows `rp` and `rq` of a frame lie in
the first `16 n` columns of those rows. -/
theorem mem_ssd_nx16_reads (w rp rq n k : Int)
    (h : k ∈ ssd_nx16_reads (rp * w) (rq * w) 16 n) :
    ∃ col : Int, 0 ≤ col ∧ col < 16 * n ∧ (k = rp * w + col ∨ k = rq * w + col) := by
  unfold ssd_nx16_reads at h
  simp only [List.mem_flatMap, List.mem_range, List.mem_append, List.mem_map] at h
  obtain ⟨i, hi, hb⟩ := h
  rcases hb with ⟨b, hb, rfl⟩ | ⟨b, hb, rfl⟩
  · obtain ⟨b0, b1⟩ := mem_maskload_reads16 b hb
    exact ⟨(i : Int) * 16 + b, by omega, by omega, Or.inl rfl⟩
  · obtain ⟨b0, b1⟩ := mem_maskload_reads16 b hb
    exact ⟨(i : Int) * 16 + b, by omega, by omega, Or.inr rfl⟩

theorem frame_delta_reads_in_range (width height : Int) (hw : 1 ≤ width) (k : Int)
    (h : k ∈ calculate_frame_delta_reads ⟨width, height⟩) : 0 ≤ k ∧ k < width * height := by
  have hn : 16 * Int.tdiv width 16 ≤ width := by
    rw [Int.tdiv_eq_ediv (by omega) (by omega)]
    omega
  unfold calculate_frame_delta_reads calculate_frame_delta_calls at h
  simp only [List.mem_append, List.mem_flatMap, List.mem_range, List.mem_cons, List.mem_map,
    List.mem_singleton, List.not_mem_nil, or_false] at h
  rcases h with ⟨i, hi, j, hj, rfl | rfl⟩ | ⟨c, ⟨i, hi, rfl⟩, hk⟩
  · exact index_in_range _ _ _ _ (by omega) (by omega) (by omega) (by omega)
  · exact index_in_range _ _ _ _ (by omega) (by omega) (by omega) (by omega)
  · dsimp only at hk
    obtain ⟨col, c0, c1, rfl | rfl⟩ := mem_ssd_nx16_reads width _ _ _ k hk
    · exact index_in_range _ _ _ _ (by omega) (by omega) c0 (by omega)
    · exact index_in_range _ _ _ _ (by omega) (by omega) c0 (by omega)

theorem field_delta_reads_in_range (width height : Int) (hw : 1 ≤ width) (hh : 0 ≤ height)
    (k : Int) (h : k ∈ calculate_field_delta_reads ⟨width, height⟩) :
    0 ≤ k ∧ k < width * height := by
  have hn : 16 * Int.tdiv width 16 ≤ width := by
    rw [Int.tdiv_eq_ediv (by omega) (by omega)]
    omega
  have hd : Int.tdiv height 2 = height / 2 := Int.tdiv_eq_ediv hh (by omega)
  unfold calculate_field_delta_reads calculate_field_delta_calls at h
  simp only [List.mem_append, List.mem_flatMap, List.mem_range, List.mem_cons, List.mem_map,
    List.mem_singleton, List.not_mem_nil, or_false, hd] at h
  rcases h with ⟨i, hi, j, hj, rfl | rfl | rfl | rfl⟩ | ⟨c, ⟨i, hi, rfl | rfl⟩, hk⟩
  · exact index_in_range _ _ _ _ (by omega) (by omega) (by omega) (by omega)
  · exact index_in_range _ _ _ _ (by omega) (by omega) (by omega) (by omega)
  · exact index_in_range _ _ _ _ (by omega) (by omega) (by omega) (by omega)
  · exact index_in_range _ _ _ _ (by omega) (by omega) (by omega) (by omega)
  · dsimp only at hk
    obtain ⟨col, c0, c1, rfl | rfl⟩ := mem_ssd_nx16_reads width _ _ _ k hk
    · exact index_in_range _ _ _ _ (by omega) (by omega) c0 (by omega)
    · exact index_in_range _ _ _ _ (by omega) (by omega) c0 (by omega)
  · dsimp only at hk
    obtain ⟨col, c0, c1, rfl | rfl⟩ := mem_ssd_nx16_reads width _ _ _ k hk
    · exact index_in_range _ _ _ _ (by omega) (by omega) c0 (by omega)
    · exact index_in_range _ _ _ _ (by omega) (by omega) c0 (by omega)

theorem compute_ssd_reads_in_range (width height : Int) (hw : 1 ≤ width) (k : Int)
    (h : k ∈ compute_ssd_reads ⟨width, height⟩) : 0 ≤ k ∧ k < width * height := by
  unfold compute_ssd_reads at h
  simp only [List.mem_flatMap, List.mem_range, List.mem_map] at h
  obtain ⟨i, hi, j, hj, rfl⟩ := h
  exact index_in_range _ _ _ _ (by omega) (by omega) (by omega) (by omega)

/-- The columns read by the `do ... while` loop started in column `j`: from `j` up to
`WINSIZE_WIDTH - 1`, or `j` alone. -/
theorem window_row_reads_cols {F : Type} (frame : Buf) (res : res_t) (i m : Nat) (fuel : Nat)
    (s : InterlaceState F) (k : Int) (h : k ∈ window_row_reads frame res i m fuel s) :
    ∃ col : Nat, s.j ≤ col ∧ col < max (s.j + 1) 10 ∧
      k = ((m + i : Nat) : Int) * res.width + (col : Int) := by
  induction fuel generalizing s with
  | zero => exact absurd h (List.not_mem_nil k)
  | succ f ih =>
    have e : window_row_reads frame res i m (f + 1) s
        = (((m + i : Nat) : Int) * res.width + s.j) ::
          (if (window_cell frame res i m s).j < WINSIZE_WIDTH
            then window_row_reads frame res i m f (window_cell frame res i m s) else []) := rfl
    rw [e, List.mem_cons] at h
    rcases h with h | h
    · exact ⟨s.j, le_refl _, by omega, h⟩
    · have hcj := window_cell_j frame res i m s
      have hw : WINSIZE_WIDTH = 10 := rfl
      by_cases c : (window_cell frame res i m s).j < WINSIZE_WIDTH
      · rw [if_pos c] at h
        obtain ⟨col, c1, c2, c3⟩ := ih _ h
        exact ⟨col, by omega, by omega, c3⟩
      · rw [if_neg c] at h
        exact absurd h (List.not_mem_nil k)

/-- The indices read by one window update: rows `i..i+19`, columns from the start column of
the update up to `WINSIZE_WIDTH - 1`, or that column alone. -/
theorem window_update_reads_cols {F : Type} (frame : Buf) (res : res_t) (i : Nat)
    (s : InterlaceState F) (k : Int) (h : k ∈ window_update_reads frame res i s) :
    ∃ m col : Nat, m < 20 ∧
      col < max ((if s.step = 0 then 0 else s.step + WINSIZE_WIDTH - 1) + 1) 10 ∧
      k = ((m + i : Nat) : Int) * res.width + (col : Int) := by
  have key : ∀ (l : List Nat) (a : InterlaceState F × List Int), (∀ m ∈ l, m < 20) →
      a.1.step = s.step →
      (∀ k ∈ a.2, ∃ m col : Nat, m < 20 ∧
        col < max ((if s.step = 0 then 0 else s.step + WINSIZE_WIDTH - 1) + 1) 10 ∧
        k = ((m + i : Nat) : Int) * res.width + (col : Int)) →
      ∀ k ∈ (l.foldl (fun (a : InterlaceState F × List Int) (m : Nat) =>
          (window_row frame res i m WINSIZE_WIDTH
              { a.1 with j := if a.1.step = 0 then 0 else a.1.step + WINSIZE_WIDTH - 1 },
            a.2 ++ window_row_reads frame res i m WINSIZE_WIDTH
              { a.1 with j := if a.1.step = 0 then 0 else a.1.step + WINSIZE_WIDTH - 1 }))
          a).2,
        ∃ m col : Nat, m < 20 ∧
          col < max ((if s.step = 0 then 0 else s.step + WINSIZE_WIDTH - 1) + 1) 10 ∧
          k = ((m + i : Nat) : Int) * res.width + (col : Int) := by
    intro l
    induction l with
    | nil => intro a _ _ ha; exact ha
    | cons m l ih =>
      intro a hl hst ha
      rw [List.foldl_cons]
      apply ih
      · exact fun m1 h1 => hl m1 (List.mem_cons_of_mem _ h1)
      · show (window_row frame res i m WINSIZE_WIDTH _).step = s.step
        rw [(window_row_hist frame res i m WINSIZE_WIDTH _).2.2.2.2.2]
        exact hst
      · intro k hk
        rw [List.mem_append] at hk
        rcases hk with hk | hk
        · exact ha k hk
        · obtain ⟨col, c1, c2, c3⟩ := window_row_reads_cols frame res i m _ _ k hk
          refine ⟨m, col, hl m (List.mem_cons_self _ _), ?_, c3⟩
          rw [hst] at c2
          exact c2
  exact key (List.range WINSIZE_HEIGHT) (s, [])
    (fun m hm => by
      rw [List.mem_range] at hm
      exact hm) rfl
    (fun k hk => absurd hk (List.not_mem_nil k)) k h

theorem scan_steps_reads_zero {F : Type} (fp : FloatOps F) (frame : Buf) (res : res_t) (i : Nat)
    (s : InterlaceState F) : scan_steps_reads fp frame res i 0 s = [] := rfl

theorem scan_steps_reads_succ {F : Type} (fp : FloatOps F) (frame : Buf) (res : res_t)
    (i fuel : Nat) (s : InterlaceState F) :
    scan_steps_reads fp frame res i (fuel + 1) s
      = if (s.j : Int) < res.width - WINSIZE_WIDTH then
          window_update_reads frame res i s ++
            (if WINSIZE_WIDTH ≤ (window_update frame res i s).j then
              match update_histogram fp i (window_update frame res i s) with
              | none => []
              | some s2 => scan_steps_reads fp frame res i fuel s2
            else scan_steps_reads fp frame res i fuel (window_update frame res i s))
        else [] := rfl

/-- The indices read by the sliding loop at row offset `i`: rows `i..i+19`, columns below
`width`. -/
theorem scan_steps_reads_cols {F : Type} (fp : FloatOps F) (frame : Buf) (res : res_t) (i : Nat)
    (fuel : Nat) (s : InterlaceState F)
    (hj : s.j = if s.step = 0 then 0 else s.step + 9) (k : Int)
    (h : k ∈ scan_steps_reads fp frame res i fuel s) :
    ∃ m col : Nat, m < 20 ∧ (col : Int) < res.width ∧
      k = ((m + i : Nat) : Int) * res.width + (col : Int) := by
  have hw : WINSIZE_WIDTH = 10 := rfl
  have hwi : ((WINSIZE_WIDTH : Nat) : Int) = 10 := rfl
  induction fuel generalizing s with
  | zero =>
    rw [scan_steps_reads_zero] at h
    exact absurd h (List.not_mem_nil k)
  | succ f ih =>
    rw [scan_steps_reads_succ] at h
    by_cases c : (s.j : Int) < res.width - WINSIZE_WIDTH
    · rw [if_pos c, List.mem_append] at h
      have huj := window_update_j frame res i s
      have hus := (window_update_hist frame res i s).2.2.2.2.2
      have hj1 : (window_update frame res i s).j
          = if (window_update frame res i s).step = 0 then 0
            else (window_update frame res i s).step + 9 := by
        rw [hus, huj, if_neg (by omega)]
        omega
      rcases h with h | h
      · obtain ⟨m, col, h1, h2, h3⟩ := window_update_reads_cols frame res i s k h
        refine ⟨m, col, h1, ?_, h3⟩
        have hjj : (if s.step = 0 then 0 else s.step + WINSIZE_WIDTH - 1) = s.j := by
          rw [hj]
          by_cases c0 : s.step = 0
          · rw [if_pos c0, if_pos c0]
          · rw [if_neg c0, if_neg c0]
            omega
        rw [hjj] at h2
        omega
      · by_cases c2 : WINSIZE_WIDTH ≤ (window_update frame res i s).j
        · rw [if_pos c2] at h
          cases hu : update_histogram fp i (window_update frame res i s) with
          | none =>
            rw [hu] at h
            exact absurd h (List.not_mem_nil k)
          | some s2 =>
            rw [hu] at h
            obtain ⟨_, _, _, _, _, _, _, _, u6, u7⟩ := update_histogram_some fp i _ s2 hu
            exact ih s2 (by rw [u6, u7]; exact hj1) h
        · rw [if_neg c2] at h
          exact ih _ hj1 h
    · rw [if_neg c] at h
      exact absurd h (List.not_mem_nil k)

/-- The indices read by the scan of `detect_interlace`: rows below `height`, columns below
`width`. -/
theorem interlace_reads_cols {F : Type} (fp : FloatOps F) (frame : Buf) (res : res_t) (k : Int)
    (h : k ∈ interlace_reads fp frame res) :
    ∃ row col : Nat, (row : Int) < res.height ∧ (col : Int) < res.width ∧
      k = (row : Int) * res.width + (col : Int) := by
  have key : ∀ (l : List Nat) (a : Option (InterlaceState F) × List Int),
      (∀ i ∈ l, (i : Int) < res.height - 20) →
      (∀ k ∈ a.2, ∃ row col : Nat, (row : Int) < res.height ∧ (col : Int) < res.width ∧
        k = (row : Int) * res.width + (col : Int)) →
      ∀ k ∈ (l.foldl (fun (a : Option (InterlaceState F) × List Int) (i : Nat) =>
          match a.1 with
          | none => a
          | some s =>
            (scan_steps fp frame res i res.width.toNat
                { s with j := 0, step := 0, delta := 0, energe_odd := 0, energe_even := 0 },
              a.2 ++ scan_steps_reads fp frame res i res.width.toNat
                { s with j := 0, step := 0, delta := 0, energe_odd := 0, energe_even := 0 }))
          a).2,
        ∃ row col : Nat, (row : Int) < res.height ∧ (col : Int) < res.width ∧
          k = (row : Int) * res.width + (col : Int) := by
    intro l
    induction l with
    | nil => intro a _ ha; exact ha
    | cons i l ih =>
      intro a hl ha
      rw [List.foldl_cons]
      apply ih _ (fun i1 h1 => hl i1 (List.mem_cons_of_mem _ h1))
      cases hs : a.1 with
      | none => exact ha
      | some s =>
        intro k hk
        simp only [] at hk
        rw [List.mem_append] at hk
        rcases hk with hk | hk
        · exact ha k hk
        · obtain ⟨m, col, h1, h2, h3⟩ := scan_steps_reads_cols fp frame res i _ _ rfl k hk
          have hi := hl i (List.mem_cons_self _ _)
          exact ⟨m + i, col, by push_cast; omega, h2, h3⟩
  exact key _ (some (interlace_init fp), [])
    (fun i hi => by
      rw [List.mem_range] at hi
      have : ((WINSIZE_HEIGHT : Nat) : Int) = 20 := rfl
      omega)
    (fun k hk => absurd hk (List.not_mem_nil k)) k h

theorem interlace_reads_in_range {F : Type} (fp : FloatOps F) (frame : Buf)
    (width height : Int) (k : Int) (h : k ∈ interlace_reads fp frame ⟨width, height⟩) :
    0 ≤ k ∧ k < width * height := by
  obtain ⟨row, col, h1, h2, rfl⟩ := interlace_reads_cols fp frame ⟨width, height⟩ k h
  exact index_in_range _ _ _ _ (by omega) h1 (by omega) h2

/-- C29: for every resolution with width >= 1 and height >= 2 and every frame, every frame
index read by `calculate_frame_delta` and `calculate_field_delta` (the scalar loops and the
16-byte windows loaded by the AVX2 kernel with `n = width/16`), by `compute_ssd` and by the
scan of `detect_interlace` is `>= 0` and `< width*height`. -/
theorem frame_reads_in_range {F : Type} (fp : FloatOps F) (frame : Buf) (width height : Int)
    (hw : 1 ≤ width) (hh : 2 ≤ height) (k : Int)
    (hk : k ∈ calculate_frame_delta_reads ⟨width, height⟩
        ++ calculate_field_delta_reads ⟨width, height⟩
        ++ compute_ssd_reads ⟨width, height⟩
        ++ interlace_reads fp frame ⟨width, height⟩) :
    0 ≤ k ∧ k < width * height := by
  simp only [List.mem_append] at hk
  rcases hk with ((hk | hk) | hk) | hk
  · exact frame_delta_reads_in_range width height hw k hk
  · exact field_delta_reads_in_range width height hw (by omega) k hk
  · exact compute_ssd_reads_in_range width height hw k hk
  · exact interlace_reads_in_range fp frame width height k hk

theorem frame_reads_in_range_witness :
    (interlace_reads ieee exFrame21 ⟨21, 22⟩).length = 440 ∧
    (0 : Int) ≤ 430 ∧ (430 : Int) < 21 * 22 :=
  ⟨by decide!,
    frame_reads_in_range ieee exFrame21 21 22 (by decide) (by decide) 430
      (List.mem_append_right _ (by decide!))⟩

/-! ## The energies of a pair of frames -/

theorem not_agree_differ (o : Nat) (a b : Buf) (w h : Int) (hn : ¬ agree_on_rows o a b w h) :
    differ_on_rows o a b w h := by
  unfold agree_on_rows at hn
  push_neg at hn
  obtain ⟨i, j, hi, hj, ho, hne⟩ := hn
  exact ⟨i, j, hi, hj, ho, hne⟩

theorem fin_div_eq_zero_iff (S : Int) (d : ℚ) (hd : 0 < d) :
    Fp.fin ((S : ℚ) / d) = Fp.fin 0 ↔ S = 0 := by
  constructor
  · intro h
    injection h with h
    rcases div_eq_zero_iff.mp h with h1 | h1
    · exact_mod_cast h1
    · exact absurd h1 (ne_of_gt hd)
  · intro h
    rw [h]
    simp

/-- C34: for every pair of frames and every resolution with width >= 1 and height >= 2 whose
field sums fit in a 32-bit `int`, on `ieee` `compute_ssd` yields `ssd_even = 0` if and only if
`prev` and `cur` agree on every pixel of every even row, and `ssd_odd = 0` if and only if they
agree on every pixel of every odd row; for identical frames it yields `(0, 0)`. -/
theorem compute_ssd_zero_iff (cur prev : Buf) (width height : Int) (hw : 1 ≤ width)
    (hh : 2 ≤ height)
    (hSe : ssd_field_sum 0 cur prev width height < 2147483648)
    (hSo : ssd_field_sum 1 cur prev width height < 2147483648) :
    ((compute_ssd ieee cur prev ⟨width, height⟩).1 = Fp.fin 0
      ↔ agree_on_rows 0 cur prev width height) ∧
    ((compute_ssd ieee cur prev ⟨width, height⟩).2 = Fp.fin 0
      ↔ agree_on_rows 1 cur prev width height) ∧
    compute_ssd ieee cur cur ⟨width, height⟩ = (Fp.fin 0, Fp.fin 0) := by
  have hwh : 2 ≤ width * height := by nlinarith
  obtain ⟨hv, hd⟩ := compute_ssd_value cur prev width height hwh
  have key : ∀ o : Nat, ssd_field_sum o cur prev width height = 0
      ↔ agree_on_rows o cur prev width height := by
    intro o
    constructor
    · intro h0
      by_contra hn
      have := ssd_field_sum_pos o cur prev width height (not_agree_differ o _ _ _ _ hn)
      omega
    · exact ssd_field_sum_agree o cur prev width height
  refine ⟨?_, ?_, ?_⟩
  · rw [hv, wrap32_of_lt _ (ssd_field_sum_nonneg _ _ _ _ _) hSe]
    exact (fin_div_eq_zero_iff _ _ hd).trans (key 0)
  · rw [hv, wrap32_of_lt _ (ssd_field_sum_nonneg _ _ _ _ _) hSo]
    exact (fin_div_eq_zero_iff _ _ hd).trans (key 1)
  · rw [(compute_ssd_value cur cur width height hwh).1, ssd_field_sum_self, ssd_field_sum_self]
    simp [wrap32_zero]

theorem compute_ssd_zero_iff_witness :
    ssd_field_sum 0 exF5 exF1 1 2 = 0 ∧ ssd_field_sum 1 exF5 exF1 1 2 = 9 ∧
    ((compute_ssd ieee exF5 exF1 ⟨1, 2⟩).1 = Fp.fin 0 ↔ agree_on_rows 0 exF5 exF1 1 2) ∧
    ((compute_ssd ieee exF5 exF1 ⟨1, 2⟩).2 = Fp.fin 0 ↔ agree_on_rows 1 exF5 exF1 1 2) ∧
    compute_ssd ieee exF5 exF5 ⟨1, 2⟩ = (Fp.fin 0, Fp.fin 0) :=
  ⟨by decide, by decide,
    compute_ssd_zero_iff exF5 exF1 1 2 (by decide) (by decide) (by decide) (by decide)⟩

/-! ## Field sums against the frame sum -/

theorem sumTo_le_two (n : Nat) (f a b : Nat → Int) (h : ∀ j, j < n → f j ≤ 2 * a j + 2 * b j) :
    sumTo n f ≤ 2 * sumTo n a + 2 * sumTo n b := by
  induction n with
  | zero => simp [sumTo]
  | succ n ih =>
    simp only [sumTo]
    have := ih (fun j hj => h j (by omega))
    have := h n (by omega)
    linarith

theorem sq_sub_le_two (a b c : Int) : (a - c) ^ 2 ≤ 2 * (a - b) ^ 2 + 2 * (b - c) ^ 2 := by
  nlinarith [sq_nonneg (a - 2 * b + c)]

/-- For rows `g 0, g 1, ...` of `W` values: the squared differences of the rows two apart, over
the first `n` even and the first `n` odd pairs, are at most four times the squared differences
of the adjacent rows `0 .. 2n`. -/
theorem rows_two_apart_le (g : Nat → Nat → Int) (W n : Nat) :
    sumTo n (fun i => sumTo W (fun j => (g (2 * i) j - g (2 * i + 2) j) ^ 2))
      + sumTo n (fun i => sumTo W (fun j => (g (2 * i + 1) j - g (2 * i + 3) j) ^ 2))
      + 2 * sumTo W (fun j => (g (2 * n) j - g (2 * n + 1) j) ^ 2)
      ≤ 4 * sumTo (2 * n + 1) (fun k => sumTo W (fun j => (g k j - g (k + 1) j) ^ 2)) := by
  induction n with
  | zero =>
    simp only [sumTo, Nat.mul_zero, zero_add]
    have := sumTo_nonneg W (fun j => (g 0 j - g 1 j) ^ 2) (fun _ _ => sq_nonneg _)
    linarith
  | succ n ih =>
    have hE := sumTo_le_two W (fun j => (g (2 * n) j - g (2 * n + 2) j) ^ 2)
      (fun j => (g (2 * n) j - g (2 * n + 1) j) ^ 2)
      (fun j => (g (2 * n + 1) j - g (2 * n + 2) j) ^ 2)
      (fun j _ => sq_sub_le_two _ _ _)
    have hO := sumTo_le_two W (fun j => (g (2 * n + 1) j - g (2 * n + 3) j) ^ 2)
      (fun j => (g (2 * n + 1) j - g (2 * n + 2) j) ^ 2)
      (fun j => (g (2 * n + 2) j - g (2 * n + 3) j) ^ 2)
      (fun j _ => sq_sub_le_two _ _ _)
    have e1 : 2 * (n + 1) = 2 * n + 2 := by ring
    have e2 : 2 * n + 2 + 1 = 2 * n + 1 + 1 + 1 := by ring
    rw [e1, e2]
    simp only [sumTo] at ih ⊢
    have e3 : 2 * n + 1 + 1 = 2 * n + 2 := by ring
    have e4 : 2 * n + 2 + 1 = 2 * n + 3 := by ring
    simp only [e3, e4] at *
    linarith

/-- The exact sums of the delta engine: the two field sums together are at most four times the
frame sum. -/
theorem field_sums_le_frame_sum (frame : Buf) (width height : Int) :
    field_sum_even frame width height + field_sum_odd frame width height
      ≤ 4 * frame_sum frame width height := by
  have hF : frame_sum frame width height
      = sumTo (height - 1).toNat (fun k => sumTo width.toNat (fun j =>
          (px frame (((k : Nat) : Int) * width + (j : Int))
            - px frame (((k + 1 : Nat) : Int) * width + (j : Int))) ^ 2)) := by
    unfold frame_sum
    apply sumTo_congr
    intro i _
    apply sumTo_congr
    intro j _
    push_cast
    rfl
  have hE : field_sum_even frame width height
      = sumTo (height / 2 - 1).toNat (fun i => sumTo width.toNat (fun j =>
          (px frame (((2 * i : Nat) : Int) * width + (j : Int))
            - px frame (((2 * i + 2 : Nat) : Int) * width + (j : Int))) ^ 2)) := by
    unfold field_sum_even
    apply sumTo_congr
    intro i _
    apply sumTo_congr
    intro j _
    push_cast
    rfl
  have hO : field_sum_odd frame width height
      = sumTo (height / 2 - 1).toNat (fun i => sumTo width.toNat (fun j =>
          (px frame (((2 * i + 1 : Nat) : Int) * width + (j : Int))
            - px frame (((2 * i + 3 : Nat) : Int) * width + (j : Int))) ^ 2)) := by
    unfold field_sum_odd
    apply sumTo_congr
    intro i _
    apply sumTo_congr
    intro j _
    push_cast
    rfl
  have hmain := rows_two_apart_le
    (fun k j => px frame (((k : Nat) : Int) * width + (j : Int))) width.toNat
    (height / 2 - 1).toNat
  simp only [] at hmain
  have hlast := sumTo_nonneg width.toNat (fun j =>
      (px frame (((2 * (height / 2 - 1).toNat : Nat) : Int) * width + (j : Int))
        - px frame (((2 * (height / 2 - 1).toNat + 1 : Nat) : Int) * width + (j : Int))) ^ 2)
    (fun _ _ => sq_nonneg _)
  rw [hF, hE, hO]
  by_cases hh : 2 ≤ height
  · have hle := sumTo_le_of_le (2 * (height / 2 - 1).toNat + 1) (height - 1).toNat
      (fun k => sumTo width.toNat (fun j =>
        (px frame (((k : Nat) : Int) * width + (j : Int))
          - px frame (((k + 1 : Nat) : Int) * width + (j : Int))) ^ 2))
      (by omega) (fun _ _ => sumTo_nonneg _ _ (fun _ _ => sq_nonneg _))
    linarith
  · have e1 : (height / 2 - 1).toNat = 0 := by omega
    have e2 : (height - 1).toNat = 0 := by omega
    rw [e1, e2]
    simp [sumTo]

/-- C32: for every frame and every resolution with height >= 0 whose sums fit in a 32-bit
`int`, the sums accumulated by the delta engine satisfy `dd_even + dd_odd <= 4 * dd`. -/
theorem field_sums_le_four_frame {F : Type} (fp : FloatOps F) (frame : Buf)
    (width height : Int) (hh : 0 ≤ height)
    (hS : frame_sum frame width height < 2147483648)
    (hSe : field_sum_even frame width height < 2147483648)
    (hSo : field_sum_odd frame width height < 2147483648) :
    (calculate_field_delta fp frame ⟨width, height⟩).dd_even
      + (calculate_field_delta fp frame ⟨width, height⟩).dd_odd
      ≤ 4 * (calculate_frame_delta fp frame ⟨width, height⟩).dd := by
  have a := frame_dd_wrap fp frame ⟨width, height⟩
  obtain ⟨b, c⟩ := field_dd_wrap fp frame ⟨width, height⟩ hh
  rw [wrap32_of_lt _ (frame_sum_nonneg _ _ _) hS] at a
  rw [wrap32_of_lt _ (field_sum_even_nonneg _ _ _) hSe] at b
  rw [wrap32_of_lt _ (field_sum_odd_nonneg _ _ _) hSo] at c
  rw [a, b, c]
  exact field_sums_le_frame_sum frame width height

theorem field_sums_le_four_frame_witness :
    (calculate_field_delta ieee exFrame24 ⟨2, 4⟩).dd_even = 41 ∧
    (calculate_field_delta ieee exFrame24 ⟨2, 4⟩).dd_odd = 34 ∧
    (calculate_frame_delta ieee exFrame24 ⟨2, 4⟩).dd = 50 ∧
    (calculate_field_delta ieee exFrame24 ⟨2, 4⟩).dd_even
      + (calculate_field_delta ieee exFrame24 ⟨2, 4⟩).dd_odd
      ≤ 4 * (calculate_frame_delta ieee exFrame24 ⟨2, 4⟩).dd :=
  ⟨by decide, by decide, by decide,
    field_sums_le_four_frame ieee exFrame24 2 4 (by decide) (by decide) (by decide) (by decide)⟩

/-! ## The window positions scanned -/

/-- The test of the sliding loop, in terms of the step. -/
theorem slide_test_iff {F : Type} (res : res_t) (s : InterlaceState F)
    (hj : s.j = if s.step = 0 then 0 else s.step + 9) :
    ((s.j : Int) < res.width - WINSIZE_WIDTH) ↔ s.step < steps_per_row res.width := by
  have hwi : ((WINSIZE_WIDTH : Nat) : Int) = 10 := rfl
  unfold steps_per_row
  rw [hj, hwi]
  by_cases c : s.step = 0
  · rw [if_pos c, c]
    split_ifs <;> omega
  · rw [if_neg c]
    split_ifs <;> omega

/-- The samples emitted by the sliding loop at row offset `i`, from step `s.step` on: one for
each step left. -/
theorem scan_steps_positions {F : Type} (fp : FloatOps F) (frame : Buf) (res : res_t) (i : Nat)
    (fuel : Nat) (s t : InterlaceState F)
    (hj : s.j = if s.step = 0 then 0 else s.step + 9)
    (h : scan_steps fp frame res i fuel s = some t) :
    t.samples.map (fun x => (x.i, x.step))
      = s.samples.map (fun x => (x.i, x.step))
        ++ (List.range (steps_per_row res.width - s.step)).map (fun d => (i, s.step + d)) := by
  have hw : WINSIZE_WIDTH = 10 := rfl
  induction fuel generalizing s with
  | zero =>
    rw [scan_steps_zero] at h
    have hc := slide_test_iff res s hj
    split at h
    · simp at h
    · rename_i c
      rw [← Option.some.inj h]
      have : steps_per_row res.width - s.step = 0 := by
        have := fun x => c (hc.mpr x)
        omega
      rw [this]
      simp
  | succ f ih =>
    rw [scan_steps_succ] at h
    have hc := slide_test_iff res s hj
    split at h
    · rename_i c
      have hlt := hc.mp c
      have huj := window_update_j frame res i s
      obtain ⟨_, _, _, _, w5, w6⟩ := window_update_hist frame res i s
      rw [if_pos (by omega)] at h
      cases hu : update_histogram fp i (window_update frame res i s) with
      | none => rw [hu] at h; simp at h
      | some u =>
        rw [hu] at h
        obtain ⟨_, _, _, _, _, _, _, u5, u6, u7⟩ := update_histogram_some fp i _ u hu
        have hf := emitted_sample_fields fp i (window_update frame res i s)
        generalize emitted_sample fp i (window_update frame res i s) = y at hf u5
        generalize window_update frame res i s = v at *
        obtain ⟨_, _, f3, f4⟩ := hf
        have hju : u.j = if u.step = 0 then 0 else u.step + 9 := by
          rw [u6, u7, huj, w6, if_neg (by omega)]
          omega
        have e := ih u hju h
        have hy : (y.i, y.step) = (i, s.step) := by
          rw [f3, f4, w6]
          congr 1
        have hn : steps_per_row res.width - s.step
            = (steps_per_row res.width - (s.step + 1)) + 1 := by
          omega
        rw [e, u5, w5, List.map_append, List.map_cons, List.map_nil, hy, u7, w6,
          List.append_assoc, hn, List.range_succ_eq_map, List.map_cons, List.map_map]
        congr 1
        simp only [List.singleton_append, Nat.add_zero]
        congr 1
        apply List.map_congr_left
        intro d _
        simp only [Function.comp, Nat.succ_eq_add_one]
        congr 1
        omega
    · rename_i c
      rw [← Option.some.inj h]
      have : steps_per_row res.width - s.step = 0 := by
        have := fun x => c (hc.mpr x)
        omega
      rw [this]
      simp

/-- The window positions of the samples emitted by a defined scan, in the order of emission. -/
theorem interlace_scan_positions {F : Type} (fp : FloatOps F) (frame : Buf) (res : res_t)
    (t : InterlaceState F) (h : interlace_scan fp frame res = some t) :
    t.samples.map (fun x => (x.i, x.step)) = scan_positions res := by
  rw [interlace_scan_eq] at h
  have hh : ((WINSIZE_HEIGHT : Nat) : Int) = 20 := rfl
  have key : ∀ (n : Nat) (t : InterlaceState F),
      (List.range n).foldl (fun (st : Option (InterlaceState F)) (i : Nat) =>
            st.bind (fun s => scan_steps fp frame res i res.width.toNat
              { s with j := 0, step := 0, delta := 0, energe_odd := 0, energe_even := 0 }))
          (some (interlace_init fp)) = some t →
      t.samples.map (fun x => (x.i, x.step))
        = (List.range n).flatMap (fun (i : Nat) =>
            (List.range (steps_per_row res.width)).map (fun (s : Nat) => (i, s))) := by
    intro n
    induction n with
    | zero =>
      intro t ht
      simp only [List.range_zero, List.foldl_nil] at ht
      rw [← Option.some.inj ht]
      rfl
    | succ n ih =>
      intro t ht
      rw [List.range_succ, List.foldl_append] at ht
      simp only [List.foldl_cons, List.foldl_nil] at ht
      cases hp : (List.range n).foldl (fun (st : Option (InterlaceState F)) (i : Nat) =>
            st.bind (fun s => scan_steps fp frame res i res.width.toNat
              { s with j := 0, step := 0, delta := 0, energe_odd := 0, energe_even := 0 }))
          (some (interlace_init fp)) with
      | none => rw [hp] at ht; simp at ht
      | some s =>
        rw [hp] at ht
        simp only [Option.bind] at ht
        have := scan_steps_positions fp frame res n _ _ t rfl ht
        rw [this, List.range_succ, List.flatMap_append]
        simp only [Nat.sub_zero, Nat.zero_add, List.flatMap_cons, List.flatMap_nil,
          List.append_nil]
        congr 1
        exact ih s hp
  have := key _ t h
  rw [hh] at this
  exact this

theorem scan_positions_length (res : res_t) :
    (scan_positions res).length = (res.height - 20).toNat * steps_per_row res.width := by
  unfold scan_positions
  generalize (res.height - 20).toNat = n
  induction n with
  | zero => simp
  | succ n ih =>
    rw [List.range_succ, List.flatMap_append, List.length_append, ih]
    simp only [List.flatMap_cons, List.flatMap_nil, List.append_nil, List.length_map,
      List.length_range]
    ring

theorem mem_scan_positions (res : res_t) (p : Nat × Nat) (hp : p ∈ scan_positions res) :
    p.1 < (res.height - 20).toNat ∧ p.2 < steps_per_row res.width := by
  unfold scan_positions at hp
  simp only [List.mem_flatMap, List.mem_range, List.mem_map] at hp
  obtain ⟨i, hi, s, hs, rfl⟩ := hp
  exact ⟨hi, hs⟩

/-! ## The accumulator `energe_odd` as the code maintains it -/

theorem window_cell_odd_energy_even_row {F : Type} (frame : Buf) (res : res_t) (i m : Nat)
    (s : InterlaceState F) (hm : m % 2 = 0) :
    (window_cell frame res i m s).energe_odd = s.energe_odd := by
  unfold window_cell
  simp [hm]

theorem window_cell_odd_energy {F : Type} (frame : Buf) (res : res_t) (i m : Nat)
    (s : InterlaceState F) (hm : m % 2 = 1) :
    (window_cell frame res i m s).energe_odd
      = wrap32 ((if WINSIZE_WIDTH ≤ s.j
            then wrap32 (s.energe_odd - s.pcf_odd (m / 2) (s.j % WINSIZE_WIDTH))
            else s.energe_odd)
          + px frame (((m + i : Nat) : Int) * res.width + s.j)
            * px frame (((m + i : Nat) : Int) * res.width + s.j)) := by
  unfold window_cell
  simp [hm, upd2_same]

/-- One row of the window update that slides the window by one column, for `energe_odd`: an odd
row adds the square of the pixel that enters and subtracts the pixel that leaves, un-squared. -/
theorem slide_rows_odd_energy {F : Type} (frame : Buf) (res : res_t) (i st m : Nat)
    (s : InterlaceState F) (X : Int) (hm : m < 20) (hs : slide_rows frame res.width i st m s)
    (he : s.energe_odd = wrap32 (X + sumTo 10 (fun r =>
      if 2 * r + 1 < m then
        px frame (((i + 2 * r + 1 : Nat) : Int) * res.width + ((st + 10 : Nat) : Int))
          * px frame (((i + 2 * r + 1 : Nat) : Int) * res.width + ((st + 10 : Nat) : Int))
        - px frame (((i + 2 * r + 1 : Nat) : Int) * res.width + (st : Int))
      else 0))) :
    (window_row frame res i m WINSIZE_WIDTH
        { s with j := if s.step = 0 then 0 else s.step + WINSIZE_WIDTH - 1 }).energe_odd
      = wrap32 (X + sumTo 10 (fun r =>
          if 2 * r + 1 < m + 1 then
            px frame (((i + 2 * r + 1 : Nat) : Int) * res.width + ((st + 10 : Nat) : Int))
              * px frame (((i + 2 * r + 1 : Nat) : Int) * res.width + ((st + 10 : Nat) : Int))
            - px frame (((i + 2 * r + 1 : Nat) : Int) * res.width + (st : Int))
          else 0)) := by
  obtain ⟨hstep, hE, hO, hee, hdl⟩ := hs
  have hw : WINSIZE_WIDTH = 10 := rfl
  have hne : ¬ s.step = 0 := by omega
  have hjv : s.step + WINSIZE_WIDTH - 1 = st + 10 := by omega
  rw [if_neg hne, hjv, window_row_single _ _ _ _ _ (by show WINSIZE_WIDTH - 1 ≤ st + 10; omega)]
  have hslot : (st + 10) % WINSIZE_WIDTH = st % 10 := by
    show (st + 10) % 10 = st % 10
    omega
  by_cases hpar : m % 2 = 0
  · rw [window_cell_odd_energy_even_row _ _ _ _ _ hpar]
    show s.energe_odd = _
    rw [he]
    congr 2
    apply sumTo_congr
    intro r _
    have hiff : (2 * r + 1 < m + 1) ↔ (2 * r + 1 < m) := by omega
    simp only [hiff]
  · have hpar1 : m % 2 = 1 := by omega
    have hr0 : m / 2 < 10 := by omega
    have em : m + i = i + 2 * (m / 2) + 1 := by omega
    have hold : s.pcf_odd (m / 2) (st % 10)
        = px frame (((i + 2 * (m / 2) + 1 : Nat) : Int) * res.width + (st : Int)) := by
      have := hO (m / 2) st hr0
      rw [if_neg (by omega)] at this
      exact (this (le_refl _) (by omega)).1
    rw [window_cell_odd_energy _ _ _ _ _ hpar1]
    show wrap32 ((if WINSIZE_WIDTH ≤ st + 10
        then wrap32 (s.energe_odd - s.pcf_odd (m / 2) ((st + 10) % WINSIZE_WIDTH))
        else s.energe_odd)
      + px frame (((m + i : Nat) : Int) * res.width + ((st + 10 : Nat) : Int))
        * px frame (((m + i : Nat) : Int) * res.width + ((st + 10 : Nat) : Int))) = _
    rw [if_pos (by omega), hslot, hold, he, wrap32_sub_add, em]
    congr 1
    rw [sumTo_change_one 10 (m / 2)
      (fun r => if 2 * r + 1 < m then
        px frame (((i + 2 * r + 1 : Nat) : Int) * res.width + ((st + 10 : Nat) : Int))
          * px frame (((i + 2 * r + 1 : Nat) : Int) * res.width + ((st + 10 : Nat) : Int))
        - px frame (((i + 2 * r + 1 : Nat) : Int) * res.width + (st : Int)) else 0)
      (fun r => if 2 * r + 1 < m + 1 then
        px frame (((i + 2 * r + 1 : Nat) : Int) * res.width + ((st + 10 : Nat) : Int))
          * px frame (((i + 2 * r + 1 : Nat) : Int) * res.width + ((st + 10 : Nat) : Int))
        - px frame (((i + 2 * r + 1 : Nat) : Int) * res.width + (st : Int)) else 0)
      hr0 (fun r hr => by
        have hiff : (2 * r + 1 < m + 1) ↔ (2 * r + 1 < m) := by omega
        simp only [hiff])]
    rw [if_pos (by omega), if_neg (by omega)]
    ring

theorem window_cell_iterate_j {F : Type} (frame : Buf) (res : res_t) (i m : Nat)
    (s0 : InterlaceState F) (k : Nat) :
    ((window_cell frame res i m)^[k] s0).j = s0.j + k := by
  induction k with
  | zero => rfl
  | succ k ih => rw [Function.iterate_succ_apply', window_cell_j, ih]; omega

theorem fill_row_even_odd_energy {F : Type} (frame : Buf) (res : res_t) (i m : Nat)
    (s0 : InterlaceState F) (hm : m % 2 = 0) (k : Nat) :
    ((window_cell frame res i m)^[k] s0).energe_odd = s0.energe_odd := by
  induction k with
  | zero => rfl
  | succ k ih =>
    rw [Function.iterate_succ_apply', window_cell_odd_energy_even_row _ _ _ _ _ hm, ih]

/-- An odd row of the first window update adds the squares of its ten pixels to `energe_odd`. -/
theorem fill_row_odd_energy {F : Type} (frame : Buf) (res : res_t) (i m : Nat)
    (s0 : InterlaceState F) (hm : m % 2 = 1) (hj : s0.j = 0) (e0 : Int)
    (he0 : s0.energe_odd = wrap32 e0) (k : Nat) (hk : k ≤ 10) :
    ((window_cell frame res i m)^[k] s0).energe_odd
      = wrap32 (e0 + sumTo k (fun c =>
          px frame (((m + i : Nat) : Int) * res.width + (c : Int))
            * px frame (((m + i : Nat) : Int) * res.width + (c : Int)))) := by
  have hw : WINSIZE_WIDTH = 10 := rfl
  induction k with
  | zero =>
    simp only [Function.iterate_zero, id_eq, sumTo, add_zero]
    exact he0
  | succ k ih =>
    have a := ih (by omega)
    have aj := window_cell_iterate_j frame res i m s0 k
    rw [Function.iterate_succ_apply']
    generalize (window_cell frame res i m)^[k] s0 = u at *
    rw [window_cell_odd_energy _ _ _ _ _ hm, if_neg (by rw [aj, hj, hw]; omega), a, aj, hj,
      wrap32_add_left]
    simp only [sumTo, Nat.zero_add]
    congr 1
    ring

/-- One row of the first window update of a row offset, for `energe_odd`. -/
theorem fill_rows_odd_energy {F : Type} (frame : Buf) (res : res_t) (i m : Nat)
    (s : InterlaceState F) (hm : m < 20) (hstep : s.step = 0)
    (he : s.energe_odd = wrap32 (sumTo 10 (fun r =>
      if 2 * r + 1 < m then row_energy frame res.width (i + 2 * r + 1) 0 else 0))) :
    (window_row frame res i m WINSIZE_WIDTH
        { s with j := if s.step = 0 then 0 else s.step + WINSIZE_WIDTH - 1 }).energe_odd
      = wrap32 (sumTo 10 (fun r =>
          if 2 * r + 1 < m + 1 then row_energy frame res.width (i + 2 * r + 1) 0 else 0)) := by
  have hw : WINSIZE_WIDTH = 10 := rfl
  rw [if_pos hstep, window_row_iterate _ _ _ _ _ _ (by decide) (by show 0 + WINSIZE_WIDTH = _; omega)]
  have hr0 : m / 2 < 10 := by omega
  by_cases hpar : m % 2 = 0
  · rw [fill_row_even_odd_energy _ _ _ _ _ hpar]
    show s.energe_odd = _
    rw [he]
    congr 1
    apply sumTo_congr
    intro r _
    have hiff : (2 * r + 1 < m + 1) ↔ (2 * r + 1 < m) := by omega
    simp only [hiff]
  · have hpar1 : m % 2 = 1 := by omega
    have em : m + i = i + 2 * (m / 2) + 1 := by omega
    rw [hw, fill_row_odd_energy frame res i m { s with j := 0 } hpar1 rfl _ he 10 (le_refl _)]
    congr 1
    rw [sumTo_change_one 10 (m / 2)
      (fun r => if 2 * r + 1 < m then row_energy frame res.width (i + 2 * r + 1) 0 else 0)
      (fun r => if 2 * r + 1 < m + 1 then row_energy frame res.width (i + 2 * r + 1) 0 else 0)
      hr0 (fun r hr => by
        have hiff : (2 * r + 1 < m + 1) ↔ (2 * r + 1 < m) := by omega
        simp only [hiff])]
    rw [if_pos (by omega), if_neg (by omega), em]
    unfold row_energy
    simp only [Nat.zero_add, pow_two, sub_zero]

theorem window_energy_odd_rows (frame : Buf) (width : Int) (i s : Nat) :
    window_energy_odd frame width i s
      = sumTo 10 (fun r => row_energy frame width (i + 2 * r + 1) s) := rfl

/-- The first window update of a row offset leaves in `energe_odd` the odd energy of the window
of the columns `0..9`. -/
theorem window_update_fill_odd {F : Type} (frame : Buf) (res : res_t) (i : Nat)
    (s : InterlaceState F) (hstep : s.step = 0) (heo : s.energe_odd = 0) :
    (window_update frame res i s).energe_odd
      = wrap32 (window_energy_odd frame res.width i 0) := by
  have h20 := window_update_fold frame res i
    (fun m u => u.step = 0 ∧ u.energe_odd = wrap32 (sumTo 10 (fun r =>
      if 2 * r + 1 < m then row_energy frame res.width (i + 2 * r + 1) 0 else 0))) s
    ⟨hstep, by
      rw [heo, sumTo_zero _ _ (fun r _ => if_neg (by omega))]
      rfl⟩
    (fun m u hm hu => ⟨((window_row_hist frame res i m WINSIZE_WIDTH _).2.2.2.2.2).trans hu.1,
      fill_rows_odd_energy frame res i m u hm hu.1 hu.2⟩)
  rw [window_update_eq]
  generalize (List.range WINSIZE_HEIGHT).foldl (fun (s : InterlaceState F) (m : Nat) =>
      window_row frame res i m WINSIZE_WIDTH
        { s with j := if s.step = 0 then 0 else s.step + WINSIZE_WIDTH - 1 }) s = u at h20
  show u.energe_odd = _
  rw [h20.2, window_energy_odd_rows]
  congr 1

theorem slide_rows_zero {F : Type} (frame : Buf) (res : res_t) (i st : Nat)
    (s : InterlaceState F) (hstep : s.step = st + 1)
    (hres : window_resident frame res.width i st s) :
    slide_rows frame res.width i st 0 s := by
  obtain ⟨hA, hee, hdl⟩ := hres
  refine ⟨hstep, fun r c hr h1 h2 => ?_, fun r c hr h1 h2 => ?_, ?_, ?_⟩
  · rw [if_neg (by omega)] at h1 h2
    exact (hA r c hr h1 h2).1
  · rw [if_neg (by omega)] at h1 h2
    exact ⟨(hA r c hr h1 h2).2.1, (hA r c hr h1 h2).2.2⟩
  · rw [hee, window_energy_even_rows]
    have e : sumTo 10 (fun r => row_energy frame res.width (i + 2 * r)
          (if 2 * r < 0 then st + 1 else st))
        = sumTo 10 (fun r => row_energy frame res.width (i + 2 * r) st) :=
      sumTo_congr _ _ _ (fun r hr => by rw [if_neg (by omega)])
    rw [e, ← window_energy_even_rows]
    exact (wrap32_of_lt _ (window_energy_even_range _ _ _ _).1
      (window_energy_even_range _ _ _ _).2).symm
  · rw [hdl, window_delta_rows]
    have e : sumTo 10 (fun r => row_delta frame res.width i r
          (if 2 * r + 1 < 0 then st + 1 else st))
        = sumTo 10 (fun r => row_delta frame res.width i r st) :=
      sumTo_congr _ _ _ (fun r hr => by rw [if_neg (by omega)])
    rw [e, ← window_delta_rows]
    exact (wrap32_of_lt _ (window_delta_range _ _ _ _).1
      (window_delta_range _ _ _ _).2).symm

/-- A later window update of a row offset adds to `energe_odd` the squares of the pixels of the
column that enters the window and subtracts the pixels of the column that leaves it. -/
theorem window_update_slide_odd {F : Type} (frame : Buf) (res : res_t) (i st : Nat)
    (s : InterlaceState F) (X : Int) (hstep : s.step = st + 1)
    (hres : window_resident frame res.width i st s) (heo : s.energe_odd = wrap32 X) :
    (window_update frame res i s).energe_odd
      = wrap32 (X + sumTo 10 (fun r =>
          px frame (((i + 2 * r + 1 : Nat) : Int) * res.width + ((st + 10 : Nat) : Int))
            * px frame (((i + 2 * r + 1 : Nat) : Int) * res.width + ((st + 10 : Nat) : Int))
          - px frame (((i + 2 * r + 1 : Nat) : Int) * res.width + (st : Int)))) := by
  have h20 := window_update_fold frame res i
    (fun m u => slide_rows frame res.width i st m u ∧
      u.energe_odd = wrap32 (X + sumTo 10 (fun r =>
        if 2 * r + 1 < m then
          px frame (((i + 2 * r + 1 : Nat) : Int) * res.width + ((st + 10 : Nat) : Int))
            * px frame (((i + 2 * r + 1 : Nat) : Int) * res.width + ((st + 10 : Nat) : Int))
          - px frame (((i + 2 * r + 1 : Nat) : Int) * res.width + (st : Int))
        else 0))) s
    ⟨slide_rows_zero frame res i st s hstep hres, by
      rw [heo, sumTo_zero _ _ (fun r _ => if_neg (by omega)), add_zero]⟩
    (fun m u hm hu => ⟨slide_rows_step frame res i st m u hm hu.1,
      slide_rows_odd_energy frame res i st m u X hm hu.1 hu.2⟩)
  rw [window_update_eq]
  generalize (List.range WINSIZE_HEIGHT).foldl (fun (s : InterlaceState F) (m : Nat) =>
      window_row frame res i m WINSIZE_WIDTH
        { s with j := if s.step = 0 then 0 else s.step + WINSIZE_WIDTH - 1 }) s = u at h20
  show u.energe_odd = _
  rw [h20.2]
  congr 2

theorem odd_excess_succ (frame : Buf) (width : Int) (i s : Nat) :
    odd_excess frame width i (s + 1)
      = odd_excess frame width i s + sumTo 10 (fun r =>
          px frame (((i + 2 * r + 1 : Nat) : Int) * width + (s : Int))
              * px frame (((i + 2 * r + 1 : Nat) : Int) * width + (s : Int))
            - px frame (((i + 2 * r + 1 : Nat) : Int) * width + (s : Int))) := rfl

/-- The odd energy of the window plus the excess, before and after a slide. -/
theorem odd_energy_excess_slide (frame : Buf) (width : Int) (i st : Nat) :
    window_energy_odd frame width i (st + 1) + odd_excess frame width i (st + 1)
      = window_energy_odd frame width i st + odd_excess frame width i st
        + sumTo 10 (fun r =>
          px frame (((i + 2 * r + 1 : Nat) : Int) * width + ((st + 10 : Nat) : Int))
            * px frame (((i + 2 * r + 1 : Nat) : Int) * width + ((st + 10 : Nat) : Int))
          - px frame (((i + 2 * r + 1 : Nat) : Int) * width + (st : Int))) := by
  rw [odd_excess_succ, window_energy_odd_rows, window_energy_odd_rows]
  have e : sumTo 10 (fun r => row_energy frame width (i + 2 * r + 1) (st + 1))
        + sumTo 10 (fun r =>
          px frame (((i + 2 * r + 1 : Nat) : Int) * width + (st : Int))
              * px frame (((i + 2 * r + 1 : Nat) : Int) * width + (st : Int))
            - px frame (((i + 2 * r + 1 : Nat) : Int) * width + (st : Int)))
      = sumTo 10 (fun r => row_energy frame width (i + 2 * r + 1) st)
        + sumTo 10 (fun r =>
          px frame (((i + 2 * r + 1 : Nat) : Int) * width + ((st + 10 : Nat) : Int))
            * px frame (((i + 2 * r + 1 : Nat) : Int) * width + ((st + 10 : Nat) : Int))
          - px frame (((i + 2 * r + 1 : Nat) : Int) * width + (st : Int))) := by
    rw [← sumTo_add, ← sumTo_add]
    apply sumTo_congr
    intro r _
    rw [row_energy_slide]
    ring
  linarith

theorem emitted_sample_odd {F : Type} (fp : FloatOps F) (i : Nat) (u : InterlaceState F) :
    (emitted_sample fp i u).energe_odd = u.energe_odd := rfl

/-- One iteration of the slide keeps the invariant of `energe_odd`. -/
theorem odd_inv_step {F : Type} (fp : FloatOps F) (frame : Buf) (res : res_t) (i : Nat)
    (s t : InterlaceState F) (hs : odd_inv frame res.width i s)
    (h : update_histogram fp i (window_update frame res i s) = some t) :
    odd_inv frame res.width i t := by
  obtain ⟨hwin, hsam, hodd⟩ := hs
  obtain ⟨_, _, _, _, w5, w6⟩ := window_update_hist frame res i s
  obtain ⟨_, _, _, _, _, _, _, u5, _, u7⟩ := update_histogram_some fp i _ t h
  obtain ⟨_, _, v3, _, _, _⟩ := update_histogram_window fp i _ t h
  have hnew : (window_update frame res i s).energe_odd
      = wrap32 (window_energy_odd frame res.width i s.step
          + odd_excess frame res.width i s.step) := by
    rcases hodd with ⟨h0, he⟩ | ⟨h1, he⟩
    · rw [window_update_fill_odd frame res i s h0 he, h0]
      congr 1
    · rcases hwin.2 with ⟨h0, _⟩ | ⟨_, hr⟩
      · omega
      · rw [window_update_slide_odd frame res i (s.step - 1) s _ (by omega) hr he,
          ← odd_energy_excess_slide, show s.step - 1 + 1 = s.step from by omega]
  have hf := emitted_sample_fields fp i (window_update frame res i s)
  have hfo := emitted_sample_odd fp i (window_update frame res i s)
  generalize emitted_sample fp i (window_update frame res i s) = y at hf hfo u5
  have hwt := window_inv_step fp frame res i s t hwin h
  generalize window_update frame res i s = u at *
  obtain ⟨f1, f2, f3, f4⟩ := hf
  refine ⟨hwt, ?_, Or.inr ⟨by rw [u7, w6]; omega, ?_⟩⟩
  · intro x hx
    rw [u5, w5, List.mem_append, List.mem_singleton] at hx
    rcases hx with hx | hx
    · exact hsam x hx
    · subst hx
      rw [hfo, f3, f4, w6, show s.step + 1 - 1 = s.step from by omega]
      exact hnew
  · rw [v3, u7, w6, show s.step + 1 - 1 = s.step from by omega]
    exact hnew

/-- Every sample emitted by the scan carries in `energe_odd` the odd energy of its window plus
the excess of the pixels subtracted un-squared, wrapped to an `int`. -/
theorem interlace_scan_odd {F : Type} (fp : FloatOps F) (frame : Buf) (res : res_t)
    (t : InterlaceState F) (h : interlace_scan fp frame res = some t) :
    samples_odd frame res.width t.samples := by
  apply interlace_scan_rows fp frame res
    (fun _ s => samples_exact frame res.width s.samples ∧ samples_odd frame res.width s.samples)
    (fun i s => odd_inv frame res.width i s) _ _ _ _ t h |>.2
  · exact ⟨fun x hx => absurd hx (List.not_mem_nil x), fun x hx => absurd hx (List.not_mem_nil x)⟩
  · intro i s hs
    exact ⟨⟨hs.1, Or.inl ⟨rfl, rfl, rfl⟩⟩, hs.2, Or.inl ⟨rfl, rfl⟩⟩
  · intro i s t hs ht
    exact odd_inv_step fp frame res i s t hs ht
  · intro i s hs
    exact ⟨hs.1.1, hs.2.1⟩

/-! ## Where the scan is undefined -/

/-- The sliding loop at row offset `i` is undefined only at a state it reaches, at a step the
loop test lets in, whose histogram update is undefined. -/
theorem scan_steps_undefined {F : Type} (fp : FloatOps F) (frame : Buf) (res : res_t) (i : Nat)
    (R : InterlaceState F → Prop)
    (hstep : ∀ s t, R s → update_histogram fp i (window_update frame res i s) = some t → R t)
    (fuel : Nat) (s : InterlaceState F) (hs : R s)
    (hj : s.j = if s.step = 0 then 0 else s.step + 9)
    (hf : res.width - WINSIZE_WIDTH ≤ (s.j : Int) + (fuel : Int))
    (h : scan_steps fp frame res i fuel s = none) :
    ∃ u, R u ∧ u.step < steps_per_row res.width ∧
      update_histogram fp i (window_update frame res i u) = none := by
  have hw : WINSIZE_WIDTH = 10 := rfl
  have hwi : ((WINSIZE_WIDTH : Nat) : Int) = 10 := rfl
  induction fuel generalizing s with
  | zero =>
    rw [scan_steps_zero] at h
    split at h
    · rename_i c
      simp only [Nat.cast_zero, add_zero] at hf
      omega
    · simp at h
  | succ f ih =>
    rw [scan_steps_succ] at h
    split at h
    · rename_i c
      have hj1 := window_update_j frame res i s
      have hs1 := (window_update_hist frame res i s).2.2.2.2.2
      rw [if_pos (by omega)] at h
      cases hu : update_histogram fp i (window_update frame res i s) with
      | none => exact ⟨s, hs, (slide_test_iff res s hj).mp c, hu⟩
      | some u =>
        rw [hu] at h
        obtain ⟨_, _, _, _, _, _, _, _, uj, us⟩ := update_histogram_some fp i _ u hu
        apply ih u (hstep s u hs hu)
        · rw [uj, us, hj1, hs1, if_neg (by omega)]; omega
        · rw [uj, hj1]
          push_cast at hf ⊢
          split at hj <;> omega
        · exact h
    · simp at h

/-- The scan is undefined only at a row offset `i < height - 20` and a state reached there, at
a step the loop test lets in, whose histogram update is undefined. -/
theorem interlace_scan_undefined {F : Type} (fp : FloatOps F) (frame : Buf) (res : res_t)
    (Q R : Nat → InterlaceState F → Prop) (h0 : Q 0 (interlace_init fp))
    (hreset : ∀ i s, Q i s →
      R i { s with j := 0, step := 0, delta := 0, energe_odd := 0, energe_even := 0 })
    (hstep : ∀ i s t, R i s →
      update_histogram fp i (window_update frame res i s) = some t → R i t)
    (hexit : ∀ i s, R i s → Q (i + 1) s)
    (h : interlace_scan fp frame res = none) :
    ∃ i u, i < (res.height - WINSIZE_HEIGHT).toNat ∧ R i u ∧ u.step < steps_per_row res.width ∧
      update_histogram fp i (window_update frame res i u) = none := by
  rw [interlace_scan_eq] at h
  have key : ∀ (n : Nat),
      ((List.range n).foldl (fun (st : Option (InterlaceState F)) (i : Nat) =>
            st.bind (fun s => scan_steps fp frame res i res.width.toNat
              { s with j := 0, step := 0, delta := 0, energe_odd := 0, energe_even := 0 }))
          (some (interlace_init fp)) = none →
        ∃ i u, i < n ∧ R i u ∧ u.step < steps_per_row res.width ∧
          update_histogram fp i (window_update frame res i u) = none) ∧
      (∀ t, (List.range n).foldl (fun (st : Option (InterlaceState F)) (i : Nat) =>
            st.bind (fun s => scan_steps fp frame res i res.width.toNat
              { s with j := 0, step := 0, delta := 0, energe_odd := 0, energe_even := 0 }))
          (some (interlace_init fp)) = some t → Q n t) := by
    intro n
    induction n with
    | zero =>
      constructor
      · intro hn
        simp only [List.range_zero, List.foldl_nil] at hn
        exact absurd hn (by simp)
      · intro t ht
        simp only [List.range_zero, List.foldl_nil] at ht
        rw [← Option.some.inj ht]; exact h0
    | succ n ih =>
      rw [List.range_succ, List.foldl_append]
      simp only [List.foldl_cons, List.foldl_nil]
      cases hp : (List.range n).foldl (fun (st : Option (InterlaceState F)) (i : Nat) =>
            st.bind (fun s => scan_steps fp frame res i res.width.toNat
              { s with j := 0, step := 0, delta := 0, energe_odd := 0, energe_even := 0 }))
          (some (interlace_init fp)) with
      | none =>
        obtain ⟨i, u, hi, hu⟩ := ih.1 hp
        constructor
        · intro _
          exact ⟨i, u, by omega, hu⟩
        · intro t ht
          simp at ht
      | some s =>
        simp only [Option.bind]
        have hR := hreset n s (ih.2 s hp)
        constructor
        · intro hn
          obtain ⟨u, hu1, hu2, hu3⟩ := scan_steps_undefined fp frame res n (R n) (hstep n) _ _
            hR rfl (by
              have hwi : ((WINSIZE_WIDTH : Nat) : Int) = 10 := rfl
              show res.width - WINSIZE_WIDTH ≤ ((0 : Nat) : Int) + (res.width.toNat : Int)
              omega) hn
          exact ⟨n, u, by omega, hu1, hu2, hu3⟩
        · intro t ht
          exact hexit n t (scan_steps_rows fp frame res (R n) n (hstep n) _ _ t hR ht)
  exact (key _).1 h

/-- C31: the scan loops of `detect_interlace` end by themselves (the scan has a result unless
the histogram update of one of its windows is undefined), and a scan with a result emits its
samples at the window positions with row offsets `0 .. height - 21` and steps
`0 .. max (0, width - 20)`, once each in scan order: `hist_count` is `(height-20) * (width-19)` when height > 20 and width >= 20,
`height - 20` when height > 20 and 11 <= width <= 19, and 0 otherwise; no window includes the
last row, nor, for width >= 20, any of the right-most 10 columns. -/
theorem interlace_sample_count {F : Type} (fp : FloatOps F) (frame : Buf) (width height : Int)
    (t : InterlaceState F) (h : interlace_scan fp frame ⟨width, height⟩ = some t) :
    (∀ frame1 : Buf, interlace_scan fp frame1 ⟨width, height⟩ = none →
      ∃ (i : Nat) (u : InterlaceState F), (i : Int) < height - 20 ∧
        u.step < steps_per_row width ∧
        update_histogram fp i (window_update frame1 ⟨width, height⟩ i u) = none) ∧
    t.samples.map (fun x => (x.i, x.step)) = scan_positions ⟨width, height⟩ ∧
    (20 < height → 20 ≤ width → t.hist_count = (height - 20) * (width - 19)) ∧
    (20 < height → 11 ≤ width → width ≤ 19 → t.hist_count = height - 20) ∧
    (¬ (20 < height ∧ 11 ≤ width) → t.hist_count = 0) ∧
    (∀ x ∈ t.samples, (x.i : Int) ≤ height - 21 ∧ (x.step : Int) ≤ max 0 (width - 20) ∧
      (x.i : Int) + 19 < height - 1 ∧ (20 ≤ width → (x.step : Int) + 9 < width - 10)) := by
  have hpos := interlace_scan_positions fp frame ⟨width, height⟩ t h
  obtain ⟨_, hcnt, _⟩ := interlace_scan_inv fp frame ⟨width, height⟩ t h
  have hlen : t.samples.length = (height - 20).toNat * steps_per_row width := by
    have := congrArg List.length hpos
    rw [List.length_map, scan_positions_length] at this
    exact this
  rw [hlen] at hcnt
  refine ⟨fun frame1 h1 => ?_, hpos, ?_, ?_, ?_, ?_⟩
  · obtain ⟨i, u, hi, _, hu1, hu2⟩ := interlace_scan_undefined fp frame1 ⟨width, height⟩
      (fun _ _ => True) (fun _ _ => True) trivial (fun _ _ _ => trivial)
      (fun _ _ _ _ _ => trivial) (fun _ _ _ => trivial) h1
    have hh : ((WINSIZE_HEIGHT : Nat) : Int) = 20 := rfl
    have hi2 : i < (height - WINSIZE_HEIGHT).toNat := hi
    exact ⟨i, u, by omega, hu1, hu2⟩
  · intro h1 h2
    rw [hcnt]
    have e1 : (((height - 20).toNat : Nat) : Int) = height - 20 := by omega
    have e2 : ((steps_per_row width : Nat) : Int) = width - 19 := by
      unfold steps_per_row
      rw [if_neg (by omega)]
      omega
    push_cast
    rw [e1, e2]
  · intro h1 h2 h3
    rw [hcnt]
    have e1 : (((height - 20).toNat : Nat) : Int) = height - 20 := by omega
    have e2 : steps_per_row width = 1 := by
      unfold steps_per_row
      rw [if_neg (by omega)]
      omega
    rw [e2]
    push_cast
    rw [e1]
    ring
  · intro hn
    rw [hcnt]
    by_cases c : 20 < height
    · have e2 : steps_per_row width = 0 := by
        unfold steps_per_row
        rw [if_pos (by omega)]
      rw [e2]
      simp
    · have e1 : (height - 20).toNat = 0 := by omega
      rw [e1]
      simp
  · intro x hx
    have hm : (x.i, x.step) ∈ scan_positions ⟨width, height⟩ := by
      rw [← hpos]
      exact List.mem_map_of_mem (fun x => (x.i, x.step)) hx
    obtain ⟨m1, m2⟩ := mem_scan_positions _ _ hm
    simp only [] at m1 m2
    unfold steps_per_row at m2
    split_ifs at m2 with c
    · omega
    · refine ⟨by omega, by omega, by omega, fun _ => by omega⟩

theorem interlace_sample_count_witness :
    scan_positions ⟨21, 22⟩ = [(0, 0), (0, 1), (1, 0), (1, 1)] ∧
    exScan21.samples.map (fun x => (x.i, x.step)) = scan_positions ⟨21, 22⟩ ∧
    ((20 : Int) < 22 → (20 : Int) ≤ 21 → exScan21.hist_count = (22 - 20) * (21 - 19)) :=
  ⟨by decide,
    (interlace_sample_count ieee exFrame21 21 22 exScan21 exScan21_eq).2.1,
    (interlace_sample_count ieee exFrame21 21 22 exScan21 exScan21_eq).2.2.1⟩

/-! ## The scan of a wide frame of alternating rows -/

/-- A window update leaves the window of the step it does resident. -/
theorem window_inv_update {F : Type} (frame : Buf) (res : res_t) (i : Nat)
    (s : InterlaceState F) (hs : window_inv frame res.width i s) :
    window_resident frame res.width i s.step (window_update frame res i s) := by
  rcases hs.2 with ⟨h0, he, hd⟩ | ⟨h1, hr⟩
  · rw [h0]
    exact window_update_fill frame res i s h0 he hd
  · have := window_update_slide frame res i (s.step - 1) s (by omega) hr
    rw [show s.step - 1 + 1 = s.step from by omega] at this
    exact this

theorem exStripes_window_delta (i s : Nat) (hs : s + 9 < 8192) :
    window_delta exStripes 8192 i s = 6502500 := by
  have h : window_delta exStripes 8192 i s
      = sumTo 10 (fun _ => sumTo 10 (fun _ => (65025 : Int))) := by
    unfold window_delta
    apply sumTo_congr
    intro r _
    apply sumTo_congr
    intro c hc
    rw [exStripes_px (i + 2 * r + 1) (s + c) (by omega),
      exStripes_px (i + 2 * r) (s + c) (by omega)]
    by_cases p : (i + 2 * r) % 2 = 0
    · have p2 : ¬ (i + 2 * r + 1) % 2 = 0 := by omega
      rw [if_neg p2, if_pos p]
      norm_num
    · have p2 : (i + 2 * r + 1) % 2 = 0 := by omega
      rw [if_pos p2, if_neg p]
      norm_num
  rw [h, sumTo_const, sumTo_const]
  norm_num

theorem exStripes_window_energy_even (s : Nat) (hs : s + 9 < 8192) :
    window_energy_even exStripes 8192 0 s = 0 := by
  unfold window_energy_even
  apply sumTo_zero
  intro r _
  apply sumTo_zero
  intro c hc
  rw [exStripes_px (0 + 2 * r) (s + c) (by omega)]
  have p : (0 + 2 * r) % 2 = 0 := by omega
  rw [if_pos p]
  norm_num

theorem exStripes_window_energy_odd (s : Nat) (hs : s + 9 < 8192) :
    window_energy_odd exStripes 8192 0 s = 6502500 := by
  have h : window_energy_odd exStripes 8192 0 s
      = sumTo 10 (fun _ => sumTo 10 (fun _ => (65025 : Int))) := by
    unfold window_energy_odd
    apply sumTo_congr
    intro r _
    apply sumTo_congr
    intro c hc
    rw [exStripes_px (0 + 2 * r + 1) (s + c) (by omega)]
    have p : ¬ (0 + 2 * r + 1) % 2 = 0 := by omega
    rw [if_neg p]
    norm_num
  rw [h, sumTo_const, sumTo_const]
  norm_num

theorem exStripes_odd_excess (s : Nat) (hs : s ≤ 8192) :
    odd_excess exStripes 8192 0 s = (s : Int) * 647700 := by
  have h : odd_excess exStripes 8192 0 s
      = sumTo s (fun _ => sumTo 10 (fun _ => (64770 : Int))) := by
    unfold odd_excess
    apply sumTo_congr
    intro c hc
    apply sumTo_congr
    intro r _
    rw [exStripes_px (0 + 2 * r + 1) c (by omega)]
    have p : ¬ (0 + 2 * r + 1) % 2 = 0 := by omega
    rw [if_neg p]
    norm_num
  rw [h, sumTo_const, sumTo_const]
  norm_num

/-- The scan of the 8192x22 frame of alternating rows 0 and 255 is defined: the squared field
difference of every window is 6502500, so no field difference is `0 / 0`. -/
theorem exStripes_scan_defined :
    ∃ t, interlace_scan ieee exStripes ⟨8192, 22⟩ = some t := by
  cases h : interlace_scan ieee exStripes ⟨8192, 22⟩ with
  | some t => exact ⟨t, rfl⟩
  | none =>
    exfalso
    obtain ⟨i, u, _, hu, hst, hnone⟩ := interlace_scan_undefined ieee exStripes ⟨8192, 22⟩
      (fun _ s => samples_exact exStripes 8192 s.samples)
      (fun i s => window_inv exStripes 8192 i s)
      (fun x hx => absurd hx (List.not_mem_nil x))
      (fun i s hs => ⟨hs, Or.inl ⟨rfl, rfl, rfl⟩⟩)
      (fun i s t hs ht => window_inv_step ieee exStripes ⟨8192, 22⟩ i s t hs ht)
      (fun i s hs => hs.1) h
    have hres := window_inv_update exStripes ⟨8192, 22⟩ i u hu
    have hnan := (update_histogram_ieee_none_iff i _).mp hnone
    have hz := ((field_diff_nan_iff i _).mp hnan).1
    have hsp : steps_per_row 8192 = 8173 := by decide
    have hst2 : u.step < 8173 := by
      have : u.step < steps_per_row 8192 := hst
      omega
    have hd := hres.2.2
    generalize window_update exStripes ⟨8192, 22⟩ i u = v at hz hd
    have e := exStripes_window_delta i u.step (by omega)
    have hd2 : v.delta = window_delta exStripes 8192 i u.step := hd
    rw [hd2, e] at hz
    omega

/-- C33 (evaluation at the failing input): on the 8192x22 frame of alternating rows 0 and 255
the scan is defined and emits a sample at row offset 0, step 3306 (columns 3306..3315) with
`delta = 6502500`, `energe_even = 0` and `energe_odd = -2147168596`, while the odd energy of
its window is 6502500: the 3306 columns that left the window were subtracted un-squared, the
`int` accumulator passed `2^31 - 1` and wrapped, and `delta <= energe_even + energe_odd`
fails. -/
theorem interlace_delta_exceeds_energy :
    ∃ t, interlace_scan ieee exStripes ⟨8192, 22⟩ = some t ∧
      ∃ x ∈ t.samples, x.i = 0 ∧ x.step = 3306 ∧ x.delta = 6502500 ∧ x.energe_even = 0 ∧
        x.energe_odd = -2147168596 ∧ window_energy_odd exStripes 8192 x.i x.step = 6502500 ∧
        ¬ (x.delta ≤ x.energe_even + x.energe_odd) := by
  obtain ⟨t, ht⟩ := exStripes_scan_defined
  refine ⟨t, ht, ?_⟩
  have hpos := interlace_scan_positions ieee exStripes ⟨8192, 22⟩ t ht
  have hmem : ((0, 3306) : Nat × Nat) ∈ scan_positions ⟨8192, 22⟩ := by
    unfold scan_positions
    simp only [List.mem_flatMap, List.mem_range, List.mem_map]
    exact ⟨0, by decide, 3306, by decide, rfl⟩
  rw [← hpos, List.mem_map] at hmem
  obtain ⟨x, hx, hxp⟩ := hmem
  have hi : x.i = 0 := congrArg Prod.fst hxp
  have hs : x.step = 3306 := congrArg Prod.snd hxp
  have hex := interlace_scan_exact ieee exStripes ⟨8192, 22⟩ t ht x hx
  have hod := interlace_scan_odd ieee exStripes ⟨8192, 22⟩ t ht x hx
  have h1 : x.energe_even = window_energy_even exStripes 8192 x.i x.step := hex.1
  have h2 : x.delta = window_delta exStripes 8192 x.i x.step := hex.2
  have h3 : x.energe_odd = wrap32 (window_energy_odd exStripes 8192 x.i x.step
      + odd_excess exStripes 8192 x.i x.step) := hod
  rw [hi, hs] at h1 h2 h3
  rw [exStripes_window_energy_even 3306 (by omega)] at h1
  rw [exStripes_window_delta 0 3306 (by omega)] at h2
  rw [exStripes_window_energy_odd 3306 (by omega), exStripes_odd_excess 3306 (by omega)] at h3
  have h4 : wrap32 (6502500 + ((3306 : Nat) : Int) * 647700) = -2147168596 := by decide
  rw [h4] at h3
  refine ⟨x, hx, hi, hs, h2, h1, h3, ?_, ?_⟩
  · rw [hi, hs]
    exact exStripes_window_energy_odd 3306 (by omega)
  · rw [h1, h2, h3]
    omega

end FormatDetector
